import Mathlib

/-! # gmreimport: a verification development

A shallow embedding of `main.go` (the reimport resolver) and `yy/read.go` (the reader of
GameMaker `.yy` documents), followed by theorems about them.

Conventions of the embedding:
* a Go `string` is a Lean `String`; a byte of the reader's buffer is a `Char` whose code point
  is the byte value;
* a Go `map[string]T` that is only read is a function `String → Option T`;
* `log.Fatalf` ends the run: functions that can reach it return `Except`;
* `log.Printf` lines are collected, in order, in the `log` field of the result.
-/

deriving instance DecidableEq for Except

namespace GMReimport

/-! ## Data model of `main.go` -/

structure MasterImage where
  SpriteName : String
  FilePath : String
  Sha256 : String
deriving DecidableEq, Repr, Inhabited

structure GMFrame where
  FileName : String
  Sha256 : String
  Guid : String
  LayerFileName : String
  UtilizesLayers : Bool
deriving DecidableEq, Repr, Inhabited

structure GMSprite where
  Name : String
  Frames : List GMFrame
deriving DecidableEq, Repr, Inhabited

structure GMFrameReImport where
  Src : MasterImage
  Dst : GMSprite
  FrameIndex : Nat
deriving DecidableEq, Repr

structure Parameters where
  SrcPath : String
  DstPath : String
  IsDryRun : Bool
  NoLogSrcMatch : Bool
  NoLogSrcMiss : Bool
  NoLogDstBad : Bool
  NoLogCopy : Bool
deriving DecidableEq, Repr, Inhabited

/-- The read-only `candidatesSrcByName map[string]MasterImage`. -/
abbrev SrcIndex := String → Option MasterImage

/-- The `log.Printf` lines of `determineReImports`, one constructor per call site. -/
inductive LogLine where
  | frameAlreadyMatches (frameIndex : Nat) (sprite : String) (filePath : String)
  | frameSourceMissing (fileName : String) (frameIndex : Nat) (sprite : String)
  | firstFrameSourceMissing (fileName : String)
  | spriteAlreadyMatches (sprite : String) (filePath : String)
  | spriteSourceMissing (fileName : String)
deriving DecidableEq, Repr

/-- The `log.Fatalf` of `determineReImports`:
`Multiple source image options for sprite %#q: %#q and %#q.` -/
inductive Fatal where
  | multipleOptions (sprite : String) (filePath1 : String) (filePath2 : String)
deriving DecidableEq, Repr

/-- What `determineReImports` has produced so far: the instructions and the log lines. -/
structure Out where
  reImports : List GMFrameReImport
  log : List LogLine
deriving DecidableEq, Repr

/-! ## `determineReImports` -/

/-- The constant `numDigitVariants`. -/
def numDigitVariants : Nat := 4

/-- The slice `optionsFirstFrame` built for one sprite name. -/
def optionsFirstFrame (name : String) : List String :=
  [name ++ "_0000", name ++ "_000", name ++ "_00", name ++ "_0",
   name ++ "0000", name ++ "000", name ++ "00", name ++ "0",
   name ++ "_0001", name ++ "_001", name ++ "_01", name ++ "_1",
   name ++ "0001", name ++ "001", name ++ "01", name ++ "1"]

/-- The four loop variables of the first-frame search. -/
structure Scheme where
  chosenOptionIndex : Int
  numDigits : Nat
  useUnderscore : Bool
  isZeroBased : Bool
deriving DecidableEq, Repr

/-- Their values before the search loop. -/
def Scheme.init : Scheme :=
  { chosenOptionIndex := -1, numDigits := 1, useUnderscore := true, isZeroBased := true }

/-- The map read `candidatesSrcByName[key].FilePath`, which is `""` for an absent key. -/
def filePathOf (src : SrcIndex) (key : String) : String :=
  match src key with
  | some image => image.FilePath
  | none => ""

/-- One iteration `i, option` of the loop over `optionsFirstFrame`. -/
def chooseStep (src : SrcIndex) (name : String) (st : Scheme) (i : Nat) (option : String) :
    Except Fatal Scheme :=
  match src option with
  | some imageSrc =>
    if st.chosenOptionIndex ≥ 0 then
      if st.chosenOptionIndex < 2 * (numDigitVariants : Int) ∧ i ≥ 2 * numDigitVariants
          ∧ st.chosenOptionIndex = (i : Int) - 2 * (numDigitVariants : Int) then
        .ok st
      else
        .error (Fatal.multipleOptions name
          (filePathOf src ((optionsFirstFrame name).getD st.chosenOptionIndex.toNat ""))
          imageSrc.FilePath)
    else
      .ok { numDigits := numDigitVariants - (i % numDigitVariants),
            useUnderscore := i / numDigitVariants % 2 == 0,
            isZeroBased := i < 2 * numDigitVariants,
            chosenOptionIndex := (i : Int) }
  | none => .ok st

/-- The loop `for i, option := range optionsFirstFrame`, from index `i` on. -/
def chooseLoop (src : SrcIndex) (name : String) : Nat → List String → Scheme → Except Fatal Scheme
  | _, [], st => .ok st
  | i, option :: rest, st =>
    match chooseStep src name st i option with
    | .error e => .error e
    | .ok st' => chooseLoop src name (i + 1) rest st'

/-- The whole first-frame search of one sprite. -/
def chooseScheme (src : SrcIndex) (name : String) : Except Fatal Scheme :=
  chooseLoop src name 0 (optionsFirstFrame name) Scheme.init

/-- Model of `fmt.Sprintf("%0wd", n)` for `n ≥ 0`: the decimal digits of `n`, padded on the
left with `0` up to width `w` (never truncated). -/
def zeroPadded (n w : Nat) : String :=
  String.mk (List.replicate (w - (Nat.repr n).length) '0') ++ Nat.repr n

/-- The value `srcImageName` of frame `i`:
`spriteDst.Name + fmt.Sprintf(fmt.Sprintf("%s%%0%dd", nameSep, numDigits), i+bias)`. -/
def srcImageName (name nameSep : String) (numDigits bias i : Nat) : String :=
  name ++ (nameSep ++ zeroPadded (i + bias) numDigits)

/-- The body of `for i := range spriteDst.Frames`. -/
def frameStep (src : SrcIndex) (params : Parameters) (spriteDst : GMSprite)
    (nameSep : String) (numDigits bias : Nat) (out : Out) (i : Nat) : Out :=
  match src (srcImageName spriteDst.Name nameSep numDigits bias i) with
  | some imageSrc =>
    if imageSrc.Sha256 ≠ (spriteDst.Frames.getD i default).Sha256 then
      { out with reImports := out.reImports ++ [{ Src := imageSrc, Dst := spriteDst, FrameIndex := i }] }
    else if !params.NoLogSrcMatch then
      { out with log := out.log ++ [LogLine.frameAlreadyMatches i spriteDst.Name imageSrc.FilePath] }
    else out
  | none =>
    if !params.NoLogSrcMiss then
      { out with log := out.log ++
          [LogLine.frameSourceMissing (srcImageName spriteDst.Name nameSep numDigits bias i ++ ".png")
            i spriteDst.Name] }
    else out

/-- The separator chosen from `useUnderscore`. -/
def nameSepOf (st : Scheme) : String := if !st.useUnderscore then "" else "_"

/-- The index base chosen from `isZeroBased`. -/
def biasOf (st : Scheme) : Nat := if !st.isZeroBased then 1 else 0

/-- The body of `for _, spriteDst := range candidatesDst`. -/
def spriteStep (src : SrcIndex) (params : Parameters) (out : Out) (spriteDst : GMSprite) :
    Except Fatal Out :=
  if spriteDst.Frames.length > 1 then
    match chooseScheme src spriteDst.Name with
    | .error e => .error e
    | .ok st =>
      if st.chosenOptionIndex ≥ 0 then
        .ok ((List.range spriteDst.Frames.length).foldl
          (frameStep src params spriteDst (nameSepOf st) st.numDigits (biasOf st)) out)
      else if !params.NoLogSrcMiss then
        .ok { out with log := out.log ++ [LogLine.firstFrameSourceMissing (spriteDst.Name ++ "_0.png")] }
      else .ok out
  else if spriteDst.Frames.length = 1 then
    match src spriteDst.Name with
    | some imageSrc =>
      if imageSrc.Sha256 ≠ (spriteDst.Frames.getD 0 default).Sha256 then
        .ok { out with reImports := out.reImports ++ [{ Src := imageSrc, Dst := spriteDst, FrameIndex := 0 }] }
      else if !params.NoLogSrcMatch then
        .ok { out with log := out.log ++ [LogLine.spriteAlreadyMatches spriteDst.Name imageSrc.FilePath] }
      else .ok out
    | none =>
      if !params.NoLogSrcMiss then
        .ok { out with log := out.log ++ [LogLine.spriteSourceMissing (spriteDst.Name ++ ".png")] }
      else .ok out
  else .ok out

/-- The loop over the destination sprites, from an accumulated result. -/
def spritesLoop (src : SrcIndex) (params : Parameters) : List GMSprite → Out → Except Fatal Out
  | [], out => .ok out
  | spriteDst :: rest, out =>
    match spriteStep src params out spriteDst with
    | .error e => .error e
    | .ok out' => spritesLoop src params rest out'

/-- The function `determineReImports`. -/
def determineReImports (src : SrcIndex) (candidatesDst : List GMSprite) (params : Parameters) :
    Except Fatal Out :=
  spritesLoop src params candidatesDst { reImports := [], log := [] }

/-! ## Notions used to state the properties of `determineReImports` -/

/-- The scheme the search sets when option `i` is the first one found. -/
def Scheme.ofIndex (i : Nat) : Scheme :=
  { numDigits := numDigitVariants - (i % numDigitVariants),
    useUnderscore := i / numDigitVariants % 2 == 0,
    isZeroBased := i < 2 * numDigitVariants,
    chosenOptionIndex := (i : Int) }

/-- The carve-out of the search: option `i` may coincide with the chosen option `c`. -/
def Tolerated (c : Int) (i : Nat) : Prop := c < 8 ∧ 8 ≤ i ∧ c = (i : Int) - 8

instance (c : Int) (i : Nat) : Decidable (Tolerated c i) := by
  unfold Tolerated; exact inferInstance


/-- The instruction the resolver owes for frame `i` under a naming scheme: the expected key
`spriteName + separator + zeroPadded(i + base, width)` is present with another hash. -/
def expectedReImport (src : SrcIndex) (spriteDst : GMSprite) (nameSep : String)
    (numDigits bias i : Nat) : Option GMFrameReImport :=
  match src (spriteDst.Name ++ nameSep ++ zeroPadded (i + bias) numDigits) with
  | some imageSrc =>
    if imageSrc.Sha256 ≠ (spriteDst.Frames.getD i default).Sha256 then
      some { Src := imageSrc, Dst := spriteDst, FrameIndex := i }
    else none
  | none => none

/-- Whether first-frame option `i` of a sprite name is a key of the source index. -/
def optionPresent (src : SrcIndex) (name : String) (i : Nat) : Prop :=
  src ((optionsFirstFrame name).getD i "") ≠ none

/-- A source index holding exactly the given keys, each with the hash given. -/
def srcOfList (entries : List (String × String)) : SrcIndex := fun key =>
  match entries.lookup key with
  | some hash => some { SpriteName := key ++ ".png", FilePath := "src/" ++ key ++ ".png", Sha256 := hash }
  | none => none

/-- A destination frame with the given hash. -/
def frameOfHash (hash : String) : GMFrame :=
  { FileName := "f.png", Sha256 := hash, Guid := "f", LayerFileName := "l.png", UtilizesLayers := false }

/-- The ambiguity condition on the 16 first-frame keys of a sprite name: at least two are
present, and the present ones are not exactly a zero-based option `i < 8` with its one-based
counterpart `i + 8`. -/
def Ambiguous (src : SrcIndex) (name : String) : Prop :=
  (∃ i j, i < j ∧ j < 16 ∧ optionPresent src name i ∧ optionPresent src name j) ∧
  ¬ ∃ i, i < 8 ∧ ∀ k, k < 16 → (optionPresent src name k ↔ (k = i ∨ k = i + 8))

/-- A source index with `walk_0`, `walk_2` and `walk_3`. -/
def walkSrc : SrcIndex := srcOfList [("walk_0", "h0"), ("walk_2", "h2"), ("walk_3", "g3")]

/-- A sprite `walk` of four frames; only frame 3 has the hash of its source image. -/
def walkSprite : GMSprite :=
  { Name := "walk", Frames := [frameOfHash "g0", frameOfHash "g1", frameOfHash "g2", frameOfHash "g3"] }

/-- The accumulated result before the first sprite. -/
def Out.empty : Out := { reImports := [], log := [] }

/-- A source index with `foo` only. -/
def fooSrc : SrcIndex := srcOfList [("foo", "new")]

/-- A sprite `foo` of one frame. -/
def fooSprite : GMSprite := { Name := "foo", Frames := [frameOfHash "old"] }

/-! ## The reader of `yy/read.go`

The buffer `r.b` and its length `r.l` are written once, at the start of `ParseYY`, and only read
afterwards: they are the parameter `b` (with `r.l = b.length`) of every function below. The
fields that change are those of `Reader`. `strconv.ParseFloat` is a parameter `pf` of the
development; a `float64` is carried as its bit pattern. -/

namespace YY

/-- A `float64`, as its 64 bits. -/
structure Float64 where
  bits : Nat
deriving DecidableEq, Repr, Inhabited

/-- The values an `interface{}` returned by `ParseYY` can hold: `nil`, `bool`, `int64`,
`float64`, `string`, `[]interface{}` and `map[string]interface{}` (a list of entries with
distinct keys, in order of first insertion). -/
inductive Value where
  | null
  | bool (b : Bool)
  | int (n : Int)
  | float (f : Float64)
  | str (s : String)
  | list (xs : List Value)
  | map (kvs : List (String × Value))
deriving Repr, Inhabited

/-- The errors of the reader, one constructor per message; `line` and `column` are the two
numbers formatted into the message, when it has them. `outOfFuel` is not an error of the
program: it marks a recursion bound of this embedding that was too small. -/
inductive YYError where
  | eofValue
  | unexpectedSymbolValue (line column : Nat)
  | expectedOpenBracket (line column : Nat)
  | eofArray
  | expectedOpenBrace (line column : Nat)
  | eofObject
  | expectedString (line column : Nat)
  | backslashInString (line column : Nat)
  | expectedEndOfString (line column : Nat)
  | eofNumber
  | couldNotParseNumber (line column : Nat)
  | eofBoolean
  | unexpectedLiteral (line column : Nat) (literal : String)
  | extraContent (line column : Nat)
  | outOfFuel
deriving DecidableEq, Repr

/-- The mutable fields of the Go `Reader`. -/
structure Reader where
  lineNumber : Nat
  columnNumber : Nat
  p : Nat
deriving DecidableEq, Repr

/-- One consumed byte `c`: `r.p++; r.columnNumber++; if c == '\n' { r.lineNumber++; r.columnNumber = 1 }`. -/
def Reader.step (r : Reader) (c : Char) : Reader :=
  if c = '\n' then { lineNumber := r.lineNumber + 1, columnNumber := 1, p := r.p + 1 }
  else { lineNumber := r.lineNumber, columnNumber := r.columnNumber + 1, p := r.p + 1 }

/-- The method `advance`; its error result (EOF) is dropped by every caller, so only the state
it leaves is returned. -/
def advance (b : List Char) : Nat → Reader → Reader
  | 0, r => r
  | amount + 1, r =>
    if r.p ≥ b.length then r
    else advance b amount (r.step (b.getD r.p default))

/-- The test `c == ' ' || c == '\t' || c == '\n' || c == '\r'`. -/
def isWhitespace (c : Char) : Bool := c = ' ' || c = '\t' || c = '\n' || c = '\r'

/-- The loop of `skipWhitespace`, bounded by the number of unread bytes. -/
def skipWhitespaceLoop (b : List Char) : Nat → Reader → Reader
  | 0, r => r
  | fuel + 1, r =>
    if r.p < b.length then
      if isWhitespace (b.getD r.p default) then
        skipWhitespaceLoop b fuel (r.step (b.getD r.p default))
      else r
    else r

/-- The method `skipWhitespace`. -/
def skipWhitespace (b : List Char) (r : Reader) : Reader :=
  skipWhitespaceLoop b (b.length - r.p) r

/-- The method `parseLiteral`. The slice `r.b[r.p:r.p+litLen]` is `(b.drop r.p).take litLen`. -/
def parseLiteral (b : List Char) (literal : List Char) (r : Reader) : Except YYError Reader :=
  if literal.length > b.length - r.p ∨ literal ≠ (b.drop r.p).take literal.length then
    .error (YYError.unexpectedLiteral r.lineNumber r.columnNumber (String.mk literal))
  else .ok (advance b literal.length r)

/-- The scanning loop of `parseString`: the number of bytes before the closing quote or the
end of input, or the backslash error. -/
def scanString (b : List Char) (r : Reader) : Nat → Nat → Except YYError Nat
  | 0, numBytes => .ok numBytes
  | fuel + 1, numBytes =>
    if r.p + numBytes < b.length then
      if b.getD (r.p + numBytes) default = '"' then .ok numBytes
      else if b.getD (r.p + numBytes) default = '\\' then
        .error (YYError.backslashInString r.lineNumber r.columnNumber)
      else scanString b r fuel (numBytes + 1)
    else .ok numBytes

/-- The method `parseString`. -/
def parseString (b : List Char) (r : Reader) : Except YYError (String × Reader) :=
  match parseLiteral b ['"'] r with
  | .error _ => .error (YYError.expectedString r.lineNumber r.columnNumber)
  | .ok r1 =>
    match scanString b r1 (b.length - r1.p) 0 with
    | .error e => .error e
    | .ok numBytes =>
      let s := String.mk ((b.drop r1.p).take numBytes)
      let r2 := advance b numBytes r1
      match parseLiteral b ['"'] r2 with
      | .error _ => .error (YYError.expectedEndOfString r2.lineNumber r2.columnNumber)
      | .ok r3 => .ok (s, r3)

/-- The test `c >= '0' && c <= '9'`. -/
def isDigit (c : Char) : Bool := decide ('0' ≤ c) && decide (c ≤ '9')

/-- The scanning loop of `parseNumber`: `isFloat` and `numBytes` when it ends. -/
def scanNumber (b : List Char) (r : Reader) : Nat → Bool → Nat → Bool × Nat
  | 0, isFloat, numBytes => (isFloat, numBytes)
  | fuel + 1, isFloat, numBytes =>
    if r.p + numBytes < b.length then
      let c := b.getD (r.p + numBytes) default
      if numBytes = 0 ∧ (c = '-' ∨ c = '+') then scanNumber b r fuel isFloat (numBytes + 1)
      else if c = '.' ∨ c = 'e' ∨ c = 'E' then scanNumber b r fuel true (numBytes + 1)
      else if isDigit c then scanNumber b r fuel isFloat (numBytes + 1)
      else (isFloat, numBytes)
    else (isFloat, numBytes)

/-- The value of a string of decimal digits, `none` when a byte is not a digit. -/
def decimalValue : List Char → Nat → Option Nat
  | [], acc => some acc
  | c :: cs, acc => if isDigit c then decimalValue cs (acc * 10 + (c.toNat - '0'.toNat)) else none

/-- Model of `strconv.ParseInt(s, 10, 64)`: an optional sign, then at least one decimal digit
and nothing else; `none` stands for its errors (syntax, or a value outside the `int64` range). -/
def strconvParseInt (s : String) : Option Int :=
  match s.data with
  | [] => none
  | c :: cs =>
    let neg := decide (c = '-')
    let digits := if c = '+' ∨ c = '-' then cs else c :: cs
    if digits = [] then none
    else
      match decimalValue digits 0 with
      | none => none
      | some un =>
        if !neg ∧ un ≥ 2 ^ 63 then none
        else if neg ∧ un > 2 ^ 63 then none
        else some (if neg then -(un : Int) else (un : Int))

/-- The method `parseNumber`. -/
def parseNumber (pf : String → Option Float64) (b : List Char) (r : Reader) :
    Except YYError (Value × Reader) :=
  if r.p ≥ b.length then .error YYError.eofNumber
  else
    let scan := scanNumber b r (b.length - r.p) false 0
    let text := String.mk ((b.drop r.p).take scan.2)
    let v : Option Value :=
      if scan.1 then (pf text).map Value.float else (strconvParseInt text).map Value.int
    match v with
    | none => .error (YYError.couldNotParseNumber r.lineNumber r.columnNumber)
    | some v => .ok (v, advance b scan.2 r)

/-- The literal `[]byte("true")`. -/
def trueLiteral : List Char := "true".data

/-- The literal `[]byte("false")`. -/
def falseLiteral : List Char := "false".data

/-- The literal `[]byte("null")`. -/
def nullLiteral : List Char := "null".data

/-- The method `parseBoolean`. -/
def parseBoolean (b : List Char) (r : Reader) : Except YYError (Value × Reader) :=
  if r.p ≥ b.length then .error YYError.eofBoolean
  else if b.getD r.p default = 't' then
    match parseLiteral b trueLiteral r with
    | .error e => .error e
    | .ok r1 => .ok (Value.bool true, r1)
  else
    match parseLiteral b falseLiteral r with
    | .error e => .error e
    | .ok r1 => .ok (Value.bool false, r1)

/-- The method `parseNull`. -/
def parseNull (b : List Char) (r : Reader) : Except YYError (Value × Reader) :=
  match parseLiteral b nullLiteral r with
  | .error e => .error e
  | .ok r1 => .ok (Value.null, r1)

/-- The start of an iteration of the loops of `parseArray` and `parseObject`: skip whitespace,
fail at the end of input, and step over one comma (then whitespace) when there is one. -/
def skipComma (b : List Char) (eof : YYError) (r : Reader) : Except YYError Reader :=
  let r1 := skipWhitespace b r
  if r1.p ≥ b.length then .error eof
  else if b.getD r1.p default = ',' then
    let r2 := skipWhitespace b (advance b 1 r1)
    if r2.p ≥ b.length then .error eof else .ok r2
  else .ok r1

/-- The `for` loop of `parseArray`; `pv` is `parseValue`. The bound counts iterations. -/
def parseArrayLoop (b : List Char) (pv : Reader → Except YYError (Value × Reader)) :
    Nat → Reader → List Value → Except YYError (List Value × Reader)
  | 0, _, _ => .error YYError.outOfFuel
  | fuel + 1, r, arr =>
    match skipComma b YYError.eofArray r with
    | .error e => .error e
    | .ok r1 =>
      if b.getD r1.p default = ']' then .ok (arr, r1)
      else
        match pv r1 with
        | .error e => .error e
        | .ok (v, r2) => parseArrayLoop b pv fuel r2 (arr ++ [v])

/-- The method `parseArray`; `pv` is `parseValue`. -/
def parseArray (b : List Char) (pv : Reader → Except YYError (Value × Reader)) (r : Reader) :
    Except YYError (Value × Reader) :=
  match parseLiteral b ['['] r with
  | .error _ => .error (YYError.expectedOpenBracket r.lineNumber r.columnNumber)
  | .ok r1 =>
    match parseArrayLoop b pv (b.length - r1.p + 1) r1 [] with
    | .error e => .error e
    | .ok (arr, r2) =>
      match parseLiteral b [']'] r2 with
      | .error e => .error e
      | .ok r3 => .ok (Value.list arr, r3)

/-- The map write `keyValues[key] = value`. -/
def mapSet : List (String × Value) → String → Value → List (String × Value)
  | [], key, value => [(key, value)]
  | (k, v) :: rest, key, value =>
    if k = key then (key, value) :: rest else (k, v) :: mapSet rest key value

/-- The `for` loop of `parseObject`; `pv` is `parseValue`. The bound counts iterations. -/
def parseObjectLoop (b : List Char) (pv : Reader → Except YYError (Value × Reader)) :
    Nat → Reader → List (String × Value) → Except YYError (List (String × Value) × Reader)
  | 0, _, _ => .error YYError.outOfFuel
  | fuel + 1, r, keyValues =>
    match skipComma b YYError.eofObject r with
    | .error e => .error e
    | .ok r1 =>
      if b.getD r1.p default = '}' then .ok (keyValues, r1)
      else
        match parseString b r1 with
        | .error e => .error e
        | .ok (key, r2) =>
          match parseLiteral b [':'] (skipWhitespace b r2) with
          | .error e => .error e
          | .ok r3 =>
            match pv (skipWhitespace b r3) with
            | .error e => .error e
            | .ok (value, r4) => parseObjectLoop b pv fuel r4 (mapSet keyValues key value)

/-- The method `parseObject`; `pv` is `parseValue`. -/
def parseObject (b : List Char) (pv : Reader → Except YYError (Value × Reader)) (r : Reader) :
    Except YYError (Value × Reader) :=
  match parseLiteral b ['{'] r with
  | .error _ => .error (YYError.expectedOpenBrace r.lineNumber r.columnNumber)
  | .ok r1 =>
    match parseObjectLoop b pv (b.length - r1.p + 1) r1 [] with
    | .error e => .error e
    | .ok (keyValues, r2) =>
      match parseLiteral b ['}'] r2 with
      | .error e => .error e
      | .ok r3 => .ok (Value.map keyValues, r3)

/-- The test of `parseValue` that sends a token to `parseNumber`. -/
def isNumberStart (token : Char) : Bool :=
  token = '-' || token = '+' || isDigit token || token = '.' || token = 'e' || token = 'E'

/-- The method `parseValue`; the bound counts the nesting of calls. -/
def parseValue (pf : String → Option Float64) (b : List Char) :
    Nat → Reader → Except YYError (Value × Reader)
  | 0 => fun _ => .error YYError.outOfFuel
  | fuel + 1 => fun r =>
    if r.p ≥ b.length then .error YYError.eofValue
    else
      let token := b.getD r.p default
      if token = '[' then parseArray b (parseValue pf b fuel) r
      else if token = '{' then parseObject b (parseValue pf b fuel) r
      else if token = '"' then
        match parseString b r with
        | .error e => .error e
        | .ok (s, r1) => .ok (Value.str s, r1)
      else if isNumberStart token then parseNumber pf b r
      else if token = 't' ∨ token = 'f' then parseBoolean b r
      else if token = 'n' then parseNull b r
      else .error (YYError.unexpectedSymbolValue r.lineNumber r.columnNumber)

/-- The state of the reader at the start of `ParseYY`. -/
def Reader.start : Reader := { lineNumber := 1, columnNumber := 1, p := 0 }

/-- The method `ParseYY` on the bytes `b` that `io.ReadAll` returned. -/
def ParseYY (pf : String → Option Float64) (b : List Char) : Except YYError Value :=
  let r := skipWhitespace b Reader.start
  match parseValue pf b (b.length + 1) r with
  | .error e => .error e
  | .ok (v, r1) =>
    let r2 := skipWhitespace b r1
    if r2.p ≠ b.length then .error (YYError.extraContent r2.lineNumber r2.columnNumber)
    else .ok v

end YY

/-! ## Notions used to state the properties of the reader -/

namespace YY

/-- The line of byte offset `p` of `b`: one more than the line feeds before it. -/
def lineAt (b : List Char) (p : Nat) : Nat := 1 + (b.take p).count '\n'

/-- The column of byte offset `p` of `b`: one more than the bytes since the last line feed
before it (or since the start of input). -/
def colAt (b : List Char) (p : Nat) : Nat :=
  1 + ((b.take p).reverse.takeWhile (fun c => c ≠ '\n')).length

/-- The reader that stands at byte offset `p` of `b` with the line and column of that offset. -/
def readerAt (b : List Char) (p : Nat) : Reader :=
  { lineNumber := lineAt b p, columnNumber := colAt b p, p := p }

/-- The length of the run of whitespace at the head of `s`. -/
def wsLen (s : List Char) : Nat := (s.takeWhile isWhitespace).length

/-- A byte that the scan of `parseString` steps over: neither a quote nor a backslash. -/
def isStringByte (c : Char) : Bool := c ≠ '"' && c ≠ '\\'

/-- The length of the run of string bytes at the head of `s`. -/
def strLen (s : List Char) : Nat := (s.takeWhile isStringByte).length

/-- The bytes that make the scan of `parseNumber` set `isFloat`. -/
def isFloatByte (c : Char) : Bool := c = '.' || c = 'e' || c = 'E'

/-- A byte that the scan of `parseNumber` steps over after the first one. -/
def isNumberByte (c : Char) : Bool := isFloatByte c || isDigit c

/-- The bytes the scan of `parseNumber` takes from the head of `s`: a sign or a number byte,
then the run of number bytes. -/
def numToken : List Char → List Char
  | [] => []
  | c :: t =>
    if c = '-' ∨ c = '+' then c :: t.takeWhile isNumberByte
    else (c :: t).takeWhile isNumberByte

/-- What follows a number token must not continue it. -/
def NumStop (s : List Char) : Prop := ∀ c, s.head? = some c → isNumberByte c = false

/-- The value `parseNumber` makes of the token it has scanned. -/
def numberValue (pf : String → Option Float64) (token : List Char) : Option Value :=
  if token.any isFloatByte then (pf (String.mk token)).map Value.float
  else (strconvParseInt (String.mk token)).map Value.int

/-! ### Documents

The texts the reader accepts, as syntax trees. Each iteration of the loops of `parseArray` and
`parseObject` reads whitespace, then at most one comma and whitespace again (a `Sep`), then an
element or the closing bracket. -/

/-- What stands before an element and before the closing bracket: whitespace, then possibly a
comma followed by whitespace. -/
structure Sep where
  ws : List Char
  comma : Option (List Char)

/-- The text of a separator. -/
def Sep.render (s : Sep) : List Char :=
  match s.comma with
  | none => s.ws
  | some ws2 => s.ws ++ ',' :: ws2

/-- A separator is made of whitespace and at most one comma. -/
def Sep.Valid (s : Sep) : Prop :=
  (∀ c ∈ s.ws, isWhitespace c = true) ∧
  ∀ ws2, s.comma = some ws2 → ∀ c ∈ ws2, isWhitespace c = true

mutual
/-- A document: a literal, a number token, a string, or an array or object with the separators
written out; `close` is the separator before the closing bracket (its comma is the trailing
comma). -/
inductive Doc where
  | null
  | bool (v : Bool)
  | number (text : List Char)
  | string (s : List Char)
  | array (elems : Elems) (close : Sep)
  | object (entries : Entries) (close : Sep)
/-- The elements of an array, each after its separator. -/
inductive Elems where
  | nil
  | cons (sep : Sep) (d : Doc) (rest : Elems)
/-- The entries of an object, each after its separator: key, whitespace, colon, whitespace,
value. -/
inductive Entries where
  | nil
  | cons (sep : Sep) (key : List Char) (wsKey wsColon : List Char) (d : Doc) (rest : Entries)
end

mutual
/-- The text of a document. -/
def Doc.render : Doc → List Char
  | .number text => text
  | .string s => '"' :: s ++ ['"']
  | .null => nullLiteral
  | .bool v => if v then trueLiteral else falseLiteral
  | .array elems close => '[' :: elems.render ++ close.render ++ [']']
  | .object entries close => '{' :: entries.render ++ close.render ++ ['}']
/-- The text of the elements of an array. -/
def Elems.render : Elems → List Char
  | .nil => []
  | .cons sep d rest => sep.render ++ d.render ++ rest.render
/-- The text of the entries of an object. -/
def Entries.render : Entries → List Char
  | .nil => []
  | .cons sep key wsKey wsColon d rest =>
    sep.render ++ '"' :: key ++ '"' :: wsKey ++ ':' :: wsColon ++ d.render ++ rest.render
end

mutual
/-- The value a document denotes; it does not depend on separators. -/
def Doc.value (pf : String → Option Float64) : Doc → Value
  | .null => Value.null
  | .bool v => Value.bool v
  | .number text => (numberValue pf text).getD Value.null
  | .string s => Value.str (String.mk s)
  | .array elems _ => Value.list (elems.values pf)
  | .object entries _ => Value.map (entries.insertInto pf [])
/-- The values of the elements of an array. -/
def Elems.values (pf : String → Option Float64) : Elems → List Value
  | .nil => []
  | .cons _ d rest => d.value pf :: rest.values pf
/-- The map after the entries have been written into it, in order. -/
def Entries.insertInto (pf : String → Option Float64) :
    Entries → List (String × Value) → List (String × Value)
  | .nil, acc => acc
  | .cons _ key _ _ d rest, acc => rest.insertInto pf (mapSet acc (String.mk key) (d.value pf))
end

/-- Whether a document is a number token. -/
def Doc.isNumber : Doc → Bool
  | .number _ => true
  | _ => false

mutual
/-- The documents the reader accepts: number tokens are whole tokens that `strconv` parses,
strings hold neither quote nor backslash, separators are well formed, and a number token is
not followed by a byte that would continue it. -/
def Doc.Valid (pf : String → Option Float64) : Doc → Prop
  | .null => True
  | .bool _ => True
  | .number text => text ≠ [] ∧ numToken text = text ∧ (numberValue pf text).isSome = true
  | .string s => ∀ c ∈ s, isStringByte c = true
  | .array elems close => elems.Valid pf (close.render ++ [']']) ∧ close.Valid
  | .object entries close => entries.Valid pf (close.render ++ ['}']) ∧ close.Valid
/-- Validity of the elements of an array that is followed by the text `after`. -/
def Elems.Valid (pf : String → Option Float64) : Elems → List Char → Prop
  | .nil, _ => True
  | .cons sep d rest, after =>
    sep.Valid ∧ d.Valid pf ∧ (d.isNumber = true → NumStop (rest.render ++ after)) ∧
      rest.Valid pf after
/-- Validity of the entries of an object that is followed by the text `after`. -/
def Entries.Valid (pf : String → Option Float64) : Entries → List Char → Prop
  | .nil, _ => True
  | .cons sep key wsKey wsColon d rest, after =>
    sep.Valid ∧ (∀ c ∈ key, isStringByte c = true) ∧
      (∀ c ∈ wsKey, isWhitespace c = true) ∧ (∀ c ∈ wsColon, isWhitespace c = true) ∧
      d.Valid pf ∧ (d.isNumber = true → NumStop (rest.render ++ after)) ∧ rest.Valid pf after
end

mutual
/-- The nesting depth of a document. -/
def Doc.depth : Doc → Nat
  | .array elems _ => elems.depth + 1
  | .object entries _ => entries.depth + 1
  | _ => 0
/-- The greatest depth among the elements. -/
def Elems.depth : Elems → Nat
  | .nil => 0
  | .cons _ d rest => max d.depth rest.depth
/-- The greatest depth among the entries. -/
def Entries.depth : Entries → Nat
  | .nil => 0
  | .cons _ _ _ _ d rest => max d.depth rest.depth
end

/-- The number of elements. -/
def Elems.count : Elems → Nat
  | .nil => 0
  | .cons _ _ rest => rest.count + 1

/-- The number of entries. -/
def Entries.count : Entries → Nat
  | .nil => 0
  | .cons _ _ _ _ _ rest => rest.count + 1

/-- What `parseValue` must do on the texts of the documents below a given depth, for the loops
to read the elements of an array or object. -/
def ReadsDocs (pf : String → Option Float64) (b : List Char)
    (pv : Reader → Except YYError (Value × Reader)) (k : Nat) : Prop :=
  ∀ (d : Doc) (p : Nat) (rest : List Char), d.depth < k → d.Valid pf →
    (d.isNumber = true → NumStop rest) → b.drop p = d.render ++ rest →
    pv (readerAt b p) = .ok (d.value pf, readerAt b (p + d.render.length))

/-- The test of `parseValue` for the first byte of a value. -/
def isValueStart (token : Char) : Bool :=
  token = '[' || token = '{' || token = '"' || isNumberStart token || token = 't' ||
    token = 'f' || token = 'n'

/-- What an error of the reader says about the input `b`: the errors at the end of input carry
no position; every other error carries the line and column of a byte offset `q` of `b`, which
is the offending byte for an unexpected symbol, a missing quote and extra content, the first
byte of the token for a number and a literal, and the end of input for an unterminated
string. The three errors behind a check that has already passed, and the recursion bound of
the embedding, never occur. -/
def ErrorAt (b : List Char) : YYError → Prop
  | .eofValue => True
  | .eofArray => True
  | .eofObject => True
  | .eofNumber => False
  | .eofBoolean => False
  | .expectedOpenBracket _ _ => False
  | .expectedOpenBrace _ _ => False
  | .outOfFuel => False
  | .unexpectedSymbolValue line column =>
    ∃ q, q < b.length ∧ line = lineAt b q ∧ column = colAt b q ∧
      isValueStart (b.getD q default) = false
  | .expectedString line column =>
    ∃ q, q < b.length ∧ line = lineAt b q ∧ column = colAt b q ∧ b.getD q default ≠ '"'
  | .backslashInString line column =>
    ∃ q, q ≤ b.length ∧ line = lineAt b q ∧ column = colAt b q
  | .expectedEndOfString line column =>
    line = lineAt b b.length ∧ column = colAt b b.length
  | .couldNotParseNumber line column =>
    ∃ q, q < b.length ∧ line = lineAt b q ∧ column = colAt b q ∧
      isNumberStart (b.getD q default) = true
  | .unexpectedLiteral line column literal =>
    ∃ q, q ≤ b.length ∧ line = lineAt b q ∧ column = colAt b q ∧ ¬ literal.data <+: b.drop q
  | .extraContent line column =>
    ∃ q, q < b.length ∧ line = lineAt b q ∧ column = colAt b q ∧
      isWhitespace (b.getD q default) = false

/-- A result of `parseValue` at offset `p` that is accounted for: a value is the value of a
valid document whose text starts at `p`, and the reader stands right after that text; an error
is one that `ErrorAt` describes. -/
def ReadsAt (pf : String → Option Float64) (b : List Char) (p : Nat)
    (res : Except YYError (Value × Reader)) : Prop :=
  match res with
  | .ok (v, r) =>
    ∃ d : Doc, d.Valid pf ∧ d.render <+: b.drop p ∧
      (d.isNumber = true → NumStop (b.drop (p + d.render.length))) ∧
      v = d.value pf ∧ r = readerAt b (p + d.render.length)
  | .error e => ErrorAt b e

/-- The line and column that an error carries, when its message has them. -/
def YYError.position : YYError → Option (Nat × Nat)
  | .eofValue => none
  | .eofArray => none
  | .eofObject => none
  | .eofNumber => none
  | .eofBoolean => none
  | .outOfFuel => none
  | .unexpectedSymbolValue line column => some (line, column)
  | .expectedOpenBracket line column => some (line, column)
  | .expectedOpenBrace line column => some (line, column)
  | .expectedString line column => some (line, column)
  | .backslashInString line column => some (line, column)
  | .expectedEndOfString line column => some (line, column)
  | .couldNotParseNumber line column => some (line, column)
  | .unexpectedLiteral line column _ => some (line, column)
  | .extraContent line column => some (line, column)

/-- A `strconv.ParseFloat` that rejects every text, for examples without floats. -/
def noFloat : String → Option Float64 := fun _ => none

/-- The decimal value of a string of digits. -/
def decimalOf (digits : List Char) : Nat :=
  digits.foldl (fun acc c => acc * 10 + (c.toNat - '0'.toNat)) 0

/-- The decimal text of an integer: a minus sign for a negative one, then the decimal digits of
its absolute value. -/
def intText : Int → List Char
  | .ofNat m => Nat.toDigits 10 m
  | .negSucc m => '-' :: Nat.toDigits 10 (m + 1)

/-- The separator `close2` is the separator `close` with one comma added: `close` holds none,
and the comma stands somewhere in its whitespace. -/
def Sep.AddComma (close close2 : Sep) : Prop :=
  close.comma = none ∧ ∃ wa wb, close2 = { ws := wa, comma := some wb } ∧ wa ++ wb = close.ws

mutual
/-- The document `d2` is the document `d` with a single trailing comma added before the
closing bracket of one of its arrays or objects, itself or nested. -/
def Doc.AddComma : Doc → Doc → Prop
  | .array elems close, .array elems2 close2 =>
    (elems2 = elems ∧ close.AddComma close2) ∨ (close2 = close ∧ elems.AddComma elems2)
  | .object entries close, .object entries2 close2 =>
    (entries2 = entries ∧ close.AddComma close2) ∨ (close2 = close ∧ entries.AddComma entries2)
  | _, _ => False
/-- The comma is added in one of the elements. -/
def Elems.AddComma : Elems → Elems → Prop
  | .cons sep d rest, .cons sep2 d2 rest2 =>
    sep2 = sep ∧ ((rest2 = rest ∧ d.AddComma d2) ∨ (d2 = d ∧ rest.AddComma rest2))
  | _, _ => False
/-- The comma is added in the value of one of the entries. -/
def Entries.AddComma : Entries → Entries → Prop
  | .cons sep key wsKey wsColon d rest, .cons sep2 key2 wsKey2 wsColon2 d2 rest2 =>
    sep2 = sep ∧ key2 = key ∧ wsKey2 = wsKey ∧ wsColon2 = wsColon ∧
      ((rest2 = rest ∧ d.AddComma d2) ∨ (d2 = d ∧ rest.AddComma rest2))
  | _, _ => False
end

/-- The document `[1]`. -/
def docOne : Doc :=
  Doc.array (Elems.cons { ws := [], comma := none } (Doc.number ['1']) Elems.nil)
    { ws := [], comma := none }

/-- The document `[1,]`. -/
def docOneComma : Doc :=
  Doc.array (Elems.cons { ws := [], comma := none } (Doc.number ['1']) Elems.nil)
    { ws := [], comma := some [] }

/-! ### The round trip -/

/-- Modelled from the spec: the escape of one byte of a string in ordinary JSON syntax (the
harness is not in the repository): a quote and a backslash get a backslash in front, a control
byte is written `\u00XX`, every other byte stands for itself. -/
def escapeByte (c : Char) : List Char :=
  if c = '"' then ['\\', '"']
  else if c = '\\' then ['\\', '\\']
  else if c.toNat < 32 then
    ['\\', 'u', '0', '0', Nat.digitChar (c.toNat / 16), Nat.digitChar (c.toNat % 16)]
  else [c]

mutual
/-- Modelled from the spec: `serialize` of the test harness, which is not in the repository:
ordinary JSON syntax without whitespace and without trailing commas. An integer is written as
its decimal text; `ff` is the harness's formatting of a float. -/
def serialize (ff : Float64 → List Char) : Value → List Char
  | .null => nullLiteral
  | .bool v => if v then trueLiteral else falseLiteral
  | .int n => intText n
  | .float f => ff f
  | .str s => '"' :: s.data.flatMap escapeByte ++ ['"']
  | .list xs => '[' :: serializeElems ff true xs ++ [']']
  | .map kvs => '{' :: serializeEntries ff true kvs ++ ['}']
/-- The elements of a list, with a comma before each but the first. -/
def serializeElems (ff : Float64 → List Char) : Bool → List Value → List Char
  | _, [] => []
  | first, v :: vs =>
    (if first then [] else [',']) ++ serialize ff v ++ serializeElems ff false vs
/-- The entries of a mapping, with a comma before each but the first. -/
def serializeEntries (ff : Float64 → List Char) : Bool → List (String × Value) → List Char
  | _, [] => []
  | first, (k, v) :: kvs =>
    (if first then [] else [',']) ++ '"' :: k.data.flatMap escapeByte ++ '"' :: ':' ::
      serialize ff v ++ serializeEntries ff false kvs
end

mutual
/-- The values for which `serialize` writes a text that `ParseYY` can read back: an integer is
in the `int64` range, a float is written as a number token with `.`, `e` or `E` that
`strconv.ParseFloat` maps back to it, a string (also a key) has no quote, backslash or control
byte, and the keys of a mapping are distinct. -/
def Value.Good (pf : String → Option Float64) (ff : Float64 → List Char) : Value → Prop
  | .null => True
  | .bool _ => True
  | .int n => -2 ^ 63 ≤ n ∧ n < 2 ^ 63
  | .float f =>
    ff f ≠ [] ∧ numToken (ff f) = ff f ∧ (ff f).any isFloatByte = true ∧
      pf (String.mk (ff f)) = some f
  | .str s => ∀ c ∈ s.data, isStringByte c = true ∧ 32 ≤ c.toNat
  | .list xs => Value.GoodList pf ff xs
  | .map kvs => (kvs.map Prod.fst).Nodup ∧ Value.GoodEntries pf ff kvs
/-- Every element is good. -/
def Value.GoodList (pf : String → Option Float64) (ff : Float64 → List Char) :
    List Value → Prop
  | [] => True
  | v :: vs => Value.Good pf ff v ∧ Value.GoodList pf ff vs
/-- Every key and every value is good. -/
def Value.GoodEntries (pf : String → Option Float64) (ff : Float64 → List Char) :
    List (String × Value) → Prop
  | [] => True
  | (k, v) :: kvs =>
    (∀ c ∈ k.data, isStringByte c = true ∧ 32 ≤ c.toNat) ∧ Value.Good pf ff v ∧
      Value.GoodEntries pf ff kvs
end

mutual
/-- The document that `serialize` writes. -/
def docOf (ff : Float64 → List Char) : Value → Doc
  | .null => Doc.null
  | .bool v => Doc.bool v
  | .int n => Doc.number (intText n)
  | .float f => Doc.number (ff f)
  | .str s => Doc.string s.data
  | .list xs => Doc.array (elemsOf ff true xs) { ws := [], comma := none }
  | .map kvs => Doc.object (entriesOf ff true kvs) { ws := [], comma := none }
/-- The elements that `serialize` writes. -/
def elemsOf (ff : Float64 → List Char) : Bool → List Value → Elems
  | _, [] => Elems.nil
  | first, v :: vs =>
    Elems.cons { ws := [], comma := if first then none else some [] } (docOf ff v)
      (elemsOf ff false vs)
/-- The entries that `serialize` writes. -/
def entriesOf (ff : Float64 → List Char) : Bool → List (String × Value) → Entries
  | _, [] => Entries.nil
  | first, (k, v) :: kvs =>
    Entries.cons { ws := [], comma := if first then none else some [] } k.data [] []
      (docOf ff v) (entriesOf ff false kvs)
end


/-- The bits of the `float64` nearest to `1e-05`. -/
def floatSmall : Float64 := { bits := 0x3EE4F8B588E368F1 }

/-- The bits of the `float64` `1.5`. -/
def floatHalf : Float64 := { bits := 0x3FF8000000000000 }

/-- A formatter for examples: `1e-05` for `floatSmall`, `1.5` for every other float. -/
def formatDemo : Float64 → List Char :=
  fun f => if f = floatSmall then ['1', 'e', '-', '0', '5'] else ['1', '.', '5']

/-- A `strconv.ParseFloat` for examples, which reads the two texts of `formatDemo`. -/
def parseFloatDemo : String → Option Float64 :=
  fun s => if s = "1e-05" then some floatSmall else if s = "1.5" then some floatHalf else none

/-- A value with every kind of element, for examples. -/
def valueDemo : Value :=
  Value.map [("a", Value.list [Value.int 1, Value.int (-2), Value.null, Value.bool true]),
    ("b", Value.str "x y"), ("c", Value.float floatHalf), ("d", Value.map [])]

end YY

/-! ## The descriptor interpreter `parseYyFrames`

`filepath.Join` and `sha256File` are parameters: `join` joins a folder and a file name, and
`sha folder` is the digest of the file at a path, or `none` when the file cannot be read. -/

/-- The type assertion `x.(map[string]interface{})` on an `interface{}`, where `none` is the
`nil` interface that a map read returns for a missing key. -/
def asMap : Option YY.Value → Option (List (String × YY.Value))
  | some (YY.Value.map kvs) => some kvs
  | _ => none

/-- The type assertion `x.([]interface{})`. -/
def asList : Option YY.Value → Option (List YY.Value)
  | some (YY.Value.list xs) => some xs
  | _ => none

/-- The type assertion `x.(string)`. -/
def asString : Option YY.Value → Option String
  | some (YY.Value.str s) => some s
  | _ => none

/-- How `parseYyFrames` ends without frames: with the error it returns, or in the `log.Fatalf`
of a frame file whose digest cannot be computed. -/
inductive FramesStop where
  | shape (message : String)
  | fatalSha256 (frameFilePath : String)
deriving DecidableEq, Repr

/-- The body of `for i, frameInterface := range framesYy`, up to the `append`. -/
def parseFrame (join : String → String → String) (sha : String → Option String)
    (spriteFolderPath : String) (utilizesLayers : Bool) (layerName : String) (i : Nat)
    (frameInterface : YY.Value) : Except FramesStop GMFrame :=
  match asMap (some frameInterface) with
  | none => .error (FramesStop.shape ("$.frames[" ++ toString i ++ "] was not an object"))
  | some frame =>
    match asString (frame.lookup "name") with
    | none =>
      .error (FramesStop.shape ("$.frames[" ++ toString i ++ "] was not a non-empty string"))
    | some name =>
      if name = "" then
        .error (FramesStop.shape ("$.frames[" ++ toString i ++ "] was not a non-empty string"))
      else
        match sha (join spriteFolderPath (name ++ ".png")) with
        | none => .error (FramesStop.fatalSha256 (join spriteFolderPath (name ++ ".png")))
        | some hash =>
          .ok { UtilizesLayers := utilizesLayers, LayerFileName := layerName ++ ".png",
                Guid := name, FileName := name ++ ".png", Sha256 := hash }

/-- The loop `for i, frameInterface := range framesYy`, from index `i` on. -/
def parseFramesLoop (join : String → String → String) (sha : String → Option String)
    (spriteFolderPath : String) (utilizesLayers : Bool) (layerName : String) :
    Nat → List YY.Value → List GMFrame → Except FramesStop (List GMFrame)
  | _, [], frames => .ok frames
  | i, frameInterface :: rest, frames =>
    match parseFrame join sha spriteFolderPath utilizesLayers layerName i frameInterface with
    | .error e => .error e
    | .ok f =>
      parseFramesLoop join sha spriteFolderPath utilizesLayers layerName (i + 1) rest
        (frames ++ [f])

/-- The function `parseYyFrames`. -/
def parseYyFrames (join : String → String → String) (sha : String → Option String)
    (yy : YY.Value) (spriteFolderPath : String) : Except FramesStop (List GMFrame) :=
  match asMap (some yy) with
  | none => .error (FramesStop.shape "root-element is not an object")
  | some frameData =>
    match asList (frameData.lookup "layers") with
    | none => .error (FramesStop.shape "$.layers was not a non-empty array")
    | some [] => .error (FramesStop.shape "$.layers was not a non-empty array")
    | some (layer0 :: layersRest) =>
      match asMap (some layer0) with
      | none => .error (FramesStop.shape "$.layers[0] was not an object")
      | some layer =>
        match asString (layer.lookup "name") with
        | none => .error (FramesStop.shape "$.layers[0].name was not a non-empty string")
        | some layerName =>
          if layerName = "" then
            .error (FramesStop.shape "$.layers[0].name was not a non-empty string")
          else
            match asList (frameData.lookup "frames") with
            | none => .error (FramesStop.shape "$.frames was not a non-empty array")
            | some [] => .error (FramesStop.shape "$.frames was not a non-empty array")
            | some (frame0 :: framesRest) =>
              parseFramesLoop join sha spriteFolderPath
                (decide ((layer0 :: layersRest).length > 1)) layerName 0
                (frame0 :: framesRest) []

/-! ### Notions used to state the properties of `parseYyFrames` -/

/-- An entry of `$.layers` or `$.frames` that is a mapping with a non-empty string `name`. -/
def NamedEntry (v : YY.Value) (name : String) : Prop :=
  ∃ kvs, v = YY.Value.map kvs ∧ kvs.lookup "name" = some (YY.Value.str name) ∧ name ≠ ""

/-- The key `key` of the mapping is missing, not a list, or an empty list. -/
def NoList (kvs : List (String × YY.Value)) (key : String) : Prop :=
  ∀ xs, kvs.lookup key = some (YY.Value.list xs) → xs = []

/-- The shape faults of a root value: the root is not a mapping; `$.layers` is missing, not a
list or empty; `$.layers[0]` is not a mapping with a non-empty string `name`; `$.frames` is
missing, not a list or empty; some `$.frames[i]` is not a mapping with a non-empty string
`name`. -/
def ShapeFault (yy : YY.Value) : Prop :=
  (∀ kvs, yy ≠ YY.Value.map kvs) ∨
  ∃ kvs, yy = YY.Value.map kvs ∧
    (NoList kvs "layers" ∨
     (∃ layer0 rest, kvs.lookup "layers" = some (YY.Value.list (layer0 :: rest)) ∧
        ∀ name, ¬ NamedEntry layer0 name) ∨
     NoList kvs "frames" ∨
     (∃ (frames : List YY.Value) (i : Nat) (f : YY.Value),
        kvs.lookup "frames" = some (YY.Value.list frames) ∧ frames[i]? = some f ∧
        ∀ name, ¬ NamedEntry f name))

/-- A join of a folder path and a file name, for examples. -/
def joinSlash (folder fileName : String) : String := folder ++ "/" ++ fileName

/-- A digest function for examples: every file can be read. -/
def shaDemo (filePath : String) : Option String := some ("sha:" ++ filePath)

/-- A descriptor with two frames and one layer. -/
def descriptorDemo : YY.Value :=
  YY.Value.map [("frames", YY.Value.list [YY.Value.map [("name", YY.Value.str "g0")],
      YY.Value.map [("name", YY.Value.str "g1")]]),
    ("layers", YY.Value.list [YY.Value.map [("name", YY.Value.str "layer")]])]

/-- The message of a shape error and the fault of the root value that it names. -/
def ShapeMessage (yy : YY.Value) (msg : String) : Prop :=
  (msg = "root-element is not an object" ∧ ∀ kvs, yy ≠ YY.Value.map kvs) ∨
  ∃ kvs, yy = YY.Value.map kvs ∧
    ((msg = "$.layers was not a non-empty array" ∧ NoList kvs "layers") ∨
     (∃ layer0 rest, kvs.lookup "layers" = some (YY.Value.list (layer0 :: rest)) ∧
        (∀ name, ¬ NamedEntry layer0 name) ∧
        ((msg = "$.layers[0] was not an object" ∧ ∀ lk, layer0 ≠ YY.Value.map lk) ∨
         (msg = "$.layers[0].name was not a non-empty string" ∧
            ∃ lk, layer0 = YY.Value.map lk))) ∨
     (msg = "$.frames was not a non-empty array" ∧ NoList kvs "frames") ∨
     (∃ (frames : List YY.Value) (i : Nat) (f : YY.Value),
        kvs.lookup "frames" = some (YY.Value.list frames) ∧ frames[i]? = some f ∧
        (∀ name, ¬ NamedEntry f name) ∧
        ((msg = "$.frames[" ++ toString i ++ "] was not an object" ∧
            ∀ fk, f ≠ YY.Value.map fk) ∨
         (msg = "$.frames[" ++ toString i ++ "] was not a non-empty string" ∧
            ∃ fk, f = YY.Value.map fk))))

/-- A descriptor whose second frame entry has no `name`. -/
def descriptorBad : YY.Value :=
  YY.Value.map [("frames", YY.Value.list [YY.Value.map [("name", YY.Value.str "g0")],
      YY.Value.map [("id", YY.Value.str "g1")]]),
    ("layers", YY.Value.list [YY.Value.map [("name", YY.Value.str "layer")]])]

/-- The two frames of `descriptorDemo` in the folder `dst/walk`. -/
def framesDemo : List GMFrame :=
  [{ FileName := "g0.png", Sha256 := "sha:dst/walk/g0.png", Guid := "g0",
     LayerFileName := "layer.png", UtilizesLayers := false },
   { FileName := "g1.png", Sha256 := "sha:dst/walk/g1.png", Guid := "g1",
     LayerFileName := "layer.png", UtilizesLayers := false }]

/-! ## Notions used to state further properties of `determineReImports` -/

/-- The instructions that the body of the sprite loop appends for one sprite: for a sprite of
several frames, those of the frames under the scheme found; for a sprite of one frame, the one
for the image named like the sprite; none when the search finds no scheme. -/
def spriteInstructions (src : SrcIndex) (s : GMSprite) : List GMFrameReImport :=
  if s.Frames.length > 1 then
    match chooseScheme src s.Name with
    | .ok st =>
      if st.chosenOptionIndex ≥ 0 then
        (List.range s.Frames.length).filterMap
          (expectedReImport src s (nameSepOf st) st.numDigits (biasOf st))
      else []
    | .error _ => []
  else if s.Frames.length = 1 then
    match src s.Name with
    | some imageSrc =>
      if imageSrc.Sha256 ≠ (s.Frames.getD 0 default).Sha256 then
        [{ Src := imageSrc, Dst := s, FrameIndex := 0 }]
      else []
    | none => []
  else []

/-- The result `o` written after the result `out`. -/
def Out.append (out o : Out) : Out :=
  { reImports := out.reImports ++ o.reImports, log := out.log ++ o.log }

/-- All frames of all sprites, in order: each sprite with its frame indices `0, 1, 2, ...`. -/
def allFrames (sprites : List GMSprite) : List (GMSprite × Nat) :=
  sprites.flatMap (fun s => (List.range s.Frames.length).map (fun i => (s, i)))

/-! ## The scan of the destination folder, `findGMSprites`

The outside world is a parameter: `join` is `filepath.Join` on a folder and a name, `readFile`
is `os.Open` followed by `io.ReadAll` (`none` when either fails), `sha` is `sha256File`, and
the entries that `os.ReadDir` returns are given as a list (`none` when it fails). -/

/-- What `os.ReadDir` tells of an entry: `Name()` and `IsDir()`. -/
structure DirEntry where
  Name : String
  IsDir : Bool
deriving DecidableEq, Repr

/-- The error of `yy.FromFile`: the file cannot be read, or `ParseYY` fails. -/
inductive FromFileError where
  | io
  | parse (e : YY.YYError)
deriving DecidableEq, Repr

/-- The function `yy.FromFile`. -/
def FromFile (readFile : String → Option (List Char)) (pf : String → Option YY.Float64)
    (filePath : String) : Except FromFileError YY.Value :=
  match readFile filePath with
  | none => .error FromFileError.io
  | some b =>
    match YY.ParseYY pf b with
    | .error e => .error (FromFileError.parse e)
    | .ok v => .ok v

/-- The `log.Fatalf` calls of `findGMSprites` (one of them inside `parseYyFrames`). -/
inductive SpritesFatal where
  | readDir (spritesPath : String)
  | read (yyPath : String) (err : FromFileError)
  | interpret (yyPath : String) (message : String)
  | sha256 (frameFilePath : String)
  | nonFolder (filePath : String)
deriving DecidableEq, Repr

/-- The `log.Printf` line of `findGMSprites`:
`WARN: Not considering sprite %#q for re-import because it uses layers ...`. -/
inductive DstLogLine where
  | notConsidering (sprite : String)
deriving DecidableEq, Repr

/-- The body of `for _, spriteInfo := range spriteInfos`. The loop over the frames stops at the
first frame with `UtilizesLayers`, so it logs at most once. -/
def findGMSpritesStep (join : String → String → String)
    (readFile : String → Option (List Char)) (sha : String → Option String)
    (pf : String → Option YY.Float64) (spritesPath : String) (params : Parameters)
    (acc : List GMSprite × List DstLogLine) (spriteInfo : DirEntry) :
    Except SpritesFatal (List GMSprite × List DstLogLine) :=
  if spriteInfo.IsDir then
    match FromFile readFile pf
        (join (join spritesPath spriteInfo.Name) (spriteInfo.Name ++ ".yy")) with
    | .error err =>
      .error (SpritesFatal.read
        (join (join spritesPath spriteInfo.Name) (spriteInfo.Name ++ ".yy")) err)
    | .ok spriteYY =>
      match parseYyFrames join sha spriteYY (join spritesPath spriteInfo.Name) with
      | .error (FramesStop.shape message) =>
        .error (SpritesFatal.interpret
          (join (join spritesPath spriteInfo.Name) (spriteInfo.Name ++ ".yy")) message)
      | .error (FramesStop.fatalSha256 frameFilePath) =>
        .error (SpritesFatal.sha256 frameFilePath)
      | .ok frames =>
        if frames.any (fun frame => frame.UtilizesLayers) then
          if !params.NoLogDstBad then
            .ok (acc.1, acc.2 ++ [DstLogLine.notConsidering spriteInfo.Name])
          else .ok acc
        else .ok (acc.1 ++ [{ Name := spriteInfo.Name, Frames := frames }], acc.2)
  else .error (SpritesFatal.nonFolder (join spritesPath spriteInfo.Name))

/-- The loop `for _, spriteInfo := range spriteInfos`. -/
def findGMSpritesLoop (join : String → String → String)
    (readFile : String → Option (List Char)) (sha : String → Option String)
    (pf : String → Option YY.Float64) (spritesPath : String) (params : Parameters) :
    List DirEntry → List GMSprite × List DstLogLine →
      Except SpritesFatal (List GMSprite × List DstLogLine)
  | [], acc => .ok acc
  | spriteInfo :: rest, acc =>
    match findGMSpritesStep join readFile sha pf spritesPath params acc spriteInfo with
    | .error e => .error e
    | .ok acc2 => findGMSpritesLoop join readFile sha pf spritesPath params rest acc2

/-- Model of `strings.Compare` on the bytes of two strings: `-1`, `0` or `+1` by lexicographic
order. -/
def stringsCompare : List Char → List Char → Int
  | [], [] => 0
  | [], _ :: _ => -1
  | _ :: _, [] => 1
  | a :: as, b :: bs =>
    if a.toNat < b.toNat then -1
    else if b.toNat < a.toNat then 1
    else stringsCompare as bs

/-- Model of `slices.SortFunc(sprites, ...)` with `strings.Compare` on the names: the sprites
in ascending order of their names. The names of the entries of one folder are distinct, so the
result does not depend on the sorting algorithm. -/
def sortByName (sprites : List GMSprite) : List GMSprite :=
  sprites.insertionSort (fun a b => stringsCompare a.Name.data b.Name.data ≤ 0)

/-- The function `findGMSprites`; `spriteInfos` is what `os.ReadDir(spritesPath)` returns. -/
def findGMSprites (join : String → String → String)
    (readFile : String → Option (List Char)) (sha : String → Option String)
    (pf : String → Option YY.Float64) (spriteInfos : Option (List DirEntry))
    (spritesPath : String) (params : Parameters) :
    Except SpritesFatal (List GMSprite × List DstLogLine) :=
  match spriteInfos with
  | none => .error (SpritesFatal.readDir spritesPath)
  | some infos =>
    match findGMSpritesLoop join readFile sha pf spritesPath params infos ([], []) with
    | .error e => .error e
    | .ok (sprites, log) => .ok (sortByName sprites, log)

/-- The descriptor has more than one layer. -/
def ManyLayers (yy : YY.Value) : Prop :=
  ∃ kvs layers, yy = YY.Value.map kvs ∧ kvs.lookup "layers" = some (YY.Value.list layers) ∧
    layers.length > 1

/-- The text of a descriptor with the given frame names and layer names, for examples. -/
def descriptorText (frames layers : String) : List Char :=
  ("\x7b\"frames\":[" ++ frames ++ "],\"layers\":[" ++ layers ++ "],\x7d").data

/-- The files of a destination folder `dst` with the sprites `idle` (one layer, one frame),
`walk` (one layer, two frames) and `boss` (two layers). -/
def readFileDemo (filePath : String) : Option (List Char) :=
  if filePath = "dst/walk/walk.yy" then
    some (descriptorText "\x7b\"name\":\"g0\"\x7d,\x7b\"name\":\"g1\"\x7d" "\x7b\"name\":\"layer\"\x7d")
  else if filePath = "dst/idle/idle.yy" then
    some (descriptorText "\x7b\"name\":\"i0\"\x7d" "\x7b\"name\":\"layer\"\x7d")
  else if filePath = "dst/boss/boss.yy" then
    some (descriptorText "\x7b\"name\":\"b0\"\x7d"
      "\x7b\"name\":\"top\"\x7d,\x7b\"name\":\"bottom\"\x7d")
  else none

/-- The entries of the folder `dst`, in an order that is not that of the names. -/
def dirDemo : List DirEntry :=
  [{ Name := "walk", IsDir := true }, { Name := "boss", IsDir := true },
   { Name := "idle", IsDir := true }]

/-- The sprite that `findGMSprites` builds from a folder entry: the descriptor of the entry is
read and interpreted, and none of its frames uses layers. -/
def SpriteOf (join : String → String → String) (readFile : String → Option (List Char))
    (sha : String → Option String) (pf : String → Option YY.Float64) (spritesPath : String)
    (spriteInfo : DirEntry) (s : GMSprite) : Prop :=
  spriteInfo.IsDir = true ∧ s.Name = spriteInfo.Name ∧
  (∃ yy, FromFile readFile pf
      (join (join spritesPath spriteInfo.Name) (spriteInfo.Name ++ ".yy")) = .ok yy ∧
    parseYyFrames join sha yy (join spritesPath spriteInfo.Name) = .ok s.Frames) ∧
  ∀ f ∈ s.Frames, f.UtilizesLayers = false

/-- A source index with images for all three sprites of the demo folder. -/
def srcDemo : SrcIndex :=
  srcOfList [("boss", "b"), ("idle", "i"), ("walk_0", "w0"), ("walk_1", "w1")]

/-- The sprites that `findGMSprites` returns for the demo folder. -/
def spritesDemo : List GMSprite :=
  [{ Name := "idle",
     Frames := [{ FileName := "i0.png", Sha256 := "sha:dst/idle/i0.png", Guid := "i0",
                  LayerFileName := "layer.png", UtilizesLayers := false }] },
   { Name := "walk", Frames := framesDemo }]

/-- The instructions of the demo run. -/
def reImportsDemo : List GMFrameReImport :=
  [{ Src := ⟨"idle.png", "src/idle.png", "i"⟩, Dst := spritesDemo.getD 0 default,
     FrameIndex := 0 },
   { Src := ⟨"walk_0.png", "src/walk_0.png", "w0"⟩, Dst := spritesDemo.getD 1 default,
     FrameIndex := 0 },
   { Src := ⟨"walk_1.png", "src/walk_1.png", "w1"⟩, Dst := spritesDemo.getD 1 default,
     FrameIndex := 1 }]

/-- The parameters of a run that logs nothing. -/
def quietParams : Parameters :=
  { SrcPath := "src", DstPath := "dst", IsDryRun := false, NoLogSrcMatch := true,
    NoLogSrcMiss := true, NoLogDstBad := true, NoLogCopy := true }

/-- A source index that holds images for the later frames of `walk` only. -/
def laterSrc : SrcIndex := srcOfList [("walk_2", "h2"), ("walk_3", "h3"), ("foo", "new")]

/-! ## The scan of the source tree, `findImportCandidates`

A readable directory tree is a value of `FsNode`: the entries that `os.ReadDir` returns for a
directory are the children of its node, and recursion into a sub-directory is recursion into
a child. The map `candidatesByName` is a list of entries with distinct keys. -/

/-- A file or a directory with its entries, each with the name `os.ReadDir` reports. -/
inductive FsNode where
  | file (name : String)
  | dir (name : String) (entries : List FsNode)

/-- The loop of `filepath.Ext` from the last byte down: `rev` holds the bytes not yet seen,
last byte first, and `seen` the bytes after them. -/
def extLoop : List Char → List Char → List Char
  | [], _ => []
  | c :: rev, seen =>
    if c = '/' then []
    else if c = '.' then '.' :: seen
    else extLoop rev (c :: seen)

/-- Model of `filepath.Ext`: the suffix of the path from the last dot of its last element, or
the empty string when that element has no dot. -/
def filepathExt (path : String) : String := String.mk (extLoop path.data.reverse [])

/-- Model of `strings.ToLower` on the extension: the ASCII letters are mapped to lower case.
`strings.ToLower` maps further code points, but none of them to a byte of `.png`, so the test
`ext == ".png"` has the same outcome. -/
def toLower (s : String) : String := String.mk (s.data.map Char.toLower)

/-- The slice `fileName[:len(fileName)-len(ext)]`. -/
def stripExt (fileName ext : String) : String :=
  String.mk (fileName.data.take (fileName.data.length - ext.data.length))

/-- The `log.Fatalf` calls of `findImportCandidates` below a readable tree. -/
inductive IndexFatal where
  | duplicate (filePath existingFilePath : String)
  | sha256 (filePath : String)
deriving DecidableEq, Repr

/-- The statement `candidatesByName[spriteName] = image` on the list of entries. -/
def candidatesSet :
    List (String × MasterImage) → String → MasterImage → List (String × MasterImage)
  | [], key, image => [(key, image)]
  | (k, v) :: rest, key, image =>
    if k = key then (key, image) :: rest else (k, v) :: candidatesSet rest key image

mutual
/-- The body of `for _, spriteInfo := range spriteInfos` for one entry of `spritesPath`. -/
def findImportCandidatesStep (join : String → String → String)
    (sha : String → Option String) (spritesPath : String) :
    FsNode → List (String × MasterImage) → Except IndexFatal (List (String × MasterImage))
  | FsNode.dir fileName entries, candidatesByName =>
    findImportCandidates join sha (join spritesPath fileName) entries candidatesByName
  | FsNode.file fileName, candidatesByName =>
    if toLower (filepathExt fileName) = ".png" then
      match candidatesByName.lookup (stripExt fileName (toLower (filepathExt fileName))) with
      | some existingSprite =>
        .error (IndexFatal.duplicate (join spritesPath fileName) existingSprite.FilePath)
      | none =>
        match sha (join spritesPath fileName) with
        | none => .error (IndexFatal.sha256 (join spritesPath fileName))
        | some sha256 =>
          .ok (candidatesSet candidatesByName
            (stripExt fileName (toLower (filepathExt fileName)))
            { SpriteName := fileName, FilePath := join spritesPath fileName,
              Sha256 := sha256 })
    else .ok candidatesByName
/-- The function `findImportCandidates` on the entries of the directory `spritesPath`. -/
def findImportCandidates (join : String → String → String) (sha : String → Option String)
    (spritesPath : String) :
    List FsNode → List (String × MasterImage) → Except IndexFatal (List (String × MasterImage))
  | [], candidatesByName => .ok candidatesByName
  | spriteInfo :: rest, candidatesByName =>
    match findImportCandidatesStep join sha spritesPath spriteInfo candidatesByName with
    | .error e => .error e
    | .ok candidatesByName2 => findImportCandidates join sha spritesPath rest candidatesByName2
end

/-- The source index that `determineReImports` reads from the map. -/
def indexOf (candidatesByName : List (String × MasterImage)) : SrcIndex :=
  fun key => candidatesByName.lookup key

mutual
/-- The files of a node whose extension is `.png` in any case, in the order of the scan, each
with its name and its path. -/
def pngFilesOf (join : String → String → String) (spritesPath : String) :
    FsNode → List (String × String)
  | FsNode.dir fileName entries => pngFiles join (join spritesPath fileName) entries
  | FsNode.file fileName =>
    if toLower (filepathExt fileName) = ".png" then [(fileName, join spritesPath fileName)]
    else []
/-- The files of the entries of a directory whose extension is `.png` in any case. -/
def pngFiles (join : String → String → String) (spritesPath : String) :
    List FsNode → List (String × String)
  | [] => []
  | spriteInfo :: rest =>
    pngFilesOf join spritesPath spriteInfo ++ pngFiles join spritesPath rest
end

/-- The key of a file: its name with the extension stripped. -/
def keyOf (file : String × String) : String :=
  stripExt file.1 (toLower (filepathExt file.1))

/-- The entry of the map for a file. -/
def entryOf (sha : String → Option String) (file : String × String) :
    String × MasterImage :=
  (keyOf file, { SpriteName := file.1, FilePath := file.2, Sha256 := (sha file.2).getD "" })

/-- A source tree with `a/x.png` and `b/x.PNG`. -/
def treeTwice : List FsNode :=
  [FsNode.dir "a" [FsNode.file "x.png", FsNode.file "notes.txt"],
   FsNode.dir "b" [FsNode.file "x.PNG"]]

/-- A source tree without two images of the same name. -/
def treeOnce : List FsNode :=
  [FsNode.dir "a" [FsNode.file "x.png", FsNode.file "notes.txt"],
   FsNode.dir "b" [FsNode.file "y.PNG", FsNode.dir "c" []], FsNode.file "z.tar.png"]

/-- What the scan of a list of entries returns, in terms of the `.png` files below them. -/
def ScanResult (sha : String → Option String) (acc : List (String × MasterImage))
    (files : List (String × String))
    (result : Except IndexFatal (List (String × MasterImage))) : Prop :=
  ((acc.map Prod.fst ++ files.map keyOf).Nodup →
    result = .ok (acc ++ files.map (entryOf sha))) ∧
  (¬ (acc.map Prod.fst ++ files.map keyOf).Nodup →
    ∃ file ∈ files, ∃ kv ∈ acc ++ files.map (entryOf sha), kv.1 = keyOf file ∧
      result = .error (IndexFatal.duplicate file.2 kv.2.FilePath))

/-! ## The copy loop and the summary of `main`

`copyOk fromFilePath toFilePath` tells whether `copyFile` succeeds; `filepath.Join` of more
than two elements is the repeated `join`. -/

/-- The `log.Printf` lines of `main` and `copyFileL`. -/
inductive MainLogLine where
  | wouldCopy (fromFilePath toFilePath1 toFilePath2 : String)
  | copied (fromFilePath toFilePath : String)
  | wouldHaveUpdated (numFramesTouched numSpritesTouched : Nat)
  | updated (numFramesTouched numSpritesTouched : Nat)
deriving DecidableEq, Repr

/-- How the copy loop of `main` stops early: with the run-time panic of an index out of range
in `reImport.Dst.Frames[reImport.FrameIndex]`, or in a `log.Fatalf` of `copyFile`. -/
inductive MainStop where
  | indexOutOfRange
  | copyFailed (fromFilePath toFilePath : String)
deriving DecidableEq, Repr

/-- The two counters of `main`, its log lines, and the copies made. -/
structure MainState where
  numSpritesTouched : Nat
  numFramesTouched : Nat
  log : List MainLogLine
  copies : List (String × String)
deriving DecidableEq, Repr

/-- The function `copyFileL`. -/
def copyFileL (copyOk : String → String → Bool) (fromFilePath toFilePath : String)
    (writeLog : Bool) (st : MainState) : Except MainStop MainState :=
  if copyOk fromFilePath toFilePath then
    .ok { st with
      copies := st.copies ++ [(fromFilePath, toFilePath)],
      log := if writeLog then st.log ++ [MainLogLine.copied fromFilePath toFilePath]
             else st.log }
  else .error (MainStop.copyFailed fromFilePath toFilePath)

/-- The body of `for _, reImport := range reImports` in `main`. -/
def mainStep (join : String → String → String) (copyOk : String → String → Bool)
    (params : Parameters) (st : MainState) (reImport : GMFrameReImport) :
    Except MainStop MainState :=
  match reImport.Dst.Frames[reImport.FrameIndex]? with
  | none => .error MainStop.indexOutOfRange
  | some frame =>
    if params.IsDryRun then
      .ok { numSpritesTouched :=
              if reImport.FrameIndex = 0 then st.numSpritesTouched + 1
              else st.numSpritesTouched,
            numFramesTouched := st.numFramesTouched + 1,
            copies := st.copies,
            log :=
              if !params.NoLogCopy then
                st.log ++ [MainLogLine.wouldCopy reImport.Src.FilePath
                  (join (join params.DstPath reImport.Dst.Name) frame.FileName)
                  (join (join (join (join params.DstPath reImport.Dst.Name) "layers")
                    frame.Guid) frame.LayerFileName)]
              else st.log }
    else
      match copyFileL copyOk reImport.Src.FilePath
          (join (join params.DstPath reImport.Dst.Name) frame.FileName) (!params.NoLogCopy)
          { st with
            numSpritesTouched :=
              if reImport.FrameIndex = 0 then st.numSpritesTouched + 1
              else st.numSpritesTouched,
            numFramesTouched := st.numFramesTouched + 1 } with
      | .error e => .error e
      | .ok st2 =>
        copyFileL copyOk reImport.Src.FilePath
          (join (join (join (join params.DstPath reImport.Dst.Name) "layers") frame.Guid)
            frame.LayerFileName) (!params.NoLogCopy) st2

/-- The loop `for _, reImport := range reImports` of `main`. -/
def mainLoop (join : String → String → String) (copyOk : String → String → Bool)
    (params : Parameters) : List GMFrameReImport → MainState → Except MainStop MainState
  | [], st => .ok st
  | reImport :: rest, st =>
    match mainStep join copyOk params st reImport with
    | .error e => .error e
    | .ok st2 => mainLoop join copyOk params rest st2

/-- The part of `main` after the call of `determineReImports`: the counters start at zero, the
loop runs, and the summary line is logged. -/
def mainReport (join : String → String → String) (copyOk : String → String → Bool)
    (params : Parameters) (reImports : List GMFrameReImport) : Except MainStop MainState :=
  match mainLoop join copyOk params reImports
      { numSpritesTouched := 0, numFramesTouched := 0, log := [], copies := [] } with
  | .error e => .error e
  | .ok st =>
    .ok { st with
      log := st.log ++
        [if params.IsDryRun then
           MainLogLine.wouldHaveUpdated st.numFramesTouched st.numSpritesTouched
         else MainLogLine.updated st.numFramesTouched st.numSpritesTouched] }

/-- A source index in which the image of frame 0 of `run` has the hash of that frame and the
image of frame 1 has a new hash. -/
def runSrc : SrcIndex := srcOfList [("run_0", "h0"), ("run_1", "new")]

/-- A sprite `run` of two frames. -/
def runSprite : GMSprite := { Name := "run", Frames := [frameOfHash "h0", frameOfHash "h1"] }

/-- The one instruction of the run on `runSrc` and `runSprite`: frame 1 is reimported. -/
def runReImports : List GMFrameReImport :=
  [{ Src := ⟨"run_1.png", "src/run_1.png", "new"⟩, Dst := runSprite, FrameIndex := 1 }]

/-- The parameters of a quiet dry run. -/
def dryParams : Parameters := { quietParams with IsDryRun := true }

/-! ### What the source index has to hold

The notions below say which files are images and what their keys are without the functions
of the scan: a file is an image when its name ends in `.png` written in any case, and its key
is what stands before these four bytes. -/

/-- The extension `.png` in each way of writing its letters in upper or lower case. -/
def pngExtensions : List (List Char) :=
  [['.', 'p', 'n', 'g'], ['.', 'p', 'n', 'G'], ['.', 'p', 'N', 'g'], ['.', 'p', 'N', 'G'],
   ['.', 'P', 'n', 'g'], ['.', 'P', 'n', 'G'], ['.', 'P', 'N', 'g'], ['.', 'P', 'N', 'G']]

/-- The file name is `stem` followed by the extension `.png` in some case. -/
def PngName (fileName stem : String) : Prop :=
  ∃ e ∈ pngExtensions, fileName.data = stem.data ++ e

/-- The file name ends in the extension `.png` in some case. -/
def IsPngName (fileName : String) : Prop :=
  ∃ e ∈ pngExtensions, e <:+ fileName.data

instance (fileName : String) : Decidable (IsPngName fileName) := by
  unfold IsPngName; exact inferInstance

mutual
/-- The files below a node, in the order of the scan, each with its name and its path: the
path of an entry is the path of its directory joined with its name. -/
def allFilesOf (join : String → String → String) (spritesPath : String) :
    FsNode → List (String × String)
  | FsNode.dir fileName entries => allFiles join (join spritesPath fileName) entries
  | FsNode.file fileName => [(fileName, join spritesPath fileName)]
/-- The files below the entries of a directory. -/
def allFiles (join : String → String → String) (spritesPath : String) :
    List FsNode → List (String × String)
  | [] => []
  | spriteInfo :: rest =>
    allFilesOf join spritesPath spriteInfo ++ allFiles join spritesPath rest
end

/-- The images among the files below the entries of a directory. -/
def imageFiles (join : String → String → String) (spritesPath : String)
    (tree : List FsNode) : List (String × String) :=
  (allFiles join spritesPath tree).filter (fun file => decide (IsPngName file.1))

namespace YY

/-! ## The reader with its reads made explicit

A second embedding of `yy/read.go`, in which every index expression `r.b[i]` and every slice
expression `r.b[lo:hi]` is a read that can fail: `none` stands for the run-time panic of an
index or slice bound out of range. The functions are those of the embedding above, method by
method, with the reads at the places where the source has them. -/

namespace Checked

/-- The index expression `r.b[i]`. -/
def readByte (b : List Char) (i : Nat) : Option Char := b[i]?

/-- The slice expression `r.b[lo:hi]`, checked against the length of the buffer. -/
def slice (b : List Char) (lo hi : Nat) : Option (List Char) :=
  if lo ≤ hi ∧ hi ≤ b.length then some ((b.drop lo).take (hi - lo)) else none

/-- The method `advance`. -/
def advance (b : List Char) : Nat → Reader → Option Reader
  | 0, r => some r
  | amount + 1, r =>
    if r.p ≥ b.length then some r
    else
      match readByte b r.p with
      | none => none
      | some c => advance b amount (r.step c)

/-- The loop of `skipWhitespace`. -/
def skipWhitespaceLoop (b : List Char) : Nat → Reader → Option Reader
  | 0, r => some r
  | fuel + 1, r =>
    if r.p < b.length then
      match readByte b r.p with
      | none => none
      | some c => if isWhitespace c then skipWhitespaceLoop b fuel (r.step c) else some r
    else some r

/-- The method `skipWhitespace`. -/
def skipWhitespace (b : List Char) (r : Reader) : Option Reader :=
  skipWhitespaceLoop b (b.length - r.p) r

/-- The method `parseLiteral`: the test `litLen > r.l-r.p` is on signed integers and comes
before the slice is taken. -/
def parseLiteral (b : List Char) (literal : List Char) (r : Reader) :
    Option (Except YYError Reader) :=
  if (literal.length : Int) > (b.length : Int) - (r.p : Int) then
    some (.error (YYError.unexpectedLiteral r.lineNumber r.columnNumber (String.mk literal)))
  else
    match slice b r.p (r.p + literal.length) with
    | none => none
    | some s =>
      if literal ≠ s then
        some (.error
          (YYError.unexpectedLiteral r.lineNumber r.columnNumber (String.mk literal)))
      else
        match advance b literal.length r with
        | none => none
        | some r1 => some (.ok r1)

/-- The scanning loop of `parseString`. -/
def scanString (b : List Char) (r : Reader) : Nat → Nat → Option (Except YYError Nat)
  | 0, numBytes => some (.ok numBytes)
  | fuel + 1, numBytes =>
    if r.p + numBytes < b.length then
      match readByte b (r.p + numBytes) with
      | none => none
      | some c =>
        if c = '"' then some (.ok numBytes)
        else if c = '\\' then
          some (.error (YYError.backslashInString r.lineNumber r.columnNumber))
        else scanString b r fuel (numBytes + 1)
    else some (.ok numBytes)

/-- The method `parseString`. -/
def parseString (b : List Char) (r : Reader) : Option (Except YYError (String × Reader)) :=
  match parseLiteral b ['"'] r with
  | none => none
  | some (.error _) => some (.error (YYError.expectedString r.lineNumber r.columnNumber))
  | some (.ok r1) =>
    match scanString b r1 (b.length - r1.p) 0 with
    | none => none
    | some (.error e) => some (.error e)
    | some (.ok numBytes) =>
      match slice b r1.p (r1.p + numBytes) with
      | none => none
      | some s =>
        match advance b numBytes r1 with
        | none => none
        | some r2 =>
          match parseLiteral b ['"'] r2 with
          | none => none
          | some (.error _) =>
            some (.error (YYError.expectedEndOfString r2.lineNumber r2.columnNumber))
          | some (.ok r3) => some (.ok (String.mk s, r3))

/-- The scanning loop of `parseNumber`. -/
def scanNumber (b : List Char) (r : Reader) : Nat → Bool → Nat → Option (Bool × Nat)
  | 0, isFloat, numBytes => some (isFloat, numBytes)
  | fuel + 1, isFloat, numBytes =>
    if r.p + numBytes < b.length then
      match readByte b (r.p + numBytes) with
      | none => none
      | some c =>
        if numBytes = 0 ∧ (c = '-' ∨ c = '+') then scanNumber b r fuel isFloat (numBytes + 1)
        else if c = '.' ∨ c = 'e' ∨ c = 'E' then scanNumber b r fuel true (numBytes + 1)
        else if isDigit c then scanNumber b r fuel isFloat (numBytes + 1)
        else some (isFloat, numBytes)
    else some (isFloat, numBytes)

/-- The method `parseNumber`. -/
def parseNumber (pf : String → Option Float64) (b : List Char) (r : Reader) :
    Option (Except YYError (Value × Reader)) :=
  if r.p ≥ b.length then some (.error YYError.eofNumber)
  else
    match scanNumber b r (b.length - r.p) false 0 with
    | none => none
    | some scan =>
      match slice b r.p (r.p + scan.2) with
      | none => none
      | some s =>
        match (if scan.1 then (pf (String.mk s)).map Value.float
               else (strconvParseInt (String.mk s)).map Value.int) with
        | none => some (.error (YYError.couldNotParseNumber r.lineNumber r.columnNumber))
        | some v =>
          match advance b scan.2 r with
          | none => none
          | some r1 => some (.ok (v, r1))

/-- The method `parseBoolean`. -/
def parseBoolean (b : List Char) (r : Reader) : Option (Except YYError (Value × Reader)) :=
  if r.p ≥ b.length then some (.error YYError.eofBoolean)
  else
    match readByte b r.p with
    | none => none
    | some c =>
      if c = 't' then
        match parseLiteral b trueLiteral r with
        | none => none
        | some (.error e) => some (.error e)
        | some (.ok r1) => some (.ok (Value.bool true, r1))
      else
        match parseLiteral b falseLiteral r with
        | none => none
        | some (.error e) => some (.error e)
        | some (.ok r1) => some (.ok (Value.bool false, r1))

/-- The method `parseNull`. -/
def parseNull (b : List Char) (r : Reader) : Option (Except YYError (Value × Reader)) :=
  match parseLiteral b nullLiteral r with
  | none => none
  | some (.error e) => some (.error e)
  | some (.ok r1) => some (.ok (Value.null, r1))

/-- The start of an iteration of the loops of `parseArray` and `parseObject`. -/
def skipComma (b : List Char) (eof : YYError) (r : Reader) : Option (Except YYError Reader) :=
  match skipWhitespace b r with
  | none => none
  | some r1 =>
    if r1.p ≥ b.length then some (.error eof)
    else
      match readByte b r1.p with
      | none => none
      | some c =>
        if c = ',' then
          match advance b 1 r1 with
          | none => none
          | some r2 =>
            match skipWhitespace b r2 with
            | none => none
            | some r3 => if r3.p ≥ b.length then some (.error eof) else some (.ok r3)
        else some (.ok r1)

/-- The `for` loop of `parseArray`; `pv` is `parseValue`. -/
def parseArrayLoop (b : List Char)
    (pv : Reader → Option (Except YYError (Value × Reader))) :
    Nat → Reader → List Value → Option (Except YYError (List Value × Reader))
  | 0, _, _ => some (.error YYError.outOfFuel)
  | fuel + 1, r, arr =>
    match skipComma b YYError.eofArray r with
    | none => none
    | some (.error e) => some (.error e)
    | some (.ok r1) =>
      match readByte b r1.p with
      | none => none
      | some c =>
        if c = ']' then some (.ok (arr, r1))
        else
          match pv r1 with
          | none => none
          | some (.error e) => some (.error e)
          | some (.ok (v, r2)) => parseArrayLoop b pv fuel r2 (arr ++ [v])

/-- The method `parseArray`; `pv` is `parseValue`. -/
def parseArray (b : List Char) (pv : Reader → Option (Except YYError (Value × Reader)))
    (r : Reader) : Option (Except YYError (Value × Reader)) :=
  match parseLiteral b ['['] r with
  | none => none
  | some (.error _) => some (.error (YYError.expectedOpenBracket r.lineNumber r.columnNumber))
  | some (.ok r1) =>
    match parseArrayLoop b pv (b.length - r1.p + 1) r1 [] with
    | none => none
    | some (.error e) => some (.error e)
    | some (.ok (arr, r2)) =>
      match parseLiteral b [']'] r2 with
      | none => none
      | some (.error e) => some (.error e)
      | some (.ok r3) => some (.ok (Value.list arr, r3))

/-- The `for` loop of `parseObject`; `pv` is `parseValue`. -/
def parseObjectLoop (b : List Char)
    (pv : Reader → Option (Except YYError (Value × Reader))) :
    Nat → Reader → List (String × Value) →
      Option (Except YYError (List (String × Value) × Reader))
  | 0, _, _ => some (.error YYError.outOfFuel)
  | fuel + 1, r, keyValues =>
    match skipComma b YYError.eofObject r with
    | none => none
    | some (.error e) => some (.error e)
    | some (.ok r1) =>
      match readByte b r1.p with
      | none => none
      | some c =>
        if c = '}' then some (.ok (keyValues, r1))
        else
          match parseString b r1 with
          | none => none
          | some (.error e) => some (.error e)
          | some (.ok (key, r2)) =>
            match skipWhitespace b r2 with
            | none => none
            | some r2w =>
              match parseLiteral b [':'] r2w with
              | none => none
              | some (.error e) => some (.error e)
              | some (.ok r3) =>
                match skipWhitespace b r3 with
                | none => none
                | some r3w =>
                  match pv r3w with
                  | none => none
                  | some (.error e) => some (.error e)
                  | some (.ok (value, r4)) =>
                    parseObjectLoop b pv fuel r4 (mapSet keyValues key value)

/-- The method `parseObject`; `pv` is `parseValue`. -/
def parseObject (b : List Char) (pv : Reader → Option (Except YYError (Value × Reader)))
    (r : Reader) : Option (Except YYError (Value × Reader)) :=
  match parseLiteral b ['{'] r with
  | none => none
  | some (.error _) => some (.error (YYError.expectedOpenBrace r.lineNumber r.columnNumber))
  | some (.ok r1) =>
    match parseObjectLoop b pv (b.length - r1.p + 1) r1 [] with
    | none => none
    | some (.error e) => some (.error e)
    | some (.ok (keyValues, r2)) =>
      match parseLiteral b ['}'] r2 with
      | none => none
      | some (.error e) => some (.error e)
      | some (.ok r3) => some (.ok (Value.map keyValues, r3))

/-- The method `parseValue`; the bound counts the nesting of calls. -/
def parseValue (pf : String → Option Float64) (b : List Char) :
    Nat → Reader → Option (Except YYError (Value × Reader))
  | 0 => fun _ => some (.error YYError.outOfFuel)
  | fuel + 1 => fun r =>
    if r.p ≥ b.length then some (.error YYError.eofValue)
    else
      match readByte b r.p with
      | none => none
      | some token =>
        if token = '[' then parseArray b (parseValue pf b fuel) r
        else if token = '{' then parseObject b (parseValue pf b fuel) r
        else if token = '"' then
          match parseString b r with
          | none => none
          | some (.error e) => some (.error e)
          | some (.ok (s, r1)) => some (.ok (Value.str s, r1))
        else if isNumberStart token then parseNumber pf b r
        else if token = 't' ∨ token = 'f' then parseBoolean b r
        else if token = 'n' then parseNull b r
        else some (.error (YYError.unexpectedSymbolValue r.lineNumber r.columnNumber))

/-- The method `ParseYY`. -/
def ParseYY (pf : String → Option Float64) (b : List Char) : Option (Except YYError Value) :=
  match skipWhitespace b Reader.start with
  | none => none
  | some r =>
    match parseValue pf b (b.length + 1) r with
    | none => none
    | some (.error e) => some (.error e)
    | some (.ok (v, r1)) =>
      match skipWhitespace b r1 with
      | none => none
      | some r2 =>
        if r2.p ≠ b.length then
          some (.error (YYError.extraContent r2.lineNumber r2.columnNumber))
        else some (.ok v)

end Checked

end YY
/-! ## Lemmas on the first-frame search -/

theorem chooseStep_absent (src : SrcIndex) (name : String) (st : Scheme) (i : Nat)
    (option : String) (h : src option = none) : chooseStep src name st i option = .ok st := by
  simp [chooseStep, h]

theorem chooseStep_first (src : SrcIndex) (name : String) (st : Scheme) (i : Nat)
    (option : String) (img : MasterImage) (h : src option = some img)
    (hc : st.chosenOptionIndex < 0) :
    chooseStep src name st i option = .ok (Scheme.ofIndex i) := by
  have : ¬ st.chosenOptionIndex ≥ 0 := by omega
  simp [chooseStep, h, this, Scheme.ofIndex]

theorem chooseStep_again (src : SrcIndex) (name : String) (st : Scheme) (i : Nat)
    (option : String) (img : MasterImage) (h : src option = some img)
    (hc : 0 ≤ st.chosenOptionIndex) :
    chooseStep src name st i option =
      if Tolerated st.chosenOptionIndex i then .ok st
      else .error (Fatal.multipleOptions name
          (filePathOf src ((optionsFirstFrame name).getD st.chosenOptionIndex.toNat ""))
          img.FilePath) := by
  have h8 : (2 : Int) * ((numDigitVariants : Nat) : Int) = 8 := by simp [numDigitVariants]
  have h8n : 2 * numDigitVariants = 8 := by simp [numDigitVariants]
  simp only [chooseStep, h, ge_iff_le, hc, if_true, h8, h8n, Tolerated]

/-- Once an option is chosen, the rest of the search either keeps the scheme (every further
present option is tolerated) or stops at the first present option that is not tolerated. -/
theorem chooseLoop_chosen (src : SrcIndex) (name : String) :
    ∀ (rest : List String) (i : Nat) (st : Scheme), 0 ≤ st.chosenOptionIndex →
      (chooseLoop src name i rest st = .ok st ∧
        ∀ k opt, rest[k]? = some opt → src opt ≠ none → Tolerated st.chosenOptionIndex (i + k)) ∨
      (∃ k opt img, rest[k]? = some opt ∧ src opt = some img ∧
        ¬ Tolerated st.chosenOptionIndex (i + k) ∧
        chooseLoop src name i rest st = .error (Fatal.multipleOptions name
          (filePathOf src ((optionsFirstFrame name).getD st.chosenOptionIndex.toNat ""))
          img.FilePath)) := by
  intro rest
  induction rest with
  | nil => intro i st _; left; simp [chooseLoop]
  | cons option rest ih =>
    intro i st hc
    cases hs : src option with
    | none =>
      rcases ih (i + 1) st hc with ⟨h1, h2⟩ | ⟨k, opt, img, h1, h2, h3, h4⟩
      · left
        refine ⟨by simp [chooseLoop, chooseStep_absent _ _ _ _ _ hs, h1], ?_⟩
        intro k opt hk hp
        cases k with
        | zero => simp at hk; subst hk; exact absurd hs hp
        | succ k =>
          have := h2 k opt (by simpa using hk) hp
          rwa [show i + (k + 1) = i + 1 + k by omega]
      · right
        refine ⟨k + 1, opt, img, by simpa using h1, h2, ?_, ?_⟩
        · rwa [show i + (k + 1) = i + 1 + k by omega]
        · simp [chooseLoop, chooseStep_absent _ _ _ _ _ hs, h4]
    | some img0 =>
      by_cases ht : Tolerated st.chosenOptionIndex i
      · have hstep : chooseStep src name st i option = .ok st := by
          rw [chooseStep_again _ _ _ _ _ _ hs hc, if_pos ht]
        rcases ih (i + 1) st hc with ⟨h1, h2⟩ | ⟨k, opt, img, h1, h2, h3, h4⟩
        · left
          refine ⟨by simp [chooseLoop, hstep, h1], ?_⟩
          intro k opt hk hp
          cases k with
          | zero => simpa using ht
          | succ k =>
            have := h2 k opt (by simpa using hk) hp
            rwa [show i + (k + 1) = i + 1 + k by omega]
        · right
          refine ⟨k + 1, opt, img, by simpa using h1, h2, ?_, ?_⟩
          · rwa [show i + (k + 1) = i + 1 + k by omega]
          · simp [chooseLoop, hstep, h4]
      · right
        refine ⟨0, option, img0, by simp, hs, by simpa using ht, ?_⟩
        simp [chooseLoop, chooseStep_again _ _ _ _ _ _ hs hc, ht]

/-- Before any option is chosen, the search either finds nothing or chooses the first present
option and goes on from there. -/
theorem chooseLoop_unchosen (src : SrcIndex) (name : String) :
    ∀ (rest : List String) (i : Nat) (st : Scheme), st.chosenOptionIndex < 0 →
      (chooseLoop src name i rest st = .ok st ∧ ∀ (k : Nat) opt, rest[k]? = some opt → src opt = none) ∨
      (∃ k opt img, rest[k]? = some opt ∧ src opt = some img ∧
        (∀ (j : Nat) opt2, j < k → rest[j]? = some opt2 → src opt2 = none) ∧
        chooseLoop src name i rest st =
          chooseLoop src name (i + k + 1) (rest.drop (k + 1)) (Scheme.ofIndex (i + k))) := by
  intro rest
  induction rest with
  | nil => intro i st _; left; simp [chooseLoop]
  | cons option rest ih =>
    intro i st hc
    cases hs : src option with
    | none =>
      rcases ih (i + 1) st hc with ⟨h1, h2⟩ | ⟨k, opt, img, h1, h2, h3, h4⟩
      · left
        refine ⟨by simp [chooseLoop, chooseStep_absent _ _ _ _ _ hs, h1], ?_⟩
        intro k opt hk
        cases k with
        | zero => simp at hk; subst hk; exact hs
        | succ k => exact h2 k opt (by simpa using hk)
      · right
        refine ⟨k + 1, opt, img, by simpa using h1, h2, ?_, ?_⟩
        · intro j opt' hj hget
          cases j with
          | zero => simp at hget; subst hget; exact hs
          | succ j => exact h3 j opt' (by omega) (by simpa using hget)
        · simp only [chooseLoop, chooseStep_absent _ _ _ _ _ hs, h4, List.drop_succ_cons]
          rw [show i + 1 + k + 1 = i + (k + 1) + 1 by omega, show i + 1 + k = i + (k + 1) by omega]
    | some img0 =>
      right
      refine ⟨0, option, img0, by simp, hs, by intro j _ hj; omega, ?_⟩
      simp [chooseLoop, chooseStep_first _ _ _ _ _ _ hs hc]


theorem frameStep_reImports (src : SrcIndex) (params : Parameters) (spriteDst : GMSprite)
    (nameSep : String) (numDigits bias : Nat) (out : Out) (i : Nat) :
    (frameStep src params spriteDst nameSep numDigits bias out i).reImports =
      out.reImports ++ (expectedReImport src spriteDst nameSep numDigits bias i).toList := by
  unfold frameStep expectedReImport srcImageName
  rw [String.append_assoc spriteDst.Name nameSep]
  generalize src (spriteDst.Name ++ (nameSep ++ zeroPadded (i + bias) numDigits)) = r
  cases r with
  | none => simp only []; split <;> simp
  | some img =>
    simp only []
    by_cases h : img.Sha256 = (spriteDst.Frames.getD i default).Sha256
    · simp only [ne_eq, h, not_true_eq_false, if_false]; split <;> simp
    · simp only [ne_eq, h, not_false_eq_true, if_true]; simp

theorem frameLoop_reImports (src : SrcIndex) (params : Parameters) (spriteDst : GMSprite)
    (nameSep : String) (numDigits bias : Nat) :
    ∀ (idx : List Nat) (out : Out),
      (idx.foldl (frameStep src params spriteDst nameSep numDigits bias) out).reImports =
        out.reImports ++ idx.filterMap (expectedReImport src spriteDst nameSep numDigits bias) := by
  intro idx
  induction idx with
  | nil => intro out; simp
  | cons i idx ih =>
    intro out
    rw [List.foldl_cons, ih, frameStep_reImports]
    cases h : expectedReImport src spriteDst nameSep numDigits bias i <;>
      simp [List.filterMap_cons, h]

/-- Option `c` of the list is the expected key of frame 0 under the scheme of `c`. -/
theorem option_eq_firstKey (name : String) (c : Nat) (hc : c < 16) :
    (optionsFirstFrame name).getD c "" =
      name ++ nameSepOf (Scheme.ofIndex c)
        ++ zeroPadded (0 + biasOf (Scheme.ofIndex c)) (Scheme.ofIndex c).numDigits := by
  have e1 : zeroPadded 0 4 = "0000" := by decide
  have e2 : zeroPadded 0 3 = "000" := by decide
  have e3 : zeroPadded 0 2 = "00" := by decide
  have e4 : zeroPadded 0 1 = "0" := by decide
  have f1 : zeroPadded 1 4 = "0001" := by decide
  have f2 : zeroPadded 1 3 = "001" := by decide
  have f3 : zeroPadded 1 2 = "01" := by decide
  have f4 : zeroPadded 1 1 = "1" := by decide
  have u1 : "_" ++ "0000" = "_0000" := by decide
  have u2 : "_" ++ "000" = "_000" := by decide
  have u3 : "_" ++ "00" = "_00" := by decide
  have u4 : "_" ++ "0" = "_0" := by decide
  have v1 : "_" ++ "0001" = "_0001" := by decide
  have v2 : "_" ++ "001" = "_001" := by decide
  have v3 : "_" ++ "01" = "_01" := by decide
  have v4 : "_" ++ "1" = "_1" := by decide
  interval_cases c <;>
    simp [optionsFirstFrame, nameSepOf, biasOf, Scheme.ofIndex, numDigitVariants, String.append_assoc,
      e1, e2, e3, e4, f1, f2, f3, f4, u1, u2, u3, u4, v1, v2, v3, v4]

/-- What a finished search returns: nothing chosen and no option present, or the scheme of the
first present option. -/
theorem chooseScheme_ok (src : SrcIndex) (name : String) (st : Scheme)
    (h : chooseScheme src name = .ok st) :
    (st = Scheme.init ∧ ∀ j, j < 16 → ¬ optionPresent src name j) ∨
    (∃ c, c < 16 ∧ st = Scheme.ofIndex c ∧ optionPresent src name c ∧
      ∀ j, j < c → ¬ optionPresent src name j) := by
  unfold chooseScheme at h
  have hlen : (optionsFirstFrame name).length = 16 := by simp [optionsFirstFrame]
  rcases chooseLoop_unchosen src name (optionsFirstFrame name) 0 Scheme.init (by decide) with
    ⟨h1, h2⟩ | ⟨k, opt, img, h1, h2, h3, h4⟩
  · left
    rw [h1] at h
    refine ⟨by injection h with h; exact h.symm, ?_⟩
    intro j hj hp
    apply hp
    have : (optionsFirstFrame name)[j]? = some ((optionsFirstFrame name).getD j "") := by
      rw [List.getD_eq_getElem?_getD, List.getElem?_eq_getElem (by omega)]; simp
    exact h2 j _ this
  · right
    have hk : k < 16 := by
      have := (List.getElem?_eq_some_iff.mp h1).1
      omega
    have hget : ∀ j opt', (optionsFirstFrame name)[j]? = some opt' →
        (optionsFirstFrame name).getD j "" = opt' := by
      intro j opt' hj
      rw [List.getD_eq_getElem?_getD, hj]; rfl
    rw [h4] at h
    rcases chooseLoop_chosen src name ((optionsFirstFrame name).drop (k + 1)) (0 + k + 1)
      (Scheme.ofIndex (0 + k)) (by simp [Scheme.ofIndex]) with ⟨g1, _⟩ | ⟨_, _, _, _, _, _, g4⟩
    · rw [g1] at h
      refine ⟨k, hk, ?_, ?_, ?_⟩
      · injection h with h; rw [← h]; simp
      · unfold optionPresent; rw [hget k opt h1, h2]; simp
      · intro j hj hp
        apply hp
        have : (optionsFirstFrame name)[j]? = some ((optionsFirstFrame name).getD j "") := by
          rw [List.getD_eq_getElem?_getD, List.getElem?_eq_getElem (by omega)]; simp
        exact h3 j _ hj this
    · rw [g4] at h; cases h

theorem getD_option (name : String) (j : Nat) (hj : j < 16) :
    (optionsFirstFrame name)[j]? = some ((optionsFirstFrame name).getD j "") := by
  have hlen : (optionsFirstFrame name).length = 16 := by simp [optionsFirstFrame]
  rw [List.getD_eq_getElem?_getD, List.getElem?_eq_getElem (by omega)]; simp

/-- The search fails exactly when, after the first present option `c`, another present option
`k` is not tolerated; the error then names the files of both. -/
theorem chooseScheme_error (src : SrcIndex) (name : String) :
    ((∃ e, chooseScheme src name = .error e) ↔
      ∃ c k, c < k ∧ k < 16 ∧ optionPresent src name c ∧ (∀ j, j < c → ¬ optionPresent src name j) ∧
        optionPresent src name k ∧ ¬ Tolerated c k) ∧
    (∀ e, chooseScheme src name = .error e →
      ∃ c k, c < k ∧ k < 16 ∧ optionPresent src name c ∧ optionPresent src name k ∧
        e = Fatal.multipleOptions name (filePathOf src ((optionsFirstFrame name).getD c ""))
              (filePathOf src ((optionsFirstFrame name).getD k ""))) := by
  have hlen : (optionsFirstFrame name).length = 16 := by simp [optionsFirstFrame]
  have hget : ∀ (j : Nat) opt2, (optionsFirstFrame name)[j]? = some opt2 →
      (optionsFirstFrame name).getD j "" = opt2 ∧ j < 16 := by
    intro j opt2 hj
    refine ⟨by rw [List.getD_eq_getElem?_getD, hj]; rfl, ?_⟩
    have := (List.getElem?_eq_some_iff.mp hj).1
    omega
  unfold chooseScheme
  rcases chooseLoop_unchosen src name (optionsFirstFrame name) 0 Scheme.init (by decide) with
    ⟨h1, h2⟩ | ⟨k0, opt, img, h1, h2, h3, h4⟩
  · rw [h1]
    refine ⟨⟨fun ⟨e, he⟩ => (by cases he), ?_⟩, fun e he => (by cases he)⟩
    rintro ⟨c, k, hck, hk, hpc, -, -, -⟩
    exact absurd (h2 c _ (getD_option name c (by omega))) hpc
  · rw [h4]
    obtain ⟨hk0opt, hk0⟩ := hget k0 opt h1
    have hpk0 : optionPresent src name k0 := by
      unfold optionPresent; rw [hk0opt, h2]; simp
    have hfirst : ∀ j, j < k0 → ¬ optionPresent src name j := by
      intro j hj hp
      exact hp (h3 j _ hj (getD_option name j (by omega)))
    have hdrop : ∀ (k : Nat) opt2, ((optionsFirstFrame name).drop (k0 + 1))[k]? = some opt2 →
        (optionsFirstFrame name).getD (k0 + 1 + k) "" = opt2 ∧ k0 + 1 + k < 16 := by
      intro k opt2 hk
      rw [List.getElem?_drop] at hk
      exact hget _ _ hk
    have htoNat : (Scheme.ofIndex (0 + k0)).chosenOptionIndex.toNat = k0 := by
      simp [Scheme.ofIndex]
    have hidx : (Scheme.ofIndex (0 + k0)).chosenOptionIndex = (k0 : Int) := by
      simp [Scheme.ofIndex]
    rcases chooseLoop_chosen src name ((optionsFirstFrame name).drop (k0 + 1)) (0 + k0 + 1)
      (Scheme.ofIndex (0 + k0)) (by simp [Scheme.ofIndex]) with
      ⟨g1, g2⟩ | ⟨k, opt2, img2, g1, g2, g3, g4⟩
    · rw [g1]
      refine ⟨⟨fun ⟨e, he⟩ => (by cases he), ?_⟩, fun e he => (by cases he)⟩
      rintro ⟨c, k, hck, hk, hpc, hfc, hpk, hnt⟩
      have hc : c = k0 := by
        rcases Nat.lt_trichotomy c k0 with h | h | h
        · exact absurd hpc (hfirst c h)
        · exact h
        · exact absurd hpk0 (hfc k0 h)
      subst hc
      exfalso
      apply hnt
      have hkk : k = c + 1 + (k - c - 1) := by omega
      have hopt := getD_option name k hk
      have := g2 (k - c - 1) ((optionsFirstFrame name).getD k "")
        (by rw [List.getElem?_drop, ← hkk]; exact hopt) hpk
      rw [hidx] at this
      rwa [show 0 + c + 1 + (k - c - 1) = k by omega] at this
    · rw [g4]
      obtain ⟨hkopt, hk⟩ := hdrop k opt2 g1
      have hpk : optionPresent src name (k0 + 1 + k) := by
        unfold optionPresent; rw [hkopt, g2]; simp
      rw [hidx] at g3
      rw [show 0 + k0 + 1 + k = k0 + 1 + k by omega] at g3
      refine ⟨⟨fun _ => ⟨k0, k0 + 1 + k, by omega, hk, hpk0, hfirst, hpk, g3⟩, fun _ => ⟨_, rfl⟩⟩, ?_⟩
      intro e he
      injection he with he
      refine ⟨k0, k0 + 1 + k, by omega, hk, hpk0, hpk, ?_⟩
      rw [← he, htoNat, hkopt]
      simp [filePathOf, g2]

/-- The failure condition of the search, in the words of the ambiguity rule. -/
theorem chooseScheme_error_iff_ambiguous (src : SrcIndex) (name : String) :
    (∃ e, chooseScheme src name = .error e) ↔ Ambiguous src name := by
  rw [(chooseScheme_error src name).1]
  unfold Ambiguous
  constructor
  · rintro ⟨c, k, hck, hk, hpc, hfc, hpk, hnt⟩
    refine ⟨⟨c, k, hck, hk, hpc, hpk⟩, ?_⟩
    rintro ⟨i, hi, hex⟩
    have hpi : optionPresent src name i := (hex i (by omega)).2 (Or.inl rfl)
    have hci : c = i := by
      rcases (hex c (by omega)).1 hpc with h | h
      · exact h
      · exact absurd hpi (hfc i (by omega))
    apply hnt
    rcases (hex k hk).1 hpk with h | h
    · omega
    · unfold Tolerated; omega
  · rintro ⟨⟨i, j, hij, hj, hpi, hpj⟩, hne⟩
    classical
    have hex : ∃ n, optionPresent src name n := ⟨i, hpi⟩
    let c := Nat.find hex
    have hpc : optionPresent src name c := Nat.find_spec hex
    have hfc : ∀ m, m < c → ¬ optionPresent src name m := fun m hm => Nat.find_min hex hm
    have hci : c ≤ i := Nat.find_min' hex hpi
    by_cases hc8 : c < 8
    · by_cases hother : ∃ k, k < 16 ∧ optionPresent src name k ∧ k ≠ c ∧ k ≠ c + 8
      · obtain ⟨k, hk, hpk, hkc, hkc8⟩ := hother
        have hck : c < k := by
          rcases Nat.lt_trichotomy c k with h | h | h
          · exact h
          · exact absurd h.symm hkc
          · exact absurd hpk (hfc k h)
        exact ⟨c, k, hck, hk, hpc, hfc, hpk, by unfold Tolerated; omega⟩
      · exfalso
        apply hne
        have hall : ∀ k, k < 16 → optionPresent src name k → k = c ∨ k = c + 8 := by
          intro k hk hpk
          by_contra hcon
          exact hother ⟨k, hk, hpk, by omega, by omega⟩
        have hj8 : j = c + 8 := by
          rcases hall j hj hpj with h | h
          · omega
          · exact h
        refine ⟨c, hc8, fun k hk => ⟨hall k hk, ?_⟩⟩
        rintro (h | h)
        · rw [h]; exact hpc
        · rw [h, ← hj8]; exact hpj
    · exact ⟨c, j, by omega, hj, hpc, hfc, hpj, by unfold Tolerated; omega⟩

/-- When exactly one option is present, the search returns its scheme. -/
theorem chooseScheme_unique (src : SrcIndex) (name : String) (c : Nat) (hc : c < 16)
    (hp : optionPresent src name c)
    (ha : ∀ j, j < 16 → j ≠ c → ¬ optionPresent src name j) :
    chooseScheme src name = .ok (Scheme.ofIndex c) := by
  cases h : chooseScheme src name with
  | error e =>
    obtain ⟨c1, k, hck, hk, hpc, hpk, -⟩ := (chooseScheme_error src name).2 e h
    have h1 : c1 = c := by
      by_contra hne
      exact ha c1 (by omega) hne hpc
    have h2 : k = c := by
      by_contra hne
      exact ha k hk hne hpk
    omega
  | ok st =>
    rcases chooseScheme_ok src name st h with ⟨-, h2⟩ | ⟨c1, hc1, hst, hpc, -⟩
    · exact absurd hp (h2 c hc)
    · have h1 : c1 = c := by
        by_contra hne
        exact ha c1 hc1 hne hpc
      rw [hst, h1]

theorem determineReImports_singleton (src : SrcIndex) (params : Parameters) (s : GMSprite) :
    determineReImports src [s] params = spriteStep src params Out.empty s := by
  unfold determineReImports spritesLoop Out.empty
  cases spriteStep src params { reImports := [], log := [] } s <;> rfl


theorem spriteStep_error_iff (src : SrcIndex) (params : Parameters) (out : Out) (s : GMSprite) :
    (∃ e, spriteStep src params out s = .error e) ↔
      (s.Frames.length > 1 ∧ ∃ e, chooseScheme src s.Name = .error e) := by
  unfold spriteStep
  by_cases hlen : s.Frames.length > 1
  · rw [if_pos hlen]
    cases h : chooseScheme src s.Name with
    | error e => simp [hlen]
    | ok st =>
      simp only [hlen, true_and]
      constructor
      · rintro ⟨e, he⟩
        split at he
        · cases he
        · split at he <;> cases he
      · rintro ⟨e, he⟩; cases he
  · rw [if_neg hlen]
    constructor
    · rintro ⟨e, he⟩
      split at he
      · split at he
        · split at he
          · cases he
          · split at he <;> cases he
        · split at he <;> cases he
      · cases he
    · rintro ⟨h, -⟩; exact absurd h hlen

theorem spriteStep_error_eq (src : SrcIndex) (params : Parameters) (out : Out) (s : GMSprite)
    (e : Fatal) (h : spriteStep src params out s = .error e) :
    chooseScheme src s.Name = .error e := by
  unfold spriteStep at h
  split at h
  · cases h2 : chooseScheme src s.Name with
    | error e2 => rw [h2] at h; simpa using h
    | ok st =>
      rw [h2] at h
      simp only [] at h
      split at h
      · cases h
      · split at h <;> cases h
  · split at h
    · split at h
      · split at h
        · cases h
        · split at h <;> cases h
      · split at h <;> cases h
    · cases h

theorem spritesLoop_error (src : SrcIndex) (params : Parameters) :
    ∀ (l : List GMSprite) (out : Out),
      ((∃ e, spritesLoop src params l out = .error e) ↔
        ∃ s, s ∈ l ∧ s.Frames.length > 1 ∧ ∃ e, chooseScheme src s.Name = .error e) ∧
      (∀ e, spritesLoop src params l out = .error e →
        ∃ s, s ∈ l ∧ s.Frames.length > 1 ∧ chooseScheme src s.Name = .error e) := by
  intro l
  induction l with
  | nil => intro out; simp [spritesLoop]
  | cons s l ih =>
    intro out
    cases h : spriteStep src params out s with
    | error e =>
      have h1 := (spriteStep_error_iff src params out s).1 ⟨e, h⟩
      have h2 := spriteStep_error_eq src params out s e h
      simp only [spritesLoop, h]
      refine ⟨⟨fun _ => ⟨s, by simp, h1⟩, fun _ => ⟨e, rfl⟩⟩, ?_⟩
      intro e2 he2
      injection he2 with he2
      subst he2
      exact ⟨s, by simp, h1.1, h2⟩
    | ok out2 =>
      have hno : ¬ (s.Frames.length > 1 ∧ ∃ e, chooseScheme src s.Name = .error e) := by
        intro hcon
        obtain ⟨e, he⟩ := (spriteStep_error_iff src params out s).2 hcon
        rw [h] at he; cases he
      simp only [spritesLoop, h]
      refine ⟨⟨?_, ?_⟩, ?_⟩
      · intro hex
        obtain ⟨s2, hs2, hrest⟩ := (ih out2).1.1 hex
        exact ⟨s2, by simp [hs2], hrest⟩
      · rintro ⟨s2, hs2, hrest⟩
        rcases List.mem_cons.mp hs2 with heq | hmem
        · subst heq; exact absurd hrest hno
        · exact (ih out2).1.2 ⟨s2, hmem, hrest⟩
      · intro e he
        obtain ⟨s2, hs2, hrest⟩ := (ih out2).2 e he
        exact ⟨s2, by simp [hs2], hrest⟩

/-! ## The claims on `determineReImports` -/

/-- C1: for a sprite with more than one frame whose first-frame search ends with a scheme
(width 1..4, separator `_` or none, base 0 or 1, the scheme of the first present first-frame
option, whose key is the expected key of frame 0), the loop body of `determineReImports`
appends exactly the instructions of the frame indices whose expected key
`spriteName + separator + zeroPadded(i + base, width)` is present with a hash other than the
frame's; absent keys and equal hashes add nothing and stop nothing. For `walk` with `walk_0`
the only first-frame option present, the scheme is zero-based, underscore, one digit, and the
expected keys of frames 0..3 are `walk_0`, `walk_1`, `walk_2`, `walk_3`. -/
theorem determineReImports_multiFrame (src : SrcIndex) (params : Parameters) (out : Out)
    (spriteDst : GMSprite) (st : Scheme)
    (hlen : spriteDst.Frames.length > 1)
    (hst : chooseScheme src spriteDst.Name = .ok st)
    (hc : 0 ≤ st.chosenOptionIndex) :
    (1 ≤ st.numDigits ∧ st.numDigits ≤ 4 ∧ (nameSepOf st = "_" ∨ nameSepOf st = "") ∧
      (biasOf st = 0 ∨ biasOf st = 1)) ∧
    (∃ c, c < 16 ∧ st = Scheme.ofIndex c ∧ optionPresent src spriteDst.Name c ∧
      (∀ j, j < c → ¬ optionPresent src spriteDst.Name j) ∧
      (optionsFirstFrame spriteDst.Name).getD c "" =
        spriteDst.Name ++ nameSepOf st ++ zeroPadded (0 + biasOf st) st.numDigits) ∧
    (∀ i, srcImageName spriteDst.Name (nameSepOf st) st.numDigits (biasOf st) i =
        spriteDst.Name ++ nameSepOf st ++ zeroPadded (i + biasOf st) st.numDigits) ∧
    (∃ log, spriteStep src params out spriteDst = .ok
      { reImports := out.reImports ++ (List.range spriteDst.Frames.length).filterMap
          (expectedReImport src spriteDst (nameSepOf st) st.numDigits (biasOf st)),
        log := log }) ∧
    (∃ log, determineReImports src [spriteDst] params = .ok
      { reImports := (List.range spriteDst.Frames.length).filterMap
          (expectedReImport src spriteDst (nameSepOf st) st.numDigits (biasOf st)),
        log := log }) ∧
    (∀ src2 : SrcIndex, src2 "walk_0" ≠ none →
      (∀ j, j < 16 → j ≠ 3 → ¬ optionPresent src2 "walk" j) →
      chooseScheme src2 "walk" = .ok
        { chosenOptionIndex := 3, numDigits := 1, useUnderscore := true, isZeroBased := true } ∧
      (List.range 4).map (srcImageName "walk" "_" 1 0) = ["walk_0", "walk_1", "walk_2", "walk_3"]) := by
  have hstep : ∀ out2 : Out, spriteStep src params out2 spriteDst = .ok
      ((List.range spriteDst.Frames.length).foldl
        (frameStep src params spriteDst (nameSepOf st) st.numDigits (biasOf st)) out2) := by
    intro out2
    unfold spriteStep
    rw [if_pos hlen, hst]
    simp only [ge_iff_le, hc, if_true]
  refine ⟨?_, ?_, ?_, ?_, ?_, ?_⟩
  · rcases chooseScheme_ok src spriteDst.Name st hst with ⟨h1, -⟩ | ⟨c, -, h1, -, -⟩
    · rw [h1] at hc; exact absurd hc (by decide)
    · subst h1
      refine ⟨?_, ?_, ?_, ?_⟩
      · simp only [Scheme.ofIndex, numDigitVariants]; omega
      · simp only [Scheme.ofIndex, numDigitVariants]; omega
      · unfold nameSepOf; cases (Scheme.ofIndex c).useUnderscore <;> simp
      · unfold biasOf; cases (Scheme.ofIndex c).isZeroBased <;> simp
  · rcases chooseScheme_ok src spriteDst.Name st hst with ⟨h1, -⟩ | ⟨c, hc16, h1, hp, hf⟩
    · rw [h1] at hc; exact absurd hc (by decide)
    · refine ⟨c, hc16, h1, hp, hf, ?_⟩
      rw [h1]; exact option_eq_firstKey spriteDst.Name c hc16
  · intro i; unfold srcImageName; rw [String.append_assoc]
  · refine ⟨((List.range spriteDst.Frames.length).foldl
        (frameStep src params spriteDst (nameSepOf st) st.numDigits (biasOf st)) out).log, ?_⟩
    rw [hstep out, ← frameLoop_reImports]
  · refine ⟨((List.range spriteDst.Frames.length).foldl
        (frameStep src params spriteDst (nameSepOf st) st.numDigits (biasOf st)) Out.empty).log, ?_⟩
    rw [determineReImports_singleton, hstep Out.empty]
    have := frameLoop_reImports src params spriteDst (nameSepOf st) st.numDigits (biasOf st)
      (List.range spriteDst.Frames.length) Out.empty
    rw [show Out.empty.reImports = [] from rfl, List.nil_append] at this
    rw [← this]
  · intro src2 h0 hrest
    refine ⟨?_, by decide⟩
    have := chooseScheme_unique src2 "walk" 3 (by decide)
      (by unfold optionPresent; exact h0) hrest
    rw [this]; rfl

theorem determineReImports_multiFrame_witness :
    (∃ log, determineReImports walkSrc [walkSprite] default = .ok
      { reImports := (List.range 4).filterMap (expectedReImport walkSrc walkSprite "_" 1 0),
        log := log }) ∧
    (List.range 4).filterMap (expectedReImport walkSrc walkSprite "_" 1 0) =
      [{ Src := ⟨"walk_0.png", "src/walk_0.png", "h0"⟩, Dst := walkSprite, FrameIndex := 0 },
       { Src := ⟨"walk_2.png", "src/walk_2.png", "h2"⟩, Dst := walkSprite, FrameIndex := 2 }] :=
  ⟨(determineReImports_multiFrame walkSrc default Out.empty walkSprite
      { chosenOptionIndex := 3, numDigits := 1, useUnderscore := true, isZeroBased := true }
      (by decide) (by decide) (by decide)).2.2.2.2.1, by decide⟩

/-- C2: a run of `determineReImports` ends in the fatal ambiguity error exactly when some
sprite with more than one frame has at least two of its 16 first-frame keys present and the
present keys are not exactly an option `i < 8` with its counterpart `i + 8`; the loop body
fails for a multi-frame sprite under exactly that condition, whatever was accumulated before;
the error names the file paths of two distinct present options. So `name_0000` together with
`name_0001` (options 0 and 8) is no error, while `name_0` together with `name0` is. -/
theorem determineReImports_ambiguity (src : SrcIndex) (params : Parameters)
    (candidatesDst : List GMSprite) :
    (∀ (out : Out) (spriteDst : GMSprite), spriteDst.Frames.length > 1 →
      ((∃ e, spriteStep src params out spriteDst = .error e) ↔ Ambiguous src spriteDst.Name)) ∧
    ((∃ e, determineReImports src candidatesDst params = .error e) ↔
      ∃ s, s ∈ candidatesDst ∧ s.Frames.length > 1 ∧ Ambiguous src s.Name) ∧
    (∀ e, determineReImports src candidatesDst params = .error e →
      ∃ s c k, s ∈ candidatesDst ∧ c < k ∧ k < 16 ∧
        optionPresent src s.Name c ∧ optionPresent src s.Name k ∧
        e = Fatal.multipleOptions s.Name
              (filePathOf src ((optionsFirstFrame s.Name).getD c ""))
              (filePathOf src ((optionsFirstFrame s.Name).getD k ""))) ∧
    (∀ name : String,
      (optionsFirstFrame name).getD 0 "" = name ++ "_0000" ∧
      (optionsFirstFrame name).getD 8 "" = name ++ "_0001" ∧
      ((∀ k, k < 16 → (optionPresent src name k ↔ (k = 0 ∨ k = 8))) → ¬ Ambiguous src name)) ∧
    (∀ name : String, src (name ++ "_0") ≠ none → src (name ++ "0") ≠ none →
      Ambiguous src name) := by
  refine ⟨?_, ?_, ?_, ?_, ?_⟩
  · intro out s hlen
    rw [spriteStep_error_iff, chooseScheme_error_iff_ambiguous]
    simp [hlen]
  · unfold determineReImports
    rw [(spritesLoop_error src params candidatesDst _).1]
    constructor
    · rintro ⟨s, hs, hlen, he⟩
      exact ⟨s, hs, hlen, (chooseScheme_error_iff_ambiguous src s.Name).1 he⟩
    · rintro ⟨s, hs, hlen, ha⟩
      exact ⟨s, hs, hlen, (chooseScheme_error_iff_ambiguous src s.Name).2 ha⟩
  · intro e he
    unfold determineReImports at he
    obtain ⟨s, hs, -, hch⟩ := (spritesLoop_error src params candidatesDst _).2 e he
    obtain ⟨c, k, hck, hk, hpc, hpk, heq⟩ := (chooseScheme_error src s.Name).2 e hch
    exact ⟨s, c, k, hs, hck, hk, hpc, hpk, heq⟩
  · intro name
    refine ⟨rfl, rfl, ?_⟩
    intro hex hamb
    exact hamb.2 ⟨0, by decide, by simpa using hex⟩
  · intro name h3 h7
    have hp3 : optionPresent src name 3 := h3
    have hp7 : optionPresent src name 7 := h7
    refine ⟨⟨3, 7, by decide, by decide, hp3, hp7⟩, ?_⟩
    rintro ⟨i, hi, hex⟩
    have a := (hex 3 (by decide)).1 hp3
    have b := (hex 7 (by decide)).1 hp7
    omega

/-- C3: for a sprite with exactly one frame the key looked up is the sprite name itself: when
the source index holds it with a hash other than the frame's, the loop body appends exactly
one instruction, with frame index 0 and that image; when the hashes are equal or the key is
absent, it appends none. -/
theorem determineReImports_singleFrame (src : SrcIndex) (params : Parameters) (out : Out)
    (spriteDst : GMSprite) (hlen : spriteDst.Frames.length = 1) :
    (∀ img, src spriteDst.Name = some img →
      img.Sha256 ≠ (spriteDst.Frames.getD 0 default).Sha256 →
      (∃ log, spriteStep src params out spriteDst = .ok
        { reImports := out.reImports ++ [{ Src := img, Dst := spriteDst, FrameIndex := 0 }],
          log := log }) ∧
      (∃ log, determineReImports src [spriteDst] params = .ok
        { reImports := [{ Src := img, Dst := spriteDst, FrameIndex := 0 }], log := log })) ∧
    (∀ img, src spriteDst.Name = some img →
      img.Sha256 = (spriteDst.Frames.getD 0 default).Sha256 →
      (∃ log, spriteStep src params out spriteDst = .ok
        { reImports := out.reImports, log := log }) ∧
      (∃ log, determineReImports src [spriteDst] params = .ok { reImports := [], log := log })) ∧
    (src spriteDst.Name = none →
      (∃ log, spriteStep src params out spriteDst = .ok
        { reImports := out.reImports, log := log }) ∧
      (∃ log, determineReImports src [spriteDst] params = .ok { reImports := [], log := log })) := by
  have hnot : ¬ spriteDst.Frames.length > 1 := by omega
  refine ⟨?_, ?_, ?_⟩
  · intro img hsrc hne
    have key : ∀ out2 : Out, spriteStep src params out2 spriteDst = .ok
        { reImports := out2.reImports ++ [{ Src := img, Dst := spriteDst, FrameIndex := 0 }],
          log := out2.log } := by
      intro out2
      unfold spriteStep
      rw [if_neg hnot, if_pos hlen, hsrc]
      simp only [if_pos hne]
    exact ⟨⟨_, key out⟩, ⟨_, by rw [determineReImports_singleton, key]; rfl⟩⟩
  · intro img hsrc heq
    have key : ∀ out2 : Out, ∃ log, spriteStep src params out2 spriteDst = .ok
        { reImports := out2.reImports, log := log } := by
      intro out2
      unfold spriteStep
      rw [if_neg hnot, if_pos hlen, hsrc]
      simp only [ne_eq, heq, not_true_eq_false, if_false]
      split
      · exact ⟨_, rfl⟩
      · exact ⟨_, rfl⟩
    refine ⟨key out, ?_⟩
    obtain ⟨log, hlog⟩ := key Out.empty
    exact ⟨log, by rw [determineReImports_singleton, hlog]; rfl⟩
  · intro hsrc
    have key : ∀ out2 : Out, ∃ log, spriteStep src params out2 spriteDst = .ok
        { reImports := out2.reImports, log := log } := by
      intro out2
      unfold spriteStep
      rw [if_neg hnot, if_pos hlen, hsrc]
      simp only []
      split
      · exact ⟨_, rfl⟩
      · exact ⟨_, rfl⟩
    refine ⟨key out, ?_⟩
    obtain ⟨log, hlog⟩ := key Out.empty
    exact ⟨log, by rw [determineReImports_singleton, hlog]; rfl⟩

theorem determineReImports_singleFrame_witness :
    ∃ log, determineReImports fooSrc [fooSprite] default = .ok
      { reImports := [{ Src := ⟨"foo.png", "src/foo.png", "new"⟩, Dst := fooSprite, FrameIndex := 0 }],
        log := log } :=
  ((determineReImports_singleFrame fooSrc default Out.empty fooSprite (by decide)).1
    ⟨"foo.png", "src/foo.png", "new"⟩ (by decide) (by decide)).2

/-! ## Theorems on the descriptor interpreter -/

theorem asMap_eq_some (o : Option YY.Value) (kvs : List (String × YY.Value)) :
    asMap o = some kvs ↔ o = some (YY.Value.map kvs) := by
  cases o with
  | none => simp [asMap]
  | some v => cases v <;> simp [asMap]

theorem asMap_eq_none (v : YY.Value) :
    asMap (some v) = none ↔ ∀ kvs, v ≠ YY.Value.map kvs := by
  cases v <;> simp [asMap]

theorem asList_eq_some (o : Option YY.Value) (xs : List YY.Value) :
    asList o = some xs ↔ o = some (YY.Value.list xs) := by
  cases o with
  | none => simp [asList]
  | some v => cases v <;> simp [asList]

theorem asList_eq_none (o : Option YY.Value) :
    asList o = none ↔ ∀ xs, o ≠ some (YY.Value.list xs) := by
  cases o with
  | none => simp [asList]
  | some v => cases v <;> simp [asList]

theorem asString_eq_some (o : Option YY.Value) (s : String) :
    asString o = some s ↔ o = some (YY.Value.str s) := by
  cases o with
  | none => simp [asString]
  | some v => cases v <;> simp [asString]

theorem asString_eq_none (o : Option YY.Value) :
    asString o = none ↔ ∀ s, o ≠ some (YY.Value.str s) := by
  cases o with
  | none => simp [asString]
  | some v => cases v <;> simp [asString]

/-- The frame that `parseYyFrames` builds for an entry named `name`. -/
theorem parseFrame_ok (join : String → String → String) (sha : String → Option String)
    (folder : String) (u : Bool) (layerName : String) (i : Nat) (f : YY.Value) (g : GMFrame) :
    parseFrame join sha folder u layerName i f = .ok g ↔
      ∃ name hash, NamedEntry f name ∧ sha (join folder (name ++ ".png")) = some hash ∧
        g = { FileName := name ++ ".png", Sha256 := hash, Guid := name,
              LayerFileName := layerName ++ ".png", UtilizesLayers := u } := by
  unfold parseFrame
  constructor
  · intro h
    split at h
    · cases h
    · rename_i frame hframe
      rw [asMap_eq_some] at hframe
      split at h
      · cases h
      · rename_i name hname
        rw [asString_eq_some] at hname
        split at h
        · cases h
        · rename_i hne
          split at h
          · cases h
          · rename_i hash hhash
            injection h with h
            injection hframe with hframe
            exact ⟨name, hash, ⟨frame, hframe, hname, hne⟩, hhash, h.symm⟩
  · rintro ⟨name, hash, ⟨kvs, hf, hname, hne⟩, hhash, hg⟩
    subst hf
    have h1 : asMap (some (YY.Value.map kvs)) = some kvs := rfl
    have h2 : asString (kvs.lookup "name") = some name := (asString_eq_some _ _).mpr hname
    simp only [h1, h2, if_neg hne, hhash, hg]

/-- An entry that is not a mapping with a non-empty string `name` stops the loop with a shape
error that names `$.frames[i]`. -/
theorem parseFrame_fault (join : String → String → String) (sha : String → Option String)
    (folder : String) (u : Bool) (layerName : String) (i : Nat) (f : YY.Value)
    (h : ∀ name, ¬ NamedEntry f name) :
    ((∀ kvs, f ≠ YY.Value.map kvs) ∧ parseFrame join sha folder u layerName i f =
        .error (FramesStop.shape ("$.frames[" ++ toString i ++ "] was not an object"))) ∨
    ((∃ kvs, f = YY.Value.map kvs) ∧ parseFrame join sha folder u layerName i f =
        .error (FramesStop.shape
          ("$.frames[" ++ toString i ++ "] was not a non-empty string"))) := by
  unfold parseFrame
  cases hm : asMap (some f) with
  | none => exact Or.inl ⟨(asMap_eq_none f).mp hm, rfl⟩
  | some frame =>
    rw [asMap_eq_some] at hm
    injection hm with hm
    refine Or.inr ⟨⟨frame, hm⟩, ?_⟩
    show (match asString (frame.lookup "name") with
      | none => _
      | some name => _) = _
    cases hs : asString (frame.lookup "name") with
    | none => rfl
    | some name =>
      rw [asString_eq_some] at hs
      by_cases hne : name = ""
      · simp only [if_pos hne]
      · exact absurd ⟨frame, hm, hs, hne⟩ (h name)

theorem parseFrame_error (join : String → String → String) (sha : String → Option String)
    (folder : String) (u : Bool) (layerName : String) (i : Nat) (f : YY.Value)
    (hsha : ∀ p, sha p ≠ none) (e : FramesStop)
    (h : parseFrame join sha folder u layerName i f = .error e) :
    ∀ name, ¬ NamedEntry f name := by
  intro name hn
  obtain ⟨hash, hhash⟩ := Option.ne_none_iff_exists'.mp (hsha (join folder (name ++ ".png")))
  have := (parseFrame_ok join sha folder u layerName i f _).mpr ⟨name, hash, hn, hhash, rfl⟩
  rw [this] at h
  cases h

theorem parseFramesLoop_ok (join : String → String → String) (sha : String → Option String)
    (folder : String) (u : Bool) (layerName : String) :
    ∀ (rest : List YY.Value) (i : Nat) (acc frames : List GMFrame),
      parseFramesLoop join sha folder u layerName i rest acc = .ok frames →
      ∃ built, frames = acc ++ built ∧ built.length = rest.length ∧
        ∀ (k : Nat) (f : YY.Value), rest[k]? = some f →
          ∃ g, built[k]? = some g ∧ parseFrame join sha folder u layerName (i + k) f = .ok g := by
  intro rest
  induction rest with
  | nil =>
    intro i acc frames h
    injection h with h
    exact ⟨[], by simp [h], rfl, fun k f hk => by simp at hk⟩
  | cons f0 rest ih =>
    intro i acc frames h
    unfold parseFramesLoop at h
    cases hp : parseFrame join sha folder u layerName i f0 with
    | error e => rw [hp] at h; cases h
    | ok g0 =>
      rw [hp] at h
      obtain ⟨built, hb, hlen, hall⟩ := ih (i + 1) (acc ++ [g0]) frames h
      refine ⟨g0 :: built, by rw [hb, List.append_assoc]; rfl, by simp [hlen], ?_⟩
      intro k f hk
      cases k with
      | zero =>
        simp only [List.getElem?_cons_zero, Option.some.injEq] at hk
        subst hk
        exact ⟨g0, List.getElem?_cons_zero, hp⟩
      | succ k =>
        simp only [List.getElem?_cons_succ] at hk
        obtain ⟨g, hg, hpk⟩ := hall k f hk
        refine ⟨g, by simpa using hg, ?_⟩
        rw [← hpk]
        congr 1
        omega

theorem parseFramesLoop_error (join : String → String → String)
    (sha : String → Option String) (folder : String) (u : Bool) (layerName : String) :
    ∀ (rest : List YY.Value) (i : Nat) (acc : List GMFrame) (e : FramesStop),
      parseFramesLoop join sha folder u layerName i rest acc = .error e →
      ∃ (k : Nat) (f : YY.Value), rest[k]? = some f ∧
        parseFrame join sha folder u layerName (i + k) f = .error e := by
  intro rest
  induction rest with
  | nil => intro i acc e h; cases h
  | cons f0 rest ih =>
    intro i acc e h
    unfold parseFramesLoop at h
    cases hp : parseFrame join sha folder u layerName i f0 with
    | error e0 =>
      rw [hp] at h
      injection h with h
      subst h
      exact ⟨0, f0, List.getElem?_cons_zero, hp⟩
    | ok g0 =>
      rw [hp] at h
      obtain ⟨k, f, hk, hpk⟩ := ih (i + 1) (acc ++ [g0]) e h
      refine ⟨k + 1, f, by simpa using hk, ?_⟩
      rw [← hpk]
      congr 1
      omega

/-- What a successful `parseYyFrames` has read: a root mapping, a first layer with a name, and
a non-empty list of frame entries, each turned into a frame. -/
theorem parseYyFrames_ok_inv (join : String → String → String) (sha : String → Option String)
    (yy : YY.Value) (folder : String) (frames : List GMFrame)
    (h : parseYyFrames join sha yy folder = .ok frames) :
    ∃ kvs layer0 layersRest layerName framesYy,
      yy = YY.Value.map kvs ∧
      kvs.lookup "layers" = some (YY.Value.list (layer0 :: layersRest)) ∧
      NamedEntry layer0 layerName ∧
      kvs.lookup "frames" = some (YY.Value.list framesYy) ∧ framesYy ≠ [] ∧
      frames.length = framesYy.length ∧
      ∀ (k : Nat) (f : YY.Value), framesYy[k]? = some f →
        ∃ g, frames[k]? = some g ∧
          parseFrame join sha folder (decide ((layer0 :: layersRest).length > 1)) layerName k f
            = .ok g := by
  unfold parseYyFrames at h
  split at h
  · cases h
  · rename_i frameData hroot
    rw [asMap_eq_some] at hroot
    injection hroot with hroot
    split at h
    · cases h
    · cases h
    · rename_i layer0 layersRest hlayers
      rw [asList_eq_some] at hlayers
      split at h
      · cases h
      · rename_i layer hlayer
        rw [asMap_eq_some] at hlayer
        injection hlayer with hlayer
        split at h
        · cases h
        · rename_i layerName hname
          rw [asString_eq_some] at hname
          split at h
          · cases h
          · rename_i hne
            split at h
            · cases h
            · cases h
            · rename_i frame0 framesRest hframes
              rw [asList_eq_some] at hframes
              obtain ⟨built, hb, hlen, hall⟩ := parseFramesLoop_ok join sha folder _ layerName
                (frame0 :: framesRest) 0 [] frames h
              rw [List.nil_append] at hb
              subst hb
              refine ⟨frameData, layer0, layersRest, layerName, frame0 :: framesRest, hroot,
                hlayers, ⟨layer, hlayer, hname, hne⟩, hframes, List.cons_ne_nil _ _, hlen, ?_⟩
              intro k f hk
              obtain ⟨g, hg, hpk⟩ := hall k f hk
              rw [Nat.zero_add] at hpk
              exact ⟨g, hg, hpk⟩

/-- When every frame file can be read, `parseYyFrames` stops only with a shape error, and its
message names a fault of the root value. -/
theorem parseYyFrames_error_inv (join : String → String → String)
    (sha : String → Option String) (yy : YY.Value) (folder : String)
    (hsha : ∀ p, sha p ≠ none) (e : FramesStop)
    (h : parseYyFrames join sha yy folder = .error e) :
    ∃ msg, e = FramesStop.shape msg ∧ ShapeMessage yy msg := by
  unfold parseYyFrames at h
  split at h
  · rename_i hroot
    rw [asMap_eq_none] at hroot
    injection h with h
    exact ⟨_, h.symm, Or.inl ⟨rfl, hroot⟩⟩
  · rename_i frameData hroot
    rw [asMap_eq_some] at hroot
    injection hroot with hroot
    split at h
    · rename_i hlayers
      rw [asList_eq_none] at hlayers
      injection h with h
      exact ⟨_, h.symm, Or.inr ⟨frameData, hroot, Or.inl ⟨rfl,
        fun xs hxs => absurd hxs (hlayers xs)⟩⟩⟩
    · rename_i hlayers
      rw [asList_eq_some] at hlayers
      injection h with h
      refine ⟨_, h.symm, Or.inr ⟨frameData, hroot, Or.inl ⟨rfl, ?_⟩⟩⟩
      intro xs hxs
      rw [hlayers] at hxs
      injection hxs with hxs
      injection hxs with hxs
      exact hxs.symm
    · rename_i layer0 layersRest hlayers
      rw [asList_eq_some] at hlayers
      split at h
      · rename_i hlayer
        rw [asMap_eq_none] at hlayer
        injection h with h
        refine ⟨_, h.symm, Or.inr ⟨frameData, hroot, Or.inr (Or.inl ⟨layer0, layersRest,
          hlayers, ?_, Or.inl ⟨rfl, hlayer⟩⟩)⟩⟩
        rintro name ⟨lk, hlk, -⟩
        exact hlayer lk hlk
      · rename_i layer hlayer
        rw [asMap_eq_some] at hlayer
        injection hlayer with hlayer
        split at h
        · rename_i hname
          rw [asString_eq_none] at hname
          injection h with h
          refine ⟨_, h.symm, Or.inr ⟨frameData, hroot, Or.inr (Or.inl ⟨layer0, layersRest,
            hlayers, ?_, Or.inr ⟨rfl, layer, hlayer⟩⟩)⟩⟩
          rintro name ⟨lk, hlk, hn, -⟩
          rw [hlayer] at hlk
          injection hlk with hlk
          subst hlk
          exact hname name hn
        · rename_i layerName hname
          rw [asString_eq_some] at hname
          split at h
          · rename_i hempty
            injection h with h
            refine ⟨_, h.symm, Or.inr ⟨frameData, hroot, Or.inr (Or.inl ⟨layer0, layersRest,
              hlayers, ?_, Or.inr ⟨rfl, layer, hlayer⟩⟩)⟩⟩
            rintro name ⟨lk, hlk, hn, hne⟩
            rw [hlayer] at hlk
            injection hlk with hlk
            subst hlk
            rw [hname] at hn
            injection hn with hn
            injection hn with hn
            exact hne (hn ▸ hempty)
          · split at h
            · rename_i hframes
              rw [asList_eq_none] at hframes
              injection h with h
              exact ⟨_, h.symm, Or.inr ⟨frameData, hroot, Or.inr (Or.inr (Or.inl ⟨rfl,
                fun xs hxs => absurd hxs (hframes xs)⟩))⟩⟩
            · rename_i hframes
              rw [asList_eq_some] at hframes
              injection h with h
              refine ⟨_, h.symm, Or.inr ⟨frameData, hroot, Or.inr (Or.inr (Or.inl ⟨rfl, ?_⟩))⟩⟩
              intro xs hxs
              rw [hframes] at hxs
              injection hxs with hxs
              injection hxs with hxs
              exact hxs.symm
            · rename_i frame0 framesRest hframes
              rw [asList_eq_some] at hframes
              obtain ⟨k, f, hk, hpk⟩ := parseFramesLoop_error join sha folder _ layerName
                (frame0 :: framesRest) 0 [] e h
              rw [Nat.zero_add] at hpk
              have hbad := parseFrame_error join sha folder _ layerName k f hsha e hpk
              rcases parseFrame_fault join sha folder
                (decide ((layer0 :: layersRest).length > 1)) layerName k f hbad with
                ⟨hnm, he⟩ | ⟨hm, he⟩
              · rw [he] at hpk
                injection hpk with hpk
                exact ⟨_, hpk.symm, Or.inr ⟨frameData, hroot, Or.inr (Or.inr (Or.inr
                  ⟨frame0 :: framesRest, k, f, hframes, hk, hbad, Or.inl ⟨rfl, hnm⟩⟩))⟩⟩
              · rw [he] at hpk
                injection hpk with hpk
                exact ⟨_, hpk.symm, Or.inr ⟨frameData, hroot, Or.inr (Or.inr (Or.inr
                  ⟨frame0 :: framesRest, k, f, hframes, hk, hbad, Or.inr ⟨rfl, hm⟩⟩))⟩⟩

theorem shapeFault_of_message (yy : YY.Value) (msg : String) (h : ShapeMessage yy msg) :
    ShapeFault yy := by
  rcases h with ⟨-, h⟩ | ⟨kvs, hy, h⟩
  · exact Or.inl h
  · refine Or.inr ⟨kvs, hy, ?_⟩
    rcases h with ⟨-, h⟩ | ⟨l0, rest, h1, h2, -⟩ | ⟨-, h⟩ | ⟨frames, i, f, h1, h2, h3, -⟩
    · exact Or.inl h
    · exact Or.inr (Or.inl ⟨l0, rest, h1, h2⟩)
    · exact Or.inr (Or.inr (Or.inl h))
    · exact Or.inr (Or.inr (Or.inr ⟨frames, i, f, h1, h2, h3⟩))

theorem not_shapeFault_of_ok (join : String → String → String) (sha : String → Option String)
    (yy : YY.Value) (folder : String) (frames : List GMFrame)
    (h : parseYyFrames join sha yy folder = .ok frames) : ¬ ShapeFault yy := by
  obtain ⟨kvs, layer0, layersRest, layerName, framesYy, hy, hl, hl0, hf, hne, -, hall⟩ :=
    parseYyFrames_ok_inv join sha yy folder frames h
  rintro (hroot | ⟨kvs2, hy2, hfault⟩)
  · exact hroot kvs hy
  · rw [hy] at hy2
    injection hy2 with hy2
    subst hy2
    rcases hfault with h1 | ⟨l0, rest, h1, h2⟩ | h1 | ⟨frames2, i, f, h1, h2, h3⟩
    · exact List.cons_ne_nil _ _ (h1 _ hl)
    · rw [hl] at h1
      injection h1 with h1
      injection h1 with h1
      injection h1 with h1 h1b
      subst h1
      exact h2 layerName hl0
    · exact hne (h1 _ hf)
    · rw [hf] at h1
      injection h1 with h1
      injection h1 with h1
      subst h1
      obtain ⟨g, -, hg⟩ := hall i f h2
      obtain ⟨name, hash, hn, -⟩ := (parseFrame_ok join sha folder _ layerName i f g).mp hg
      exact h3 name hn

/-- C11: when every frame file can be hashed, `parseYyFrames` returns a shape error exactly
when the root is not a mapping, or `$.layers` is missing, not a list or empty, or
`$.layers[0]` is not a mapping with a non-empty string `name`, or `$.frames` is missing, not a
list or empty, or some `$.frames[i]` is not a mapping with a non-empty string `name`; in every
other case it succeeds; and the message of the error names the path of such a fault. -/
theorem parseYyFrames_shape (join : String → String → String) (sha : String → Option String)
    (yy : YY.Value) (folder : String) (hsha : ∀ p, sha p ≠ none) :
    ((∃ msg, parseYyFrames join sha yy folder = .error (FramesStop.shape msg)) ↔
      ShapeFault yy) ∧
    ((∃ frames, parseYyFrames join sha yy folder = .ok frames) ↔ ¬ ShapeFault yy) ∧
    (∀ e, parseYyFrames join sha yy folder = .error e →
      ∃ msg, e = FramesStop.shape msg ∧ ShapeMessage yy msg) := by
  have herr := parseYyFrames_error_inv join sha yy folder hsha
  refine ⟨⟨?_, ?_⟩, ⟨?_, ?_⟩, herr⟩
  · rintro ⟨msg, h⟩
    obtain ⟨msg2, -, hm⟩ := herr _ h
    exact shapeFault_of_message yy msg2 hm
  · intro hf
    cases h : parseYyFrames join sha yy folder with
    | ok frames => exact absurd hf (not_shapeFault_of_ok join sha yy folder frames h)
    | error e =>
      obtain ⟨msg, he, -⟩ := herr e h
      exact ⟨msg, by rw [he]⟩
  · rintro ⟨frames, h⟩
    exact not_shapeFault_of_ok join sha yy folder frames h
  · intro hf
    cases h : parseYyFrames join sha yy folder with
    | ok frames => exact ⟨frames, rfl⟩
    | error e =>
      obtain ⟨msg, -, hm⟩ := herr e h
      exact absurd (shapeFault_of_message yy msg hm) hf

theorem parseYyFrames_shape_witness :
    parseYyFrames joinSlash shaDemo descriptorBad "dst/walk" =
      .error (FramesStop.shape "$.frames[1] was not a non-empty string") ∧
    ShapeFault descriptorBad :=
  ⟨by decide,
   (parseYyFrames_shape joinSlash shaDemo descriptorBad "dst/walk"
      (fun p => by simp [shaDemo])).1.mp
      ⟨"$.frames[1] was not a non-empty string", by decide⟩⟩

/-- C12: when `parseYyFrames` succeeds, the root is a mapping with a list `$.layers` whose
first entry has a name and a list `$.frames`; the output has one frame per entry of
`$.frames`, in that order, and the frame of the entry at index `k` has the entry's name as
`Guid`, the name followed by `.png` as `FileName`, the name of `$.layers[0]` followed by
`.png` as `LayerFileName`, the digest of the file at the folder joined with `FileName` as
`Sha256`, and the same `UtilizesLayers` on every frame: whether `$.layers` has more than one
entry. -/
theorem parseYyFrames_frames (join : String → String → String) (sha : String → Option String)
    (yy : YY.Value) (folder : String) (frames : List GMFrame)
    (h : parseYyFrames join sha yy folder = .ok frames) :
    ∃ kvs layers layer0 layerName framesYy,
      yy = YY.Value.map kvs ∧ kvs.lookup "layers" = some (YY.Value.list layers) ∧
      layers.head? = some layer0 ∧ NamedEntry layer0 layerName ∧
      kvs.lookup "frames" = some (YY.Value.list framesYy) ∧
      frames.length = framesYy.length ∧
      ∀ (k : Nat) (f : YY.Value), framesYy[k]? = some f →
        ∃ name hash, NamedEntry f name ∧ sha (join folder (name ++ ".png")) = some hash ∧
          frames[k]? = some
            { Guid := name, FileName := name ++ ".png", LayerFileName := layerName ++ ".png",
              Sha256 := hash, UtilizesLayers := decide (layers.length > 1) } := by
  obtain ⟨kvs, layer0, layersRest, layerName, framesYy, hy, hl, hl0, hf, -, hlen, hall⟩ :=
    parseYyFrames_ok_inv join sha yy folder frames h
  refine ⟨kvs, layer0 :: layersRest, layer0, layerName, framesYy, hy, hl, rfl, hl0, hf, hlen,
    ?_⟩
  intro k f hk
  obtain ⟨g, hg, hpk⟩ := hall k f hk
  obtain ⟨name, hash, hn, hs, hgeq⟩ := (parseFrame_ok join sha folder _ layerName k f g).mp hpk
  exact ⟨name, hash, hn, hs, by rw [hg, hgeq]⟩

theorem parseYyFrames_frames_witness :
    parseYyFrames joinSlash shaDemo descriptorDemo "dst/walk" = .ok framesDemo ∧
    ∃ kvs layers layer0 layerName framesYy,
      descriptorDemo = YY.Value.map kvs ∧ kvs.lookup "layers" = some (YY.Value.list layers) ∧
      layers.head? = some layer0 ∧ NamedEntry layer0 layerName ∧
      kvs.lookup "frames" = some (YY.Value.list framesYy) ∧
      framesDemo.length = framesYy.length ∧
      ∀ (k : Nat) (f : YY.Value), framesYy[k]? = some f →
        ∃ name hash, NamedEntry f name ∧
          shaDemo (joinSlash "dst/walk" (name ++ ".png")) = some hash ∧
          framesDemo[k]? = some
            { Guid := name, FileName := name ++ ".png", LayerFileName := layerName ++ ".png",
              Sha256 := hash, UtilizesLayers := decide (layers.length > 1) } :=
  ⟨by decide,
   parseYyFrames_frames joinSlash shaDemo descriptorDemo "dst/walk" framesDemo (by decide)⟩

/-! ## Further theorems on `determineReImports` -/

theorem Out.append_empty (out : Out) : out.append Out.empty = out := by
  simp [Out.append, Out.empty]

theorem Out.append_assoc (a b c : Out) : (a.append b).append c = a.append (b.append c) := by
  simp [Out.append, List.append_assoc]

theorem frameStep_shift (src : SrcIndex) (params : Parameters) (s : GMSprite)
    (nameSep : String) (numDigits bias : Nat) (out : Out) (i : Nat) :
    frameStep src params s nameSep numDigits bias out i =
      out.append (frameStep src params s nameSep numDigits bias Out.empty i) := by
  unfold frameStep
  cases src (srcImageName s.Name nameSep numDigits bias i) with
  | none =>
    by_cases h : (!params.NoLogSrcMiss) = true
    · simp [h, Out.append, Out.empty]
    · simp [h, Out.append, Out.empty]
  | some img =>
    by_cases h1 : img.Sha256 ≠ (s.Frames.getD i default).Sha256
    · simp only [if_pos h1]
      simp [Out.append, Out.empty]
    · simp only [if_neg h1]
      by_cases h : (!params.NoLogSrcMatch) = true
      · simp [h, Out.append, Out.empty]
      · simp [h, Out.append, Out.empty]

theorem frameLoop_shift (src : SrcIndex) (params : Parameters) (s : GMSprite)
    (nameSep : String) (numDigits bias : Nat) :
    ∀ (idx : List Nat) (out : Out),
      idx.foldl (frameStep src params s nameSep numDigits bias) out =
        out.append (idx.foldl (frameStep src params s nameSep numDigits bias) Out.empty) := by
  intro idx
  induction idx with
  | nil => intro out; exact (Out.append_empty out).symm
  | cons i rest ih =>
    intro out
    simp only [List.foldl_cons]
    rw [ih (frameStep src params s nameSep numDigits bias out i),
      ih (frameStep src params s nameSep numDigits bias Out.empty i),
      frameStep_shift src params s nameSep numDigits bias out i, Out.append_assoc]

/-- The body of the sprite loop only appends to the result it is given. -/
theorem spriteStep_shift (src : SrcIndex) (params : Parameters) (out : Out) (s : GMSprite) :
    spriteStep src params out s =
      (spriteStep src params Out.empty s).map out.append := by
  unfold spriteStep
  by_cases h1 : s.Frames.length > 1
  · simp only [if_pos h1]
    cases chooseScheme src s.Name with
    | error e => rfl
    | ok st =>
      by_cases h2 : st.chosenOptionIndex ≥ 0
      · simp only [if_pos h2]
        rw [frameLoop_shift]
        rfl
      · simp only [if_neg h2]
        by_cases h : (!params.NoLogSrcMiss) = true
        · simp [h, Out.append, Out.empty, Except.map]
        · simp [h, Out.append, Out.empty, Except.map]
  · simp only [if_neg h1]
    by_cases h3 : s.Frames.length = 1
    · simp only [if_pos h3]
      cases src s.Name with
      | none =>
        by_cases h : (!params.NoLogSrcMiss) = true
        · simp [h, Out.append, Out.empty, Except.map]
        · simp [h, Out.append, Out.empty, Except.map]
      | some img =>
        by_cases h4 : img.Sha256 ≠ (s.Frames.getD 0 default).Sha256
        · simp only [if_pos h4]
          simp [Out.append, Out.empty, Except.map]
        · simp only [if_neg h4]
          by_cases h : (!params.NoLogSrcMatch) = true
          · simp [h, Out.append, Out.empty, Except.map]
          · simp [h, Out.append, Out.empty, Except.map]
    · simp only [if_neg h3]
      simp [Out.append, Out.empty, Except.map]

/-- The sprite loop only appends to the result it is given. -/
theorem spritesLoop_shift (src : SrcIndex) (params : Parameters) :
    ∀ (l : List GMSprite) (out : Out),
      spritesLoop src params l out = (spritesLoop src params l Out.empty).map out.append := by
  intro l
  induction l with
  | nil => intro out; simp [spritesLoop, Except.map, Out.append_empty]
  | cons s rest ih =>
    intro out
    unfold spritesLoop
    rw [spriteStep_shift src params out s]
    cases spriteStep src params Out.empty s with
    | error e => rfl
    | ok o =>
      simp only [Except.map]
      rw [ih (out.append o), ih o]
      cases spritesLoop src params rest Out.empty with
      | error e => rfl
      | ok o2 => simp [Except.map, Out.append_assoc]

theorem spritesLoop_cons (src : SrcIndex) (params : Parameters) (s : GMSprite)
    (rest : List GMSprite) (out : Out) :
    spritesLoop src params (s :: rest) out =
      match spriteStep src params out s with
      | .error e => .error e
      | .ok o => spritesLoop src params rest o := rfl

theorem spritesLoop_append (src : SrcIndex) (params : Parameters) :
    ∀ (l1 l2 : List GMSprite) (out : Out),
      spritesLoop src params (l1 ++ l2) out =
        match spritesLoop src params l1 out with
        | .error e => .error e
        | .ok o => spritesLoop src params l2 o := by
  intro l1
  induction l1 with
  | nil => intro l2 out; rfl
  | cons s rest ih =>
    intro l2 out
    rw [List.cons_append, spritesLoop_cons, spritesLoop_cons]
    cases spriteStep src params out s with
    | error e => rfl
    | ok o => exact ih l2 o

/-- The instructions appended for one sprite are those of `spriteInstructions`. -/
theorem spriteStep_reImports (src : SrcIndex) (params : Parameters) (out o : Out)
    (s : GMSprite) (h : spriteStep src params out s = .ok o) :
    o.reImports = out.reImports ++ spriteInstructions src s := by
  unfold spriteStep at h
  unfold spriteInstructions
  by_cases h1 : s.Frames.length > 1
  · simp only [if_pos h1] at h ⊢
    cases hc : chooseScheme src s.Name with
    | error e => rw [hc] at h; cases h
    | ok st =>
      rw [hc] at h
      simp only at h ⊢
      by_cases h2 : st.chosenOptionIndex ≥ 0
      · simp only [if_pos h2] at h ⊢
        injection h with h
        rw [← h, frameLoop_reImports]
      · simp only [if_neg h2] at h ⊢
        split at h <;> (injection h with h; rw [← h]; simp)
  · simp only [if_neg h1] at h ⊢
    by_cases h3 : s.Frames.length = 1
    · simp only [if_pos h3] at h ⊢
      cases hs : src s.Name with
      | none =>
        rw [hs] at h
        simp only at h ⊢
        split at h <;> (injection h with h; rw [← h]; simp)
      | some img =>
        rw [hs] at h
        simp only at h ⊢
        by_cases h4 : img.Sha256 ≠ (s.Frames.getD 0 default).Sha256
        · simp only [if_pos h4] at h ⊢
          injection h with h
          rw [← h]
        · simp only [if_neg h4] at h ⊢
          split at h <;> (injection h with h; rw [← h]; simp)
    · simp only [if_neg h3] at h ⊢
      injection h with h
      rw [← h]
      simp

theorem spritesLoop_reImports (src : SrcIndex) (params : Parameters) :
    ∀ (l : List GMSprite) (out o : Out), spritesLoop src params l out = .ok o →
      o.reImports = out.reImports ++ l.flatMap (spriteInstructions src) := by
  intro l
  induction l with
  | nil =>
    intro out o h
    injection h with h
    simp [h]
  | cons s rest ih =>
    intro out o h
    rw [spritesLoop_cons] at h
    cases hs : spriteStep src params out s with
    | error e => rw [hs] at h; cases h
    | ok o1 =>
      rw [hs] at h
      rw [ih o1 o h, spriteStep_reImports src params out o1 s hs, List.flatMap_cons,
        List.append_assoc]

/-- The instructions of a run are those of the sprites, one sprite after the other. -/
theorem determineReImports_flatMap (src : SrcIndex) (params : Parameters)
    (candidatesDst : List GMSprite) (out : Out)
    (h : determineReImports src candidatesDst params = .ok out) :
    out.reImports = candidatesDst.flatMap (spriteInstructions src) := by
  have := spritesLoop_reImports src params candidatesDst _ out h
  simpa using this

theorem expectedReImport_some (src : SrcIndex) (s : GMSprite) (nameSep : String)
    (numDigits bias i : Nat) (r : GMFrameReImport)
    (h : expectedReImport src s nameSep numDigits bias i = some r) :
    r.Dst = s ∧ r.FrameIndex = i ∧
      src (s.Name ++ nameSep ++ zeroPadded (i + bias) numDigits) = some r.Src ∧
      r.Src.Sha256 ≠ (s.Frames.getD i default).Sha256 := by
  unfold expectedReImport at h
  cases hs : src (s.Name ++ nameSep ++ zeroPadded (i + bias) numDigits) with
  | none => rw [hs] at h; cases h
  | some img =>
    rw [hs] at h
    simp only at h
    by_cases h4 : img.Sha256 ≠ (s.Frames.getD i default).Sha256
    · rw [if_pos h4] at h
      injection h with h
      subst h
      exact ⟨rfl, rfl, rfl, h4⟩
    · rw [if_neg h4] at h
      cases h

/-- Every instruction for a sprite names that sprite, one of its frames, an image of the
source index, and a hash that differs from that of the frame. -/
theorem spriteInstructions_mem (src : SrcIndex) (s : GMSprite) (r : GMFrameReImport)
    (h : r ∈ spriteInstructions src s) :
    r.Dst = s ∧ r.FrameIndex < s.Frames.length ∧ (∃ key, src key = some r.Src) ∧
      r.Src.Sha256 ≠ (s.Frames.getD r.FrameIndex default).Sha256 := by
  unfold spriteInstructions at h
  by_cases h1 : s.Frames.length > 1
  · simp only [if_pos h1] at h
    cases hc : chooseScheme src s.Name with
    | error e => rw [hc] at h; cases h
    | ok st =>
      rw [hc] at h
      simp only at h
      by_cases h2 : st.chosenOptionIndex ≥ 0
      · simp only [if_pos h2] at h
        obtain ⟨i, hi, hr⟩ := List.mem_filterMap.mp h
        obtain ⟨a, b, c, d⟩ := expectedReImport_some src s _ _ _ i r hr
        rw [b]
        exact ⟨a, List.mem_range.mp hi, ⟨_, c⟩, d⟩
      · simp only [if_neg h2] at h
        cases h
  · simp only [if_neg h1] at h
    by_cases h3 : s.Frames.length = 1
    · simp only [if_pos h3] at h
      cases hs : src s.Name with
      | none => rw [hs] at h; cases h
      | some img =>
        rw [hs] at h
        simp only at h
        by_cases h4 : img.Sha256 ≠ (s.Frames.getD 0 default).Sha256
        · simp only [if_pos h4, List.mem_singleton] at h
          subst h
          exact ⟨rfl, by show 0 < s.Frames.length; omega, ⟨_, hs⟩, h4⟩
        · simp only [if_neg h4] at h
          cases h
    · simp only [if_neg h3] at h
      cases h

/-! ## Theorems on `findGMSprites` -/

theorem findGMSpritesStep_ok (join : String → String → String)
    (readFile : String → Option (List Char)) (sha : String → Option String)
    (pf : String → Option YY.Float64) (spritesPath : String) (params : Parameters)
    (acc res : List GMSprite × List DstLogLine) (spriteInfo : DirEntry)
    (h : findGMSpritesStep join readFile sha pf spritesPath params acc spriteInfo = .ok res) :
    res.1 = acc.1 ∨
      ∃ s, res.1 = acc.1 ++ [s] ∧ SpriteOf join readFile sha pf spritesPath spriteInfo s := by
  unfold findGMSpritesStep at h
  by_cases hdir : spriteInfo.IsDir = true
  · simp only [if_pos hdir] at h
    cases hf : FromFile readFile pf
        (join (join spritesPath spriteInfo.Name) (spriteInfo.Name ++ ".yy")) with
    | error err => rw [hf] at h; cases h
    | ok yy =>
      rw [hf] at h
      simp only at h
      cases hp : parseYyFrames join sha yy (join spritesPath spriteInfo.Name) with
      | error e =>
        rw [hp] at h
        cases e <;> cases h
      | ok frames =>
        rw [hp] at h
        simp only at h
        by_cases hany : frames.any (fun frame => frame.UtilizesLayers) = true
        · simp only [if_pos hany] at h
          left
          split at h <;> (injection h with h; rw [← h])
        · simp only [if_neg hany] at h
          injection h with h
          right
          refine ⟨{ Name := spriteInfo.Name, Frames := frames }, by rw [← h], hdir, rfl,
            ⟨yy, hf, hp⟩, ?_⟩
          intro f hfm
          cases hu : f.UtilizesLayers with
          | false => rfl
          | true => exact absurd (List.any_eq_true.mpr ⟨f, hfm, hu⟩) hany
  · simp only [if_neg hdir] at h
    cases h

theorem findGMSpritesLoop_ok (join : String → String → String)
    (readFile : String → Option (List Char)) (sha : String → Option String)
    (pf : String → Option YY.Float64) (spritesPath : String) (params : Parameters) :
    ∀ (infos : List DirEntry) (acc res : List GMSprite × List DstLogLine),
      findGMSpritesLoop join readFile sha pf spritesPath params infos acc = .ok res →
      ∃ added, res.1 = acc.1 ++ added ∧
        ∀ s ∈ added, ∃ e ∈ infos, SpriteOf join readFile sha pf spritesPath e s := by
  intro infos
  induction infos with
  | nil =>
    intro acc res h
    injection h with h
    exact ⟨[], by simp [h], fun s hs => by cases hs⟩
  | cons e rest ih =>
    intro acc res h
    unfold findGMSpritesLoop at h
    cases hs : findGMSpritesStep join readFile sha pf spritesPath params acc e with
    | error err => rw [hs] at h; cases h
    | ok acc2 =>
      rw [hs] at h
      obtain ⟨added, hres, hall⟩ := ih acc2 res h
      rcases findGMSpritesStep_ok join readFile sha pf spritesPath params acc acc2 e hs with
        h1 | ⟨s, h1, hs1⟩
      · refine ⟨added, by rw [hres, h1], ?_⟩
        intro s hsm
        obtain ⟨e2, he2, hsp⟩ := hall s hsm
        exact ⟨e2, List.mem_cons_of_mem _ he2, hsp⟩
      · refine ⟨s :: added, by rw [hres, h1, List.append_assoc]; rfl, ?_⟩
        intro s2 hsm
        rcases List.mem_cons.mp hsm with hx | hx
        · exact ⟨e, List.mem_cons_self _ _, hx ▸ hs1⟩
        · obtain ⟨e2, he2, hsp⟩ := hall s2 hx
          exact ⟨e2, List.mem_cons_of_mem _ he2, hsp⟩

theorem stringsCompare_swap : ∀ a b : List Char, stringsCompare b a = - stringsCompare a b := by
  intro a
  induction a with
  | nil => intro b; cases b <;> rfl
  | cons x xs ih =>
    intro b
    cases b with
    | nil => rfl
    | cons y ys =>
      unfold stringsCompare
      by_cases h1 : x.toNat < y.toNat
      · have h2 : ¬ y.toNat < x.toNat := by omega
        simp only [if_pos h1, if_neg h2]
        rfl
      · by_cases h2 : y.toNat < x.toNat
        · simp only [if_pos h2, if_neg h1]
        · simp only [if_neg h1, if_neg h2]
          exact ih ys

theorem stringsCompare_range : ∀ a b : List Char,
    stringsCompare a b = -1 ∨ stringsCompare a b = 0 ∨ stringsCompare a b = 1 := by
  intro a
  induction a with
  | nil => intro b; cases b <;> simp [stringsCompare]
  | cons x xs ih =>
    intro b
    cases b with
    | nil => simp [stringsCompare]
    | cons y ys =>
      unfold stringsCompare
      by_cases h1 : x.toNat < y.toNat
      · simp only [if_pos h1]; simp
      · by_cases h2 : y.toNat < x.toNat
        · simp only [if_pos h2, if_neg h1]; simp
        · simp only [if_neg h1, if_neg h2]
          exact ih ys

theorem stringsCompare_trans : ∀ a b c : List Char,
    stringsCompare a b ≤ 0 → stringsCompare b c ≤ 0 → stringsCompare a c ≤ 0 := by
  intro a
  induction a with
  | nil => intro b c _ _; cases c <;> simp [stringsCompare]
  | cons x xs ih =>
    intro b c hab hbc
    cases b with
    | nil => simp [stringsCompare] at hab
    | cons y ys =>
      cases c with
      | nil => simp [stringsCompare] at hbc
      | cons z zs =>
        unfold stringsCompare at hab hbc ⊢
        by_cases h1 : x.toNat < y.toNat
        · by_cases h3 : y.toNat < z.toNat
          · have : x.toNat < z.toNat := by omega
            simp only [if_pos this]; decide
          · by_cases h4 : z.toNat < y.toNat
            · simp only [if_neg h3, if_pos h4] at hbc
              exact absurd hbc (by decide)
            · have : x.toNat < z.toNat := by omega
              simp only [if_pos this]; decide
        · by_cases h2 : y.toNat < x.toNat
          · simp only [if_neg h1, if_pos h2] at hab
            exact absurd hab (by decide)
          · simp only [if_neg h1, if_neg h2] at hab
            by_cases h3 : y.toNat < z.toNat
            · have : x.toNat < z.toNat := by omega
              simp only [if_pos this]; decide
            · by_cases h4 : z.toNat < y.toNat
              · simp only [if_neg h3, if_pos h4] at hbc
                exact absurd hbc (by decide)
              · simp only [if_neg h3, if_neg h4] at hbc
                have h5 : ¬ x.toNat < z.toNat := by omega
                have h6 : ¬ z.toNat < x.toNat := by omega
                simp only [if_neg h5, if_neg h6]
                exact ih ys zs hab hbc

/-- The list that `sortByName` returns is in ascending order of the names, and it holds the
same sprites. -/
theorem sortByName_sorted (sprites : List GMSprite) :
    (sortByName sprites).Sorted (fun a b => stringsCompare a.Name.data b.Name.data ≤ 0) ∧
      (sortByName sprites).Perm sprites := by
  haveI : IsTotal GMSprite (fun a b => stringsCompare a.Name.data b.Name.data ≤ 0) :=
    ⟨fun a b => by
      have h1 := stringsCompare_swap a.Name.data b.Name.data
      rcases stringsCompare_range a.Name.data b.Name.data with h | h | h
      · left; rw [h]; decide
      · left; rw [h]
      · right; rw [h1, h]; decide⟩
  haveI : IsTrans GMSprite (fun a b => stringsCompare a.Name.data b.Name.data ≤ 0) :=
    ⟨fun a b c => stringsCompare_trans a.Name.data b.Name.data c.Name.data⟩
  exact ⟨List.sorted_insertionSort _ sprites, List.perm_insertionSort _ sprites⟩

/-- Every sprite that `findGMSprites` returns was built from an entry of the folder. -/
theorem findGMSprites_ok (join : String → String → String)
    (readFile : String → Option (List Char)) (sha : String → Option String)
    (pf : String → Option YY.Float64) (infos : List DirEntry) (spritesPath : String)
    (params : Parameters) (sprites : List GMSprite) (log : List DstLogLine)
    (h : findGMSprites join readFile sha pf (some infos) spritesPath params
      = .ok (sprites, log)) :
    ∀ s ∈ sprites, ∃ e ∈ infos, SpriteOf join readFile sha pf spritesPath e s := by
  unfold findGMSprites at h
  simp only at h
  cases hl : findGMSpritesLoop join readFile sha pf spritesPath params infos ([], []) with
  | error e => rw [hl] at h; cases h
  | ok res =>
    rw [hl] at h
    obtain ⟨unsorted, log2⟩ := res
    simp only at h
    injection h with h
    injection h with h1 h2
    obtain ⟨added, hres, hall⟩ := findGMSpritesLoop_ok join readFile sha pf spritesPath params
      infos _ _ hl
    simp only [List.nil_append] at hres
    intro s hs
    rw [← h1] at hs
    have := ((sortByName_sorted unsorted).2.mem_iff).mp hs
    rw [hres] at this
    exact hall s this

theorem parseYyFrames_manyLayers (join : String → String → String)
    (sha : String → Option String) (yy : YY.Value) (folder : String) (frames : List GMFrame)
    (h : parseYyFrames join sha yy folder = .ok frames) (hm : ManyLayers yy) :
    frames ≠ [] ∧ ∀ f ∈ frames, f.UtilizesLayers = true := by
  obtain ⟨kvs, layer0, layersRest, layerName, framesYy, hy, hl, -, -, hne, hlen, hall⟩ :=
    parseYyFrames_ok_inv join sha yy folder frames h
  obtain ⟨kvs2, layers, hy2, hl2, hgt⟩ := hm
  rw [hy] at hy2
  injection hy2 with hy2
  subst hy2
  rw [hl] at hl2
  injection hl2 with hl2
  injection hl2 with hl2
  subst hl2
  constructor
  · intro hnil
    rw [hnil] at hlen
    exact hne (List.length_eq_zero.mp hlen.symm)
  · intro f hf
    obtain ⟨k, hk, hfk⟩ := List.getElem_of_mem hf
    have hk2 : k < framesYy.length := by omega
    obtain ⟨g, hg, hpk⟩ := hall k framesYy[k] (List.getElem?_eq_getElem hk2)
    rw [List.getElem?_eq_getElem hk] at hg
    injection hg with hg
    obtain ⟨name, hash, -, -, hgeq⟩ := (parseFrame_ok join sha folder _ layerName k _ g).mp hpk
    rw [← hfk, hg, hgeq]
    exact decide_eq_true hgt

theorem determineReImports_dst_mem (src : SrcIndex) (params : Parameters)
    (candidatesDst : List GMSprite) (out : Out)
    (h : determineReImports src candidatesDst params = .ok out) :
    ∀ r ∈ out.reImports, r.Dst ∈ candidatesDst ∧ r ∈ spriteInstructions src r.Dst := by
  intro r hr
  rw [determineReImports_flatMap src params candidatesDst out h] at hr
  obtain ⟨s, hs, hrs⟩ := List.mem_flatMap.mp hr
  have := (spriteInstructions_mem src s r hrs).1
  rw [this]
  exact ⟨hs, hrs⟩

/-- C13: a sprite whose descriptor has more than one layer is excluded as a whole. When
`findGMSprites` returns `sprites` and `determineReImports` runs on them, no returned sprite has
a frame that uses layers, every instruction has one of the returned sprites as destination,
and for every folder entry whose descriptor has more than one layer: all frames read from the
descriptor use layers, no instruction has the sprite of that entry as destination, and, the
names of the entries being distinct, no returned sprite and no instruction bears its name. -/
theorem findGMSprites_layers (join : String → String → String)
    (readFile : String → Option (List Char)) (sha : String → Option String)
    (pf : String → Option YY.Float64) (infos : List DirEntry) (spritesPath : String)
    (params : Parameters) (sprites : List GMSprite) (log : List DstLogLine) (src : SrcIndex)
    (out : Out)
    (hfind : findGMSprites join readFile sha pf (some infos) spritesPath params
      = .ok (sprites, log))
    (hdet : determineReImports src sprites params = .ok out) :
    (∀ s ∈ sprites, ∀ f ∈ s.Frames, f.UtilizesLayers = false) ∧
    (∀ r ∈ out.reImports, r.Dst ∈ sprites) ∧
    (∀ (e : DirEntry) (yy : YY.Value), e ∈ infos →
      FromFile readFile pf (join (join spritesPath e.Name) (e.Name ++ ".yy")) = .ok yy →
      ManyLayers yy →
      (∀ frames, parseYyFrames join sha yy (join spritesPath e.Name) = .ok frames →
        frames ≠ [] ∧ (∀ f ∈ frames, f.UtilizesLayers = true) ∧
        (∀ r ∈ out.reImports, r.Dst ≠ { Name := e.Name, Frames := frames })) ∧
      ((infos.map DirEntry.Name).Nodup →
        (∀ s ∈ sprites, s.Name ≠ e.Name) ∧ ∀ r ∈ out.reImports, r.Dst.Name ≠ e.Name)) := by
  have hsp := findGMSprites_ok join readFile sha pf infos spritesPath params sprites log hfind
  have hmem := determineReImports_dst_mem src params sprites out hdet
  have hflat : ∀ s ∈ sprites, ∀ f ∈ s.Frames, f.UtilizesLayers = false := by
    intro s hs
    obtain ⟨e, -, -, -, -, hno⟩ := hsp s hs
    exact hno
  refine ⟨hflat, fun r hr => (hmem r hr).1, ?_⟩
  intro e yy he hyy hmany
  constructor
  · intro frames hframes
    obtain ⟨hne, hall⟩ := parseYyFrames_manyLayers join sha yy _ frames hframes hmany
    refine ⟨hne, hall, ?_⟩
    intro r hr heq
    have h1 := hflat r.Dst (hmem r hr).1
    rw [heq] at h1
    obtain ⟨f, fs, hfs⟩ := List.exists_cons_of_ne_nil hne
    have h2 := h1 f (by show f ∈ frames; rw [hfs]; exact List.mem_cons_self _ _)
    have h3 := hall f (by rw [hfs]; exact List.mem_cons_self _ _)
    rw [h2] at h3
    cases h3
  · intro hnd
    have key : ∀ s ∈ sprites, s.Name ≠ e.Name := by
      intro s hs hname
      obtain ⟨e2, he2, -, hn2, ⟨yy2, hyy2, hp2⟩, hno⟩ := hsp s hs
      have hee : e2 = e := List.inj_on_of_nodup_map hnd he2 he (by rw [← hn2, hname])
      subst hee
      rw [hyy] at hyy2
      injection hyy2 with hyy2
      subst hyy2
      obtain ⟨hne, hall⟩ := parseYyFrames_manyLayers join sha yy _ s.Frames hp2 hmany
      obtain ⟨f, fs, hfs⟩ := List.exists_cons_of_ne_nil hne
      have h2 := hno f (by rw [hfs]; exact List.mem_cons_self _ _)
      have h3 := hall f (by rw [hfs]; exact List.mem_cons_self _ _)
      rw [h2] at h3
      cases h3
    exact ⟨key, fun r hr => key r.Dst (hmem r hr).1⟩

theorem findGMSprites_layers_witness :
    findGMSprites joinSlash readFileDemo shaDemo YY.noFloat (some dirDemo) "dst" quietParams
      = .ok (spritesDemo, []) ∧
    determineReImports srcDemo spritesDemo quietParams
      = .ok { reImports := reImportsDemo, log := [] } ∧
    srcDemo "boss" ≠ none ∧
    ∀ r ∈ reImportsDemo, r.Dst ∈ spritesDemo :=
  ⟨by decide, by decide, by decide,
   (findGMSprites_layers joinSlash readFileDemo shaDemo YY.noFloat dirDemo "dst" quietParams
      spritesDemo [] srcDemo { reImports := reImportsDemo, log := [] } (by decide)
      (by decide)).2.1⟩

theorem chooseScheme_none (src : SrcIndex) (name : String)
    (hnone : ∀ j, j < 16 → ¬ optionPresent src name j) :
    chooseScheme src name = .ok Scheme.init := by
  cases h : chooseScheme src name with
  | error e =>
    obtain ⟨c, k, hck, hk, hpc, -⟩ := (chooseScheme_error src name).2 e h
    exact absurd hpc (hnone c (by omega))
  | ok st =>
    rcases chooseScheme_ok src name st h with ⟨hst, -⟩ | ⟨c, hc, -, hpc, -⟩
    · rw [hst]
    · exact absurd hpc (hnone c hc)

theorem spriteInstructions_none (src : SrcIndex) (s : GMSprite) (hlen : s.Frames.length > 1)
    (hnone : ∀ j, j < 16 → ¬ optionPresent src s.Name j) : spriteInstructions src s = [] := by
  unfold spriteInstructions
  rw [if_pos hlen, chooseScheme_none src s.Name hnone]
  rfl

/-- C15: a sprite with more than one frame, none of whose 16 first-frame keys is in the source
index, is skipped as a whole: the loop body leaves the instructions as they are and only
writes the warning, unless it is suppressed; no run returns an instruction for the sprite,
whatever other keys the source index holds; and a run with the sprite in the list ends as the
run without it, with the same instructions or the same fatal error. -/
theorem determineReImports_skip (src : SrcIndex) (params : Parameters) (s : GMSprite)
    (hlen : s.Frames.length > 1) (hnone : ∀ j, j < 16 → ¬ optionPresent src s.Name j) :
    (∀ out, spriteStep src params out s =
      .ok (if !params.NoLogSrcMiss then
        { out with log := out.log ++ [LogLine.firstFrameSourceMissing (s.Name ++ "_0.png")] }
        else out)) ∧
    (∀ candidatesDst out, determineReImports src candidatesDst params = .ok out →
      ∀ r ∈ out.reImports, r.Dst ≠ s) ∧
    (∀ front back,
      (determineReImports src (front ++ s :: back) params).map Out.reImports =
        (determineReImports src (front ++ back) params).map Out.reImports) := by
  have hstep : ∀ out, spriteStep src params out s =
      .ok (if !params.NoLogSrcMiss then
        { out with log := out.log ++ [LogLine.firstFrameSourceMissing (s.Name ++ "_0.png")] }
        else out) := by
    intro out
    unfold spriteStep
    rw [if_pos hlen, chooseScheme_none src s.Name hnone]
    have h2 : ¬ Scheme.init.chosenOptionIndex ≥ 0 := by decide
    simp only [if_neg h2]
    by_cases h : (!params.NoLogSrcMiss) = true
    · simp only [if_pos h]
    · simp only [if_neg h]
  refine ⟨hstep, ?_, ?_⟩
  · intro candidatesDst out h r hr heq
    have := (determineReImports_dst_mem src params candidatesDst out h r hr).2
    rw [heq, spriteInstructions_none src s hlen hnone] at this
    cases this
  · intro front back
    unfold determineReImports
    rw [spritesLoop_append, spritesLoop_append src params front back]
    cases spritesLoop src params front { reImports := [], log := [] } with
    | error e => rfl
    | ok o =>
      simp only
      rw [spritesLoop_cons, hstep o]
      simp only
      rw [spritesLoop_shift src params back o, spritesLoop_shift src params back
        (if !params.NoLogSrcMiss then
          { o with log := o.log ++ [LogLine.firstFrameSourceMissing (s.Name ++ "_0.png")] }
          else o)]
      cases spritesLoop src params back Out.empty with
      | error e => rfl
      | ok o2 =>
        by_cases h : (!params.NoLogSrcMiss) = true
        · simp [h, Except.map, Out.append]
        · simp [h, Except.map, Out.append]

theorem determineReImports_skip_witness :
    laterSrc "walk_2" ≠ none ∧
    (determineReImports laterSrc ([fooSprite] ++ walkSprite :: [fooSprite]) default).map
        Out.reImports =
      (determineReImports laterSrc ([fooSprite] ++ [fooSprite]) default).map Out.reImports :=
  ⟨by decide,
   (determineReImports_skip laterSrc default walkSprite (by decide)
      (by unfold optionPresent; decide)).2.2 [fooSprite] [fooSprite]⟩

theorem sublist_filterMap_map {α β γ : Type} (f : α → Option β) (g : β → γ) (k : α → γ)
    (hfg : ∀ a b, f a = some b → g b = k a) :
    ∀ l : List α, ((l.filterMap f).map g).Sublist (l.map k) := by
  intro l
  induction l with
  | nil => exact List.Sublist.slnil
  | cons a rest ih =>
    cases hfa : f a with
    | none =>
      rw [List.filterMap_cons_none hfa]
      exact List.Sublist.cons _ ih
    | some b =>
      rw [List.filterMap_cons_some hfa, List.map_cons, List.map_cons, hfg a b hfa]
      exact List.Sublist.cons₂ _ ih

/-- The instructions for one sprite follow the frame indices of the sprite. -/
theorem spriteInstructions_sublist (src : SrcIndex) (s : GMSprite) :
    ((spriteInstructions src s).map (fun r => (r.Dst, r.FrameIndex))).Sublist
      ((List.range s.Frames.length).map (fun i => (s, i))) := by
  unfold spriteInstructions
  by_cases h1 : s.Frames.length > 1
  · simp only [if_pos h1]
    cases chooseScheme src s.Name with
    | error e => exact List.nil_sublist _
    | ok st =>
      simp only
      by_cases h2 : st.chosenOptionIndex ≥ 0
      · simp only [if_pos h2]
        apply sublist_filterMap_map
        intro i r hr
        obtain ⟨a, b, -, -⟩ := expectedReImport_some src s _ _ _ i r hr
        rw [a, b]
      · simp only [if_neg h2]
        exact List.nil_sublist _
  · simp only [if_neg h1]
    by_cases h3 : s.Frames.length = 1
    · simp only [if_pos h3]
      cases src s.Name with
      | none => exact List.nil_sublist _
      | some img =>
        simp only
        by_cases h4 : img.Sha256 ≠ (s.Frames.getD 0 default).Sha256
        · simp only [if_pos h4, h3]
          exact List.Sublist.refl _
        · simp only [if_neg h4]
          exact List.nil_sublist _
    · simp only [if_neg h3]
      exact List.nil_sublist _

theorem sublist_flatMap {α β γ : Type} (f : α → List β) (g : β → γ) (k : α → List γ)
    (h : ∀ a, ((f a).map g).Sublist (k a)) :
    ∀ l : List α, ((l.flatMap f).map g).Sublist (l.flatMap k) := by
  intro l
  induction l with
  | nil => exact List.Sublist.slnil
  | cons a rest ih =>
    rw [List.flatMap_cons, List.flatMap_cons, List.map_append]
    exact List.Sublist.append (h a) ih

theorem spriteInstructions_ascending (src : SrcIndex) (s : GMSprite) :
    ((spriteInstructions src s).map (fun r => r.FrameIndex)).Pairwise (fun i j => i < j) := by
  have h := spriteInstructions_sublist src s
  have h2 := h.map Prod.snd
  simp only [List.map_map] at h2
  have h3 : (Prod.snd ∘ fun (i : Nat) => (s, i)) = id := rfl
  rw [h3, List.map_id] at h2
  exact List.Pairwise.sublist h2 (List.pairwise_lt_range _)

/-- C16: the instructions follow the order of the sprites given and, within a sprite, ascend
strictly in the frame index. The pairs of destination and frame index of the instructions are
a subsequence of the enumeration of all sprites in the order given, each with its frame
indices `0, 1, 2, ...`; the instructions are the concatenation of one block per sprite, in
that order, each block with that sprite as destination and strictly ascending frame indices;
and the list that `findGMSprites` returns is in ascending order of the sprite names. -/
theorem determineReImports_order (src : SrcIndex) (params : Parameters)
    (candidatesDst : List GMSprite) (out : Out)
    (h : determineReImports src candidatesDst params = .ok out) :
    (out.reImports.map (fun r => (r.Dst, r.FrameIndex))).Sublist (allFrames candidatesDst) ∧
    (∃ blocks : List (List GMFrameReImport), out.reImports = blocks.flatten ∧
      List.Forall₂ (fun s block => (∀ r ∈ block, r.Dst = s) ∧
        (block.map (fun r => r.FrameIndex)).Pairwise (fun i j => i < j))
        candidatesDst blocks) ∧
    (∀ (join : String → String → String) (readFile : String → Option (List Char))
      (sha : String → Option String) (pf : String → Option YY.Float64)
      (spriteInfos : Option (List DirEntry)) (spritesPath : String) (sprites : List GMSprite)
      (log : List DstLogLine),
      findGMSprites join readFile sha pf spriteInfos spritesPath params = .ok (sprites, log) →
      sprites.Sorted (fun a b => stringsCompare a.Name.data b.Name.data ≤ 0)) := by
  have hflat := determineReImports_flatMap src params candidatesDst out h
  refine ⟨?_, ⟨candidatesDst.map (spriteInstructions src), ?_, ?_⟩, ?_⟩
  · rw [hflat]
    exact sublist_flatMap _ _ _ (spriteInstructions_sublist src) candidatesDst
  · rw [hflat, List.flatMap_def]
  · rw [List.forall₂_map_right_iff]
    apply List.forall₂_same.mpr
    intro s _
    exact ⟨fun r hr => (spriteInstructions_mem src s r hr).1,
      spriteInstructions_ascending src s⟩
  · intro join readFile sha pf spriteInfos spritesPath sprites log hfind
    unfold findGMSprites at hfind
    cases spriteInfos with
    | none => cases hfind
    | some infos =>
      simp only at hfind
      cases hl : findGMSpritesLoop join readFile sha pf spritesPath params infos ([], []) with
      | error e => rw [hl] at hfind; cases hfind
      | ok res =>
        rw [hl] at hfind
        obtain ⟨unsorted, log2⟩ := res
        simp only at hfind
        injection hfind with hfind
        injection hfind with h1 h2
        rw [← h1]
        exact (sortByName_sorted unsorted).1

theorem determineReImports_order_witness :
    determineReImports srcDemo spritesDemo quietParams
      = .ok { reImports := reImportsDemo, log := [] } ∧
    (reImportsDemo.map (fun r => (r.Dst, r.FrameIndex))).Sublist (allFrames spritesDemo) :=
  ⟨by decide,
   (determineReImports_order srcDemo quietParams spritesDemo
      { reImports := reImportsDemo, log := [] } (by decide)).1⟩

/-- C18: every instruction that `determineReImports` returns is well formed. Its destination
is one of the sprites given; its frame index is below the number of frames of the
destination, so the frame that `main` reads at that index exists; its source image is a value
of the source index; and the hash of the source image differs from the hash of that frame. -/
theorem determineReImports_wellFormed (src : SrcIndex) (params : Parameters)
    (candidatesDst : List GMSprite) (out : Out)
    (h : determineReImports src candidatesDst params = .ok out) :
    ∀ r ∈ out.reImports,
      r.Dst ∈ candidatesDst ∧ r.FrameIndex < r.Dst.Frames.length ∧
      (∃ key, src key = some r.Src) ∧
      ∃ frame, r.Dst.Frames[r.FrameIndex]? = some frame ∧ r.Src.Sha256 ≠ frame.Sha256 := by
  intro r hr
  obtain ⟨hmem, hin⟩ := determineReImports_dst_mem src params candidatesDst out h r hr
  obtain ⟨-, hlt, hkey, hne⟩ := spriteInstructions_mem src r.Dst r hin
  refine ⟨hmem, hlt, hkey, r.Dst.Frames[r.FrameIndex], List.getElem?_eq_getElem hlt, ?_⟩
  rw [List.getD_eq_getElem _ _ hlt] at hne
  exact hne

theorem determineReImports_wellFormed_witness :
    determineReImports walkSrc [walkSprite] quietParams = .ok
      { reImports :=
          [{ Src := ⟨"walk_0.png", "src/walk_0.png", "h0"⟩, Dst := walkSprite, FrameIndex := 0 },
           { Src := ⟨"walk_2.png", "src/walk_2.png", "h2"⟩, Dst := walkSprite,
             FrameIndex := 2 }],
        log := [] } ∧
    ∀ r ∈ [({ Src := ⟨"walk_0.png", "src/walk_0.png", "h0"⟩, Dst := walkSprite,
              FrameIndex := 0 } : GMFrameReImport),
           { Src := ⟨"walk_2.png", "src/walk_2.png", "h2"⟩, Dst := walkSprite,
             FrameIndex := 2 }],
      r.Dst ∈ [walkSprite] ∧ r.FrameIndex < r.Dst.Frames.length ∧
      (∃ key, walkSrc key = some r.Src) ∧
      ∃ frame, r.Dst.Frames[r.FrameIndex]? = some frame ∧ r.Src.Sha256 ≠ frame.Sha256 :=
  ⟨by decide,
   determineReImports_wellFormed walkSrc quietParams [walkSprite]
     { reImports :=
         [{ Src := ⟨"walk_0.png", "src/walk_0.png", "h0"⟩, Dst := walkSprite, FrameIndex := 0 },
          { Src := ⟨"walk_2.png", "src/walk_2.png", "h2"⟩, Dst := walkSprite,
            FrameIndex := 2 }],
       log := [] } (by decide)⟩

/-! ## Theorems on `findImportCandidates` -/

theorem lookup_eq_none_of_not_mem : ∀ (acc : List (String × MasterImage)) (key : String),
    key ∉ acc.map Prod.fst → acc.lookup key = none := by
  intro acc
  induction acc with
  | nil => intro key _; rfl
  | cons kv rest ih =>
    obtain ⟨k, v⟩ := kv
    intro key h
    have h1 : key ≠ k := by
      intro he; apply h; simp [he]
    have h2 : key ∉ rest.map Prod.fst := by
      intro hm; apply h; simp only [List.map_cons, List.mem_cons]; exact Or.inr hm
    have h3 : (key == k) = false := by simpa using h1
    rw [List.lookup_cons, h3]
    exact ih key h2

theorem lookup_of_mem : ∀ (acc : List (String × MasterImage)) (key : String),
    key ∈ acc.map Prod.fst → ∃ v, acc.lookup key = some v ∧ (key, v) ∈ acc := by
  intro acc
  induction acc with
  | nil => intro key h; cases h
  | cons kv rest ih =>
    obtain ⟨k, v⟩ := kv
    intro key h
    by_cases h1 : key = k
    · subst h1
      exact ⟨v, by simp [List.lookup_cons], List.mem_cons_self _ _⟩
    · have h3 : (key == k) = false := by simpa using h1
      have h2 : key ∈ rest.map Prod.fst := by
        simp only [List.map_cons, List.mem_cons] at h
        rcases h with h | h
        · exact absurd h h1
        · exact h
      obtain ⟨w, hw, hmem⟩ := ih key h2
      exact ⟨w, by rw [List.lookup_cons, h3]; exact hw, List.mem_cons_of_mem _ hmem⟩

theorem candidatesSet_fresh : ∀ (acc : List (String × MasterImage)) (key : String)
    (image : MasterImage), key ∉ acc.map Prod.fst →
    candidatesSet acc key image = acc ++ [(key, image)] := by
  intro acc
  induction acc with
  | nil => intro key image _; rfl
  | cons kv rest ih =>
    obtain ⟨k, v⟩ := kv
    intro key image h
    have h1 : k ≠ key := by
      intro he; apply h; simp [he]
    have h2 : key ∉ rest.map Prod.fst := by
      intro hm; apply h; simp only [List.map_cons, List.mem_cons]; exact Or.inr hm
    show (if k = key then (key, image) :: rest else (k, v) :: candidatesSet rest key image) = _
    rw [if_neg h1, ih key image h2]
    rfl

theorem entryOf_fst (sha : String → Option String) (files : List (String × String)) :
    (files.map (entryOf sha)).map Prod.fst = files.map keyOf := by
  rw [List.map_map]
  rfl

theorem scanResult_file (sha : String → Option String) (hsha : ∀ p, sha p ≠ none)
    (acc : List (String × MasterImage)) (hacc : (acc.map Prod.fst).Nodup)
    (fileName filePath : String) :
    ScanResult sha acc [(fileName, filePath)]
      (match acc.lookup (keyOf (fileName, filePath)) with
       | some existingSprite =>
         .error (IndexFatal.duplicate filePath existingSprite.FilePath)
       | none =>
         match sha filePath with
         | none => .error (IndexFatal.sha256 filePath)
         | some sha256 =>
           .ok (candidatesSet acc (keyOf (fileName, filePath))
             { SpriteName := fileName, FilePath := filePath, Sha256 := sha256 })) := by
  obtain ⟨hash, hhash⟩ := Option.ne_none_iff_exists'.mp (hsha filePath)
  by_cases hmem : keyOf (fileName, filePath) ∈ acc.map Prod.fst
  · obtain ⟨v, hv, hvm⟩ := lookup_of_mem acc _ hmem
    rw [hv]
    constructor
    · intro hnd
      exfalso
      rw [List.nodup_append] at hnd
      exact hnd.2.2 hmem (by simp)
    · intro _
      exact ⟨(fileName, filePath), List.mem_singleton.mpr rfl, (keyOf (fileName, filePath), v),
        List.mem_append_left _ hvm, rfl, rfl⟩
  · rw [lookup_eq_none_of_not_mem acc _ hmem, hhash]
    constructor
    · intro _
      simp only
      rw [candidatesSet_fresh acc _ _ hmem]
      simp [entryOf, hhash]
    · intro hnd
      exfalso
      apply hnd
      rw [List.nodup_append]
      refine ⟨hacc, by simp, ?_⟩
      intro a ha hb
      simp only [List.map_cons, List.map_nil, List.mem_singleton] at hb
      exact hmem (hb ▸ ha)

theorem scanResult_append (sha : String → Option String) (acc : List (String × MasterImage))
    (files1 files2 : List (String × String))
    (r1 : Except IndexFatal (List (String × MasterImage)))
    (next : List (String × MasterImage) → Except IndexFatal (List (String × MasterImage))) :
    ScanResult sha acc files1 r1 →
    (((acc ++ files1.map (entryOf sha)).map Prod.fst).Nodup →
      ScanResult sha (acc ++ files1.map (entryOf sha)) files2
        (next (acc ++ files1.map (entryOf sha)))) →
    ScanResult sha acc (files1 ++ files2)
      (match r1 with
       | .error e => .error e
       | .ok acc2 => next acc2) := by
  intro h1 h2
  have hkeys : ((acc ++ files1.map (entryOf sha)).map Prod.fst) =
      acc.map Prod.fst ++ files1.map keyOf := by
    rw [List.map_append, entryOf_fst]
  by_cases hnd1 : (acc.map Prod.fst ++ files1.map keyOf).Nodup
  · rw [h1.1 hnd1]
    simp only
    have h3 := h2 (by rw [hkeys]; exact hnd1)
    unfold ScanResult at h3
    rw [hkeys] at h3
    constructor
    · intro hnd
      rw [List.map_append, ← List.append_assoc] at hnd
      rw [h3.1 hnd, List.map_append, List.append_assoc]
    · intro hnd
      rw [List.map_append, ← List.append_assoc] at hnd
      obtain ⟨file, hf, kv, hkv, hk, hres⟩ := h3.2 hnd
      refine ⟨file, List.mem_append_right _ hf, kv, ?_, hk, hres⟩
      rw [List.map_append, ← List.append_assoc]
      exact hkv
  · obtain ⟨file, hf, kv, hkv, hk, hres⟩ := h1.2 hnd1
    rw [hres]
    simp only
    constructor
    · intro hnd
      exfalso
      apply hnd1
      rw [List.map_append, ← List.append_assoc] at hnd
      exact (List.nodup_append.mp hnd).1
    · intro _
      refine ⟨file, List.mem_append_left _ hf, kv, ?_, hk, rfl⟩
      rw [List.map_append, ← List.append_assoc]
      exact List.mem_append_left _ hkv

mutual
theorem findImportCandidatesStep_scan (join : String → String → String)
    (sha : String → Option String) (hsha : ∀ p, sha p ≠ none) :
    ∀ (node : FsNode) (spritesPath : String) (acc : List (String × MasterImage)),
      (acc.map Prod.fst).Nodup →
      ScanResult sha acc (pngFilesOf join spritesPath node)
        (findImportCandidatesStep join sha spritesPath node acc)
  | FsNode.dir fileName entries, spritesPath, acc, hacc => by
    have := findImportCandidates_scan join sha hsha entries (join spritesPath fileName) acc hacc
    simpa only [findImportCandidatesStep, pngFilesOf] using this
  | FsNode.file fileName, spritesPath, acc, hacc => by
    by_cases hpng : toLower (filepathExt fileName) = ".png"
    · have := scanResult_file sha hsha acc hacc fileName (join spritesPath fileName)
      simpa only [findImportCandidatesStep, pngFilesOf, if_pos hpng, keyOf] using this
    · simp only [findImportCandidatesStep, pngFilesOf, if_neg hpng]
      constructor
      · intro _; simp
      · intro hnd
        exfalso
        apply hnd
        simpa using hacc
theorem findImportCandidates_scan (join : String → String → String)
    (sha : String → Option String) (hsha : ∀ p, sha p ≠ none) :
    ∀ (entries : List FsNode) (spritesPath : String) (acc : List (String × MasterImage)),
      (acc.map Prod.fst).Nodup →
      ScanResult sha acc (pngFiles join spritesPath entries)
        (findImportCandidates join sha spritesPath entries acc)
  | [], spritesPath, acc, hacc => by
    simp only [findImportCandidates, pngFiles]
    constructor
    · intro _; simp
    · intro hnd
      exfalso
      apply hnd
      simpa using hacc
  | spriteInfo :: rest, spritesPath, acc, hacc => by
    have h1 := findImportCandidatesStep_scan join sha hsha spriteInfo spritesPath acc hacc
    have := scanResult_append sha acc (pngFilesOf join spritesPath spriteInfo)
      (pngFiles join spritesPath rest) _
      (fun acc2 => findImportCandidates join sha spritesPath rest acc2) h1
      (fun hnd => findImportCandidates_scan join sha hsha rest spritesPath _ hnd)
    simpa only [findImportCandidates, pngFiles] using this
end

theorem lookup_of_mem_nodup (acc : List (String × MasterImage)) (key : String)
    (v : MasterImage) (hnd : (acc.map Prod.fst).Nodup) (hmem : (key, v) ∈ acc) :
    acc.lookup key = some v := by
  obtain ⟨w, hw, hwm⟩ := lookup_of_mem acc key (List.mem_map.mpr ⟨(key, v), hmem, rfl⟩)
  have := List.inj_on_of_nodup_map hnd hwm hmem rfl
  injection this with _ h2
  rw [hw, h2]

/-! ## The test and the key of the scan, in terms of the file name -/

theorem toLower_cases (c t : Char) (h : c.toLower = t) :
    c = t ∨ ∃ n, 65 ≤ n ∧ n ≤ 90 ∧ c = Char.ofNat n ∧ Char.ofNat (n + 32) = t := by
  unfold Char.toLower at h
  simp only at h
  split at h
  · rename_i hc
    exact Or.inr ⟨c.toNat, hc.1, hc.2, (Char.ofNat_toNat c).symm, h⟩
  · exact Or.inl h

theorem toLower_dot (c : Char) (h : c.toLower = '.') : c = '.' := by
  rcases toLower_cases c _ h with h1 | ⟨n, h1, h2, -, h4⟩
  · exact h1
  · exfalso
    interval_cases n <;> exact absurd h4 (by decide)

theorem toLower_p (c : Char) (h : c.toLower = 'p') : c = 'p' ∨ c = 'P' := by
  rcases toLower_cases c _ h with h1 | ⟨n, h1, h2, h3, h4⟩
  · exact Or.inl h1
  · right
    interval_cases n <;> first | exact absurd h4 (by decide) | exact h3

theorem toLower_n (c : Char) (h : c.toLower = 'n') : c = 'n' ∨ c = 'N' := by
  rcases toLower_cases c _ h with h1 | ⟨n, h1, h2, h3, h4⟩
  · exact Or.inl h1
  · right
    interval_cases n <;> first | exact absurd h4 (by decide) | exact h3

theorem toLower_g (c : Char) (h : c.toLower = 'g') : c = 'g' ∨ c = 'G' := by
  rcases toLower_cases c _ h with h1 | ⟨n, h1, h2, h3, h4⟩
  · exact Or.inl h1
  · right
    interval_cases n <;> first | exact absurd h4 (by decide) | exact h3

theorem mem_pngExtensions_of_lower (e : List Char)
    (h : e.map Char.toLower = ['.', 'p', 'n', 'g']) : e ∈ pngExtensions := by
  have hlen : e.length = 4 := by
    have := congrArg List.length h
    simpa using this
  obtain ⟨d, c1, c2, c3, rfl⟩ : ∃ d c1 c2 c3, e = [d, c1, c2, c3] := by
    match e, hlen with
    | [d, c1, c2, c3], _ => exact ⟨d, c1, c2, c3, rfl⟩
  simp only [List.map_cons, List.map_nil, List.cons.injEq, and_true] at h
  obtain ⟨h0, h1, h2, h3⟩ := h
  have e0 := toLower_dot d h0
  subst e0
  rcases toLower_p c1 h1 with rfl | rfl <;> rcases toLower_n c2 h2 with rfl | rfl <;>
    rcases toLower_g c3 h3 with rfl | rfl <;> decide

theorem pngExtensions_props (e : List Char) (h : e ∈ pngExtensions) :
    e.length = 4 ∧ e.map Char.toLower = ['.', 'p', 'n', 'g'] ∧
      ∃ c1 c2 c3, e = ['.', c1, c2, c3] ∧ (c1 ≠ '.' ∧ c1 ≠ '/') ∧ (c2 ≠ '.' ∧ c2 ≠ '/') ∧
        (c3 ≠ '.' ∧ c3 ≠ '/') := by
  simp only [pngExtensions, List.mem_cons, List.mem_singleton, List.not_mem_nil, or_false] at h
  rcases h with rfl | rfl | rfl | rfl | rfl | rfl | rfl | rfl <;>
    exact ⟨rfl, by decide, _, _, _, rfl, by decide, by decide, by decide⟩

theorem extLoop_hit : ∀ (taken rest seen : List Char),
    (∀ c ∈ taken, c ≠ '.' ∧ c ≠ '/') →
    extLoop (taken ++ '.' :: rest) seen = '.' :: (taken.reverse ++ seen) := by
  intro taken
  induction taken with
  | nil =>
    intro rest seen _
    show (if '.' = '/' then [] else if '.' = '.' then '.' :: seen else _) = _
    rw [if_neg (by decide), if_pos rfl]
    rfl
  | cons c taken ih =>
    intro rest seen h
    have hc := h c (List.mem_cons_self _ _)
    show (if c = '/' then [] else if c = '.' then '.' :: seen
      else extLoop (taken ++ '.' :: rest) (c :: seen)) = _
    rw [if_neg hc.2, if_neg hc.1, ih rest (c :: seen) (fun x hx => h x (List.mem_cons_of_mem _ hx))]
    simp

theorem extLoop_result : ∀ (rev seen : List Char),
    extLoop rev seen = [] ∨
    ∃ taken rest, rev = taken ++ '.' :: rest ∧
      extLoop rev seen = '.' :: (taken.reverse ++ seen) := by
  intro rev
  induction rev with
  | nil => intro seen; exact Or.inl rfl
  | cons c rev ih =>
    intro seen
    by_cases h1 : c = '/'
    · left
      show (if c = '/' then [] else _) = _
      rw [if_pos h1]
    · by_cases h2 : c = '.'
      · right
        refine ⟨[], rev, by rw [h2]; rfl, ?_⟩
        show (if c = '/' then [] else if c = '.' then '.' :: seen else _) = _
        rw [if_neg h1, if_pos h2]
        rfl
      · have hstep : extLoop (c :: rev) seen = extLoop rev (c :: seen) := by
          show (if c = '/' then [] else if c = '.' then '.' :: seen
            else extLoop rev (c :: seen)) = _
          rw [if_neg h1, if_neg h2]
        rcases ih (c :: seen) with h | ⟨taken, rest, hr, he⟩
        · exact Or.inl (by rw [hstep, h])
        · right
          refine ⟨c :: taken, rest, by rw [hr]; rfl, ?_⟩
          rw [hstep, he]
          simp

/-- The test of the scan holds exactly for the names that end in `.png` in some case, and the
key of the scan is then what stands before the extension. -/
theorem png_test (fileName : String) :
    (toLower (filepathExt fileName) = ".png" ↔ IsPngName fileName) ∧
    (toLower (filepathExt fileName) = ".png" →
      PngName fileName (stripExt fileName (toLower (filepathExt fileName)))) := by
  have key : toLower (filepathExt fileName) = ".png" →
      ∃ stem e, e ∈ pngExtensions ∧ fileName.data = stem ++ e := by
    intro h
    have h1 : (extLoop fileName.data.reverse []).map Char.toLower = ['.', 'p', 'n', 'g'] := by
      have := congrArg String.data h
      exact this
    rcases extLoop_result fileName.data.reverse [] with h2 | ⟨taken, rest, hr, he⟩
    · rw [h2] at h1
      cases h1
    · rw [he, List.append_nil] at h1
      refine ⟨rest.reverse, '.' :: taken.reverse, mem_pngExtensions_of_lower _ h1, ?_⟩
      have := congrArg List.reverse hr
      rw [List.reverse_reverse] at this
      rw [this]
      simp
  constructor
  · constructor
    · intro h
      obtain ⟨stem, e, he, hd⟩ := key h
      exact ⟨e, he, ⟨stem, hd.symm⟩⟩
    · rintro ⟨e, he, ⟨stem, hd⟩⟩
      obtain ⟨-, hlow, c1, c2, c3, rfl, h1, h2, h3⟩ := pngExtensions_props e he
      have hrev : fileName.data.reverse = [c3, c2, c1] ++ '.' :: stem.reverse := by
        rw [← hd]
        simp
      have hext : extLoop fileName.data.reverse [] = ['.', c1, c2, c3] := by
        rw [hrev, extLoop_hit [c3, c2, c1] stem.reverse [] (by
          intro c hc
          simp only [List.mem_cons, List.mem_singleton, List.not_mem_nil, or_false] at hc
          rcases hc with rfl | rfl | rfl
          · exact h3
          · exact h2
          · exact h1)]
        rfl
      unfold toLower filepathExt
      rw [hext]
      show String.mk (List.map Char.toLower ['.', c1, c2, c3]) = _
      rw [hlow]
  · intro h
    obtain ⟨stem, e, he, hd⟩ := key h
    refine ⟨e, he, ?_⟩
    rw [h]
    unfold stripExt
    have hlen := (pngExtensions_props e he).1
    show fileName.data = List.take (fileName.data.length - 4) fileName.data ++ e
    rw [hd, List.length_append, hlen, Nat.add_sub_cancel, List.take_left' rfl]

theorem pngName_unique (fileName stem1 stem2 : String) (h1 : PngName fileName stem1)
    (h2 : PngName fileName stem2) : stem1 = stem2 := by
  obtain ⟨e1, he1, hd1⟩ := h1
  obtain ⟨e2, he2, hd2⟩ := h2
  have l1 := (pngExtensions_props e1 he1).1
  have l2 := (pngExtensions_props e2 he2).1
  rw [hd1] at hd2
  have := List.append_inj_left' hd2 (by rw [l1, l2])
  exact String.ext this

theorem isPngName_of_pngName (fileName stem : String) (h : PngName fileName stem) :
    IsPngName fileName := by
  obtain ⟨e, he, hd⟩ := h
  exact ⟨e, he, ⟨stem.data, hd.symm⟩⟩

mutual
theorem pngFilesOf_filter (join : String → String → String) :
    ∀ (node : FsNode) (spritesPath : String),
      pngFilesOf join spritesPath node =
        (allFilesOf join spritesPath node).filter (fun file => decide (IsPngName file.1))
  | FsNode.dir fileName entries, spritesPath => by
    simp only [pngFilesOf, allFilesOf]
    exact pngFiles_filter join entries (join spritesPath fileName)
  | FsNode.file fileName, spritesPath => by
    simp only [pngFilesOf, allFilesOf]
    by_cases h : toLower (filepathExt fileName) = ".png"
    · have h2 : IsPngName fileName := (png_test fileName).1.mp h
      rw [if_pos h, List.filter_cons_of_pos (by simpa using h2)]
      rfl
    · have h2 : ¬ IsPngName fileName := fun hh => h ((png_test fileName).1.mpr hh)
      rw [if_neg h, List.filter_cons_of_neg (by simpa using h2)]
      rfl
theorem pngFiles_filter (join : String → String → String) :
    ∀ (entries : List FsNode) (spritesPath : String),
      pngFiles join spritesPath entries =
        (allFiles join spritesPath entries).filter (fun file => decide (IsPngName file.1))
  | [], _ => rfl
  | spriteInfo :: rest, spritesPath => by
    simp only [pngFiles, allFiles, List.filter_append]
    rw [pngFilesOf_filter join spriteInfo spritesPath, pngFiles_filter join rest spritesPath]
end

theorem pngFiles_eq_imageFiles (join : String → String → String) (spritesPath : String)
    (tree : List FsNode) : pngFiles join spritesPath tree = imageFiles join spritesPath tree :=
  pngFiles_filter join tree spritesPath

theorem imageFiles_mem (join : String → String → String) (spritesPath : String)
    (tree : List FsNode) (file : String × String) :
    file ∈ imageFiles join spritesPath tree ↔
      file ∈ allFiles join spritesPath tree ∧ ∃ stem, PngName file.1 stem := by
  unfold imageFiles
  rw [List.mem_filter]
  constructor
  · rintro ⟨h1, h2⟩
    have h3 : IsPngName file.1 := by simpa using h2
    exact ⟨h1, _, (png_test file.1).2 ((png_test file.1).1.mpr h3)⟩
  · rintro ⟨h1, stem, h2⟩
    exact ⟨h1, by simpa using isPngName_of_pngName file.1 stem h2⟩

theorem keyOf_stem (file : String × String) (stem : String) (h : PngName file.1 stem) :
    keyOf file = stem := by
  have h1 := (png_test file.1).2
    ((png_test file.1).1.mpr (isPngName_of_pngName file.1 stem h))
  exact pngName_unique file.1 _ _ h1 h

/-- C14: below a tree of readable files, `findImportCandidates`, started with the empty map,
ends in its fatal duplicate error exactly when two files at different places of the tree have
names that end in `.png` (in any case) after the same stem; the error names the paths of two
such files. Otherwise it returns a map with exactly one entry per file whose name ends in
`.png` in any case, in the order of the scan: the key of the entry is the name without that
extension, the keys are distinct, and the entry holds the file name, the path and the hash of
the file; so the stem of each such file leads to its entry. -/
theorem findImportCandidates_index (join : String → String → String)
    (sha : String → Option String) (spritesPath : String) (tree : List FsNode)
    (hsha : ∀ p, sha p ≠ none) :
    ((∃ e, findImportCandidates join sha spritesPath tree [] = .error e) ↔
      ∃ (file1 file2 : String × String) (stem : String),
        [file1, file2].Sublist (allFiles join spritesPath tree) ∧
        PngName file1.1 stem ∧ PngName file2.1 stem) ∧
    (∀ e, findImportCandidates join sha spritesPath tree [] = .error e →
      ∃ file1 ∈ allFiles join spritesPath tree, ∃ file2 ∈ allFiles join spritesPath tree,
        ∃ stem, PngName file1.1 stem ∧ PngName file2.1 stem ∧
          e = IndexFatal.duplicate file2.2 file1.2) ∧
    ((¬ ∃ e, findImportCandidates join sha spritesPath tree [] = .error e) →
      ∃ candidates, findImportCandidates join sha spritesPath tree [] = .ok candidates ∧
        (candidates.map Prod.fst).Nodup ∧
        List.Forall₂ (fun (file : String × String) (kv : String × MasterImage) =>
            PngName file.1 kv.1 ∧ ∃ hash, sha file.2 = some hash ∧
              kv.2 = { SpriteName := file.1, FilePath := file.2, Sha256 := hash })
          (imageFiles join spritesPath tree) candidates ∧
        ∀ file ∈ allFiles join spritesPath tree, ∀ stem, PngName file.1 stem →
          ∃ hash, sha file.2 = some hash ∧
            indexOf candidates stem =
              some { SpriteName := file.1, FilePath := file.2, Sha256 := hash }) := by
  have hscan := findImportCandidates_scan join sha hsha tree spritesPath [] List.nodup_nil
  unfold ScanResult at hscan
  simp only [List.map_nil, List.nil_append, pngFiles_eq_imageFiles] at hscan
  have hstem : ∀ file ∈ imageFiles join spritesPath tree, PngName file.1 (keyOf file) := by
    intro file hf
    obtain ⟨-, stem, hs⟩ := (imageFiles_mem join spritesPath tree file).mp hf
    rw [keyOf_stem file stem hs]
    exact hs
  have hiff : ((imageFiles join spritesPath tree).map keyOf).Nodup ↔
      ¬ ∃ (file1 file2 : String × String) (stem : String),
        [file1, file2].Sublist (allFiles join spritesPath tree) ∧
        PngName file1.1 stem ∧ PngName file2.1 stem := by
    rw [List.nodup_iff_sublist]
    constructor
    · rintro h ⟨f1, f2, stem, hsub, h1, h2⟩
      apply h stem
      have hfil : [f1, f2].Sublist (imageFiles join spritesPath tree) := by
        have := hsub.filter (fun file => decide (IsPngName file.1))
        rw [List.filter_cons_of_pos (by simpa using isPngName_of_pngName _ _ h1),
          List.filter_cons_of_pos (by simpa using isPngName_of_pngName _ _ h2),
          List.filter_nil] at this
        exact this
      have := hfil.map keyOf
      rw [List.map_cons, List.map_cons, List.map_nil, keyOf_stem f1 stem h1,
        keyOf_stem f2 stem h2] at this
      exact this
    · intro h a ha
      apply h
      obtain ⟨l, hl, hmap⟩ := List.sublist_map_iff.mp ha
      have hlen : l.length = 2 := by
        have := congrArg List.length hmap
        simpa using this.symm
      obtain ⟨f1, f2, rfl⟩ : ∃ f1 f2, l = [f1, f2] := by
        match l, hlen with
        | [f1, f2], _ => exact ⟨f1, f2, rfl⟩
      simp only [List.map_cons, List.map_nil, List.cons.injEq, and_true] at hmap
      have m1 : f1 ∈ imageFiles join spritesPath tree := hl.subset (by simp)
      have m2 : f2 ∈ imageFiles join spritesPath tree := hl.subset (by simp)
      refine ⟨f1, f2, a, hl.trans (List.filter_sublist _), ?_, ?_⟩
      · rw [hmap.1]; exact hstem f1 m1
      · rw [hmap.2]; exact hstem f2 m2
  have herr : ∀ e, findImportCandidates join sha spritesPath tree [] = .error e →
      ¬ ((imageFiles join spritesPath tree).map keyOf).Nodup := by
    intro e he hnd
    rw [hscan.1 hnd] at he
    cases he
  refine ⟨⟨?_, ?_⟩, ?_, ?_⟩
  · rintro ⟨e, he⟩
    exact not_not.mp (fun h => herr e he (hiff.mpr h))
  · intro h
    obtain ⟨file, -, kv, -, -, hres⟩ := hscan.2 (fun hnd => hiff.mp hnd h)
    exact ⟨_, hres⟩
  · intro e he
    obtain ⟨file, hf, kv, hkv, hk, hres⟩ := hscan.2 (herr e he)
    obtain ⟨file1, hf1, hkv1⟩ := List.mem_map.mp hkv
    rw [hres] at he
    injection he with he
    have hk1 : keyOf file1 = keyOf file := by
      rw [← hk, ← hkv1]
      rfl
    refine ⟨file1, ((imageFiles_mem join spritesPath tree file1).mp hf1).1, file,
      ((imageFiles_mem join spritesPath tree file).mp hf).1, keyOf file, ?_, hstem file hf, ?_⟩
    · rw [← hk1]; exact hstem file1 hf1
    · rw [← he, ← hkv1]
      rfl
  · intro hno
    have hnd : ((imageFiles join spritesPath tree).map keyOf).Nodup := by
      by_contra hnd
      obtain ⟨file, -, kv, -, -, hres⟩ := hscan.2 hnd
      exact hno ⟨_, hres⟩
    refine ⟨_, hscan.1 hnd, by rw [entryOf_fst]; exact hnd, ?_, ?_⟩
    · rw [List.forall₂_map_right_iff]
      apply List.forall₂_same.mpr
      intro file hf
      obtain ⟨hash, hhash⟩ := Option.ne_none_iff_exists'.mp (hsha file.2)
      exact ⟨hstem file hf, hash, hhash, by simp [entryOf, hhash]⟩
    · intro file hf stem hs
      have hm : file ∈ imageFiles join spritesPath tree :=
        (imageFiles_mem join spritesPath tree file).mpr ⟨hf, stem, hs⟩
      obtain ⟨hash, hhash⟩ := Option.ne_none_iff_exists'.mp (hsha file.2)
      refine ⟨hash, hhash, ?_⟩
      unfold indexOf
      apply lookup_of_mem_nodup _ _ _ (by rw [entryOf_fst]; exact hnd)
      have : entryOf sha file ∈ (imageFiles join spritesPath tree).map (entryOf sha) :=
        List.mem_map.mpr ⟨file, hm, rfl⟩
      rw [← keyOf_stem file stem hs]
      simpa [entryOf, hhash] using this

theorem findImportCandidates_index_witness :
    (findImportCandidates joinSlash shaDemo "src" treeTwice [] =
        .error (IndexFatal.duplicate "src/b/x.PNG" "src/a/x.png") ∧
      ∃ (file1 file2 : String × String) (stem : String),
        [file1, file2].Sublist (allFiles joinSlash "src" treeTwice) ∧
        PngName file1.1 stem ∧ PngName file2.1 stem) ∧
    (findImportCandidates joinSlash shaDemo "src" treeOnce [] =
        .ok [("x", ⟨"x.png", "src/a/x.png", "sha:src/a/x.png"⟩),
             ("y", ⟨"y.PNG", "src/b/y.PNG", "sha:src/b/y.PNG"⟩),
             ("z.tar", ⟨"z.tar.png", "src/z.tar.png", "sha:src/z.tar.png"⟩)] ∧
      imageFiles joinSlash "src" treeOnce =
        [("x.png", "src/a/x.png"), ("y.PNG", "src/b/y.PNG"),
         ("z.tar.png", "src/z.tar.png")] ∧
      ∀ e, findImportCandidates joinSlash shaDemo "src" treeOnce [] = .error e →
        ∃ file1 ∈ allFiles joinSlash "src" treeOnce,
          ∃ file2 ∈ allFiles joinSlash "src" treeOnce,
            ∃ stem, PngName file1.1 stem ∧ PngName file2.1 stem ∧
              e = IndexFatal.duplicate file2.2 file1.2) :=
  ⟨⟨by decide,
    (findImportCandidates_index joinSlash shaDemo "src" treeTwice
      (fun p => by simp [shaDemo])).1.mp
      ⟨IndexFatal.duplicate "src/b/x.PNG" "src/a/x.png", by decide⟩⟩,
   ⟨by decide, by decide,
    (findImportCandidates_index joinSlash shaDemo "src" treeOnce
      (fun p => by simp [shaDemo])).2.1⟩⟩

/-! ## Theorems on the summary of `main` -/

theorem copyFileL_counts (copyOk : String → String → Bool) (fromFilePath toFilePath : String)
    (writeLog : Bool) (st st2 : MainState)
    (h : copyFileL copyOk fromFilePath toFilePath writeLog st = .ok st2) :
    st2.numSpritesTouched = st.numSpritesTouched ∧
      st2.numFramesTouched = st.numFramesTouched := by
  unfold copyFileL at h
  split at h
  · injection h with h
    rw [← h]
    exact ⟨rfl, rfl⟩
  · cases h

theorem mainStep_counts (join : String → String → String) (copyOk : String → String → Bool)
    (params : Parameters) (st st2 : MainState) (reImport : GMFrameReImport)
    (h : mainStep join copyOk params st reImport = .ok st2) :
    st2.numSpritesTouched =
        st.numSpritesTouched + (if reImport.FrameIndex = 0 then 1 else 0) ∧
      st2.numFramesTouched = st.numFramesTouched + 1 := by
  unfold mainStep at h
  split at h
  · cases h
  · split at h
    · injection h with h
      rw [← h]
      refine ⟨?_, rfl⟩
      show (if reImport.FrameIndex = 0 then st.numSpritesTouched + 1
        else st.numSpritesTouched) = _
      split <;> rfl
    · split at h
      · cases h
      · rename_i st1 h1
        obtain ⟨a1, b1⟩ := copyFileL_counts _ _ _ _ _ _ h1
        obtain ⟨a2, b2⟩ := copyFileL_counts _ _ _ _ _ _ h
        rw [a2, b2, a1, b1]
        refine ⟨?_, rfl⟩
        show (if reImport.FrameIndex = 0 then st.numSpritesTouched + 1
          else st.numSpritesTouched) = _
        split <;> rfl

theorem mainLoop_counts (join : String → String → String) (copyOk : String → String → Bool)
    (params : Parameters) :
    ∀ (reImports : List GMFrameReImport) (st st2 : MainState),
      mainLoop join copyOk params reImports st = .ok st2 →
      st2.numSpritesTouched =
          st.numSpritesTouched + reImports.countP (fun r => r.FrameIndex = 0) ∧
        st2.numFramesTouched = st.numFramesTouched + reImports.length := by
  intro reImports
  induction reImports with
  | nil =>
    intro st st2 h
    injection h with h
    rw [← h]
    exact ⟨rfl, rfl⟩
  | cons r rest ih =>
    intro st st2 h
    unfold mainLoop at h
    cases hs : mainStep join copyOk params st r with
    | error e => rw [hs] at h; cases h
    | ok st1 =>
      rw [hs] at h
      obtain ⟨a, b⟩ := mainStep_counts join copyOk params st st1 r hs
      obtain ⟨c, d⟩ := ih st1 st2 h
      rw [c, d, a, b, List.countP_cons, List.length_cons]
      constructor
      · by_cases h0 : r.FrameIndex = 0
        · simp [h0]; omega
        · simp [h0]
      · omega

/-- C17: the summary of `main` gives the number of instructions as frames touched, in a dry
run as in a real run, but as sprites touched it gives the number of instructions for frame 0.
For the sprite `run`, whose frame 0 has the hash of its source image and whose frame 1 has
not, `determineReImports` returns one instruction, for frame 1; one sprite has an instruction,
and `main` reports one frame across zero sprites. -/
theorem mainReport_summary :
    determineReImports runSrc [runSprite] quietParams
      = .ok { reImports := runReImports, log := [] } ∧
    (runReImports.map (fun r => r.Dst)).dedup.length = 1 ∧
    mainReport joinSlash (fun _ _ => true) quietParams runReImports =
      .ok { numSpritesTouched := 0, numFramesTouched := 1,
            log := [MainLogLine.updated 1 0],
            copies := [("src/run_1.png", "dst/run/f.png"),
              ("src/run_1.png", "dst/run/layers/f/l.png")] } ∧
    mainReport joinSlash (fun _ _ => true) dryParams runReImports =
      .ok { numSpritesTouched := 0, numFramesTouched := 1,
            log := [MainLogLine.wouldHaveUpdated 1 0], copies := [] } ∧
    (∀ (join : String → String → String) (copyOk : String → String → Bool)
      (params : Parameters) (reImports : List GMFrameReImport) (st : MainState),
      mainReport join copyOk params reImports = .ok st →
      st.numFramesTouched = reImports.length ∧
      st.numSpritesTouched = reImports.countP (fun r => r.FrameIndex = 0) ∧
      st.log.getLast? = some
        (if params.IsDryRun then
           MainLogLine.wouldHaveUpdated reImports.length
             (reImports.countP (fun r => r.FrameIndex = 0))
         else MainLogLine.updated reImports.length
             (reImports.countP (fun r => r.FrameIndex = 0)))) := by
  refine ⟨by decide, by decide, by decide, by decide, ?_⟩
  intro join copyOk params reImports st h
  unfold mainReport at h
  cases hl : mainLoop join copyOk params reImports
      { numSpritesTouched := 0, numFramesTouched := 0, log := [], copies := [] } with
  | error e => rw [hl] at h; cases h
  | ok st1 =>
    rw [hl] at h
    injection h with h
    obtain ⟨a, b⟩ := mainLoop_counts join copyOk params reImports _ st1 hl
    simp only [Nat.zero_add] at a b
    rw [← h]
    refine ⟨b, a, ?_⟩
    simp only [List.getLast?_append, List.getLast?_singleton, a, b]
    rfl

namespace YY

/-! ## Positions -/

theorem readerAt_zero (b : List Char) : readerAt b 0 = Reader.start := by
  simp [readerAt, lineAt, colAt, Reader.start]

theorem getD_eq_of_drop {b : List Char} {p : Nat} {c : Char} {s : List Char}
    (h : b.drop p = c :: s) : p < b.length ∧ b.getD p default = c ∧ b.drop (p + 1) = s := by
  have hp : p < b.length := by
    by_contra hcon
    rw [List.drop_of_length_le (by omega)] at h
    cases h
  refine ⟨hp, ?_, ?_⟩
  · rw [List.getD_eq_getElem _ _ hp]
    have := List.drop_eq_getElem_cons hp
    rw [this] at h
    injection h
  · have := List.drop_eq_getElem_cons hp
    rw [this] at h
    injection h

theorem drop_eq_cons_getD {b : List Char} {p : Nat} (hp : p < b.length) :
    b.drop p = b.getD p default :: b.drop (p + 1) := by
  rw [List.getD_eq_getElem _ _ hp]
  exact List.drop_eq_getElem_cons hp

theorem step_snoc (t : List Char) (c : Char) (p : Nat) :
    Reader.step { lineNumber := 1 + t.count '\n',
                  columnNumber := 1 + (t.reverse.takeWhile (fun c => c ≠ '\n')).length, p := p } c =
      { lineNumber := 1 + (t ++ [c]).count '\n',
        columnNumber := 1 + ((t ++ [c]).reverse.takeWhile (fun c => c ≠ '\n')).length,
        p := p + 1 } := by
  unfold Reader.step
  by_cases hc : c = '\n'
  · subst hc
    simp [List.count_append, List.takeWhile]
    omega
  · rw [if_neg hc, List.reverse_append, List.count_append]
    simp only [List.reverse_cons, List.reverse_nil, List.nil_append, List.singleton_append,
      List.takeWhile_cons, ne_eq, hc, not_false_eq_true, decide_True, if_true, List.length_cons,
      List.count_cons, List.count_nil]
    have : (c == '\n') = false := by simpa using hc
    simp [this]
    omega

theorem readerAt_step (b : List Char) (p : Nat) (hp : p < b.length) :
    (readerAt b p).step (b.getD p default) = readerAt b (p + 1) := by
  have htake : b.take (p + 1) = b.take p ++ [b.getD p default] := by
    rw [List.getD_eq_getElem _ _ hp, List.take_succ, List.getElem?_eq_getElem hp]
    rfl
  unfold readerAt lineAt colAt
  rw [htake]
  exact step_snoc _ _ _

theorem advance_readerAt (b : List Char) : ∀ (n p : Nat), p + n ≤ b.length →
    advance b n (readerAt b p) = readerAt b (p + n) := by
  intro n
  induction n with
  | zero => intro p _; rfl
  | succ n ih =>
    intro p hp
    have hlt : p < b.length := by omega
    have hnot : ¬ (readerAt b p).p ≥ b.length := by
      show ¬ p ≥ b.length
      omega
    rw [advance, if_neg hnot]
    rw [show (readerAt b p).p = p from rfl, readerAt_step b p hlt, ih (p + 1) (by omega)]
    congr 1; omega

theorem skipWhitespaceLoop_readerAt (b : List Char) : ∀ (fuel p : Nat), b.length - p ≤ fuel →
    skipWhitespaceLoop b fuel (readerAt b p) = readerAt b (p + wsLen (b.drop p)) := by
  intro fuel
  induction fuel with
  | zero =>
    intro p hp
    rw [skipWhitespaceLoop, List.drop_of_length_le (by omega)]
    simp [wsLen]
  | succ fuel ih =>
    intro p hp
    rw [skipWhitespaceLoop]
    by_cases hlt : p < b.length
    · rw [if_pos (show (readerAt b p).p < b.length from hlt)]
      rw [show (readerAt b p).p = p from rfl]
      rw [drop_eq_cons_getD hlt]
      by_cases hws : isWhitespace (b.getD p default) = true
      · rw [if_pos hws, readerAt_step b p hlt, ih (p + 1) (by omega)]
        unfold wsLen
        rw [List.takeWhile_cons, if_pos hws, List.length_cons]
        congr 1; omega
      · rw [if_neg hws]
        unfold wsLen
        rw [List.takeWhile_cons, if_neg hws]
        rfl
    · rw [if_neg (show ¬ (readerAt b p).p < b.length from hlt), List.drop_of_length_le (by omega)]
      simp [wsLen]

theorem skipWhitespace_readerAt (b : List Char) (p : Nat) :
    skipWhitespace b (readerAt b p) = readerAt b (p + wsLen (b.drop p)) :=
  skipWhitespaceLoop_readerAt b _ p (le_refl _)

theorem parseLiteral_readerAt_ok (b : List Char) (lit : List Char) (p : Nat)
    (h : lit <+: b.drop p) :
    parseLiteral b lit (readerAt b p) = .ok (readerAt b (p + lit.length)) := by
  obtain ⟨t, ht⟩ := h
  have hlen : lit.length + t.length = b.length - p := by
    have := congrArg List.length ht
    simpa using this
  have htake : (b.drop p).take lit.length = lit := by
    rw [← ht]; simp
  unfold parseLiteral
  rw [show (readerAt b p).p = p from rfl]
  have hnot : ¬ (lit.length > b.length - p ∨ lit ≠ (b.drop p).take lit.length) := by
    rw [htake]; simp; omega
  rw [if_neg hnot]
  rcases Nat.eq_zero_or_pos lit.length with h0 | h0
  · rw [h0]; rfl
  · rw [advance_readerAt b _ p (by omega)]

theorem parseLiteral_readerAt_error (b : List Char) (lit : List Char) (p : Nat)
    (h : ¬ lit <+: b.drop p) :
    parseLiteral b lit (readerAt b p) =
      .error (YYError.unexpectedLiteral (lineAt b p) (colAt b p) (String.mk lit)) := by
  unfold parseLiteral
  rw [show (readerAt b p).p = p from rfl]
  have hyes : lit.length > b.length - p ∨ lit ≠ (b.drop p).take lit.length := by
    by_contra hcon
    push_neg at hcon
    apply h
    rw [hcon.2]
    exact List.take_prefix _ _
  rw [if_pos hyes]
  rfl



/-! ## The scanning loops -/

theorem takeWhile_append_stop {f : Char → Bool} (l : List Char) (x : Char) (rest : List Char)
    (hl : ∀ c ∈ l, f c = true) (hx : f x = false) :
    (l ++ x :: rest).takeWhile f = l ∧ (l ++ x :: rest).dropWhile f = x :: rest := by
  induction l with
  | nil => simp [List.takeWhile, List.dropWhile, hx]
  | cons a l ih =>
    have ha : f a = true := hl a (by simp)
    have := ih (fun c hc => hl c (by simp [hc]))
    simp [List.takeWhile, List.dropWhile, ha, this.1, this.2]

theorem takeWhile_all {f : Char → Bool} (l : List Char) (hl : ∀ c ∈ l, f c = true) :
    l.takeWhile f = l ∧ l.dropWhile f = [] := by
  induction l with
  | nil => simp
  | cons a l ih =>
    have ha : f a = true := hl a (by simp)
    have := ih (fun c hc => hl c (by simp [hc]))
    simp [List.takeWhile, List.dropWhile, ha, this.1, this.2]

theorem scanString_eq (b : List Char) (r : Reader) : ∀ (fuel n : Nat),
    b.length - (r.p + n) ≤ fuel →
    scanString b r fuel n =
      if ((b.drop (r.p + n)).dropWhile isStringByte).head? = some '\\' then
        .error (YYError.backslashInString r.lineNumber r.columnNumber)
      else .ok (n + strLen (b.drop (r.p + n))) := by
  intro fuel
  induction fuel with
  | zero =>
    intro n hn
    rw [scanString, List.drop_of_length_le (by omega)]
    simp [strLen]
  | succ fuel ih =>
    intro n hn
    rw [scanString]
    by_cases hlt : r.p + n < b.length
    · rw [if_pos hlt, drop_eq_cons_getD hlt]
      generalize b.getD (r.p + n) default = c
      by_cases hq : c = '"'
      · subst hq
        simp [strLen, List.takeWhile, List.dropWhile, isStringByte]
      · rw [if_neg hq]
        by_cases hb : c = '\\'
        · subst hb
          simp [List.dropWhile, isStringByte]
        · rw [if_neg hb, ih (n + 1) (by omega)]
          have hs : isStringByte c = true := by simp [isStringByte, hq, hb]
          rw [show r.p + (n + 1) = r.p + n + 1 by omega]
          simp only [strLen, List.takeWhile_cons, List.dropWhile_cons, hs, if_true,
            List.length_cons]
          congr 2; omega
    · rw [if_neg hlt, List.drop_of_length_le (by omega)]
      simp [strLen]

theorem scanNumber_tail (b : List Char) (r : Reader) : ∀ (fuel n : Nat) (isFloat : Bool),
    0 < n → b.length - (r.p + n) ≤ fuel →
    scanNumber b r fuel isFloat n =
      (isFloat || ((b.drop (r.p + n)).takeWhile isNumberByte).any isFloatByte,
       n + ((b.drop (r.p + n)).takeWhile isNumberByte).length) := by
  intro fuel
  induction fuel with
  | zero =>
    intro n isFloat _ hn
    rw [scanNumber, List.drop_of_length_le (by omega)]
    simp
  | succ fuel ih =>
    intro n isFloat h0 hn
    rw [scanNumber]
    by_cases hlt : r.p + n < b.length
    · rw [if_pos hlt, drop_eq_cons_getD hlt]
      generalize b.getD (r.p + n) default = c
      have hn0 : ¬ (n = 0 ∧ (c = '-' ∨ c = '+')) := by omega
      simp only [hn0, if_false]
      by_cases hf : c = '.' ∨ c = 'e' ∨ c = 'E'
      · rw [if_pos hf, ih (n + 1) true (by omega) (by omega)]
        have hfb : isFloatByte c = true := by
          simp only [isFloatByte, Bool.or_eq_true, decide_eq_true_eq]
          tauto
        have hnb : isNumberByte c = true := by simp [isNumberByte, hfb]
        rw [show r.p + (n + 1) = r.p + n + 1 by omega]
        simp only [List.takeWhile_cons, hnb, if_true, List.any_cons, hfb, List.length_cons,
          Bool.true_or, Bool.or_true]
        congr 1; omega
      · rw [if_neg hf]
        have hfb : isFloatByte c = false := by
          simp only [isFloatByte, Bool.or_eq_false_iff, decide_eq_false_iff_not]
          tauto
        by_cases hd : isDigit c = true
        · rw [if_pos hd, ih (n + 1) isFloat (by omega) (by omega)]
          have hnb : isNumberByte c = true := by simp [isNumberByte, hd]
          rw [show r.p + (n + 1) = r.p + n + 1 by omega]
          simp only [List.takeWhile_cons, hnb, if_true, List.any_cons, hfb, List.length_cons,
            Bool.false_or]
          congr 1; omega
        · rw [if_neg hd]
          have hnb : isNumberByte c = false := by
            simp only [isNumberByte, hfb, Bool.false_or]
            simpa using hd
          simp [List.takeWhile_cons, hnb]
    · rw [if_neg hlt, List.drop_of_length_le (by omega)]
      simp

theorem take_length_takeWhile (f : Char → Bool) (l : List Char) :
    l.take (l.takeWhile f).length = l.takeWhile f := by
  induction l with
  | nil => simp
  | cons a l ih =>
    by_cases ha : f a = true
    · simp only [List.takeWhile_cons, ha, if_true, List.length_cons, List.take_succ_cons, ih]
    · simp [List.takeWhile_cons, ha]

theorem numToken_take (s : List Char) : s.take (numToken s).length = numToken s := by
  cases s with
  | nil => rfl
  | cons c t =>
    by_cases hs : c = '-' ∨ c = '+'
    · simp only [numToken, if_pos hs, List.length_cons, List.take_succ_cons,
        take_length_takeWhile]
    · simp only [numToken, if_neg hs, take_length_takeWhile]

theorem scanNumber_eq (b : List Char) (r : Reader) :
    scanNumber b r (b.length - r.p) false 0 =
      ((numToken (b.drop r.p)).any isFloatByte, (numToken (b.drop r.p)).length) := by
  by_cases hlt : r.p < b.length
  · obtain ⟨fuel, hfuel⟩ : ∃ fuel, b.length - r.p = fuel + 1 := ⟨b.length - r.p - 1, by omega⟩
    rw [hfuel, scanNumber, Nat.add_zero, if_pos hlt, drop_eq_cons_getD hlt]
    generalize hc : b.getD r.p default = c
    simp only [true_and]
    by_cases hs : c = '-' ∨ c = '+'
    · rw [if_pos hs, scanNumber_tail b r fuel (0 + 1) false (by omega) (by omega)]
      have hfb : isFloatByte c = false := by
        rcases hs with h | h <;> subst h <;> decide
      simp only [numToken, if_pos hs, Bool.false_or, Nat.zero_add, List.any_cons, hfb,
        List.length_cons]
      congr 1; omega
    · rw [if_neg hs]
      by_cases hf : c = '.' ∨ c = 'e' ∨ c = 'E'
      · rw [if_pos hf, scanNumber_tail b r fuel (0 + 1) true (by omega) (by omega)]
        have hfb : isFloatByte c = true := by
          simp only [isFloatByte, Bool.or_eq_true, decide_eq_true_eq]
          tauto
        have hnb : isNumberByte c = true := by simp [isNumberByte, hfb]
        simp only [numToken, if_neg hs, List.takeWhile_cons, hnb, if_true, List.any_cons, hfb,
          Bool.true_or, List.length_cons, Nat.zero_add]
        congr 1; omega
      · rw [if_neg hf]
        have hfb : isFloatByte c = false := by
          simp only [isFloatByte, Bool.or_eq_false_iff, decide_eq_false_iff_not]
          tauto
        by_cases hd : isDigit c = true
        · rw [if_pos hd, scanNumber_tail b r fuel (0 + 1) false (by omega) (by omega)]
          have hnb : isNumberByte c = true := by simp [isNumberByte, hd]
          simp only [numToken, if_neg hs, List.takeWhile_cons, hnb, if_true, List.any_cons, hfb,
            Bool.false_or, List.length_cons, Nat.zero_add]
          congr 1; omega
        · rw [if_neg hd]
          have hnb : isNumberByte c = false := by
            simp only [isNumberByte, hfb, Bool.false_or]
            simpa using hd
          simp [numToken, hs, List.takeWhile_cons, hnb]
  · rw [show b.length - r.p = 0 by omega, scanNumber, List.drop_of_length_le (by omega)]
    rfl

theorem drop_length_takeWhile (f : Char → Bool) (l : List Char) :
    l.drop (l.takeWhile f).length = l.dropWhile f := by
  induction l with
  | nil => simp
  | cons a l ih =>
    by_cases ha : f a = true
    · simp only [List.takeWhile_cons, ha, if_true, List.length_cons, List.drop_succ_cons, ih,
        List.dropWhile_cons]
    · simp [List.takeWhile_cons, List.dropWhile_cons, ha]

theorem prefix_singleton_iff (c : Char) (s : List Char) :
    [c] <+: s ↔ ∃ t, s = c :: t := by
  constructor
  · rintro ⟨t, ht⟩; exact ⟨t, by simpa using ht.symm⟩
  · rintro ⟨t, ht⟩; exact ⟨t, by simp [ht]⟩

theorem drop_add_of_drop (b : List Char) (p k : Nat) (s : List Char) (h : b.drop p = s) :
    b.drop (p + k) = s.drop k := by
  rw [← h, List.drop_drop, Nat.add_comm]

/-- What `parseString` does at offset `p`, read off the unread input. -/
theorem parseString_readerAt (b : List Char) (p : Nat) :
    parseString b (readerAt b p) =
      match b.drop p with
      | '"' :: s1 =>
        match s1.dropWhile isStringByte with
        | '\\' :: _ => .error (YYError.backslashInString (lineAt b (p + 1)) (colAt b (p + 1)))
        | '"' :: _ =>
          .ok (String.mk (s1.takeWhile isStringByte), readerAt b (p + 1 + strLen s1 + 1))
        | _ => .error (YYError.expectedEndOfString (lineAt b (p + 1 + strLen s1))
                  (colAt b (p + 1 + strLen s1)))
      | _ => .error (YYError.expectedString (lineAt b p) (colAt b p)) := by
  by_cases hq : ['"'] <+: b.drop p
  · obtain ⟨s1, hs1⟩ := (prefix_singleton_iff _ _).1 hq
    obtain ⟨hp, -, hdrop1⟩ := getD_eq_of_drop hs1
    unfold parseString
    rw [parseLiteral_readerAt_ok b _ p hq, hs1]
    simp only [List.length_singleton]
    have hscan := scanString_eq b (readerAt b (p + 1)) (b.length - (p + 1)) 0
      (by show b.length - (p + 1 + 0) ≤ _; omega)
    rw [show (readerAt b (p + 1)).p = p + 1 from rfl, Nat.add_zero, hdrop1] at hscan
    rw [show (readerAt b (p + 1)).p = p + 1 from rfl, hscan]
    have hk : p + 1 + strLen s1 ≤ b.length := by
      have h1 : strLen s1 ≤ s1.length := by
        unfold strLen; exact List.IsPrefix.length_le ( List.takeWhile_prefix _)
      have h2 : s1.length = b.length - (p + 1) := by rw [← hdrop1]; simp
      omega
    have hdropk : b.drop (p + 1 + strLen s1) = s1.dropWhile isStringByte := by
      rw [drop_add_of_drop b (p + 1) _ s1 hdrop1]
      exact drop_length_takeWhile _ _
    have htake : s1.take (strLen s1) = s1.takeWhile isStringByte := take_length_takeWhile _ _
    rw [hdrop1]
    cases hdw : s1.dropWhile isStringByte with
    | nil =>
      rw [List.head?_nil, if_neg (by simp), Nat.zero_add]
      simp only []
      rw [advance_readerAt b _ _ hk, parseLiteral_readerAt_error b _ _ (by rw [hdropk, hdw]; simp)]
      rfl
    | cons c rest =>
      by_cases hb : c = '\\'
      · subst hb
        rw [List.head?_cons, if_pos rfl]
        rfl
      · have hne : ¬ (some c = some '\\') := by simpa using hb
        rw [List.head?_cons, if_neg hne, Nat.zero_add]
        simp only []
        rw [advance_readerAt b _ _ hk]
        by_cases hc : c = '"'
        · subst hc
          rw [parseLiteral_readerAt_ok b _ _ (by rw [hdropk, hdw]; simp), htake]
          rfl
        · rw [parseLiteral_readerAt_error b _ _ (by
            rw [hdropk, hdw, prefix_singleton_iff]
            rintro ⟨t, ht⟩
            injection ht with h1 _
            exact hc h1)]
          simp only []
          split
          · rename_i heq; injection heq with h1 _; exact absurd h1 hb
          · rename_i heq; injection heq with h1 _; exact absurd h1 hc
          · rfl
  · unfold parseString
    rw [parseLiteral_readerAt_error b _ p hq]
    simp only []
    split
    · rename_i s1 heq
      exact absurd ((prefix_singleton_iff _ _).2 ⟨s1, heq⟩) hq
    · rfl

/-! ## `parseNumber`, the literals and `skipComma` at an offset -/

theorem numToken_length_le (s : List Char) : (numToken s).length ≤ s.length := by
  have := congrArg List.length (numToken_take s)
  rw [List.length_take] at this
  omega

theorem parseNumber_readerAt (pf : String → Option Float64) (b : List Char) (p : Nat)
    (hp : p < b.length) :
    parseNumber pf b (readerAt b p) =
      match numberValue pf (numToken (b.drop p)) with
      | none => .error (YYError.couldNotParseNumber (lineAt b p) (colAt b p))
      | some v => .ok (v, readerAt b (p + (numToken (b.drop p)).length)) := by
  unfold parseNumber
  have hnot : ¬ (readerAt b p).p ≥ b.length := by show ¬ p ≥ b.length; omega
  rw [if_neg hnot, scanNumber_eq]
  simp only []
  rw [show (readerAt b p).p = p from rfl, numToken_take]
  have hk : p + (numToken (b.drop p)).length ≤ b.length := by
    have := numToken_length_le (b.drop p)
    rw [List.length_drop] at this
    omega
  rw [advance_readerAt b _ p hk]
  unfold numberValue
  rfl

theorem parseNull_readerAt_ok (b : List Char) (p : Nat) (rest : List Char)
    (h : b.drop p = 'n' :: 'u' :: 'l' :: 'l' :: rest) :
    parseNull b (readerAt b p) = .ok (Value.null, readerAt b (p + 4)) := by
  unfold parseNull
  rw [parseLiteral_readerAt_ok b _ p ⟨rest, by rw [h]; rfl⟩]
  rfl

theorem parseBoolean_readerAt_true (b : List Char) (p : Nat) (rest : List Char)
    (h : b.drop p = 't' :: 'r' :: 'u' :: 'e' :: rest) :
    parseBoolean b (readerAt b p) = .ok (Value.bool true, readerAt b (p + 4)) := by
  obtain ⟨hp, hc, -⟩ := getD_eq_of_drop h
  unfold parseBoolean
  have hnot : ¬ (readerAt b p).p ≥ b.length := by show ¬ p ≥ b.length; omega
  rw [if_neg hnot, show (readerAt b p).p = p from rfl, hc, if_pos rfl,
    parseLiteral_readerAt_ok b _ p ⟨rest, by rw [h]; rfl⟩]
  rfl

theorem parseBoolean_readerAt_false (b : List Char) (p : Nat) (rest : List Char)
    (h : b.drop p = 'f' :: 'a' :: 'l' :: 's' :: 'e' :: rest) :
    parseBoolean b (readerAt b p) = .ok (Value.bool false, readerAt b (p + 5)) := by
  obtain ⟨hp, hc, -⟩ := getD_eq_of_drop h
  unfold parseBoolean
  have hnot : ¬ (readerAt b p).p ≥ b.length := by show ¬ p ≥ b.length; omega
  rw [if_neg hnot, show (readerAt b p).p = p from rfl, hc, if_neg (by decide),
    parseLiteral_readerAt_ok b _ p ⟨rest, by rw [h]; rfl⟩]
  rfl

theorem wsLen_append_stop (ws : List Char) (c : Char) (rest : List Char)
    (hws : ∀ x ∈ ws, isWhitespace x = true) (hc : isWhitespace c = false) :
    wsLen (ws ++ c :: rest) = ws.length := by
  unfold wsLen
  rw [(takeWhile_append_stop ws c rest hws hc).1]

theorem wsLen_all (ws : List Char) (hws : ∀ x ∈ ws, isWhitespace x = true) :
    wsLen ws = ws.length := by
  unfold wsLen
  rw [(takeWhile_all ws hws).1]

/-- `skipWhitespace` over a run of whitespace that ends before a byte that is not. -/
theorem skipWhitespace_run (b : List Char) (p : Nat) (ws : List Char) (c : Char)
    (rest : List Char) (h : b.drop p = ws ++ c :: rest)
    (hws : ∀ x ∈ ws, isWhitespace x = true) (hc : isWhitespace c = false) :
    skipWhitespace b (readerAt b p) = readerAt b (p + ws.length) ∧
      b.drop (p + ws.length) = c :: rest := by
  rw [skipWhitespace_readerAt, h, wsLen_append_stop ws c rest hws hc]
  refine ⟨rfl, ?_⟩
  rw [drop_add_of_drop b p _ _ h]
  simp

/-- `skipComma` over a valid separator that ends before a byte that is neither whitespace nor
a comma. -/
theorem skipComma_sep (b : List Char) (eof : YYError) (p : Nat) (sep : Sep) (c : Char)
    (rest : List Char) (h : b.drop p = sep.render ++ c :: rest) (hsep : sep.Valid)
    (hc : isWhitespace c = false) (hcomma : sep.comma = none → c ≠ ',') :
    skipComma b eof (readerAt b p) = .ok (readerAt b (p + sep.render.length)) ∧
      b.drop (p + sep.render.length) = c :: rest := by
  obtain ⟨ws, comma⟩ := sep
  cases comma with
  | none =>
    simp only [Sep.render] at h ⊢
    obtain ⟨h1, h2⟩ := skipWhitespace_run b p ws c rest h hsep.1 hc
    obtain ⟨hlt, hget, -⟩ := getD_eq_of_drop h2
    refine ⟨?_, h2⟩
    unfold skipComma
    simp only [h1]
    rw [show (readerAt b (p + ws.length)).p = p + ws.length from rfl,
      if_neg (by omega), hget, if_neg (hcomma rfl)]
  | some ws2 =>
    simp only [Sep.render] at h ⊢
    have hws2 := hsep.2 ws2 rfl
    rw [List.append_assoc] at h
    obtain ⟨h1, h2⟩ := skipWhitespace_run b p ws ',' (ws2 ++ c :: rest)
      (by simpa using h) hsep.1 (by decide)
    obtain ⟨hlt, hget, h3⟩ := getD_eq_of_drop h2
    obtain ⟨h4, h5⟩ := skipWhitespace_run b (p + ws.length + 1) ws2 c rest h3 hws2 hc
    obtain ⟨hlt2, -, -⟩ := getD_eq_of_drop h5
    have hlen : p + (ws ++ ',' :: ws2).length = p + ws.length + 1 + ws2.length := by
      simp; omega
    rw [hlen]
    refine ⟨?_, h5⟩
    unfold skipComma
    simp only [h1]
    rw [show (readerAt b (p + ws.length)).p = p + ws.length from rfl,
      if_neg (by omega), hget, if_pos rfl, advance_readerAt b 1 _ (by omega)]
    simp only [h4]
    rw [show (readerAt b (p + ws.length + 1 + ws2.length)).p = p + ws.length + 1 + ws2.length
      from rfl, if_neg (by omega)]

/-! ## The reader on the text of a document -/

theorem all_of_takeWhile_eq {f : Char → Bool} : ∀ (l : List Char), l.takeWhile f = l →
    ∀ x ∈ l, f x = true := by
  intro l
  induction l with
  | nil => intro _ x hx; cases hx
  | cons a l ih =>
    intro h x hx
    by_cases ha : f a = true
    · rw [List.takeWhile_cons, if_pos ha] at h
      injection h with _ h2
      rcases List.mem_cons.mp hx with rfl | hx
      · exact ha
      · exact ih h2 x hx
    · rw [List.takeWhile_cons, if_neg ha] at h
      cases h

theorem takeWhile_append_numStop (l rest : List Char) (hl : ∀ x ∈ l, isNumberByte x = true)
    (hrest : NumStop rest) : (l ++ rest).takeWhile isNumberByte = l := by
  cases rest with
  | nil => rw [List.append_nil]; exact (takeWhile_all l hl).1
  | cons c rest => exact (takeWhile_append_stop l c rest hl (hrest c rfl)).1

theorem numToken_append (text rest : List Char) (hne : text ≠ [])
    (htok : numToken text = text) (hrest : NumStop rest) :
    numToken (text ++ rest) = text := by
  cases text with
  | nil => exact absurd rfl hne
  | cons c t =>
    by_cases hs : c = '-' ∨ c = '+'
    · simp only [numToken, if_pos hs, List.cons_append] at htok ⊢
      injection htok with _ h2
      rw [takeWhile_append_numStop t rest (all_of_takeWhile_eq t h2) hrest]
    · simp only [numToken, if_neg hs, List.cons_append] at htok ⊢
      have := takeWhile_append_numStop (c :: t) rest (all_of_takeWhile_eq (c :: t) htok) hrest
      simpa using this

theorem isDigit_bounds {c : Char} (h : isDigit c = true) : '0' ≤ c ∧ c ≤ '9' := by
  simpa [isDigit] using h

/-- The first byte of a number token sends `parseValue` to `parseNumber`. -/
theorem numberHead (c : Char) (t : List Char) (htok : numToken (c :: t) = c :: t) :
    c ≠ '[' ∧ c ≠ '{' ∧ c ≠ '"' ∧ isNumberStart c = true ∧ isWhitespace c = false ∧
      c ≠ ',' ∧ c ≠ ']' ∧ c ≠ '}' := by
  have key : c = '-' ∨ c = '+' ∨ c = '.' ∨ c = 'e' ∨ c = 'E' ∨ isDigit c = true := by
    by_cases hs : c = '-' ∨ c = '+'
    · tauto
    · simp only [numToken, if_neg hs] at htok
      have := all_of_takeWhile_eq (c :: t) htok c (by simp)
      simp only [isNumberByte, isFloatByte, Bool.or_eq_true, decide_eq_true_eq] at this
      tauto
  have hdig : isDigit c = true → c ≠ '[' ∧ c ≠ '{' ∧ c ≠ '"' ∧ isNumberStart c = true ∧
      isWhitespace c = false ∧ c ≠ ',' ∧ c ≠ ']' ∧ c ≠ '}' := by
    intro hd
    have hb := isDigit_bounds hd
    refine ⟨?_, ?_, ?_, by simp [isNumberStart, hd], ?_, ?_, ?_, ?_⟩
    · rintro rfl; exact absurd hb.2 (by decide)
    · rintro rfl; exact absurd hb.2 (by decide)
    · rintro rfl; exact absurd hb.1 (by decide)
    · cases hw : isWhitespace c with
      | false => rfl
      | true =>
        simp only [isWhitespace, Bool.or_eq_true, decide_eq_true_eq] at hw
        rcases hw with ((rfl | rfl) | rfl) | rfl <;> exact absurd hb.1 (by decide)
    · rintro rfl; exact absurd hb.1 (by decide)
    · rintro rfl; exact absurd hb.2 (by decide)
    · rintro rfl; exact absurd hb.2 (by decide)
  rcases key with rfl | rfl | rfl | rfl | rfl | hd
  · decide
  · decide
  · decide
  · decide
  · decide
  · exact hdig hd

theorem NumStop_of_head {s : List Char} {c : Char} {t : List Char} (h : s = c :: t)
    (hc : isNumberByte c = false) : NumStop s := by
  intro x hx
  rw [h] at hx
  injection hx with hx
  rw [← hx]; exact hc

theorem NumStop_extend (x : List Char) (c : Char) (t : List Char) (h : NumStop (x ++ [c])) :
    NumStop (x ++ c :: t) := by
  cases x with
  | nil => intro y hy; exact h y (by simpa using hy)
  | cons a x => intro y hy; exact h y (by simpa using hy)

theorem NumStop_append (x y z : List Char) (h : NumStop (x ++ y ++ [']'])) :
    NumStop (x ++ y ++ ']' :: z) := NumStop_extend (x ++ y) ']' z h

/-- The first byte of the text of a valid document is the first byte of a value. -/
theorem render_head (pf : String → Option Float64) (d : Doc) (hd : d.Valid pf) :
    ∃ c t, d.render = c :: t ∧ isWhitespace c = false ∧ c ≠ ',' ∧ c ≠ ']' ∧ c ≠ '}' := by
  cases d with
  | null => exact ⟨'n', _, rfl, by decide, by decide, by decide, by decide⟩
  | bool v =>
    cases v
    · exact ⟨'f', _, rfl, by decide, by decide, by decide, by decide⟩
    · exact ⟨'t', _, rfl, by decide, by decide, by decide, by decide⟩
  | number text =>
    cases text with
    | nil => exact absurd rfl hd.1
    | cons c t =>
      have := numberHead c t hd.2.1
      exact ⟨c, t, rfl, this.2.2.2.2.1, this.2.2.2.2.2.1, this.2.2.2.2.2.2.1, this.2.2.2.2.2.2.2⟩
  | string s => exact ⟨'"', _, rfl, by decide, by decide, by decide, by decide⟩
  | array elems close => exact ⟨'[', _, rfl, by decide, by decide, by decide, by decide⟩
  | object entries close => exact ⟨'{', _, rfl, by decide, by decide, by decide, by decide⟩

theorem Elems.elems_count_le (pf : String → Option Float64) (after : List Char) :
    ∀ elems : Elems, elems.Valid pf after → elems.count ≤ elems.render.length
  | .nil, _ => by simp [Elems.count]
  | .cons sep d rest, h => by
    have ih := Elems.elems_count_le pf after rest h.2.2.2
    obtain ⟨c, t, hr, -⟩ := render_head pf d h.2.1
    simp only [Elems.count, Elems.render, List.length_append, hr, List.length_cons]
    omega

theorem Entries.entries_count_le (pf : String → Option Float64) (after : List Char) :
    ∀ entries : Entries, entries.Valid pf after → entries.count ≤ entries.render.length
  | .nil, _ => by simp [Entries.count]
  | .cons sep key wsKey wsColon d rest, h => by
    have ih := Entries.entries_count_le pf after rest h.2.2.2.2.2.2
    simp only [Entries.count, Entries.render, List.length_append, List.length_cons]
    omega

/-- `parseString` on a string without quote or backslash, closed by a quote. -/
theorem parseString_ok (b : List Char) (p : Nat) (s rest : List Char)
    (h : b.drop p = '"' :: s ++ '"' :: rest) (hs : ∀ c ∈ s, isStringByte c = true) :
    parseString b (readerAt b p) = .ok (String.mk s, readerAt b (p + 1 + s.length + 1)) ∧
      b.drop (p + 1 + s.length + 1) = rest := by
  have hsplit := takeWhile_append_stop s '"' rest hs (by decide)
  refine ⟨?_, ?_⟩
  · rw [parseString_readerAt, List.cons_append] at *
    rw [h]
    simp only [hsplit.2, hsplit.1, strLen]
  · rw [show p + 1 + s.length + 1 = p + (1 + s.length + 1) by omega,
      drop_add_of_drop b p _ _ h]
    simp [Nat.add_comm 1 s.length, List.drop_append]

theorem parseArrayLoop_render (pf : String → Option Float64) (b : List Char)
    (pv : Reader → Except YYError (Value × Reader)) (k : Nat) (hpv : ReadsDocs pf b pv k)
    (close : Sep) (hclose : close.Valid) (rest : List Char) :
    ∀ (elems : Elems) (n p : Nat) (acc : List Value),
      elems.depth < k → elems.Valid pf (close.render ++ [']']) → elems.count < n →
      b.drop p = elems.render ++ close.render ++ ']' :: rest →
      parseArrayLoop b pv n (readerAt b p) acc =
        .ok (acc ++ elems.values pf, readerAt b (p + elems.render.length + close.render.length)) ∧
      b.drop (p + elems.render.length + close.render.length) = ']' :: rest
  | .nil, n, p, acc, _, _, hn, hb => by
    obtain ⟨n, rfl⟩ : ∃ m, n = m + 1 := ⟨n - 1, by omega⟩
    simp only [Elems.render, List.nil_append] at hb
    obtain ⟨h1, h2⟩ := skipComma_sep b YYError.eofArray p close ']' rest hb hclose
      (by decide) (fun _ => by decide)
    obtain ⟨-, hget, -⟩ := getD_eq_of_drop h2
    simp only [Elems.render, List.length_nil, Nat.add_zero, Elems.values, List.append_nil]
    refine ⟨?_, h2⟩
    rw [parseArrayLoop, h1]
    simp only []
    rw [show (readerAt b (p + close.render.length)).p = p + close.render.length from rfl, hget,
      if_pos rfl]
  | .cons sep d more, n, p, acc, hdepth, hvalid, hn, hb => by
    obtain ⟨n, rfl⟩ : ∃ m, n = m + 1 := ⟨n - 1, by omega⟩
    obtain ⟨hsep, hd, hnum, hmore⟩ := hvalid
    obtain ⟨c, t, hr, hcws, hccomma, hcbr, -⟩ := render_head pf d hd
    simp only [Elems.depth] at hdepth
    simp only [Elems.count] at hn
    have hb1 : b.drop p = sep.render ++ c :: (t ++ more.render ++ close.render ++ ']' :: rest) := by
      rw [hb, Elems.render, hr]; simp
    obtain ⟨h1, h2⟩ := skipComma_sep b YYError.eofArray p sep c _ hb1 hsep hcws
      (fun _ => hccomma)
    obtain ⟨-, hget, -⟩ := getD_eq_of_drop h2
    have hb2 : b.drop (p + sep.render.length) =
        d.render ++ (more.render ++ close.render ++ ']' :: rest) := by
      rw [h2, hr]; simp
    have hpvd := hpv d (p + sep.render.length) _ (by omega) hd
      (fun h => by
        have := hnum h
        rw [← List.append_assoc] at this
        exact NumStop_append _ _ _ this) hb2
    have hb3 : b.drop (p + sep.render.length + d.render.length) =
        more.render ++ close.render ++ ']' :: rest := by
      rw [drop_add_of_drop b _ _ _ hb2]; simp
    obtain ⟨ih1, ih2⟩ := parseArrayLoop_render pf b pv k hpv close hclose rest more n
      (p + sep.render.length + d.render.length) (acc ++ [d.value pf]) (by omega) hmore
      (by omega) hb3
    have hlen : p + (Elems.cons sep d more).render.length + close.render.length =
        p + sep.render.length + d.render.length + more.render.length + close.render.length := by
      simp only [Elems.render, List.length_append]; omega
    rw [hlen]
    refine ⟨?_, ih2⟩
    rw [parseArrayLoop, h1]
    simp only []
    rw [show (readerAt b (p + sep.render.length)).p = p + sep.render.length from rfl, hget,
      if_neg hcbr, hpvd]
    simp only []
    rw [ih1]
    simp [Elems.values]

theorem parseObjectLoop_render (pf : String → Option Float64) (b : List Char)
    (pv : Reader → Except YYError (Value × Reader)) (k : Nat) (hpv : ReadsDocs pf b pv k)
    (close : Sep) (hclose : close.Valid) (rest : List Char) :
    ∀ (entries : Entries) (n p : Nat) (acc : List (String × Value)),
      entries.depth < k → entries.Valid pf (close.render ++ ['}']) → entries.count < n →
      b.drop p = entries.render ++ close.render ++ '}' :: rest →
      parseObjectLoop b pv n (readerAt b p) acc =
        .ok (entries.insertInto pf acc,
          readerAt b (p + entries.render.length + close.render.length)) ∧
      b.drop (p + entries.render.length + close.render.length) = '}' :: rest
  | .nil, n, p, acc, _, _, hn, hb => by
    obtain ⟨n, rfl⟩ : ∃ m, n = m + 1 := ⟨n - 1, by omega⟩
    simp only [Entries.render, List.nil_append] at hb
    obtain ⟨h1, h2⟩ := skipComma_sep b YYError.eofObject p close '}' rest hb hclose
      (by decide) (fun _ => by decide)
    obtain ⟨-, hget, -⟩ := getD_eq_of_drop h2
    simp only [Entries.render, List.length_nil, Nat.add_zero, Entries.insertInto]
    refine ⟨?_, h2⟩
    rw [parseObjectLoop, h1]
    simp only []
    rw [show (readerAt b (p + close.render.length)).p = p + close.render.length from rfl, hget,
      if_pos rfl]
  | .cons sep key wsKey wsColon d more, n, p, acc, hdepth, hvalid, hn, hb => by
    obtain ⟨n, rfl⟩ : ∃ m, n = m + 1 := ⟨n - 1, by omega⟩
    obtain ⟨hsep, hkey, hwsKey, hwsColon, hd, hnum, hmore⟩ := hvalid
    obtain ⟨c, t, hr, hcws, -, -, -⟩ := render_head pf d hd
    simp only [Entries.depth] at hdepth
    simp only [Entries.count] at hn
    -- the separator
    have hb1 : b.drop p = sep.render ++ '"' :: (key ++ '"' :: wsKey ++ ':' :: wsColon ++
        d.render ++ more.render ++ close.render ++ '}' :: rest) := by
      rw [hb, Entries.render]; simp
    obtain ⟨h1, h2⟩ := skipComma_sep b YYError.eofObject p sep '"' _ hb1 hsep
      (by decide) (fun _ => by decide)
    obtain ⟨-, hget, -⟩ := getD_eq_of_drop h2
    -- the key
    have hb2 : b.drop (p + sep.render.length) = '"' :: key ++ '"' :: (wsKey ++ ':' ::
        (wsColon ++ d.render ++ more.render ++ close.render ++ '}' :: rest)) := by
      rw [h2]; simp
    obtain ⟨h3, h4⟩ := parseString_ok b (p + sep.render.length) key _ hb2 hkey
    -- whitespace, the colon
    obtain ⟨h5, h6⟩ := skipWhitespace_run b _ wsKey ':' _ h4 hwsKey (by decide)
    have h7 := parseLiteral_readerAt_ok b [':'] (p + sep.render.length + 1 + key.length + 1 +
      wsKey.length) ⟨_, by rw [h6]; rfl⟩
    obtain ⟨-, -, h8⟩ := getD_eq_of_drop h6
    -- whitespace, the value
    have h8' : b.drop (p + sep.render.length + 1 + key.length + 1 + wsKey.length + 1) =
        wsColon ++ c :: (t ++ more.render ++ close.render ++ '}' :: rest) := by
      rw [h8, hr]; simp
    obtain ⟨h9, h10⟩ := skipWhitespace_run b _ wsColon c _ h8' hwsColon hcws
    have hb3 : b.drop (p + sep.render.length + 1 + key.length + 1 + wsKey.length + 1 +
        wsColon.length) = d.render ++ (more.render ++ close.render ++ '}' :: rest) := by
      rw [h10, hr]; simp
    have hpvd := hpv d _ _ (by omega) hd
      (fun h => by
        have := hnum h
        rw [← List.append_assoc] at this
        exact NumStop_extend _ _ _ this) hb3
    have hb4 : b.drop (p + sep.render.length + 1 + key.length + 1 + wsKey.length + 1 +
        wsColon.length + d.render.length) = more.render ++ close.render ++ '}' :: rest := by
      rw [drop_add_of_drop b _ _ _ hb3]; simp
    obtain ⟨ih1, ih2⟩ := parseObjectLoop_render pf b pv k hpv close hclose rest more n _
      (mapSet acc (String.mk key) (d.value pf)) (by omega) hmore (by omega) hb4
    have hlen : p + (Entries.cons sep key wsKey wsColon d more).render.length +
        close.render.length =
        p + sep.render.length + 1 + key.length + 1 + wsKey.length + 1 + wsColon.length +
          d.render.length + more.render.length + close.render.length := by
      simp only [Entries.render, List.length_append, List.length_cons]; omega
    rw [hlen]
    refine ⟨?_, ih2⟩
    rw [parseObjectLoop, h1]
    simp only []
    rw [show (readerAt b (p + sep.render.length)).p = p + sep.render.length from rfl, hget,
      if_neg (by decide), h3]
    simp only []
    rw [h5, h7]
    simp only [List.length_singleton]
    rw [h9, hpvd]
    simp only []
    rw [ih1]
    simp [Entries.insertInto]

theorem parseValue_succ (pf : String → Option Float64) (b : List Char) (fuel : Nat) (r : Reader) :
    parseValue pf b (fuel + 1) r =
      if r.p ≥ b.length then .error YYError.eofValue
      else if b.getD r.p default = '[' then parseArray b (parseValue pf b fuel) r
      else if b.getD r.p default = '{' then parseObject b (parseValue pf b fuel) r
      else if b.getD r.p default = '"' then
        match parseString b r with
        | .error e => .error e
        | .ok (s, r1) => .ok (Value.str s, r1)
      else if isNumberStart (b.getD r.p default) = true then parseNumber pf b r
      else if b.getD r.p default = 't' ∨ b.getD r.p default = 'f' then parseBoolean b r
      else if b.getD r.p default = 'n' then parseNull b r
      else .error (YYError.unexpectedSymbolValue r.lineNumber r.columnNumber) := rfl

/-- Soundness of the reader on documents: at the offset where the text of a valid document
starts, `parseValue` returns the value of the document and stops right after its text. -/
theorem parseValue_render (pf : String → Option Float64) (b : List Char) :
    ∀ fuel : Nat, ReadsDocs pf b (parseValue pf b fuel) fuel := by
  intro fuel
  induction fuel with
  | zero => intro d p rest hdepth; omega
  | succ fuel ih =>
    intro d p rest hdepth hvalid hnum hb
    have hnot : ∀ c t, b.drop p = c :: t → ¬ (readerAt b p).p ≥ b.length := by
      intro c t h
      have := (getD_eq_of_drop h).1
      show ¬ p ≥ b.length
      omega
    have hp : (readerAt b p).p = p := rfl
    cases d with
    | null =>
      have hb' : b.drop p = 'n' :: 'u' :: 'l' :: 'l' :: rest := by rw [hb]; rfl
      obtain ⟨-, hget, -⟩ := getD_eq_of_drop hb'
      rw [parseValue_succ, if_neg (hnot _ _ hb')]
      rw [hp, hget]
      rw [if_neg (by decide), if_neg (by decide), if_neg (by decide), if_neg (by decide),
        if_neg (by decide), if_pos rfl, parseNull_readerAt_ok b p rest hb']
      rfl
    | bool v =>
      cases v with
      | true =>
        have hb' : b.drop p = 't' :: 'r' :: 'u' :: 'e' :: rest := by rw [hb]; rfl
        obtain ⟨-, hget, -⟩ := getD_eq_of_drop hb'
        rw [parseValue_succ, if_neg (hnot _ _ hb')]
        rw [hp, hget]
        rw [if_neg (by decide), if_neg (by decide), if_neg (by decide), if_neg (by decide),
          if_pos (by decide), parseBoolean_readerAt_true b p rest hb']
        rfl
      | false =>
        have hb' : b.drop p = 'f' :: 'a' :: 'l' :: 's' :: 'e' :: rest := by rw [hb]; rfl
        obtain ⟨-, hget, -⟩ := getD_eq_of_drop hb'
        rw [parseValue_succ, if_neg (hnot _ _ hb')]
        rw [hp, hget]
        rw [if_neg (by decide), if_neg (by decide), if_neg (by decide), if_neg (by decide),
          if_pos (by decide), parseBoolean_readerAt_false b p rest hb']
        rfl
    | number text =>
      obtain ⟨hne, htok, hsome⟩ := hvalid
      cases text with
      | nil => exact absurd rfl hne
      | cons c t =>
        obtain ⟨h1, h2, h3, h4, -⟩ := numberHead c t htok
        have hb' : b.drop p = c :: (t ++ rest) := by rw [hb]; rfl
        obtain ⟨hlt, hget, -⟩ := getD_eq_of_drop hb'
        rw [parseValue_succ, if_neg (hnot _ _ hb')]
        rw [hp, hget]
        rw [if_neg h1, if_neg h2, if_neg h3, if_pos h4, parseNumber_readerAt pf b p hlt, hb]
        simp only [Doc.render]
        rw [numToken_append (c :: t) rest hne htok (hnum rfl)]
        cases hv : numberValue pf (c :: t) with
        | none => rw [hv] at hsome; cases hsome
        | some v => simp [Doc.value, hv]
    | string s =>
      have hb' : b.drop p = '"' :: s ++ '"' :: rest := by rw [hb]; simp [Doc.render]
      obtain ⟨h1, -⟩ := parseString_ok b p s rest hb' hvalid
      obtain ⟨-, hget, -⟩ := getD_eq_of_drop (show b.drop p = '"' :: (s ++ '"' :: rest) from hb')
      rw [parseValue_succ, if_neg (hnot _ _ hb')]
      rw [hp, hget]
      rw [if_neg (by decide), if_neg (by decide), if_pos rfl, h1]
      simp only [Doc.value, Doc.render, List.length_cons, List.length_append,
        List.length_singleton, List.length_nil]
      congr 3
      omega
    | array elems close =>
      obtain ⟨hel, hclose⟩ := hvalid
      simp only [Doc.depth] at hdepth
      have hb' : b.drop p = '[' :: (elems.render ++ close.render ++ ']' :: rest) := by
        rw [hb]; simp [Doc.render]
      obtain ⟨hlt, hget, hb1⟩ := getD_eq_of_drop hb'
      have hcount := Elems.elems_count_le pf _ elems hel
      have hlen : elems.render.length + close.render.length + 1 + rest.length =
          b.length - (p + 1) := by
        have := congrArg List.length hb1
        simp only [List.length_drop, List.length_append, List.length_cons] at this
        omega
      obtain ⟨h1, h2⟩ := parseArrayLoop_render pf b (parseValue pf b fuel) fuel ih close hclose
        rest elems (b.length - (p + 1) + 1) (p + 1) [] (by omega) hel (by omega) hb1
      rw [parseValue_succ, if_neg (hnot _ _ hb')]
      rw [hp, hget]
      rw [if_pos rfl, parseArray, parseLiteral_readerAt_ok b _ p ⟨_, by rw [hb']; rfl⟩]
      simp only [List.length_singleton]
      rw [show (readerAt b (p + 1)).p = p + 1 from rfl, h1]
      simp only []
      rw [parseLiteral_readerAt_ok b _ _ ⟨rest, by rw [h2]; rfl⟩]
      simp only [List.nil_append, Doc.value, Doc.render, List.length_cons, List.length_append,
        List.length_singleton, List.length_nil]
      congr 3
      omega
    | object entries close =>
      obtain ⟨hel, hclose⟩ := hvalid
      simp only [Doc.depth] at hdepth
      have hb' : b.drop p = '{' :: (entries.render ++ close.render ++ '}' :: rest) := by
        rw [hb]; simp [Doc.render]
      obtain ⟨hlt, hget, hb1⟩ := getD_eq_of_drop hb'
      have hcount := Entries.entries_count_le pf _ entries hel
      have hlen : entries.render.length + close.render.length + 1 + rest.length =
          b.length - (p + 1) := by
        have := congrArg List.length hb1
        simp only [List.length_drop, List.length_append, List.length_cons] at this
        omega
      obtain ⟨h1, h2⟩ := parseObjectLoop_render pf b (parseValue pf b fuel) fuel ih close hclose
        rest entries (b.length - (p + 1) + 1) (p + 1) [] (by omega) hel (by omega) hb1
      rw [parseValue_succ, if_neg (hnot _ _ hb')]
      rw [hp, hget]
      rw [if_neg (by decide), if_pos rfl, parseObject,
        parseLiteral_readerAt_ok b _ p ⟨_, by rw [hb']; rfl⟩]
      simp only [List.length_singleton]
      rw [show (readerAt b (p + 1)).p = p + 1 from rfl, h1]
      simp only []
      rw [parseLiteral_readerAt_ok b _ _ ⟨rest, by rw [h2]; rfl⟩]
      simp only [Doc.value, Doc.render, List.length_cons, List.length_append,
        List.length_singleton, List.length_nil]
      congr 3
      omega

mutual
theorem Doc.doc_depth_le : ∀ d : Doc, d.depth ≤ d.render.length
  | .null => by simp [Doc.depth]
  | .bool _ => by simp [Doc.depth]
  | .number _ => by simp [Doc.depth]
  | .string _ => by simp [Doc.depth]
  | .array elems close => by
    have := Elems.elems_depth_le elems
    simp only [Doc.depth, Doc.render, List.length_cons, List.length_append]
    omega
  | .object entries close => by
    have := Entries.entries_depth_le entries
    simp only [Doc.depth, Doc.render, List.length_cons, List.length_append]
    omega
theorem Elems.elems_depth_le : ∀ e : Elems, e.depth ≤ e.render.length
  | .nil => by simp [Elems.depth]
  | .cons sep d rest => by
    have h1 := Doc.doc_depth_le d
    have h2 := Elems.elems_depth_le rest
    simp only [Elems.depth, Elems.render, List.length_append]
    omega
theorem Entries.entries_depth_le : ∀ e : Entries, e.depth ≤ e.render.length
  | .nil => by simp [Entries.depth]
  | .cons sep key wsKey wsColon d rest => by
    have h1 := Doc.doc_depth_le d
    have h2 := Entries.entries_depth_le rest
    simp only [Entries.depth, Entries.render, List.length_append, List.length_cons]
    omega
end

theorem isNumberByte_of_whitespace {c : Char} (h : isWhitespace c = true) :
    isNumberByte c = false := by
  simp only [isWhitespace, Bool.or_eq_true, decide_eq_true_eq] at h
  rcases h with ((rfl | rfl) | rfl) | rfl <;> decide

theorem NumStop_whitespace (ws : List Char) (hws : ∀ x ∈ ws, isWhitespace x = true) :
    NumStop ws := by
  intro c hc
  cases ws with
  | nil => cases hc
  | cons a t =>
    injection hc with hc
    subst hc
    exact isNumberByte_of_whitespace (hws a (by simp))

/-- The first steps of `ParseYY` on leading whitespace and the text of a valid document:
`parseValue` returns the value of the document and stops right after its text. -/
theorem parseValue_document (pf : String → Option Float64) (ws0 rest : List Char) (d : Doc)
    (hws0 : ∀ x ∈ ws0, isWhitespace x = true) (hd : d.Valid pf)
    (hnum : d.isNumber = true → NumStop rest) :
    parseValue pf (ws0 ++ d.render ++ rest) ((ws0 ++ d.render ++ rest).length + 1)
        (skipWhitespace (ws0 ++ d.render ++ rest) Reader.start) =
      .ok (d.value pf, readerAt (ws0 ++ d.render ++ rest) (ws0.length + d.render.length)) ∧
    (ws0 ++ d.render ++ rest).drop (ws0.length + d.render.length) = rest := by
  obtain ⟨c, t, hr, hcws, -⟩ := render_head pf d hd
  have hb0 : (ws0 ++ d.render ++ rest).drop 0 = ws0 ++ c :: (t ++ rest) := by
    rw [List.drop_zero, hr]; simp
  obtain ⟨h1, h2⟩ := skipWhitespace_run _ 0 ws0 c _ hb0 hws0 hcws
  rw [readerAt_zero] at h1
  have hb1 : (ws0 ++ d.render ++ rest).drop (0 + ws0.length) = d.render ++ rest := by
    rw [h2, hr]; simp
  have hdepth := Doc.doc_depth_le d
  have := parseValue_render pf (ws0 ++ d.render ++ rest) ((ws0 ++ d.render ++ rest).length + 1)
    d (0 + ws0.length) rest (by simp only [List.length_append]; omega) hd hnum hb1
  rw [Nat.zero_add] at this h1
  refine ⟨by rw [h1, this], ?_⟩
  rw [show ws0.length + d.render.length = (ws0 ++ d.render).length by simp]
  exact List.drop_left _ _

/-- `ParseYY` on the text of a valid document between whitespace returns its value. -/
theorem ParseYY_document (pf : String → Option Float64) (ws0 ws1 : List Char) (d : Doc)
    (hws0 : ∀ x ∈ ws0, isWhitespace x = true) (hws1 : ∀ x ∈ ws1, isWhitespace x = true)
    (hd : d.Valid pf) :
    ParseYY pf (ws0 ++ d.render ++ ws1) = .ok (d.value pf) := by
  obtain ⟨h1, h2⟩ := parseValue_document pf ws0 ws1 d hws0 hd
    (fun _ => NumStop_whitespace ws1 hws1)
  unfold ParseYY
  simp only [h1]
  rw [skipWhitespace_readerAt, h2, wsLen_all ws1 hws1]
  have : (readerAt (ws0 ++ d.render ++ ws1) (ws0.length + d.render.length + ws1.length)).p =
      (ws0 ++ d.render ++ ws1).length := by
    show ws0.length + d.render.length + ws1.length = _
    simp only [List.length_append]
  rw [if_neg (by rw [this]; simp)]

/-- `ParseYY` on the text of a valid document followed, after whitespace, by a byte that is not
whitespace (and does not continue the document when it is a number) fails at that byte. -/
theorem ParseYY_document_extra (pf : String → Option Float64) (ws0 ws1 : List Char) (d : Doc)
    (c : Char) (rest : List Char)
    (hws0 : ∀ x ∈ ws0, isWhitespace x = true) (hws1 : ∀ x ∈ ws1, isWhitespace x = true)
    (hd : d.Valid pf) (hc : isWhitespace c = false)
    (hnum : d.isNumber = true → ws1 = [] → isNumberByte c = false) :
    ParseYY pf (ws0 ++ d.render ++ (ws1 ++ c :: rest)) =
      .error (YYError.extraContent
        (lineAt (ws0 ++ d.render ++ (ws1 ++ c :: rest)) (ws0.length + d.render.length + ws1.length))
        (colAt (ws0 ++ d.render ++ (ws1 ++ c :: rest)) (ws0.length + d.render.length + ws1.length))) := by
  have hstop : d.isNumber = true → NumStop (ws1 ++ c :: rest) := by
    intro h
    cases ws1 with
    | nil => exact NumStop_of_head rfl (hnum h rfl)
    | cons a t => exact NumStop_of_head rfl (isNumberByte_of_whitespace (hws1 a (by simp)))
  obtain ⟨h1, h2⟩ := parseValue_document pf ws0 (ws1 ++ c :: rest) d hws0 hd hstop
  unfold ParseYY
  simp only [h1]
  rw [skipWhitespace_readerAt, h2, wsLen_append_stop ws1 c rest hws1 hc]
  have : (readerAt (ws0 ++ d.render ++ (ws1 ++ c :: rest))
      (ws0.length + d.render.length + ws1.length)).p ≠
      (ws0 ++ d.render ++ (ws1 ++ c :: rest)).length := by
    show ws0.length + d.render.length + ws1.length ≠ _
    simp only [List.length_append, List.length_cons]
    omega
  rw [if_pos this]
  rfl

/-! ## Every result of the reader is accounted for -/

theorem head_dropWhile_not (f : Char → Bool) : ∀ (l : List Char) (c : Char) (t : List Char),
    l.dropWhile f = c :: t → f c = false := by
  intro l
  induction l with
  | nil => intro c t h; cases h
  | cons a l ih =>
    intro c t h
    by_cases ha : f a = true
    · rw [List.dropWhile_cons, if_pos ha] at h
      exact ih c t h
    · rw [List.dropWhile_cons, if_neg ha] at h
      injection h with h1 _
      rw [← h1]; simpa using ha

theorem takeWhile_append_dropWhile' (f : Char → Bool) (l : List Char) :
    l = l.takeWhile f ++ l.dropWhile f := (List.takeWhile_append_dropWhile f l).symm

theorem all_takeWhile (f : Char → Bool) (l : List Char) : ∀ x ∈ l.takeWhile f, f x = true := by
  intro x hx
  exact List.mem_takeWhile_imp hx

/-- What `skipWhitespace` skips is whitespace, and it stops at the end of input or before a
byte that is not whitespace. -/
theorem skipWhitespace_inv (b : List Char) (p : Nat) (hp : p ≤ b.length) :
    ∃ ws : List Char, (∀ x ∈ ws, isWhitespace x = true) ∧
      skipWhitespace b (readerAt b p) = readerAt b (p + ws.length) ∧
      b.drop p = ws ++ b.drop (p + ws.length) ∧ p + ws.length ≤ b.length ∧
      (p + ws.length < b.length → isWhitespace (b.getD (p + ws.length) default) = false) := by
  refine ⟨(b.drop p).takeWhile isWhitespace, all_takeWhile _ _, ?_, ?_, ?_, ?_⟩
  · rw [skipWhitespace_readerAt]; rfl
  · rw [drop_add_of_drop b p _ _ rfl, drop_length_takeWhile]
    exact takeWhile_append_dropWhile' _ _
  · have : ((b.drop p).takeWhile isWhitespace).length ≤ (b.drop p).length :=
      List.IsPrefix.length_le ( List.takeWhile_prefix _)
    rw [List.length_drop] at this
    omega
  · intro hlt
    have h1 : b.drop (p + ((b.drop p).takeWhile isWhitespace).length) =
        (b.drop p).dropWhile isWhitespace := by
      rw [drop_add_of_drop b p _ _ rfl, drop_length_takeWhile]
    rw [drop_eq_cons_getD hlt] at h1
    exact head_dropWhile_not _ _ _ _ h1.symm

/-- What `skipComma` skips is a valid separator, and it stops before a byte that is not
whitespace; its only error is the end of input. -/
theorem skipComma_inv (b : List Char) (eof : YYError) (p : Nat) (hp : p ≤ b.length) :
    skipComma b eof (readerAt b p) = .error eof ∨
    ∃ sep : Sep, sep.Valid ∧
      skipComma b eof (readerAt b p) = .ok (readerAt b (p + sep.render.length)) ∧
      b.drop p = sep.render ++ b.drop (p + sep.render.length) ∧
      p + sep.render.length < b.length ∧
      isWhitespace (b.getD (p + sep.render.length) default) = false := by
  obtain ⟨ws, hws, h1, h2, h3, h4⟩ := skipWhitespace_inv b p hp
  unfold skipComma
  simp only [h1]
  rw [show (readerAt b (p + ws.length)).p = p + ws.length from rfl]
  by_cases hlt : p + ws.length < b.length
  · rw [if_neg (by omega)]
    by_cases hc : b.getD (p + ws.length) default = ','
    · rw [if_pos hc, advance_readerAt b 1 _ (by omega)]
      obtain ⟨ws2, hws2, g1, g2, g3, g4⟩ := skipWhitespace_inv b (p + ws.length + 1) (by omega)
      simp only [g1]
      rw [show (readerAt b (p + ws.length + 1 + ws2.length)).p = p + ws.length + 1 + ws2.length
        from rfl]
      by_cases hlt2 : p + ws.length + 1 + ws2.length < b.length
      · rw [if_neg (by omega)]
        right
        have hlen : (Sep.mk ws (some ws2)).render.length = ws.length + 1 + ws2.length := by
          simp [Sep.render]; omega
        refine ⟨⟨ws, some ws2⟩, ⟨hws, ?_⟩, ?_, ?_, ?_, ?_⟩
        · intro w hw; injection hw with hw; subst hw; exact hws2
        · rw [hlen, ← Nat.add_assoc, ← Nat.add_assoc]
        · rw [hlen, ← Nat.add_assoc, ← Nat.add_assoc]
          have hd := drop_eq_cons_getD hlt
          rw [hc, g2] at hd
          rw [h2, hd]
          simp [Sep.render]
        · rw [hlen]; omega
        · rw [hlen, ← Nat.add_assoc, ← Nat.add_assoc]; exact g4 hlt2
      · rw [if_pos (by omega)]
        left; rfl
    · rw [if_neg hc]
      right
      refine ⟨⟨ws, none⟩, ⟨hws, ?_⟩, rfl, h2, hlt, h4 hlt⟩
      intro w hw; cases hw
  · rw [if_pos (by omega)]
    left; rfl

theorem numToken_idem (s : List Char) : numToken (numToken s) = numToken s := by
  cases s with
  | nil => rfl
  | cons c t =>
    by_cases hs : c = '-' ∨ c = '+'
    · simp only [numToken, if_pos hs]
      rw [(takeWhile_all _ (all_takeWhile isNumberByte t)).1]
    · simp only [numToken, if_neg hs]
      by_cases hc : isNumberByte c = true
      · rw [List.takeWhile_cons, if_pos hc]
        simp only [numToken, if_neg hs]
        rw [List.takeWhile_cons, if_pos hc, (takeWhile_all _ (all_takeWhile isNumberByte t)).1]
      · rw [List.takeWhile_cons, if_neg hc]

theorem numToken_ne_nil (c : Char) (t : List Char) (hc : isNumberStart c = true) :
    numToken (c :: t) ≠ [] := by
  by_cases hs : c = '-' ∨ c = '+'
  · simp [numToken, hs]
  · have hnb : isNumberByte c = true := by
      simp only [isNumberStart, Bool.or_eq_true, decide_eq_true_eq] at hc
      simp only [isNumberByte, isFloatByte, Bool.or_eq_true, decide_eq_true_eq]
      tauto
    simp [numToken, hs, List.takeWhile_cons, hnb]

theorem NumStop_after_numToken (s : List Char) : NumStop (s.drop (numToken s).length) := by
  intro x hx
  cases s with
  | nil => simp [numToken] at hx
  | cons c t =>
    by_cases hs : c = '-' ∨ c = '+'
    · simp only [numToken, if_pos hs, List.length_cons, List.drop_succ_cons,
        drop_length_takeWhile] at hx
      cases hdw : t.dropWhile isNumberByte with
      | nil => rw [hdw] at hx; cases hx
      | cons a u =>
        rw [hdw] at hx
        injection hx with hx
        subst hx
        exact head_dropWhile_not _ _ _ _ hdw
    · simp only [numToken, if_neg hs, drop_length_takeWhile] at hx
      cases hdw : (c :: t).dropWhile isNumberByte with
      | nil => rw [hdw] at hx; cases hx
      | cons a u =>
        rw [hdw] at hx
        injection hx with hx
        subst hx
        exact head_dropWhile_not _ _ _ _ hdw

theorem parseNumber_inv (pf : String → Option Float64) (b : List Char) (p : Nat)
    (hp : p < b.length) (hstart : isNumberStart (b.getD p default) = true) :
    ReadsAt pf b p (parseNumber pf b (readerAt b p)) := by
  rw [parseNumber_readerAt pf b p hp]
  cases hv : numberValue pf (numToken (b.drop p)) with
  | none => exact ⟨p, hp, rfl, rfl, hstart⟩
  | some v =>
    have hne : numToken (b.drop p) ≠ [] := by
      rw [drop_eq_cons_getD hp]
      exact numToken_ne_nil _ _ hstart
    refine ⟨Doc.number (numToken (b.drop p)), ⟨hne, numToken_idem _, by rw [hv]; rfl⟩, ?_, ?_, ?_, rfl⟩
    · exact ⟨_, by
        have := List.take_append_drop (numToken (b.drop p)).length (b.drop p)
        rw [numToken_take] at this
        exact this⟩
    · intro _
      have := NumStop_after_numToken (b.drop p)
      rw [List.drop_drop] at this
      exact this
    · simp [Doc.value, hv]

theorem parseString_not_quote (b : List Char) (p : Nat)
    (h : ¬ ∃ s1, b.drop p = '"' :: s1) :
    parseString b (readerAt b p) = .error (YYError.expectedString (lineAt b p) (colAt b p)) := by
  unfold parseString
  rw [parseLiteral_readerAt_error b _ p (by rw [prefix_singleton_iff]; exact h)]
  rfl

/-- What `parseString` returns at an offset below the end of input: a string of string bytes
between quotes, or one of its three errors. -/
theorem parseString_inv (b : List Char) (p : Nat) (hp : p < b.length) :
    match parseString b (readerAt b p) with
    | .ok (s, r) =>
      (∀ c ∈ s.data, isStringByte c = true) ∧ r = readerAt b (p + 1 + s.data.length + 1) ∧
        b.drop p = '"' :: s.data ++ '"' :: b.drop (p + 1 + s.data.length + 1)
    | .error e => ErrorAt b e := by
  rcases hd : b.drop p with _ | ⟨c, s1⟩
  · rw [List.drop_eq_nil_iff] at hd; omega
  · obtain ⟨-, hget, hd1⟩ := getD_eq_of_drop hd
    by_cases hc : c = '"'
    · subst hc
      rw [parseString_readerAt, hd]
      simp only []
      have hsplit := takeWhile_append_dropWhile' isStringByte s1
      have hlen1 : s1.length = b.length - (p + 1) := by rw [← hd1]; simp
      have hle : strLen s1 ≤ s1.length := List.IsPrefix.length_le ( List.takeWhile_prefix _)
      rcases hdw : s1.dropWhile isStringByte with _ | ⟨c2, rest⟩
      · simp only []
        have : p + 1 + strLen s1 = b.length := by
          have h := congrArg List.length hsplit
          rw [hdw, List.append_nil] at h
          unfold strLen
          omega
        rw [this]
        exact ⟨rfl, rfl⟩
      · by_cases hb : c2 = '\\'
        · subst hb
          exact ⟨p + 1, by omega, rfl, rfl⟩
        · have hq : c2 = '"' := by
            have := head_dropWhile_not _ _ _ _ hdw
            simp only [isStringByte, Bool.and_eq_false_iff, ne_eq, decide_eq_false_iff_not,
              not_not] at this
            tauto
          subst hq
          simp only []
          refine ⟨all_takeWhile _ _, rfl, ?_⟩
          have hrest : b.drop (p + 1 + strLen s1 + 1) = rest := by
            have h1 : b.drop (p + 1 + strLen s1) = '"' :: rest := by
              rw [drop_add_of_drop b (p + 1) _ _ hd1]
              unfold strLen
              rw [drop_length_takeWhile, hdw]
            exact (getD_eq_of_drop h1).2.2
          show '"' :: s1 = '"' :: (s1.takeWhile isStringByte) ++
            '"' :: b.drop (p + 1 + (s1.takeWhile isStringByte).length + 1)
          rw [show (s1.takeWhile isStringByte).length = strLen s1 from rfl, hrest, ← hdw]
          simp [← hsplit]
    · rw [parseString_not_quote b p (by
        rintro ⟨s2, hs2⟩
        rw [hd] at hs2
        injection hs2 with h _
        exact hc h)]
      exact ⟨p, hp, rfl, rfl, by rw [hget]; exact hc⟩

theorem NumStop_shrink (x : List Char) (c : Char) (t : List Char) (h : NumStop (x ++ c :: t)) :
    NumStop (x ++ [c]) := by
  cases x with
  | nil => intro y hy; exact h y (by simpa using hy)
  | cons a x => intro y hy; exact h y (by simpa using hy)

theorem drop_split {s : List Char} {b : List Char} {p : Nat} (h : s <+: b.drop p)
    (hp : p ≤ b.length) :
    b.drop p = s ++ b.drop (p + s.length) ∧ p + s.length ≤ b.length := by
  obtain ⟨t, ht⟩ := h
  have hlen := congrArg List.length ht
  rw [List.length_append, List.length_drop] at hlen
  refine ⟨?_, by omega⟩
  rw [drop_add_of_drop b p _ _ ht.symm, List.drop_left]
  exact ht.symm

/-- The loop of `parseArray`, when `parseValue` is accounted for at the offsets it reaches:
what it reads are the elements of an array up to the closing bracket. -/
theorem parseArrayLoop_inv (pf : String → Option Float64) (b : List Char)
    (pv : Reader → Except YYError (Value × Reader)) (p0 : Nat)
    (hpv : ∀ q, p0 ≤ q → q ≤ b.length → ReadsAt pf b q (pv (readerAt b q))) :
    ∀ (n p : Nat) (acc : List Value), p0 ≤ p → p ≤ b.length → b.length - p < n →
      match parseArrayLoop b pv n (readerAt b p) acc with
      | .ok (arr, r) =>
        ∃ (elems : Elems) (close : Sep), elems.Valid pf (close.render ++ [']']) ∧ close.Valid ∧
          b.drop p = elems.render ++ close.render ++
            ']' :: b.drop (p + elems.render.length + close.render.length + 1) ∧
          p + elems.render.length + close.render.length < b.length ∧
          arr = acc ++ elems.values pf ∧
          r = readerAt b (p + elems.render.length + close.render.length)
      | .error e => ErrorAt b e := by
  intro n
  induction n with
  | zero => intro p acc _ _ h; omega
  | succ n ih =>
    intro p acc hp0 hp hn
    rw [parseArrayLoop]
    rcases skipComma_inv b YYError.eofArray p hp with h | ⟨sep, hsep, h1, h2, h3, h4⟩
    · rw [h]; exact trivial
    · rw [h1]
      simp only []
      rw [show (readerAt b (p + sep.render.length)).p = p + sep.render.length from rfl]
      by_cases hc : b.getD (p + sep.render.length) default = ']'
      · rw [if_pos hc]
        refine ⟨Elems.nil, sep, trivial, hsep, ?_, ?_, ?_, ?_⟩
        · have := drop_eq_cons_getD h3
          rw [hc] at this
          simp only [Elems.render, List.nil_append, List.length_nil, Nat.add_zero]
          rw [h2, this]
        · simpa [Elems.render] using h3
        · simp [Elems.values]
        · simp [Elems.render]
      · rw [if_neg hc]
        have hv := hpv (p + sep.render.length) (by omega) (by omega)
        cases hres : pv (readerAt b (p + sep.render.length)) with
        | error e => rw [hres] at hv; exact hv
        | ok vr =>
          obtain ⟨v, r⟩ := vr
          rw [hres] at hv
          obtain ⟨d, hd, hpre, hnum, hval, hr⟩ := hv
          subst hval hr
          simp only []
          obtain ⟨hdrop, hle⟩ := drop_split hpre (by omega)
          obtain ⟨c, t, hrender, -⟩ := render_head pf d hd
          have hpos : 0 < d.render.length := by rw [hrender]; simp
          have ih' := ih (p + sep.render.length + d.render.length) (acc ++ [d.value pf])
            (by omega) hle (by omega)
          cases hres2 : parseArrayLoop b pv n
              (readerAt b (p + sep.render.length + d.render.length)) (acc ++ [d.value pf]) with
          | error e => rw [hres2] at ih'; exact ih'
          | ok ar =>
            obtain ⟨arr, r2⟩ := ar
            rw [hres2] at ih'
            obtain ⟨elems, close, hel, hclose, hb, hlt, harr, hr2⟩ := ih'
            simp only []
            have hlen : p + (Elems.cons sep d elems).render.length + close.render.length =
                p + sep.render.length + d.render.length + elems.render.length +
                  close.render.length := by
              simp only [Elems.render, List.length_append]; omega
            refine ⟨Elems.cons sep d elems, close, ⟨hsep, hd, ?_, hel⟩, hclose, ?_, ?_, ?_, ?_⟩
            · intro hnumd
              have := hnum hnumd
              rw [hb] at this
              rw [← List.append_assoc]
              exact NumStop_shrink _ _ _ this
            · rw [hlen, h2, hdrop, hb]
              simp [Elems.render]
            · rw [hlen]; exact hlt
            · rw [harr]; simp [Elems.values]
            · rw [hlen]; exact hr2

/-- The loop of `parseObject`, when `parseValue` is accounted for at the offsets it reaches:
what it reads are the entries of an object up to the closing brace. -/
theorem parseObjectLoop_inv (pf : String → Option Float64) (b : List Char)
    (pv : Reader → Except YYError (Value × Reader)) (p0 : Nat)
    (hpv : ∀ q, p0 ≤ q → q ≤ b.length → ReadsAt pf b q (pv (readerAt b q))) :
    ∀ (n p : Nat) (acc : List (String × Value)), p0 ≤ p → p ≤ b.length → b.length - p < n →
      match parseObjectLoop b pv n (readerAt b p) acc with
      | .ok (kvs, r) =>
        ∃ (entries : Entries) (close : Sep), entries.Valid pf (close.render ++ ['}']) ∧
          close.Valid ∧
          b.drop p = entries.render ++ close.render ++
            '}' :: b.drop (p + entries.render.length + close.render.length + 1) ∧
          p + entries.render.length + close.render.length < b.length ∧
          kvs = entries.insertInto pf acc ∧
          r = readerAt b (p + entries.render.length + close.render.length)
      | .error e => ErrorAt b e := by
  intro n
  induction n with
  | zero => intro p acc _ _ h; omega
  | succ n ih =>
    intro p acc hp0 hp hn
    rw [parseObjectLoop]
    rcases skipComma_inv b YYError.eofObject p hp with h | ⟨sep, hsep, h1, h2, h3, h4⟩
    · rw [h]; exact trivial
    · rw [h1]
      simp only []
      rw [show (readerAt b (p + sep.render.length)).p = p + sep.render.length from rfl]
      by_cases hc : b.getD (p + sep.render.length) default = '}'
      · rw [if_pos hc]
        refine ⟨Entries.nil, sep, trivial, hsep, ?_, ?_, ?_, ?_⟩
        · have := drop_eq_cons_getD h3
          rw [hc] at this
          simp only [Entries.render, List.nil_append, List.length_nil, Nat.add_zero]
          rw [h2, this]
        · simpa [Entries.render] using h3
        · simp [Entries.insertInto]
        · simp [Entries.render]
      · rw [if_neg hc]
        have hs := parseString_inv b (p + sep.render.length) h3
        cases hres : parseString b (readerAt b (p + sep.render.length)) with
        | error e => rw [hres] at hs; exact hs
        | ok sr =>
          obtain ⟨key, r⟩ := sr
          rw [hres] at hs
          obtain ⟨hkey, hr, hbk⟩ := hs
          subst hr
          simp only []
          -- whitespace and the colon
          have hle1 : p + sep.render.length + 1 + key.data.length + 1 ≤ b.length := by
            have := congrArg List.length hbk
            simp only [List.length_drop, List.length_append, List.length_cons] at this
            omega
          obtain ⟨wsKey, hwsKey, g1, g2, g3, -⟩ := skipWhitespace_inv b _ hle1
          rw [g1]
          by_cases hcolon : [':'] <+: b.drop (p + sep.render.length + 1 + key.data.length + 1 +
              wsKey.length)
          · rw [parseLiteral_readerAt_ok b _ _ hcolon]
            simp only [List.length_singleton]
            obtain ⟨hbc, hle2⟩ := drop_split hcolon g3
            simp only [List.length_singleton] at hbc hle2
            obtain ⟨wsColon, hwsColon, k1, k2, k3, -⟩ := skipWhitespace_inv b _ hle2
            rw [k1]
            have hv := hpv (p + sep.render.length + 1 + key.data.length + 1 + wsKey.length + 1 +
              wsColon.length) (by omega) k3
            cases hres2 : pv (readerAt b (p + sep.render.length + 1 + key.data.length + 1 +
                wsKey.length + 1 + wsColon.length)) with
            | error e => rw [hres2] at hv; exact hv
            | ok vr =>
              obtain ⟨v, r⟩ := vr
              rw [hres2] at hv
              obtain ⟨d, hd, hpre, hnum, hval, hr⟩ := hv
              subst hval hr
              simp only []
              obtain ⟨hdrop, hle3⟩ := drop_split hpre k3
              have ih' := ih (p + sep.render.length + 1 + key.data.length + 1 + wsKey.length + 1 +
                wsColon.length + d.render.length) (mapSet acc key (d.value pf))
                (by omega) hle3 (by omega)
              cases hres3 : parseObjectLoop b pv n
                  (readerAt b (p + sep.render.length + 1 + key.data.length + 1 + wsKey.length + 1 +
                    wsColon.length + d.render.length)) (mapSet acc key (d.value pf)) with
              | error e => rw [hres3] at ih'; exact ih'
              | ok ar =>
                obtain ⟨kvs, r2⟩ := ar
                rw [hres3] at ih'
                obtain ⟨entries, close, hel, hclose, hb, hlt, hkvs, hr2⟩ := ih'
                simp only []
                have hlen : p + (Entries.cons sep key.data wsKey wsColon d entries).render.length +
                    close.render.length =
                    p + sep.render.length + 1 + key.data.length + 1 + wsKey.length + 1 +
                      wsColon.length + d.render.length + entries.render.length +
                      close.render.length := by
                  simp only [Entries.render, List.length_append, List.length_cons]; omega
                refine ⟨Entries.cons sep key.data wsKey wsColon d entries, close,
                  ⟨hsep, hkey, hwsKey, hwsColon, hd, ?_, hel⟩, hclose, ?_, ?_, ?_, ?_⟩
                · intro hnumd
                  have := hnum hnumd
                  rw [hb] at this
                  rw [← List.append_assoc]
                  exact NumStop_shrink _ _ _ this
                · rw [hlen, h2, hbk, g2, hbc, k2, hdrop, hb]
                  simp [Entries.render]
                · rw [hlen]; exact hlt
                · rw [hkvs]; simp [Entries.insertInto]
                · rw [hlen]; exact hr2
          · rw [parseLiteral_readerAt_error b _ _ hcolon]
            exact ⟨_, g3, rfl, rfl, hcolon⟩

/-- Every result of `parseValue` is accounted for, when the recursion bound exceeds the number
of unread bytes: a value comes from a valid document whose text was read, an error is one of
the errors of the reader (never the recursion bound). -/
theorem parseValue_inv (pf : String → Option Float64) (b : List Char) :
    ∀ (fuel p : Nat), p ≤ b.length → b.length - p < fuel →
      ReadsAt pf b p (parseValue pf b fuel (readerAt b p)) := by
  intro fuel
  induction fuel with
  | zero => intro p _ h; omega
  | succ fuel ih =>
    intro p hp hfuel
    rw [parseValue_succ, show (readerAt b p).p = p from rfl]
    by_cases hlt : p < b.length
    swap
    · rw [if_pos (by omega)]; exact trivial
    rw [if_neg (by omega)]
    have hdrop := drop_eq_cons_getD hlt
    generalize hc : b.getD p default = c at hdrop
    have hpv : ∀ q, p + 1 ≤ q → q ≤ b.length →
        ReadsAt pf b q (parseValue pf b fuel (readerAt b q)) :=
      fun q h1 h2 => ih q h2 (by omega)
    by_cases h1 : c = '['
    · subst h1
      rw [if_pos rfl, parseArray, parseLiteral_readerAt_ok b _ p ⟨_, by rw [hdrop]; rfl⟩]
      simp only [List.length_singleton]
      rw [show (readerAt b (p + 1)).p = p + 1 from rfl]
      have hloop := parseArrayLoop_inv pf b _ (p + 1) hpv (b.length - (p + 1) + 1) (p + 1) []
        (le_refl _) (by omega) (by omega)
      cases hres : parseArrayLoop b (parseValue pf b fuel) (b.length - (p + 1) + 1)
          (readerAt b (p + 1)) [] with
      | error e => rw [hres] at hloop; exact hloop
      | ok ar =>
        obtain ⟨arr, r⟩ := ar
        rw [hres] at hloop
        obtain ⟨elems, close, hel, hclose, hb, hq, harr, hr⟩ := hloop
        subst harr hr
        simp only []
        have hbq : b.drop (p + 1 + elems.render.length + close.render.length) =
            ']' :: b.drop (p + 1 + elems.render.length + close.render.length + 1) := by
          have := drop_add_of_drop b (p + 1) (elems.render.length + close.render.length) _ hb
          rw [← Nat.add_assoc] at this
          rw [this, ← List.length_append, List.drop_left]
        rw [parseLiteral_readerAt_ok b _ _ ⟨_, by rw [hbq]; rfl⟩]
        have hlen : (Doc.array elems close).render.length =
            1 + elems.render.length + close.render.length + 1 := by
          simp only [Doc.render, List.length_cons, List.length_append, List.length_nil]; omega
        refine ⟨Doc.array elems close, ⟨hel, hclose⟩, ?_, (fun h => by cases h), ?_, ?_⟩
        · exact ⟨b.drop (p + 1 + elems.render.length + close.render.length + 1), by
            rw [hdrop, hb]; simp [Doc.render]⟩
        · simp [Doc.value]
        · rw [hlen]; simp only [List.length_singleton]; congr 1; omega
    by_cases h2 : c = '{'
    · subst h2
      rw [if_neg (by decide), if_pos rfl, parseObject,
        parseLiteral_readerAt_ok b _ p ⟨_, by rw [hdrop]; rfl⟩]
      simp only [List.length_singleton]
      rw [show (readerAt b (p + 1)).p = p + 1 from rfl]
      have hloop := parseObjectLoop_inv pf b _ (p + 1) hpv (b.length - (p + 1) + 1) (p + 1) []
        (le_refl _) (by omega) (by omega)
      cases hres : parseObjectLoop b (parseValue pf b fuel) (b.length - (p + 1) + 1)
          (readerAt b (p + 1)) [] with
      | error e => rw [hres] at hloop; exact hloop
      | ok ar =>
        obtain ⟨kvs, r⟩ := ar
        rw [hres] at hloop
        obtain ⟨entries, close, hel, hclose, hb, hq, hkvs, hr⟩ := hloop
        subst hkvs hr
        simp only []
        have hbq : b.drop (p + 1 + entries.render.length + close.render.length) =
            '}' :: b.drop (p + 1 + entries.render.length + close.render.length + 1) := by
          have := drop_add_of_drop b (p + 1) (entries.render.length + close.render.length) _ hb
          rw [← Nat.add_assoc] at this
          rw [this, ← List.length_append, List.drop_left]
        rw [parseLiteral_readerAt_ok b _ _ ⟨_, by rw [hbq]; rfl⟩]
        have hlen : (Doc.object entries close).render.length =
            1 + entries.render.length + close.render.length + 1 := by
          simp only [Doc.render, List.length_cons, List.length_append, List.length_nil]; omega
        refine ⟨Doc.object entries close, ⟨hel, hclose⟩, ?_, (fun h => by cases h), ?_, ?_⟩
        · exact ⟨b.drop (p + 1 + entries.render.length + close.render.length + 1), by
            rw [hdrop, hb]; simp [Doc.render]⟩
        · simp [Doc.value]
        · rw [hlen]; simp only [List.length_singleton]; congr 1; omega
    by_cases h3 : c = '"'
    · subst h3
      rw [if_neg (by decide), if_neg (by decide), if_pos rfl]
      have hs := parseString_inv b p hlt
      cases hres : parseString b (readerAt b p) with
      | error e => rw [hres] at hs; exact hs
      | ok sr =>
        obtain ⟨s, r⟩ := sr
        rw [hres] at hs
        obtain ⟨hs1, hr, hbs⟩ := hs
        subst hr
        refine ⟨Doc.string s.data, hs1, ?_, (fun h => by cases h), rfl, ?_⟩
        · refine ⟨b.drop (p + 1 + s.data.length + 1), ?_⟩
          rw [hbs]
          simp only [Doc.render, List.cons_append, List.append_assoc, List.singleton_append,
            List.nil_append]
        · simp only [Doc.render, List.length_cons, List.length_append, List.length_nil]
          congr 1; omega
    by_cases h4 : isNumberStart c = true
    · rw [if_neg h1, if_neg h2, if_neg h3, if_pos h4]
      exact parseNumber_inv pf b p hlt (by rw [hc]; exact h4)
    by_cases h5 : c = 't' ∨ c = 'f'
    · rw [if_neg h1, if_neg h2, if_neg h3, if_neg h4, if_pos h5]
      unfold parseBoolean
      rw [show (readerAt b p).p = p from rfl, if_neg (by omega), hc]
      by_cases ht : c = 't'
      · rw [if_pos ht]
        by_cases hpre : trueLiteral <+: b.drop p
        · rw [parseLiteral_readerAt_ok b _ p hpre]
          exact ⟨Doc.bool true, trivial, hpre, (fun h => by cases h), rfl, rfl⟩
        · rw [parseLiteral_readerAt_error b _ p hpre]
          exact ⟨p, hp, rfl, rfl, hpre⟩
      · rw [if_neg ht]
        by_cases hpre : falseLiteral <+: b.drop p
        · rw [parseLiteral_readerAt_ok b _ p hpre]
          exact ⟨Doc.bool false, trivial, hpre, (fun h => by cases h), rfl, rfl⟩
        · rw [parseLiteral_readerAt_error b _ p hpre]
          exact ⟨p, hp, rfl, rfl, hpre⟩
    by_cases h6 : c = 'n'
    · rw [if_neg h1, if_neg h2, if_neg h3, if_neg h4, if_neg h5, if_pos h6]
      unfold parseNull
      by_cases hpre : nullLiteral <+: b.drop p
      · rw [parseLiteral_readerAt_ok b _ p hpre]
        exact ⟨Doc.null, trivial, hpre, (fun h => by cases h), rfl, rfl⟩
      · rw [parseLiteral_readerAt_error b _ p hpre]
        exact ⟨p, hp, rfl, rfl, hpre⟩
    · rw [if_neg h1, if_neg h2, if_neg h3, if_neg h4, if_neg h5, if_neg h6]
      refine ⟨p, hlt, rfl, rfl, ?_⟩
      rw [hc]
      simp only [isValueStart, Bool.or_eq_false_iff, decide_eq_false_iff_not]
      simp only [not_or] at h5
      exact ⟨⟨⟨⟨⟨⟨h1, h2⟩, h3⟩, by simpa using h4⟩, h5.1⟩, h5.2⟩, h6⟩

/-- Every result of `ParseYY` is accounted for: a value is the value of a valid document whose
text, between whitespace, is the whole input; an error is one that `ErrorAt` describes. -/
theorem ParseYY_inv (pf : String → Option Float64) (b : List Char) :
    match ParseYY pf b with
    | .ok v =>
      ∃ (ws0 : List Char) (d : Doc) (ws1 : List Char),
        (∀ x ∈ ws0, isWhitespace x = true) ∧ (∀ x ∈ ws1, isWhitespace x = true) ∧
        d.Valid pf ∧ b = ws0 ++ d.render ++ ws1 ∧ v = d.value pf
    | .error e => ErrorAt b e := by
  obtain ⟨ws0, hws0, h1, h2, h3, -⟩ := skipWhitespace_inv b 0 (Nat.zero_le _)
  rw [readerAt_zero, Nat.zero_add] at h1
  rw [Nat.zero_add] at h2 h3
  unfold ParseYY
  simp only [h1]
  have hv := parseValue_inv pf b (b.length + 1) ws0.length h3 (by omega)
  cases hres : parseValue pf b (b.length + 1) (readerAt b ws0.length) with
  | error e => rw [hres] at hv; exact hv
  | ok vr =>
    obtain ⟨v, r⟩ := vr
    rw [hres] at hv
    obtain ⟨d, hd, hpre, -, hval, hr⟩ := hv
    subst hval hr
    simp only []
    obtain ⟨hdrop, hle⟩ := drop_split hpre h3
    obtain ⟨ws1, hws1, g1, g2, g3, g4⟩ := skipWhitespace_inv b _ hle
    rw [g1, show (readerAt b (ws0.length + d.render.length + ws1.length)).p =
      ws0.length + d.render.length + ws1.length from rfl]
    by_cases hend : ws0.length + d.render.length + ws1.length = b.length
    · rw [if_neg (by simpa using hend)]
      refine ⟨ws0, d, ws1, hws0, hws1, hd, ?_, rfl⟩
      have hb : b = b.drop 0 := rfl
      rw [hend, List.drop_length, List.append_nil] at g2
      rw [hb, h2, hdrop, g2, List.append_assoc]
    · rw [if_pos hend]
      exact ⟨_, by omega, rfl, rfl, g4 (by omega)⟩

/-! ## No accepted text holds a backslash -/

theorem not_backslash_of_whitespace {c : Char} (h : isWhitespace c = true) : c ≠ '\\' := by
  simp only [isWhitespace, Bool.or_eq_true, decide_eq_true_eq] at h
  rcases h with ((rfl | rfl) | rfl) | rfl <;> decide

theorem not_backslash_of_stringByte {c : Char} (h : isStringByte c = true) : c ≠ '\\' := by
  simp only [isStringByte, Bool.and_eq_true, ne_eq, decide_eq_true_eq, decide_not,
    Bool.not_eq_true'] at h
  simpa using h.2

theorem not_backslash_of_numberByte {c : Char} (h : isNumberByte c = true) : c ≠ '\\' := by
  rintro rfl
  revert h
  decide

theorem Sep.sep_no_backslash (s : Sep) (hs : s.Valid) : '\\' ∉ s.render := by
  obtain ⟨ws, comma⟩ := s
  cases comma with
  | none =>
    intro hmem
    exact not_backslash_of_whitespace (hs.1 _ hmem) rfl
  | some ws2 =>
    intro hmem
    simp only [Sep.render, List.mem_append, List.mem_cons] at hmem
    rcases hmem with h | h | h
    · exact not_backslash_of_whitespace (hs.1 _ h) rfl
    · exact absurd h (by decide)
    · exact not_backslash_of_whitespace (hs.2 ws2 rfl _ h) rfl

theorem numToken_no_backslash (text : List Char) (htok : numToken text = text) :
    '\\' ∉ text := by
  cases text with
  | nil => simp
  | cons c t =>
    by_cases hs : c = '-' ∨ c = '+'
    · simp only [numToken, if_pos hs] at htok
      injection htok with _ h2
      intro hmem
      rcases List.mem_cons.mp hmem with h | h
      · rcases hs with h' | h' <;> rw [h'] at h <;> exact absurd h (by decide)
      · exact not_backslash_of_numberByte (all_of_takeWhile_eq t h2 _ h) rfl
    · simp only [numToken, if_neg hs] at htok
      intro hmem
      exact not_backslash_of_numberByte (all_of_takeWhile_eq (c :: t) htok _ hmem) rfl

mutual
theorem Doc.doc_no_backslash (pf : String → Option Float64) :
    ∀ d : Doc, d.Valid pf → '\\' ∉ d.render
  | .null, _ => by decide
  | .bool true, _ => by decide
  | .bool false, _ => by decide
  | .number text, h => numToken_no_backslash text h.2.1
  | .string s, h => by
    have h1 : '\\' ∉ s := fun hmem => not_backslash_of_stringByte (h _ hmem) rfl
    simp [Doc.render, h1]
  | .array elems close, h => by
    have h1 := Elems.elems_no_backslash pf elems _ h.1
    have h2 := Sep.sep_no_backslash close h.2
    simp [Doc.render, h1, h2]
  | .object entries close, h => by
    have h1 := Entries.entries_no_backslash pf entries _ h.1
    have h2 := Sep.sep_no_backslash close h.2
    simp [Doc.render, h1, h2]
theorem Elems.elems_no_backslash (pf : String → Option Float64) :
    ∀ (e : Elems) (after : List Char), e.Valid pf after → '\\' ∉ e.render
  | .nil, _, _ => by simp [Elems.render]
  | .cons sep d rest, after, h => by
    have h1 := Sep.sep_no_backslash sep h.1
    have h2 := Doc.doc_no_backslash pf d h.2.1
    have h3 := Elems.elems_no_backslash pf rest after h.2.2.2
    simp [Elems.render, h1, h2, h3]
theorem Entries.entries_no_backslash (pf : String → Option Float64) :
    ∀ (e : Entries) (after : List Char), e.Valid pf after → '\\' ∉ e.render
  | .nil, _, _ => by simp [Entries.render]
  | .cons sep key wsKey wsColon d rest, after, h => by
    have h1 := Sep.sep_no_backslash sep h.1
    have h2 := Doc.doc_no_backslash pf d h.2.2.2.2.1
    have h3 := Entries.entries_no_backslash pf rest after h.2.2.2.2.2.2
    have h4 : '\\' ∉ key := fun hmem => not_backslash_of_stringByte (h.2.1 _ hmem) rfl
    have h5 : '\\' ∉ wsKey := fun hmem => not_backslash_of_whitespace (h.2.2.1 _ hmem) rfl
    have h6 : '\\' ∉ wsColon := fun hmem => not_backslash_of_whitespace (h.2.2.2.1 _ hmem) rfl
    simp [Entries.render, h1, h2, h3, h4, h5, h6]
end

theorem split_at_nonWhitespace (content : List Char)
    (h : ∃ x ∈ content, isWhitespace x = false) :
    ∃ (ws : List Char) (c : Char) (rest : List Char), content = ws ++ c :: rest ∧
      (∀ x ∈ ws, isWhitespace x = true) ∧ isWhitespace c = false := by
  have hsplit := takeWhile_append_dropWhile' isWhitespace content
  rcases hdw : content.dropWhile isWhitespace with _ | ⟨c, rest⟩
  · exfalso
    obtain ⟨x, hx, hxw⟩ := h
    rw [hdw, List.append_nil] at hsplit
    rw [hsplit] at hx
    have := all_takeWhile _ _ x hx
    rw [this] at hxw
    cases hxw
  · refine ⟨content.takeWhile isWhitespace, c, rest, ?_, all_takeWhile _ _, ?_⟩
    · rw [← hdw]; exact hsplit
    · exact head_dropWhile_not _ _ _ _ hdw


/-! ## Number tokens -/

theorem decimalValue_eq : ∀ (digits : List Char) (acc : Nat),
    (∀ c ∈ digits, isDigit c = true) →
    decimalValue digits acc =
      some (digits.foldl (fun acc c => acc * 10 + (c.toNat - '0'.toNat)) acc) := by
  intro digits
  induction digits with
  | nil => intro acc _; rfl
  | cons c cs ih =>
    intro acc h
    rw [decimalValue, if_pos (h c (by simp)), ih _ (fun x hx => h x (by simp [hx]))]
    rfl

theorem foldl_decimal_acc (digits : List Char) : ∀ acc : Nat,
    digits.foldl (fun acc c => acc * 10 + (c.toNat - '0'.toNat)) acc =
      acc * 10 ^ digits.length + decimalOf digits := by
  induction digits with
  | nil => intro acc; simp [decimalOf]
  | cons c cs ih =>
    intro acc
    unfold decimalOf
    rw [List.foldl_cons, List.foldl_cons, ih, ih (0 * 10 + _)]
    simp only [List.length_cons, pow_succ]
    ring

theorem digitChar_isDigit (d : Nat) (hd : d < 10) :
    isDigit (Nat.digitChar d) = true ∧ (Nat.digitChar d).toNat - '0'.toNat = d := by
  interval_cases d <;> exact ⟨by decide, by decide⟩

theorem toDigitsCore_decimal : ∀ (fuel n : Nat) (ds : List Char), n < fuel →
    (∀ c ∈ ds, isDigit c = true) →
    (∀ c ∈ Nat.toDigitsCore 10 fuel n ds, isDigit c = true) ∧
    decimalOf (Nat.toDigitsCore 10 fuel n ds) = n * 10 ^ ds.length + decimalOf ds ∧
    Nat.toDigitsCore 10 fuel n ds ≠ [] := by
  intro fuel
  induction fuel with
  | zero => intro n ds h; omega
  | succ fuel ih =>
    intro n ds hn hds
    have hd := digitChar_isDigit (n % 10) (Nat.mod_lt _ (by decide))
    have hcons : ∀ c ∈ Nat.digitChar (n % 10) :: ds, isDigit c = true := by
      intro c hc
      rcases List.mem_cons.mp hc with rfl | hc
      · exact hd.1
      · exact hds c hc
    have hval : decimalOf (Nat.digitChar (n % 10) :: ds) =
        (n % 10) * 10 ^ ds.length + decimalOf ds := by
      unfold decimalOf
      rw [List.foldl_cons, foldl_decimal_acc, hd.2]
      simp [decimalOf]
    rw [Nat.toDigitsCore]
    by_cases h0 : n / 10 = 0
    · simp only [h0, if_true]
      refine ⟨hcons, ?_, by simp⟩
      rw [hval]
      have : n % 10 = n := by omega
      rw [this]
    · simp only [h0, if_false]
      obtain ⟨h1, h2, h3⟩ := ih (n / 10) (Nat.digitChar (n % 10) :: ds) (by omega) hcons
      refine ⟨h1, ?_, h3⟩
      rw [h2, hval, List.length_cons, pow_succ]
      have := Nat.div_add_mod n 10
      calc n / 10 * (10 ^ ds.length * 10) + (n % 10 * 10 ^ ds.length + decimalOf ds)
          = (10 * (n / 10) + n % 10) * 10 ^ ds.length + decimalOf ds := by ring
        _ = n * 10 ^ ds.length + decimalOf ds := by rw [this]

theorem toDigits_decimal (n : Nat) :
    (∀ c ∈ Nat.toDigits 10 n, isDigit c = true) ∧ decimalOf (Nat.toDigits 10 n) = n ∧
      Nat.toDigits 10 n ≠ [] := by
  have := toDigitsCore_decimal (n + 1) n [] (by omega) (by simp)
  refine ⟨this.1, ?_, this.2.2⟩
  have h2 := this.2.1
  simpa [decimalOf] using h2

theorem isDigit_props {c : Char} (h : isDigit c = true) :
    isNumberByte c = true ∧ isFloatByte c = false ∧ c ≠ '-' ∧ c ≠ '+' ∧
      isWhitespace c = false := by
  have hb := isDigit_bounds h
  refine ⟨by simp [isNumberByte, h], ?_, ?_, ?_, ?_⟩
  · cases hf : isFloatByte c with
    | false => rfl
    | true =>
      simp only [isFloatByte, Bool.or_eq_true, decide_eq_true_eq] at hf
      rcases hf with (rfl | rfl) | rfl
      · exact absurd hb.1 (by decide)
      · exact absurd hb.2 (by decide)
      · exact absurd hb.2 (by decide)
  · rintro rfl; exact absurd hb.1 (by decide)
  · rintro rfl; exact absurd hb.1 (by decide)
  · cases hw : isWhitespace c with
    | false => rfl
    | true =>
      simp only [isWhitespace, Bool.or_eq_true, decide_eq_true_eq] at hw
      rcases hw with ((rfl | rfl) | rfl) | rfl <;> exact absurd hb.1 (by decide)

/-- `ParseYY` on an input that is one number token. -/
theorem ParseYY_token (pf : String → Option Float64) (tok : List Char) (hne : tok ≠ [])
    (htok : numToken tok = tok) :
    ParseYY pf tok =
      match numberValue pf tok with
      | some v => .ok v
      | none => .error (YYError.couldNotParseNumber 1 1) := by
  cases hv : numberValue pf tok with
  | some v =>
    have hd : (Doc.number tok).Valid pf := ⟨hne, htok, by rw [hv]; rfl⟩
    have := ParseYY_document pf [] [] (Doc.number tok) (by simp) (by simp) hd
    simp only [Doc.render, List.nil_append, List.append_nil, Doc.value, hv] at this
    simpa using this
  | none =>
    obtain ⟨c, t, rfl⟩ : ∃ c t, tok = c :: t := by
      cases tok with
      | nil => exact absurd rfl hne
      | cons c t => exact ⟨c, t, rfl⟩
    obtain ⟨h1, h2, h3, h4, h5, -⟩ := numberHead c t htok
    have hb0 : (c :: t).drop 0 = [] ++ c :: t := rfl
    obtain ⟨g1, -⟩ := skipWhitespace_run (c :: t) 0 [] c t hb0 (by simp) h5
    rw [readerAt_zero] at g1
    unfold ParseYY
    simp only [g1, List.length_nil, Nat.add_zero]
    rw [parseValue_succ, show (readerAt (c :: t) 0).p = 0 from rfl,
      if_neg (by simp), show (c :: t).getD 0 default = c from rfl,
      if_neg h1, if_neg h2, if_neg h3, if_pos h4,
      parseNumber_readerAt pf (c :: t) 0 (by simp), List.drop_zero, htok, hv]
    rfl

theorem intText_eq_toString (n : Int) : intText n = (toString n).data := by
  cases n with
  | ofNat m => rfl
  | negSucc m => rfl

theorem decimalValue_zero (digits : List Char) (hd : ∀ c ∈ digits, isDigit c = true) :
    decimalValue digits 0 = some (decimalOf digits) := decimalValue_eq digits 0 hd

theorem strconvParseInt_cons (c : Char) (cs : List Char) :
    strconvParseInt (String.mk (c :: cs)) =
      if (if c = '+' ∨ c = '-' then cs else c :: cs) = [] then none
      else
        match decimalValue (if c = '+' ∨ c = '-' then cs else c :: cs) 0 with
        | none => none
        | some un =>
          if (!decide (c = '-')) ∧ un ≥ 2 ^ 63 then none
          else if decide (c = '-') ∧ un > 2 ^ 63 then none
          else some (if decide (c = '-') then -(un : Int) else (un : Int)) := rfl

theorem strconvParseInt_plain (digits : List Char) (hne : digits ≠ [])
    (hd : ∀ c ∈ digits, isDigit c = true) :
    strconvParseInt (String.mk digits) =
      if decimalOf digits < 2 ^ 63 then some (decimalOf digits : Int) else none := by
  obtain ⟨c, cs, rfl⟩ : ∃ c cs, digits = c :: cs := by
    cases digits with
    | nil => exact absurd rfl hne
    | cons c cs => exact ⟨c, cs, rfl⟩
  obtain ⟨-, -, h1, h2, -⟩ := isDigit_props (hd c (by simp))
  have hsign : ¬ (c = '+' ∨ c = '-') := by tauto
  rw [strconvParseInt_cons, if_neg hsign, if_neg hne, decimalValue_zero _ hd]
  generalize decimalOf (c :: cs) = un
  have hneg : decide (c = '-') = false := by simpa using h1
  simp only [hneg]
  by_cases hlt : un < 2 ^ 63
  · rw [if_pos hlt, if_neg (by simp; omega), if_neg (by simp)]
    simp
  · rw [if_neg hlt, if_pos (by simp; omega)]

theorem strconvParseInt_plus (digits : List Char) (hne : digits ≠ [])
    (hd : ∀ c ∈ digits, isDigit c = true) :
    strconvParseInt (String.mk ('+' :: digits)) =
      if decimalOf digits < 2 ^ 63 then some (decimalOf digits : Int) else none := by
  rw [strconvParseInt_cons, if_pos (Or.inl rfl), if_neg hne, decimalValue_zero _ hd]
  generalize decimalOf digits = un
  have hneg : decide ('+' = '-') = false := by decide
  simp only [hneg]
  by_cases hlt : un < 2 ^ 63
  · rw [if_pos hlt, if_neg (by simp; omega), if_neg (by simp)]
    simp
  · rw [if_neg hlt, if_pos (by simp; omega)]

theorem strconvParseInt_minus (digits : List Char) (hne : digits ≠ [])
    (hd : ∀ c ∈ digits, isDigit c = true) :
    strconvParseInt (String.mk ('-' :: digits)) =
      if decimalOf digits ≤ 2 ^ 63 then some (-(decimalOf digits : Int)) else none := by
  rw [strconvParseInt_cons, if_pos (Or.inr rfl), if_neg hne, decimalValue_zero _ hd]
  generalize decimalOf digits = un
  have hneg : decide ('-' = '-') = true := by decide
  simp only [hneg]
  by_cases hlt : un ≤ 2 ^ 63
  · rw [if_pos hlt, if_neg (by simp), if_neg (by simp; omega)]
    simp
  · rw [if_neg hlt, if_neg (by simp), if_pos (by simp; omega)]

theorem signedDigits_token (sign digits : List Char)
    (hsign : sign = [] ∨ sign = ['+'] ∨ sign = ['-']) (hne : digits ≠ [])
    (hd : ∀ c ∈ digits, isDigit c = true) :
    sign ++ digits ≠ [] ∧ numToken (sign ++ digits) = sign ++ digits ∧
      (sign ++ digits).any isFloatByte = false := by
  have hnb : ∀ c ∈ digits, isNumberByte c = true := fun c hc => (isDigit_props (hd c hc)).1
  have hfb : digits.any isFloatByte = false := by
    rw [List.any_eq_false]
    intro c hc
    rw [(isDigit_props (hd c hc)).2.1]
    simp
  rcases hsign with rfl | rfl | rfl
  · obtain ⟨c, cs, rfl⟩ : ∃ c cs, digits = c :: cs := by
      cases digits with
      | nil => exact absurd rfl hne
      | cons c cs => exact ⟨c, cs, rfl⟩
    obtain ⟨-, -, h1, h2, -⟩ := isDigit_props (hd c (by simp))
    refine ⟨by simp, ?_, by simpa using hfb⟩
    have hs : ¬ (c = '-' ∨ c = '+') := by tauto
    simp only [List.nil_append, numToken, if_neg hs]
    exact (takeWhile_all _ hnb).1
  · refine ⟨by simp, ?_, ?_⟩
    · show numToken ('+' :: digits) = '+' :: digits
      simp only [numToken, or_true, if_true]
      rw [(takeWhile_all _ hnb).1]
    · show ('+' :: digits).any isFloatByte = false
      rw [List.any_cons, hfb]; rfl
  · refine ⟨by simp, ?_, ?_⟩
    · show numToken ('-' :: digits) = '-' :: digits
      simp only [numToken, true_or, if_true]
      rw [(takeWhile_all _ hnb).1]
    · show ('-' :: digits).any isFloatByte = false
      rw [List.any_cons, hfb]; rfl


/-! ## Adding a trailing comma -/

theorem Sep.sep_addComma_valid (close close2 : Sep) (h : close.AddComma close2)
    (hv : close.Valid) : close2.Valid := by
  obtain ⟨-, wa, wb, rfl, hw⟩ := h
  refine ⟨?_, ?_⟩
  · intro c hc
    exact hv.1 c (by rw [← hw]; exact List.mem_append_left _ hc)
  · intro w hw2 c hc
    injection hw2 with hw2
    subst hw2
    exact hv.1 c (by rw [← hw]; exact List.mem_append_right _ hc)

/-- A number that is followed by the text before a closing bracket is still followed by a byte
that does not continue it once a comma is added before the bracket. -/
theorem Sep.addComma_numStop (close close2 : Sep) (h : close.AddComma close2)
    (x : List Char) (c : Char)
    (hx : NumStop (x ++ (close.render ++ [c]))) : NumStop (x ++ (close2.render ++ [c])) := by
  obtain ⟨hnone, wa, wb, rfl, hw⟩ := h
  obtain ⟨ws, comma⟩ := close
  simp only at hnone hw
  subst hnone hw
  simp only [Sep.render] at hx ⊢
  cases x with
  | cons a t => intro y hy; exact hx y (by simpa using hy)
  | nil =>
    cases wa with
    | cons a t => intro y hy; exact hx y (by simpa using hy)
    | nil =>
      intro y hy
      simp only [List.nil_append, List.cons_append, List.head?_cons, Option.some.injEq] at hy
      subst hy
      decide

mutual
theorem Doc.addComma_value (pf : String → Option Float64) :
    ∀ (d d2 : Doc), d.AddComma d2 → d2.value pf = d.value pf := by
  intro d d2 h
  cases d with
  | array elems close =>
    cases d2 with
    | array elems2 close2 =>
      simp only [Doc.AddComma] at h
      rcases h with ⟨h1, -⟩ | ⟨-, h2⟩
      · subst h1; rfl
      · simp only [Doc.value, Elems.addComma_values pf elems elems2 h2]
    | _ => simp [Doc.AddComma] at h
  | object entries close =>
    cases d2 with
    | object entries2 close2 =>
      simp only [Doc.AddComma] at h
      rcases h with ⟨h1, -⟩ | ⟨-, h2⟩
      · subst h1; rfl
      · simp only [Doc.value, Entries.addComma_insertInto pf entries entries2 h2]
    | _ => simp [Doc.AddComma] at h
  | _ => simp [Doc.AddComma] at h
theorem Elems.addComma_values (pf : String → Option Float64) :
    ∀ (e e2 : Elems), e.AddComma e2 → e2.values pf = e.values pf := by
  intro e e2 h
  cases e with
  | nil => simp [Elems.AddComma] at h
  | cons sep d rest =>
    cases e2 with
    | nil => simp [Elems.AddComma] at h
    | cons sep2 d2 rest2 =>
      simp only [Elems.AddComma] at h
      obtain ⟨-, h⟩ := h
      rcases h with ⟨h1, h2⟩ | ⟨h1, h2⟩
      · subst h1
        simp only [Elems.values, Doc.addComma_value pf d d2 h2]
      · subst h1
        simp only [Elems.values, Elems.addComma_values pf rest rest2 h2]
theorem Entries.addComma_insertInto (pf : String → Option Float64) :
    ∀ (e e2 : Entries), e.AddComma e2 →
      ∀ acc, e2.insertInto pf acc = e.insertInto pf acc := by
  intro e e2 h
  cases e with
  | nil => simp [Entries.AddComma] at h
  | cons sep key wsKey wsColon d rest =>
    cases e2 with
    | nil => simp [Entries.AddComma] at h
    | cons sep2 key2 wsKey2 wsColon2 d2 rest2 =>
      simp only [Entries.AddComma] at h
      obtain ⟨-, hk, -, -, h⟩ := h
      subst hk
      intro acc
      rcases h with ⟨h1, h2⟩ | ⟨h1, h2⟩
      · subst h1
        simp only [Entries.insertInto, Doc.addComma_value pf d d2 h2]
      · subst h1
        simp only [Entries.insertInto, Entries.addComma_insertInto pf rest rest2 h2]
end

theorem Elems.valid_mono (pf : String → Option Float64) (after after2 : List Char)
    (h : ∀ x, NumStop (x ++ after) → NumStop (x ++ after2)) :
    ∀ e : Elems, e.Valid pf after → e.Valid pf after2
  | .nil, _ => trivial
  | .cons _ _ rest, hv =>
    ⟨hv.1, hv.2.1, fun hn => h _ (hv.2.2.1 hn), Elems.valid_mono pf after after2 h rest hv.2.2.2⟩

theorem Entries.entries_valid_mono (pf : String → Option Float64) (after after2 : List Char)
    (h : ∀ x, NumStop (x ++ after) → NumStop (x ++ after2)) :
    ∀ e : Entries, e.Valid pf after → e.Valid pf after2
  | .nil, _ => trivial
  | .cons _ _ _ _ _ rest, hv =>
    ⟨hv.1, hv.2.1, hv.2.2.1, hv.2.2.2.1, hv.2.2.2.2.1, fun hn => h _ (hv.2.2.2.2.2.1 hn),
      Entries.entries_valid_mono pf after after2 h rest hv.2.2.2.2.2.2⟩

theorem Doc.doc_addComma_head (d d2 : Doc) (h : d.AddComma d2) :
    ∃ c t t2, d.render = c :: t ∧ d2.render = c :: t2 ∧ d.isNumber = false ∧
      d2.isNumber = false := by
  cases d with
  | array elems close =>
    cases d2 with
    | array elems2 close2 => exact ⟨'[', _, _, rfl, rfl, rfl, rfl⟩
    | _ => simp [Doc.AddComma] at h
  | object entries close =>
    cases d2 with
    | object entries2 close2 => exact ⟨'{', _, _, rfl, rfl, rfl, rfl⟩
    | _ => simp [Doc.AddComma] at h
  | _ => simp [Doc.AddComma] at h

theorem head?_append_cons (l : List Char) (c : Char) (t y : List Char) :
    (l ++ (c :: t) ++ y).head? = (l ++ [c]).head? := by
  cases l <;> simp

theorem Elems.elems_addComma_head (pf : String → Option Float64) (after : List Char) (e e2 : Elems)
    (h : e.AddComma e2) (hv : e.Valid pf after) (x : List Char) :
    (e.render ++ x).head? = (e2.render ++ x).head? := by
  cases e with
  | nil => simp [Elems.AddComma] at h
  | cons sep d rest =>
    cases e2 with
    | nil => simp [Elems.AddComma] at h
    | cons sep2 d2 rest2 =>
      simp only [Elems.AddComma] at h
      obtain ⟨hs, h⟩ := h
      have hss := hs.symm; subst hss
      rcases h with ⟨h1, h2⟩ | ⟨h1, h2⟩
      · have h1s := h1.symm; subst h1s
        obtain ⟨c, t, t2, hr, hr2, -, -⟩ := Doc.doc_addComma_head d d2 h2
        simp only [Elems.render, hr, hr2]
        rw [show sep.render ++ c :: t ++ rest.render ++ x =
            sep.render ++ (c :: t) ++ (rest.render ++ x) by simp,
          show sep.render ++ c :: t2 ++ rest.render ++ x =
            sep.render ++ (c :: t2) ++ (rest.render ++ x) by simp,
          head?_append_cons, head?_append_cons]
      · have h1s := h1.symm; subst h1s
        obtain ⟨c, t, hr, -⟩ := render_head pf d hv.2.1
        simp only [Elems.render, hr]
        rw [show sep.render ++ c :: t ++ rest.render ++ x =
            sep.render ++ (c :: t) ++ (rest.render ++ x) by simp,
          show sep.render ++ c :: t ++ rest2.render ++ x =
            sep.render ++ (c :: t) ++ (rest2.render ++ x) by simp,
          head?_append_cons, head?_append_cons]

theorem Entries.entries_addComma_head (e e2 : Entries) (h : e.AddComma e2) (x : List Char) :
    (e.render ++ x).head? = (e2.render ++ x).head? := by
  cases e with
  | nil => simp [Entries.AddComma] at h
  | cons sep key wsKey wsColon d rest =>
    cases e2 with
    | nil => simp [Entries.AddComma] at h
    | cons sep2 key2 wsKey2 wsColon2 d2 rest2 =>
      simp only [Entries.AddComma] at h
      obtain ⟨hs, hk, hw1, hw2, -⟩ := h
      have hss := hs.symm; subst hss
      have hks := hk.symm; subst hks
      have hw1s := hw1.symm; subst hw1s
      have hw2s := hw2.symm; subst hw2s
      simp only [Entries.render]
      rw [show sep.render ++ '"' :: key ++ '"' :: wsKey ++ ':' :: wsColon ++ d.render ++
            rest.render ++ x =
            sep.render ++ ('"' :: (key ++ '"' :: wsKey ++ ':' :: wsColon ++ d.render ++
              rest.render)) ++ x by simp,
          show sep.render ++ '"' :: key ++ '"' :: wsKey ++ ':' :: wsColon ++ d2.render ++
            rest2.render ++ x =
            sep.render ++ ('"' :: (key ++ '"' :: wsKey ++ ':' :: wsColon ++ d2.render ++
              rest2.render)) ++ x by simp,
          head?_append_cons, head?_append_cons]

theorem NumStop_congr {s s2 : List Char} (h : s.head? = s2.head?) (hs : NumStop s) :
    NumStop s2 := by
  intro c hc
  exact hs c (by rw [h]; exact hc)

mutual
theorem Doc.doc_addComma_valid (pf : String → Option Float64) :
    ∀ (d d2 : Doc), d.AddComma d2 → d.Valid pf → d2.Valid pf := by
  intro d d2 h hv
  cases d with
  | array elems close =>
    cases d2 with
    | array elems2 close2 =>
      simp only [Doc.AddComma] at h
      rcases h with ⟨h1, h2⟩ | ⟨h1, h2⟩
      · have h1s := h1.symm; subst h1s
        exact ⟨Elems.valid_mono pf _ _ (fun x hx => Sep.addComma_numStop close close2 h2 x ']' hx)
          elems hv.1, Sep.sep_addComma_valid close close2 h2 hv.2⟩
      · have h1s := h1.symm; subst h1s
        exact ⟨Elems.elems_addComma_valid pf _ elems elems2 h2 hv.1, hv.2⟩
    | _ => simp [Doc.AddComma] at h
  | object entries close =>
    cases d2 with
    | object entries2 close2 =>
      simp only [Doc.AddComma] at h
      rcases h with ⟨h1, h2⟩ | ⟨h1, h2⟩
      · have h1s := h1.symm; subst h1s
        exact ⟨Entries.entries_valid_mono pf _ _
          (fun x hx => Sep.addComma_numStop close close2 h2 x '}' hx) entries hv.1,
          Sep.sep_addComma_valid close close2 h2 hv.2⟩
      · have h1s := h1.symm; subst h1s
        exact ⟨Entries.entries_addComma_valid pf _ entries entries2 h2 hv.1, hv.2⟩
    | _ => simp [Doc.AddComma] at h
  | _ => simp [Doc.AddComma] at h
theorem Elems.elems_addComma_valid (pf : String → Option Float64) (after : List Char) :
    ∀ (e e2 : Elems), e.AddComma e2 → e.Valid pf after → e2.Valid pf after := by
  intro e e2 h hv
  cases e with
  | nil => simp [Elems.AddComma] at h
  | cons sep d rest =>
    cases e2 with
    | nil => simp [Elems.AddComma] at h
    | cons sep2 d2 rest2 =>
      simp only [Elems.AddComma] at h
      obtain ⟨hs, h⟩ := h
      have hss := hs.symm; subst hss
      rcases h with ⟨h1, h2⟩ | ⟨h1, h2⟩
      · have h1s := h1.symm; subst h1s
        obtain ⟨-, -, -, -, -, -, hnum⟩ := Doc.doc_addComma_head d d2 h2
        refine ⟨hv.1, Doc.doc_addComma_valid pf d d2 h2 hv.2.1, ?_, hv.2.2.2⟩
        intro hn
        rw [hnum] at hn
        cases hn
      · have h1s := h1.symm; subst h1s
        refine ⟨hv.1, hv.2.1, ?_, Elems.elems_addComma_valid pf after rest rest2 h2 hv.2.2.2⟩
        intro hn
        exact NumStop_congr (Elems.elems_addComma_head pf after rest rest2 h2 hv.2.2.2 after)
          (hv.2.2.1 hn)
theorem Entries.entries_addComma_valid (pf : String → Option Float64) (after : List Char) :
    ∀ (e e2 : Entries), e.AddComma e2 → e.Valid pf after → e2.Valid pf after := by
  intro e e2 h hv
  cases e with
  | nil => simp [Entries.AddComma] at h
  | cons sep key wsKey wsColon d rest =>
    cases e2 with
    | nil => simp [Entries.AddComma] at h
    | cons sep2 key2 wsKey2 wsColon2 d2 rest2 =>
      simp only [Entries.AddComma] at h
      obtain ⟨hs, hk, hw1, hw2, h⟩ := h
      have hss := hs.symm; subst hss
      have hks := hk.symm; subst hks
      have hw1s := hw1.symm; subst hw1s
      have hw2s := hw2.symm; subst hw2s
      rcases h with ⟨h1, h2⟩ | ⟨h1, h2⟩
      · have h1s := h1.symm; subst h1s
        obtain ⟨-, -, -, -, -, -, hnum⟩ := Doc.doc_addComma_head d d2 h2
        refine ⟨hv.1, hv.2.1, hv.2.2.1, hv.2.2.2.1, Doc.doc_addComma_valid pf d d2 h2 hv.2.2.2.2.1,
          ?_, hv.2.2.2.2.2.2⟩
        intro hn
        rw [hnum] at hn
        cases hn
      · have h1s := h1.symm; subst h1s
        refine ⟨hv.1, hv.2.1, hv.2.2.1, hv.2.2.2.1, hv.2.2.2.2.1, ?_,
          Entries.entries_addComma_valid pf after rest rest2 h2 hv.2.2.2.2.2.2⟩
        intro hn
        exact NumStop_congr (Entries.entries_addComma_head rest rest2 h2 after)
          (hv.2.2.2.2.2.1 hn)
end

theorem Sep.sep_addComma_render (close close2 : Sep) (h : close.AddComma close2) :
    ∃ pre post, close.render = pre ++ post ∧ close2.render = pre ++ ',' :: post := by
  obtain ⟨hnone, wa, wb, rfl, hw⟩ := h
  obtain ⟨ws, comma⟩ := close
  simp only at hnone hw
  subst hnone hw
  exact ⟨wa, wb, rfl, rfl⟩

mutual
theorem Doc.doc_addComma_render :
    ∀ (d d2 : Doc), d.AddComma d2 →
      ∃ pre post, d.render = pre ++ post ∧ d2.render = pre ++ ',' :: post := by
  intro d d2 h
  cases d with
  | array elems close =>
    cases d2 with
    | array elems2 close2 =>
      simp only [Doc.AddComma] at h
      rcases h with ⟨h1, h2⟩ | ⟨h1, h2⟩
      · have h1s := h1.symm; subst h1s
        obtain ⟨pre, post, e1, e2⟩ := Sep.sep_addComma_render close close2 h2
        exact ⟨'[' :: elems.render ++ pre, post ++ [']'], by simp [Doc.render, e1],
          by simp [Doc.render, e2]⟩
      · have h1s := h1.symm; subst h1s
        obtain ⟨pre, post, e1, e2⟩ := Elems.elems_addComma_render elems elems2 h2
        exact ⟨'[' :: pre, post ++ close.render ++ [']'], by simp [Doc.render, e1],
          by simp [Doc.render, e2]⟩
    | _ => simp [Doc.AddComma] at h
  | object entries close =>
    cases d2 with
    | object entries2 close2 =>
      simp only [Doc.AddComma] at h
      rcases h with ⟨h1, h2⟩ | ⟨h1, h2⟩
      · have h1s := h1.symm; subst h1s
        obtain ⟨pre, post, e1, e2⟩ := Sep.sep_addComma_render close close2 h2
        exact ⟨'{' :: entries.render ++ pre, post ++ ['}'], by simp [Doc.render, e1],
          by simp [Doc.render, e2]⟩
      · have h1s := h1.symm; subst h1s
        obtain ⟨pre, post, e1, e2⟩ := Entries.entries_addComma_render entries entries2 h2
        exact ⟨'{' :: pre, post ++ close.render ++ ['}'], by simp [Doc.render, e1],
          by simp [Doc.render, e2]⟩
    | _ => simp [Doc.AddComma] at h
  | _ => simp [Doc.AddComma] at h
theorem Elems.elems_addComma_render :
    ∀ (e e2 : Elems), e.AddComma e2 →
      ∃ pre post, e.render = pre ++ post ∧ e2.render = pre ++ ',' :: post := by
  intro e e2 h
  cases e with
  | nil => simp [Elems.AddComma] at h
  | cons sep d rest =>
    cases e2 with
    | nil => simp [Elems.AddComma] at h
    | cons sep2 d2 rest2 =>
      simp only [Elems.AddComma] at h
      obtain ⟨hs, h⟩ := h
      have hss := hs.symm; subst hss
      rcases h with ⟨h1, h2⟩ | ⟨h1, h2⟩
      · have h1s := h1.symm; subst h1s
        obtain ⟨pre, post, e1, e2⟩ := Doc.doc_addComma_render d d2 h2
        exact ⟨sep.render ++ pre, post ++ rest.render, by simp [Elems.render, e1],
          by simp [Elems.render, e2]⟩
      · have h1s := h1.symm; subst h1s
        obtain ⟨pre, post, e1, e2⟩ := Elems.elems_addComma_render rest rest2 h2
        exact ⟨sep.render ++ d.render ++ pre, post, by simp [Elems.render, e1],
          by simp [Elems.render, e2]⟩
theorem Entries.entries_addComma_render :
    ∀ (e e2 : Entries), e.AddComma e2 →
      ∃ pre post, e.render = pre ++ post ∧ e2.render = pre ++ ',' :: post := by
  intro e e2 h
  cases e with
  | nil => simp [Entries.AddComma] at h
  | cons sep key wsKey wsColon d rest =>
    cases e2 with
    | nil => simp [Entries.AddComma] at h
    | cons sep2 key2 wsKey2 wsColon2 d2 rest2 =>
      simp only [Entries.AddComma] at h
      obtain ⟨hs, hk, hw1, hw2, h⟩ := h
      have hss := hs.symm; subst hss
      have hks := hk.symm; subst hks
      have hw1s := hw1.symm; subst hw1s
      have hw2s := hw2.symm; subst hw2s
      rcases h with ⟨h1, h2⟩ | ⟨h1, h2⟩
      · have h1s := h1.symm; subst h1s
        obtain ⟨pre, post, e1, e2⟩ := Doc.doc_addComma_render d d2 h2
        exact ⟨sep.render ++ '"' :: key ++ '"' :: wsKey ++ ':' :: wsColon ++ pre,
          post ++ rest.render, by simp [Entries.render, e1], by simp [Entries.render, e2]⟩
      · have h1s := h1.symm; subst h1s
        obtain ⟨pre, post, e1, e2⟩ := Entries.entries_addComma_render rest rest2 h2
        exact ⟨sep.render ++ '"' :: key ++ '"' :: wsKey ++ ':' :: wsColon ++ d.render ++ pre,
          post, by simp [Entries.render, e1], by simp [Entries.render, e2]⟩
end

theorem docOne_valid (pf : String → Option Float64) : docOne.Valid pf := by
  refine ⟨⟨⟨by simp, by simp⟩, ⟨by simp, by decide, by rfl⟩, ?_, trivial⟩, ⟨by simp, by simp⟩⟩
  intro _
  exact NumStop_of_head (c := ']') (t := []) rfl (by decide)


theorem intText_token (pf : String → Option Float64) (n : Int) (hlo : -2 ^ 63 ≤ n)
    (hhi : n < 2 ^ 63) :
    intText n ≠ [] ∧ numToken (intText n) = intText n ∧
      numberValue pf (intText n) = some (Value.int n) := by
  cases n with
  | ofNat m =>
    obtain ⟨h1, h2, h3⟩ := toDigits_decimal m
    obtain ⟨a, b, c⟩ := signedDigits_token [] (Nat.toDigits 10 m) (Or.inl rfl) h3 h1
    rw [List.nil_append] at a b c
    have hm : m < 2 ^ 63 := by
      have : ((m : Nat) : Int) < 2 ^ 63 := hhi
      exact_mod_cast this
    refine ⟨a, b, ?_⟩
    show numberValue pf (Nat.toDigits 10 m) = _
    unfold numberValue
    rw [c, strconvParseInt_plain _ h3 h1, h2]
    simp only [Bool.false_eq_true, if_false, if_pos hm]
    rfl
  | negSucc m =>
    obtain ⟨h1, h2, h3⟩ := toDigits_decimal (m + 1)
    obtain ⟨a, b, c⟩ := signedDigits_token ['-'] (Nat.toDigits 10 (m + 1)) (Or.inr (Or.inr rfl))
      h3 h1
    have hm : m + 1 ≤ 2 ^ 63 := by
      have : -2 ^ 63 ≤ Int.negSucc m := hlo
      rw [Int.negSucc_eq] at this
      have h4 : ((m : Nat) : Int) + 1 ≤ 2 ^ 63 := by omega
      exact_mod_cast h4
    refine ⟨a, b, ?_⟩
    show numberValue pf ('-' :: Nat.toDigits 10 (m + 1)) = _
    have c2 : ('-' :: Nat.toDigits 10 (m + 1)).any isFloatByte = false := c
    unfold numberValue
    rw [c2, strconvParseInt_minus _ h3 h1, h2]
    simp only [Bool.false_eq_true, if_false, if_pos hm]
    rfl

theorem flatMap_escapeByte : ∀ s : List Char,
    (∀ c ∈ s, isStringByte c = true ∧ 32 ≤ c.toNat) → s.flatMap escapeByte = s := by
  intro s
  induction s with
  | nil => intro _; rfl
  | cons c cs ih =>
    intro h
    have hc := h c (by simp)
    have h1 : c ≠ '"' := by
      intro hq; rw [hq] at hc; exact absurd hc.1 (by decide)
    have h2 : c ≠ '\\' := by
      intro hq; rw [hq] at hc; exact absurd hc.1 (by decide)
    have h3 : ¬ c.toNat < 32 := by omega
    rw [List.flatMap_cons, ih (fun x hx => h x (by simp [hx]))]
    unfold escapeByte
    rw [if_neg h1, if_neg h2, if_neg h3]
    rfl

theorem escapeByte_backslash (c : Char) (h : isStringByte c = false ∨ c.toNat < 32) :
    '\\' ∈ escapeByte c := by
  unfold escapeByte
  by_cases h1 : c = '"'
  · rw [if_pos h1]; simp
  · by_cases h2 : c = '\\'
    · rw [if_neg h1, if_pos h2]; simp
    · rw [if_neg h1, if_neg h2]
      rcases h with h | h
      · exfalso
        unfold isStringByte at h
        simp [h1, h2] at h
      · rw [if_pos h]; simp

theorem ParseYY_ok_no_backslash (pf : String → Option Float64) (b : List Char) (v : Value)
    (h : ParseYY pf b = .ok v) : '\\' ∉ b := by
  intro hb
  have hinv := ParseYY_inv pf b
  rw [h] at hinv
  obtain ⟨ws0, d, ws1, hws0, hws1, hd, hb2, -⟩ := hinv
  rw [hb2] at hb
  simp only [List.mem_append] at hb
  rcases hb with (h1 | h1) | h1
  · exact not_backslash_of_whitespace (hws0 _ h1) rfl
  · exact Doc.doc_no_backslash pf d hd h1
  · exact not_backslash_of_whitespace (hws1 _ h1) rfl

mutual
theorem docOf_render (pf : String → Option Float64) (ff : Float64 → List Char) :
    ∀ v : Value, v.Good pf ff → (docOf ff v).render = serialize ff v
  | .null, _ => rfl
  | .bool _, _ => rfl
  | .int _, _ => rfl
  | .float _, _ => rfl
  | .str s, h => by
    have h2 : ∀ c ∈ s.data, isStringByte c = true ∧ 32 ≤ c.toNat := h
    simp only [docOf, Doc.render, serialize, flatMap_escapeByte s.data h2]
  | .list xs, h => by
    have h2 : Value.GoodList pf ff xs := h
    simp only [docOf, Doc.render, serialize, elemsOf_render pf ff true xs h2, Sep.render,
      List.append_nil]
  | .map kvs, h => by
    have h2 : (kvs.map Prod.fst).Nodup ∧ Value.GoodEntries pf ff kvs := h
    simp only [docOf, Doc.render, serialize, entriesOf_render pf ff true kvs h2.2, Sep.render,
      List.append_nil]
theorem elemsOf_render (pf : String → Option Float64) (ff : Float64 → List Char) :
    ∀ (first : Bool) (xs : List Value), Value.GoodList pf ff xs →
      (elemsOf ff first xs).render = serializeElems ff first xs
  | _, [], _ => rfl
  | first, v :: vs, h => by
    have h2 : Value.Good pf ff v ∧ Value.GoodList pf ff vs := h
    simp only [elemsOf, Elems.render, serializeElems, docOf_render pf ff v h2.1,
      elemsOf_render pf ff false vs h2.2, Sep.render]
    cases first <;> rfl
theorem entriesOf_render (pf : String → Option Float64) (ff : Float64 → List Char) :
    ∀ (first : Bool) (kvs : List (String × Value)), Value.GoodEntries pf ff kvs →
      (entriesOf ff first kvs).render = serializeEntries ff first kvs
  | _, [], _ => rfl
  | first, (k, v) :: kvs, h => by
    have h2 : (∀ c ∈ k.data, isStringByte c = true ∧ 32 ≤ c.toNat) ∧ Value.Good pf ff v ∧
        Value.GoodEntries pf ff kvs := h
    simp only [entriesOf, Entries.render, serializeEntries, docOf_render pf ff v h2.2.1,
      entriesOf_render pf ff false kvs h2.2.2, Sep.render, flatMap_escapeByte k.data h2.1,
      List.nil_append]
    cases first <;> simp
end

theorem elemsOf_numStop (ff : Float64 → List Char) (xs : List Value) (after : List Char)
    (hafter : NumStop after) : NumStop ((elemsOf ff false xs).render ++ after) := by
  cases xs with
  | nil => exact hafter
  | cons v vs =>
    intro c hc
    simp only [elemsOf, Elems.render, Sep.render] at hc
    simp at hc
    rw [← hc]
    decide

theorem entriesOf_numStop (ff : Float64 → List Char) (kvs : List (String × Value))
    (after : List Char) (hafter : NumStop after) :
    NumStop ((entriesOf ff false kvs).render ++ after) := by
  cases kvs with
  | nil => exact hafter
  | cons kv kvs =>
    obtain ⟨k, v⟩ := kv
    intro c hc
    simp only [entriesOf, Entries.render, Sep.render] at hc
    simp at hc
    rw [← hc]
    decide

theorem nil_whitespace : ∀ c ∈ ([] : List Char), isWhitespace c = true :=
  fun _ hc => nomatch hc

theorem sepOf_valid (first : Bool) :
    Sep.Valid { ws := [], comma := if first = true then none else some [] } := by
  cases first
  · refine ⟨nil_whitespace, ?_⟩
    intro ws2 h c hc
    simp at h
    rw [h] at hc
    cases hc
  · exact ⟨nil_whitespace, (fun ws2 h => by simp at h)⟩

theorem closeOf_numStop (c : Char) (hc : isNumberByte c = false) :
    NumStop (Sep.render { ws := [], comma := none } ++ [c]) := by
  intro x hx
  simp [Sep.render] at hx
  rw [← hx]
  exact hc

mutual
theorem docOf_valid (pf : String → Option Float64) (ff : Float64 → List Char) :
    ∀ v : Value, v.Good pf ff → (docOf ff v).Valid pf
  | .null, _ => trivial
  | .bool _, _ => trivial
  | .int n, h => by
    have h2 : -2 ^ 63 ≤ n ∧ n < 2 ^ 63 := h
    obtain ⟨a, b, c⟩ := intText_token pf n h2.1 h2.2
    exact ⟨a, b, by rw [c]; rfl⟩
  | .float f, h => by
    have h2 : ff f ≠ [] ∧ numToken (ff f) = ff f ∧ (ff f).any isFloatByte = true ∧
        pf (String.mk (ff f)) = some f := h
    refine ⟨h2.1, h2.2.1, ?_⟩
    unfold numberValue
    rw [h2.2.2.1, h2.2.2.2]
    rfl
  | .str s, h => by
    have h2 : ∀ c ∈ s.data, isStringByte c = true ∧ 32 ≤ c.toNat := h
    exact fun c hc => (h2 c hc).1
  | .list xs, h => by
    have h2 : Value.GoodList pf ff xs := h
    exact ⟨elemsOf_valid pf ff true xs _ h2 (closeOf_numStop ']' (by decide)),
      sepOf_valid true⟩
  | .map kvs, h => by
    have h2 : (kvs.map Prod.fst).Nodup ∧ Value.GoodEntries pf ff kvs := h
    exact ⟨entriesOf_valid pf ff true kvs _ h2.2 (closeOf_numStop '}' (by decide)),
      sepOf_valid true⟩
theorem elemsOf_valid (pf : String → Option Float64) (ff : Float64 → List Char) :
    ∀ (first : Bool) (xs : List Value) (after : List Char), Value.GoodList pf ff xs →
      NumStop after → (elemsOf ff first xs).Valid pf after
  | _, [], _, _, _ => trivial
  | first, v :: vs, after, h, hafter => by
    have h2 : Value.Good pf ff v ∧ Value.GoodList pf ff vs := h
    exact ⟨sepOf_valid first, docOf_valid pf ff v h2.1,
      fun _ => elemsOf_numStop ff vs after hafter,
      elemsOf_valid pf ff false vs after h2.2 hafter⟩
theorem entriesOf_valid (pf : String → Option Float64) (ff : Float64 → List Char) :
    ∀ (first : Bool) (kvs : List (String × Value)) (after : List Char),
      Value.GoodEntries pf ff kvs → NumStop after → (entriesOf ff first kvs).Valid pf after
  | _, [], _, _, _ => trivial
  | first, (k, v) :: kvs, after, h, hafter => by
    have h2 : (∀ c ∈ k.data, isStringByte c = true ∧ 32 ≤ c.toNat) ∧ Value.Good pf ff v ∧
        Value.GoodEntries pf ff kvs := h
    exact ⟨sepOf_valid first, fun c hc => (h2.1 c hc).1, nil_whitespace,
      nil_whitespace, docOf_valid pf ff v h2.2.1,
      fun _ => entriesOf_numStop ff kvs after hafter,
      entriesOf_valid pf ff false kvs after h2.2.2 hafter⟩
end

theorem mapSet_fresh : ∀ (acc : List (String × Value)) (k : String) (v : Value),
    k ∉ acc.map Prod.fst → mapSet acc k v = acc ++ [(k, v)] := by
  intro acc
  induction acc with
  | nil => intro k v _; rfl
  | cons kv rest ih =>
    obtain ⟨k0, v0⟩ := kv
    intro k v h
    have h1 : k0 ≠ k := by
      intro he; apply h; simp [he]
    have h2 : k ∉ rest.map Prod.fst := by
      intro hm; apply h; simp only [List.map_cons, List.mem_cons]; exact Or.inr hm
    show (if k0 = k then (k, v) :: rest else (k0, v0) :: mapSet rest k v) = _
    rw [if_neg h1, ih k v h2]
    rfl

mutual
theorem docOf_value (pf : String → Option Float64) (ff : Float64 → List Char) :
    ∀ v : Value, v.Good pf ff → (docOf ff v).value pf = v
  | .null, _ => rfl
  | .bool _, _ => rfl
  | .int n, h => by
    have h2 : -2 ^ 63 ≤ n ∧ n < 2 ^ 63 := h
    show (numberValue pf (intText n)).getD Value.null = _
    rw [(intText_token pf n h2.1 h2.2).2.2]
    rfl
  | .float f, h => by
    have h2 : ff f ≠ [] ∧ numToken (ff f) = ff f ∧ (ff f).any isFloatByte = true ∧
        pf (String.mk (ff f)) = some f := h
    show (numberValue pf (ff f)).getD Value.null = _
    unfold numberValue
    rw [h2.2.2.1, h2.2.2.2]
    rfl
  | .str _, _ => rfl
  | .list xs, h => by
    have h2 : Value.GoodList pf ff xs := h
    show Value.list ((elemsOf ff true xs).values pf) = _
    rw [elemsOf_values pf ff true xs h2]
  | .map kvs, h => by
    have h2 : (kvs.map Prod.fst).Nodup ∧ Value.GoodEntries pf ff kvs := h
    show Value.map ((entriesOf ff true kvs).insertInto pf []) = _
    rw [entriesOf_insertInto pf ff true kvs [] h2.2 h2.1 (fun k _ hk => by cases hk)]
    rfl
theorem elemsOf_values (pf : String → Option Float64) (ff : Float64 → List Char) :
    ∀ (first : Bool) (xs : List Value), Value.GoodList pf ff xs →
      (elemsOf ff first xs).values pf = xs
  | _, [], _ => rfl
  | first, v :: vs, h => by
    have h2 : Value.Good pf ff v ∧ Value.GoodList pf ff vs := h
    show (docOf ff v).value pf :: (elemsOf ff false vs).values pf = _
    rw [docOf_value pf ff v h2.1, elemsOf_values pf ff false vs h2.2]
theorem entriesOf_insertInto (pf : String → Option Float64) (ff : Float64 → List Char) :
    ∀ (first : Bool) (kvs acc : List (String × Value)), Value.GoodEntries pf ff kvs →
      (kvs.map Prod.fst).Nodup → (∀ k ∈ kvs.map Prod.fst, k ∉ acc.map Prod.fst) →
      (entriesOf ff first kvs).insertInto pf acc = acc ++ kvs
  | _, [], acc, _, _, _ => (List.append_nil acc).symm
  | first, (k, v) :: kvs, acc, h, hnd, hdis => by
    have h2 : (∀ c ∈ k.data, isStringByte c = true ∧ 32 ≤ c.toNat) ∧ Value.Good pf ff v ∧
        Value.GoodEntries pf ff kvs := h
    have hnd2 : k ∉ kvs.map Prod.fst ∧ (kvs.map Prod.fst).Nodup := List.nodup_cons.mp hnd
    show (entriesOf ff false kvs).insertInto pf
      (mapSet acc (String.mk k.data) ((docOf ff v).value pf)) = _
    rw [docOf_value pf ff v h2.2.1,
      mapSet_fresh acc (String.mk k.data) v (hdis k (by simp)),
      entriesOf_insertInto pf ff false kvs (acc ++ [(k, v)]) h2.2.2 hnd2.2 (by
        intro k2 hk2 hmem
        simp only [List.map_append, List.map_cons, List.map_nil, List.mem_append,
          List.mem_singleton] at hmem
        rcases hmem with hm | hm
        · exact hdis k2 (by simp only [List.map_cons, List.mem_cons]; exact Or.inr hk2) hm
        · exact hnd2.1 (hm ▸ hk2))]
    simp
end

/-! ## The claims on the reader -/

/-- C5: an input that holds a backslash byte anywhere, and so every document in which a string
literal holds one, makes `ParseYY` return an error of the reader and never a value; where
`parseString` meets a backslash before the closing quote it returns its backslash error; in
particular the document made of a quote, bytes `s` holding a backslash, and a quote fails. -/
theorem ParseYY_backslash (pf : String → Option Float64) (b : List Char) (hb : '\\' ∈ b) :
    (∃ e, ParseYY pf b = .error e ∧ ErrorAt b e) ∧
    (∀ v, ParseYY pf b ≠ .ok v) ∧
    (∀ (p : Nat) (content rest : List Char), b.drop p = '"' :: content ++ '\\' :: rest →
      (∀ c ∈ content, isStringByte c = true) →
      parseString b (readerAt b p) =
        .error (YYError.backslashInString (lineAt b (p + 1)) (colAt b (p + 1)))) ∧
    (∀ s : List Char, b = '"' :: s ++ ['"'] →
      ∃ e, ParseYY pf ('"' :: s ++ ['"']) = .error e ∧ ErrorAt ('"' :: s ++ ['"']) e) := by
  have key : ∃ e, ParseYY pf b = .error e ∧ ErrorAt b e := by
    have hinv := ParseYY_inv pf b
    cases hres : ParseYY pf b with
    | error e => rw [hres] at hinv; exact ⟨e, rfl, hinv⟩
    | ok v =>
      rw [hres] at hinv
      obtain ⟨ws0, d, ws1, hws0, hws1, hd, hb', -⟩ := hinv
      exfalso
      rw [hb'] at hb
      simp only [List.mem_append] at hb
      rcases hb with (h | h) | h
      · exact not_backslash_of_whitespace (hws0 _ h) rfl
      · exact Doc.doc_no_backslash pf d hd h
      · exact not_backslash_of_whitespace (hws1 _ h) rfl
  refine ⟨key, ?_, ?_, ?_⟩
  · intro v hv
    obtain ⟨e, he, -⟩ := key
    rw [he] at hv
    cases hv
  · intro p content rest hdrop hcontent
    rw [parseString_readerAt, List.cons_append] at *
    rw [hdrop]
    simp only [(takeWhile_append_stop content '\\' rest hcontent (by decide)).2]
  · intro s hs
    rw [← hs]
    exact key

theorem ParseYY_backslash_witness :
    '\\' ∈ ['{', '"', 'a', '\\', 'n', '"', ':', '1', '}'] ∧
    ∃ e, ParseYY noFloat ['{', '"', 'a', '\\', 'n', '"', ':', '1', '}'] = .error e ∧
      ErrorAt ['{', '"', 'a', '\\', 'n', '"', ':', '1', '}'] e :=
  ⟨by decide,
    (ParseYY_backslash noFloat ['{', '"', 'a', '\\', 'n', '"', ':', '1', '}'] (by decide)).1⟩

/-- C7: `ParseYY` consumes the whole input up to whitespace. When it returns `v` on `b`, it
returns `v` on `b` followed by whitespace only; on `b` followed by whitespace (at least one
byte) and content that holds a byte that is not whitespace, it fails with the extra-content
error at the first such byte; and on `b` directly followed by a byte that is neither
whitespace nor a byte that continues a number, it fails with that error at that byte. -/
theorem ParseYY_trailing (pf : String → Option Float64) (b : List Char) (v : Value)
    (h : ParseYY pf b = .ok v) :
    (∀ ws : List Char, (∀ x ∈ ws, isWhitespace x = true) → ParseYY pf (b ++ ws) = .ok v) ∧
    (∀ ws content : List Char, (∀ x ∈ ws, isWhitespace x = true) → ws ≠ [] →
      (∃ x ∈ content, isWhitespace x = false) →
      ∃ q, b.length + ws.length ≤ q ∧ q < (b ++ ws ++ content).length ∧
        isWhitespace ((b ++ ws ++ content).getD q default) = false ∧
        ParseYY pf (b ++ ws ++ content) =
          .error (YYError.extraContent (lineAt (b ++ ws ++ content) q)
            (colAt (b ++ ws ++ content) q))) ∧
    (∀ (c : Char) (rest : List Char), isWhitespace c = false → isNumberByte c = false →
      ParseYY pf (b ++ c :: rest) =
        .error (YYError.extraContent (lineAt (b ++ c :: rest) b.length)
          (colAt (b ++ c :: rest) b.length))) := by
  have hinv := ParseYY_inv pf b
  rw [h] at hinv
  obtain ⟨ws0, d, ws1, hws0, hws1, hd, hb, hv⟩ := hinv
  subst hb hv
  refine ⟨?_, ?_, ?_⟩
  · intro ws hws
    rw [List.append_assoc]
    exact ParseYY_document pf ws0 (ws1 ++ ws) d hws0
      (fun x hx => by
        rcases List.mem_append.mp hx with h1 | h1
        · exact hws1 x h1
        · exact hws x h1) hd
  · intro ws content hws hne hcontent
    obtain ⟨cws, c, rest, hsplit, hcws, hc⟩ := split_at_nonWhitespace content hcontent
    subst hsplit
    have hall : ∀ x ∈ ws1 ++ ws ++ cws, isWhitespace x = true := by
      intro x hx
      rcases List.mem_append.mp hx with h1 | h1
      · rcases List.mem_append.mp h1 with h2 | h2
        · exact hws1 x h2
        · exact hws x h2
      · exact hcws x h1
    have hnil : ws1 ++ ws ++ cws ≠ [] := by
      intro hcon
      apply hne
      have := congrArg List.length hcon
      simp only [List.length_append, List.length_nil] at this
      exact List.eq_nil_of_length_eq_zero (by omega)
    have hextra := ParseYY_document_extra pf ws0 (ws1 ++ ws ++ cws) d c rest hws0 hall hd hc
      (fun _ h0 => absurd h0 hnil)
    have heq : ws0 ++ d.render ++ ws1 ++ ws ++ (cws ++ c :: rest) =
        ws0 ++ d.render ++ (ws1 ++ ws ++ cws ++ c :: rest) := by
      simp only [List.append_assoc]
    have hget : (ws0 ++ d.render ++ (ws1 ++ ws ++ cws ++ c :: rest)).getD
        (ws0.length + d.render.length + (ws1 ++ ws ++ cws).length) default = c := by
      have hd' : (ws0 ++ d.render ++ (ws1 ++ ws ++ cws ++ c :: rest)).drop
          (ws0.length + d.render.length + (ws1 ++ ws ++ cws).length) = c :: rest := by
        rw [show ws0.length + d.render.length + (ws1 ++ ws ++ cws).length =
          (ws0 ++ d.render ++ (ws1 ++ ws ++ cws)).length by simp only [List.length_append]]
        rw [show ws0 ++ d.render ++ (ws1 ++ ws ++ cws ++ c :: rest) =
          (ws0 ++ d.render ++ (ws1 ++ ws ++ cws)) ++ c :: rest by simp only [List.append_assoc]]
        exact List.drop_left _ _
      exact (getD_eq_of_drop hd').2.1
    rw [heq]
    refine ⟨ws0.length + d.render.length + (ws1 ++ ws ++ cws).length, ?_, ?_, ?_, hextra⟩
    · simp only [List.length_append]; omega
    · simp only [List.length_append, List.length_cons]; omega
    · rw [hget]; exact hc
  · intro c rest hc hnum
    have hextra := ParseYY_document_extra pf ws0 ws1 d c rest hws0 hws1 hd hc (fun _ _ => hnum)
    have heq : ws0 ++ d.render ++ ws1 ++ c :: rest = ws0 ++ d.render ++ (ws1 ++ c :: rest) := by
      simp only [List.append_assoc]
    rw [heq, hextra]
    simp only [List.length_append]

theorem ParseYY_trailing_witness :
    ParseYY noFloat ['[', '1', ']'] = .ok (Value.list [Value.int 1]) ∧
    ParseYY noFloat (['[', '1', ']'] ++ [' ', '\n']) = .ok (Value.list [Value.int 1]) ∧
    ParseYY noFloat (['[', '1', ']'] ++ 'x' :: []) =
      .error (YYError.extraContent (lineAt (['[', '1', ']'] ++ 'x' :: []) 3)
        (colAt (['[', '1', ']'] ++ 'x' :: []) 3)) :=
  ⟨by rfl,
   (ParseYY_trailing noFloat ['[', '1', ']'] (Value.list [Value.int 1]) (by rfl)).1 [' ', '\n']
     (by decide),
   (ParseYY_trailing noFloat ['[', '1', ']'] (Value.list [Value.int 1]) (by rfl)).2.2 'x' []
     (by decide) (by decide)⟩

/-- C8, as the claim states it, fails: on the empty input `ParseYY` returns the end-of-input
error, which carries no line and column; and for the document `"ab\"` the backslash error
carries line 1, column 2, the column of the first byte after the opening quote, while the
backslash is the byte at offset 3, in column 4. -/
theorem ParseYY_error_position_counterexample :
    ParseYY noFloat [] = .error YYError.eofValue ∧
    YYError.eofValue.position = none ∧
    ParseYY noFloat ['[', '1'] = .error YYError.eofArray ∧
    YYError.eofArray.position = none ∧
    ParseYY noFloat ['"', 'a', 'b', '\\', '"'] = .error (YYError.backslashInString 1 2) ∧
    ['"', 'a', 'b', '\\', '"'].getD 3 default = '\\' ∧
    colAt ['"', 'a', 'b', '\\', '"'] 3 = 4 :=
  ⟨by rfl, by rfl, by rfl, by rfl, by rfl, by rfl, by rfl⟩

/-- C8, amended: every error `ParseYY` returns is an error of the reader that is either one of
the three end-of-input errors, which carry no position, or carries a line and column, both at
least 1, that are the line and column of a byte offset `q` of the input (at most its length):
the offending byte for an unexpected symbol, a missing quote and extra content, the first byte
of the token for a number and a literal, the end of input for an unterminated string. -/
theorem ParseYY_error_position (pf : String → Option Float64) (b : List Char) (e : YYError)
    (h : ParseYY pf b = .error e) :
    ErrorAt b e ∧
    (e.position = none ↔ (e = YYError.eofValue ∨ e = YYError.eofArray ∨ e = YYError.eofObject)) ∧
    (∀ line column, e.position = some (line, column) →
      1 ≤ line ∧ 1 ≤ column ∧ ∃ q, q ≤ b.length ∧ line = lineAt b q ∧ column = colAt b q) := by
  have hinv := ParseYY_inv pf b
  rw [h] at hinv
  refine ⟨hinv, ?_, ?_⟩
  · cases e <;> simp [YYError.position, ErrorAt] at hinv ⊢
  · intro line column hpos
    have hq : ∃ q, q ≤ b.length ∧ line = lineAt b q ∧ column = colAt b q := by
      cases e with
      | eofValue => cases hpos
      | eofArray => cases hpos
      | eofObject => cases hpos
      | eofNumber => cases hpos
      | eofBoolean => cases hpos
      | outOfFuel => cases hpos
      | expectedOpenBracket l c => exact absurd hinv id
      | expectedOpenBrace l c => exact absurd hinv id
      | unexpectedSymbolValue l c =>
        injection hpos with hpos; injection hpos with h1 h2; subst h1 h2
        obtain ⟨q, hq, hl, hc, -⟩ := hinv
        exact ⟨q, by omega, hl, hc⟩
      | expectedString l c =>
        injection hpos with hpos; injection hpos with h1 h2; subst h1 h2
        obtain ⟨q, hq, hl, hc, -⟩ := hinv
        exact ⟨q, by omega, hl, hc⟩
      | backslashInString l c =>
        injection hpos with hpos; injection hpos with h1 h2; subst h1 h2
        obtain ⟨q, hq, hl, hc⟩ := hinv
        exact ⟨q, hq, hl, hc⟩
      | expectedEndOfString l c =>
        injection hpos with hpos; injection hpos with h1 h2; subst h1 h2
        exact ⟨b.length, le_refl _, hinv.1, hinv.2⟩
      | couldNotParseNumber l c =>
        injection hpos with hpos; injection hpos with h1 h2; subst h1 h2
        obtain ⟨q, hq, hl, hc, -⟩ := hinv
        exact ⟨q, by omega, hl, hc⟩
      | unexpectedLiteral l c lit =>
        injection hpos with hpos; injection hpos with h1 h2; subst h1 h2
        obtain ⟨q, hq, hl, hc, -⟩ := hinv
        exact ⟨q, hq, hl, hc⟩
      | extraContent l c =>
        injection hpos with hpos; injection hpos with h1 h2; subst h1 h2
        obtain ⟨q, hq, hl, hc, -⟩ := hinv
        exact ⟨q, by omega, hl, hc⟩
    obtain ⟨q, hq, hl, hc⟩ := hq
    refine ⟨?_, ?_, q, hq, hl, hc⟩
    · rw [hl]; unfold lineAt; omega
    · rw [hc]; unfold colAt; omega

theorem ParseYY_error_position_witness :
    ErrorAt ['\n', ' ', 't', 'r', 'u', 'x'] (YYError.unexpectedLiteral 2 2 "true") ∧
    (∀ line column, (YYError.unexpectedLiteral 2 2 "true").position = some (line, column) →
      1 ≤ line ∧ 1 ≤ column ∧ ∃ q, q ≤ ['\n', ' ', 't', 'r', 'u', 'x'].length ∧
        line = lineAt ['\n', ' ', 't', 'r', 'u', 'x'] q ∧
        column = colAt ['\n', ' ', 't', 'r', 'u', 'x'] q) :=
  ⟨(ParseYY_error_position noFloat ['\n', ' ', 't', 'r', 'u', 'x']
      (YYError.unexpectedLiteral 2 2 "true") (by rfl)).1,
   (ParseYY_error_position noFloat ['\n', ' ', 't', 'r', 'u', 'x']
      (YYError.unexpectedLiteral 2 2 "true") (by rfl)).2.2⟩

/-- C10: on a number token made of an optional `+` or `-` and decimal digits, `ParseYY` returns
the integer with the token's decimal value when it fits a signed 64-bit integer, and the
number error otherwise; so every 64-bit integer is read back from its decimal text. On a
number token that holds `.`, `e` or `E`, the result is what `strconv.ParseFloat` makes of it: a
float or the number error, never an integer. -/
theorem ParseYY_number (pf : String → Option Float64) :
    (∀ sign digits : List Char, (sign = [] ∨ sign = ['+'] ∨ sign = ['-']) → digits ≠ [] →
      (∀ c ∈ digits, isDigit c = true) →
      ParseYY pf (sign ++ digits) =
        if sign = ['-'] then
          (if decimalOf digits ≤ 2 ^ 63 then .ok (Value.int (-(decimalOf digits : Int)))
           else .error (YYError.couldNotParseNumber 1 1))
        else
          (if decimalOf digits < 2 ^ 63 then .ok (Value.int (decimalOf digits : Int))
           else .error (YYError.couldNotParseNumber 1 1))) ∧
    (∀ n : Int, -2 ^ 63 ≤ n → n < 2 ^ 63 →
      intText n = (toString n).data ∧ ParseYY pf (intText n) = .ok (Value.int n)) ∧
    (∀ tok : List Char, tok ≠ [] → numToken tok = tok → tok.any isFloatByte = true →
      ParseYY pf tok =
        (match pf (String.mk tok) with
         | some f => .ok (Value.float f)
         | none => .error (YYError.couldNotParseNumber 1 1)) ∧
      ∀ n : Int, ParseYY pf tok ≠ .ok (Value.int n)) := by
  have part1 : ∀ sign digits : List Char, (sign = [] ∨ sign = ['+'] ∨ sign = ['-']) →
      digits ≠ [] → (∀ c ∈ digits, isDigit c = true) →
      ParseYY pf (sign ++ digits) =
        if sign = ['-'] then
          (if decimalOf digits ≤ 2 ^ 63 then .ok (Value.int (-(decimalOf digits : Int)))
           else .error (YYError.couldNotParseNumber 1 1))
        else
          (if decimalOf digits < 2 ^ 63 then .ok (Value.int (decimalOf digits : Int))
           else .error (YYError.couldNotParseNumber 1 1)) := by
    intro sign digits hsign hne hd
    obtain ⟨h1, h2, h3⟩ := signedDigits_token sign digits hsign hne hd
    rw [ParseYY_token pf _ h1 h2]
    unfold numberValue
    rw [h3]
    simp only [Bool.false_eq_true, if_false]
    rcases hsign with rfl | rfl | rfl
    · have hs : ¬ (([] : List Char) = ['-']) := by simp
      rw [List.nil_append, strconvParseInt_plain digits hne hd]
      simp only [if_neg hs]
      by_cases hlt : decimalOf digits < 2 ^ 63
      · simp only [if_pos hlt]; rfl
      · simp only [if_neg hlt]; rfl
    · have hs : ¬ (['+'] = ['-']) := by decide
      rw [show ['+'] ++ digits = '+' :: digits from rfl, strconvParseInt_plus digits hne hd]
      simp only [if_neg hs]
      by_cases hlt : decimalOf digits < 2 ^ 63
      · simp only [if_pos hlt]; rfl
      · simp only [if_neg hlt]; rfl
    · have hs : (['-'] : List Char) = ['-'] := rfl
      rw [show ['-'] ++ digits = '-' :: digits from rfl, strconvParseInt_minus digits hne hd]
      simp only [if_pos hs]
      by_cases hlt : decimalOf digits ≤ 2 ^ 63
      · simp only [if_pos hlt]; rfl
      · simp only [if_neg hlt]; rfl
  refine ⟨part1, ?_, ?_⟩
  · intro n hlo hhi
    refine ⟨intText_eq_toString n, ?_⟩
    cases n with
    | ofNat m =>
      obtain ⟨h1, h2, h3⟩ := toDigits_decimal m
      have := part1 [] (Nat.toDigits 10 m) (Or.inl rfl) h3 h1
      have hs : ¬ (([] : List Char) = ['-']) := by simp
      have hm : m < 2 ^ 63 := by
        have h : ((m : Nat) : Int) < 2 ^ 63 := hhi
        exact_mod_cast h
      simp only [List.nil_append, if_neg hs, h2, if_pos hm] at this
      exact this
    | negSucc m =>
      obtain ⟨h1, h2, h3⟩ := toDigits_decimal (m + 1)
      have := part1 ['-'] (Nat.toDigits 10 (m + 1)) (Or.inr (Or.inr rfl)) h3 h1
      have hs : (['-'] : List Char) = ['-'] := rfl
      have hm : m + 1 ≤ 2 ^ 63 := by
        have h : -(2 : Int) ^ 63 ≤ Int.negSucc m := hlo
        rw [Int.negSucc_eq] at h
        have h' : ((m : Int) + 1) ≤ 2 ^ 63 := by linarith
        exact_mod_cast h'
      simp only [if_pos hs, h2, if_pos hm] at this
      rw [show intText (Int.negSucc m) = ['-'] ++ Nat.toDigits 10 (m + 1) from rfl, this]
      rfl
  · intro tok hne htok hfloat
    have key : ParseYY pf tok =
        (match pf (String.mk tok) with
         | some f => .ok (Value.float f)
         | none => .error (YYError.couldNotParseNumber 1 1)) := by
      rw [ParseYY_token pf tok hne htok]
      unfold numberValue
      rw [hfloat]
      simp only [if_true]
      cases pf (String.mk tok) <;> rfl
    refine ⟨key, ?_⟩
    intro n hn
    rw [key] at hn
    cases hpf : pf (String.mk tok) with
    | none => rw [hpf] at hn; cases hn
    | some f =>
      rw [hpf] at hn
      injection hn with hn
      cases hn

/-- C9, as the claim states it, fails: `ParseYY` accepts two array values and two object
entries that stand next to each other without a comma, and a comma before the first element. -/
theorem ParseYY_separator_counterexample :
    ParseYY noFloat ['[', '1', ' ', '2', ']'] = .ok (Value.list [Value.int 1, Value.int 2]) ∧
    ParseYY noFloat ['{', '"', 'a', '"', ':', '1', ' ', '"', 'b', '"', ':', '2', '}'] =
      .ok (Value.map [("a", Value.int 1), ("b", Value.int 2)]) ∧
    ParseYY noFloat ['[', ',', '1', ']'] = .ok (Value.list [Value.int 1]) :=
  ⟨by rfl, by rfl, by rfl⟩

/-- C9, amended: in an array and in an object, each value or entry and the closing bracket may
be preceded by whitespace and at most one comma, and the comma is optional: the text of every
valid document, whatever commas its separators hold, is accepted with the value of the
document. What the loops reject is a second comma after a comma: the loop of `parseArray`
fails with the unexpected-symbol error, and the loop of `parseObject` with the missing-quote
error, at the second comma. -/
theorem ParseYY_separator (pf : String → Option Float64) :
    (∀ (d : Doc) (ws0 ws1 : List Char), d.Valid pf → (∀ x ∈ ws0, isWhitespace x = true) →
      (∀ x ∈ ws1, isWhitespace x = true) →
      ParseYY pf (ws0 ++ d.render ++ ws1) = .ok (d.value pf)) ∧
    (∀ (b : List Char) (p : Nat) (ws ws2 rest : List Char) (fuel n : Nat) (acc : List Value),
      b.drop p = ws ++ ',' :: (ws2 ++ ',' :: rest) → (∀ x ∈ ws, isWhitespace x = true) →
      (∀ x ∈ ws2, isWhitespace x = true) →
      parseArrayLoop b (parseValue pf b (fuel + 1)) (n + 1) (readerAt b p) acc =
        .error (YYError.unexpectedSymbolValue (lineAt b (p + ws.length + 1 + ws2.length))
          (colAt b (p + ws.length + 1 + ws2.length)))) ∧
    (∀ (b : List Char) (p : Nat) (ws ws2 rest : List Char) (fuel n : Nat)
      (acc : List (String × Value)),
      b.drop p = ws ++ ',' :: (ws2 ++ ',' :: rest) → (∀ x ∈ ws, isWhitespace x = true) →
      (∀ x ∈ ws2, isWhitespace x = true) →
      parseObjectLoop b (parseValue pf b (fuel + 1)) (n + 1) (readerAt b p) acc =
        .error (YYError.expectedString (lineAt b (p + ws.length + 1 + ws2.length))
          (colAt b (p + ws.length + 1 + ws2.length)))) ∧
    ParseYY pf ['[', '1', ',', ',', '2', ']'] = .error (YYError.unexpectedSymbolValue 1 4) ∧
    ParseYY pf ['{', ',', ',', '}'] = .error (YYError.expectedString 1 3) := by
  have hsep : ∀ (b : List Char) (eof : YYError) (p : Nat) (ws ws2 rest : List Char),
      b.drop p = ws ++ ',' :: (ws2 ++ ',' :: rest) → (∀ x ∈ ws, isWhitespace x = true) →
      (∀ x ∈ ws2, isWhitespace x = true) →
      skipComma b eof (readerAt b p) = .ok (readerAt b (p + ws.length + 1 + ws2.length)) ∧
        b.drop (p + ws.length + 1 + ws2.length) = ',' :: rest := by
    intro b eof p ws ws2 rest hb hws hws2
    have hvalid : (Sep.mk ws (some ws2)).Valid :=
      ⟨hws, fun w hw => by injection hw with hw; subst hw; exact hws2⟩
    have hb' : b.drop p = (Sep.mk ws (some ws2)).render ++ ',' :: rest := by
      rw [hb]; simp [Sep.render]
    have := skipComma_sep b eof p ⟨ws, some ws2⟩ ',' rest hb' hvalid (by decide)
      (fun h => by cases h)
    have hlen : (Sep.mk ws (some ws2)).render.length = ws.length + 1 + ws2.length := by
      simp [Sep.render]; omega
    rw [hlen, ← Nat.add_assoc, ← Nat.add_assoc] at this
    exact this
  refine ⟨?_, ?_, ?_, by rfl, by rfl⟩
  · intro d ws0 ws1 hd h0 h1
    exact ParseYY_document pf ws0 ws1 d h0 h1 hd
  · intro b p ws ws2 rest fuel n acc hb hws hws2
    obtain ⟨h1, h2⟩ := hsep b YYError.eofArray p ws ws2 rest hb hws hws2
    obtain ⟨hlt, hget, -⟩ := getD_eq_of_drop h2
    rw [parseArrayLoop, h1]
    simp only []
    rw [show (readerAt b (p + ws.length + 1 + ws2.length)).p = p + ws.length + 1 + ws2.length
      from rfl, hget, if_neg (by decide), parseValue_succ,
      show (readerAt b (p + ws.length + 1 + ws2.length)).p = p + ws.length + 1 + ws2.length
      from rfl, if_neg (by omega), hget, if_neg (by decide), if_neg (by decide),
      if_neg (by decide), if_neg (by decide), if_neg (by decide), if_neg (by decide)]
    rfl
  · intro b p ws ws2 rest fuel n acc hb hws hws2
    obtain ⟨h1, h2⟩ := hsep b YYError.eofObject p ws ws2 rest hb hws hws2
    obtain ⟨hlt, hget, -⟩ := getD_eq_of_drop h2
    rw [parseObjectLoop, h1]
    simp only []
    rw [show (readerAt b (p + ws.length + 1 + ws2.length)).p = p + ws.length + 1 + ws2.length
      from rfl, hget, if_neg (by decide),
      parseString_not_quote b _ (by
        rintro ⟨s1, hs1⟩
        rw [h2] at hs1
        injection hs1 with h _
        exact absurd h (by decide))]

/-- C4: a valid document and the document with a single trailing comma added before the
closing bracket of one of its arrays or objects (its text is the same text with one comma
inserted there) are both accepted by `ParseYY`, with exactly the same value: the comma makes no
element or entry. Every input that `ParseYY` accepts is the text of a valid document between
whitespace, so this covers every accepted document. -/
theorem ParseYY_trailing_comma (pf : String → Option Float64) (d d2 : Doc)
    (ws0 ws1 : List Char) (hd : d.Valid pf) (hadd : d.AddComma d2)
    (h0 : ∀ x ∈ ws0, isWhitespace x = true) (h1 : ∀ x ∈ ws1, isWhitespace x = true) :
    ParseYY pf (ws0 ++ d2.render ++ ws1) = ParseYY pf (ws0 ++ d.render ++ ws1) ∧
    ParseYY pf (ws0 ++ d.render ++ ws1) = .ok (d.value pf) ∧
    d2.value pf = d.value pf ∧
    (∃ pre post, d.render = pre ++ post ∧ d2.render = pre ++ ',' :: post) ∧
    (∀ b v, ParseYY pf b = .ok v →
      ∃ (w0 : List Char) (e : Doc) (w1 : List Char), (∀ x ∈ w0, isWhitespace x = true) ∧
        (∀ x ∈ w1, isWhitespace x = true) ∧ e.Valid pf ∧ b = w0 ++ e.render ++ w1 ∧
        v = e.value pf) := by
  have hd2 := Doc.doc_addComma_valid pf d d2 hadd hd
  have hv := Doc.addComma_value pf d d2 hadd
  have e1 := ParseYY_document pf ws0 ws1 d h0 h1 hd
  have e2 := ParseYY_document pf ws0 ws1 d2 h0 h1 hd2
  refine ⟨by rw [e1, e2, hv], e1, hv, Doc.doc_addComma_render d d2 hadd, ?_⟩
  intro b v hb
  have hinv := ParseYY_inv pf b
  rw [hb] at hinv
  exact hinv

theorem ParseYY_trailing_comma_witness :
    ParseYY noFloat ['[', '1', ',', ']'] = ParseYY noFloat ['[', '1', ']'] ∧
    ParseYY noFloat ['[', '1', ']'] = .ok (Value.list [Value.int 1]) :=
  ⟨(ParseYY_trailing_comma noFloat docOne docOneComma [] [] (docOne_valid noFloat)
      (Or.inl ⟨rfl, rfl, [], [], rfl, rfl⟩) (by simp) (by simp)).1,
   (ParseYY_trailing_comma noFloat docOne docOneComma [] [] (docOne_valid noFloat)
      (Or.inl ⟨rfl, rfl, [], [], rfl, rfl⟩) (by simp) (by simp)).2.1⟩

/-- C6, as the claim states it, fails for the `serialize` modelled from the spec: a string with
a backslash or a quote is written with an escape, which `ParseYY` rejects; and a float that is
written with a negative exponent is cut at the sign, although `strconv.ParseFloat` would read
the whole text back. -/
theorem ParseYY_roundTrip_counterexample :
    serialize formatDemo (Value.str "a\\b") = ['"', 'a', '\\', '\\', 'b', '"'] ∧
    ParseYY parseFloatDemo (serialize formatDemo (Value.str "a\\b")) =
      .error (YYError.backslashInString 1 2) ∧
    serialize formatDemo (Value.str "\"") = ['"', '\\', '"', '"'] ∧
    ParseYY parseFloatDemo (serialize formatDemo (Value.str "\"")) =
      .error (YYError.backslashInString 1 2) ∧
    parseFloatDemo (String.mk (serialize formatDemo (Value.float floatSmall))) =
      some floatSmall ∧
    ParseYY parseFloatDemo (serialize formatDemo (Value.float floatSmall)) =
      .error (YYError.couldNotParseNumber 1 1) :=
  ⟨by rfl, by rfl, by rfl, by rfl, by rfl, by rfl⟩

/-- C6, amended: round trip. For every value built from null, booleans, 64-bit integers,
floats, strings, lists and mappings with distinct keys, in which no string and no key holds a
quote, a backslash or a control byte, and every float is written as a number token that holds
`.`, `e` or `E` and that `strconv.ParseFloat` reads back as that float, `ParseYY` applied to
`serialize` of the value returns the value. A string that holds a quote, a backslash or a
control byte is not read back: `ParseYY` fails on its text. -/
theorem ParseYY_roundTrip (pf : String → Option Float64) (ff : Float64 → List Char)
    (v : Value) (hv : v.Good pf ff) :
    ParseYY pf (serialize ff v) = .ok v ∧
    (∀ s : String, (∃ c ∈ s.data, isStringByte c = false ∨ c.toNat < 32) →
      ∀ w, ParseYY pf (serialize ff (Value.str s)) ≠ .ok w) := by
  constructor
  · have h := ParseYY_document pf [] [] (docOf ff v) nil_whitespace nil_whitespace
      (docOf_valid pf ff v hv)
    rw [List.nil_append, List.append_nil, docOf_render pf ff v hv,
      docOf_value pf ff v hv] at h
    exact h
  · intro s hs w hw
    obtain ⟨c, hc, hbad⟩ := hs
    apply ParseYY_ok_no_backslash pf _ w hw
    show '\\' ∈ '"' :: s.data.flatMap escapeByte ++ ['"']
    have h1 : '\\' ∈ s.data.flatMap escapeByte :=
      List.mem_flatMap.mpr ⟨c, hc, escapeByte_backslash c hbad⟩
    simp only [List.cons_append, List.mem_cons, List.mem_append]
    exact Or.inr (Or.inl h1)

theorem ParseYY_roundTrip_witness :
    serialize formatDemo valueDemo =
      "\x7b\"a\":[1,-2,null,true],\"b\":\"x y\",\"c\":1.5,\"d\":\x7b\x7d\x7d".data ∧
    ParseYY parseFloatDemo (serialize formatDemo valueDemo) = .ok valueDemo :=
  ⟨by rfl, (ParseYY_roundTrip parseFloatDemo formatDemo valueDemo (by
    simp only [valueDemo, Value.Good, Value.GoodList, Value.GoodEntries]
    decide)).1⟩

/-! ## The reads of the reader stay inside the buffer -/

theorem readByte_lt (b : List Char) (p : Nat) (hp : p < b.length) :
    Checked.readByte b p = some (b.getD p default) := by
  unfold Checked.readByte
  rw [List.getD_eq_getElem _ _ hp, List.getElem?_eq_getElem hp]

theorem slice_le (b : List Char) (lo n : Nat) (h : lo + n ≤ b.length) :
    Checked.slice b lo (lo + n) = some ((b.drop lo).take n) := by
  unfold Checked.slice
  rw [if_pos ⟨by omega, h⟩, Nat.add_sub_cancel_left]

theorem advance_agree (b : List Char) : ∀ (n : Nat) (r : Reader),
    Checked.advance b n r = some (advance b n r) := by
  intro n
  induction n with
  | zero => intro r; rfl
  | succ n ih =>
    intro r
    unfold Checked.advance advance
    by_cases h : r.p ≥ b.length
    · rw [if_pos h, if_pos h]
    · rw [if_neg h, if_neg h, readByte_lt b r.p (by omega)]
      exact ih _

theorem skipWhitespaceLoop_agree (b : List Char) : ∀ (fuel : Nat) (r : Reader),
    Checked.skipWhitespaceLoop b fuel r = some (skipWhitespaceLoop b fuel r) := by
  intro fuel
  induction fuel with
  | zero => intro r; rfl
  | succ fuel ih =>
    intro r
    unfold Checked.skipWhitespaceLoop skipWhitespaceLoop
    by_cases h : r.p < b.length
    · rw [if_pos h, if_pos h, readByte_lt b r.p h]
      simp only
      by_cases hw : isWhitespace (b.getD r.p default) = true
      · rw [if_pos hw, if_pos hw]
        exact ih _
      · rw [if_neg hw, if_neg hw]
    · rw [if_neg h, if_neg h]

theorem skipWhitespace_agree (b : List Char) (r : Reader) :
    Checked.skipWhitespace b r = some (skipWhitespace b r) :=
  skipWhitespaceLoop_agree b _ r

theorem step_p (r : Reader) (c : Char) : (r.step c).p = r.p + 1 := by
  unfold Reader.step
  split <;> rfl

theorem advance_p (b : List Char) : ∀ (n : Nat) (r : Reader), r.p + n ≤ b.length →
    (advance b n r).p = r.p + n := by
  intro n
  induction n with
  | zero => intro r _; rfl
  | succ n ih =>
    intro r h
    unfold advance
    rw [if_neg (by omega), ih _ (by rw [step_p]; omega), step_p]
    omega

theorem skipWhitespaceLoop_p (b : List Char) : ∀ (fuel : Nat) (r : Reader),
    r.p ≤ (skipWhitespaceLoop b fuel r).p ∧
      (r.p ≤ b.length → (skipWhitespaceLoop b fuel r).p ≤ b.length) := by
  intro fuel
  induction fuel with
  | zero => intro r; exact ⟨le_refl _, fun h => h⟩
  | succ fuel ih =>
    intro r
    unfold skipWhitespaceLoop
    by_cases h : r.p < b.length
    · rw [if_pos h]
      by_cases hw : isWhitespace (b.getD r.p default) = true
      · rw [if_pos hw]
        have := ih (r.step (b.getD r.p default))
        rw [step_p] at this
        exact ⟨by omega, fun _ => this.2 (by omega)⟩
      · rw [if_neg hw]
        exact ⟨le_refl _, fun h => h⟩
    · rw [if_neg h]
      exact ⟨le_refl _, fun h => h⟩

theorem parseLiteral_agree (b : List Char) (lit : List Char) (r : Reader) (hlit : lit ≠ []) :
    Checked.parseLiteral b lit r = some (parseLiteral b lit r) := by
  have hpos : 0 < lit.length := List.length_pos.mpr hlit
  unfold Checked.parseLiteral parseLiteral
  by_cases h : lit.length > b.length - r.p
  · have h1 : (lit.length : Int) > (b.length : Int) - (r.p : Int) := by omega
    rw [if_pos h1, if_pos (Or.inl h)]
  · have h1 : ¬ (lit.length : Int) > (b.length : Int) - (r.p : Int) := by omega
    rw [if_neg h1, slice_le b r.p lit.length (by omega)]
    simp only
    by_cases h2 : lit ≠ (b.drop r.p).take lit.length
    · rw [if_pos h2, if_pos (Or.inr h2)]
    · rw [if_neg h2, if_neg (by rintro (h3 | h3); exact h h3; exact h2 h3), advance_agree]

theorem parseLiteral_p (b : List Char) (lit : List Char) (r r1 : Reader)
    (h : parseLiteral b lit r = .ok r1) :
    r1.p = r.p + lit.length ∧ r1.p ≤ b.length ∨ lit = [] := by
  unfold parseLiteral at h
  split at h
  · cases h
  · rename_i hc
    push_neg at hc
    injection h with h
    by_cases hl : lit = []
    · exact Or.inr hl
    · left
      have hpos : 0 < lit.length := List.length_pos.mpr hl
      have := advance_p b lit.length r (by omega)
      rw [← h, this]
      exact ⟨rfl, by omega⟩

theorem scanString_p (b : List Char) (r : Reader) : ∀ (fuel k n : Nat),
    scanString b r fuel k = .ok n → r.p + k ≤ b.length → r.p + n ≤ b.length := by
  intro fuel
  induction fuel with
  | zero =>
    intro k n h hk
    injection h with h
    omega
  | succ fuel ih =>
    intro k n h hk
    unfold scanString at h
    by_cases hlt : r.p + k < b.length
    · rw [if_pos hlt] at h
      split at h
      · injection h with h; omega
      · split at h
        · cases h
        · exact ih (k + 1) n h (by omega)
    · rw [if_neg hlt] at h
      injection h with h
      omega

theorem scanString_agree (b : List Char) (r : Reader) : ∀ (fuel k : Nat),
    Checked.scanString b r fuel k = some (scanString b r fuel k) := by
  intro fuel
  induction fuel with
  | zero => intro k; rfl
  | succ fuel ih =>
    intro k
    unfold Checked.scanString scanString
    by_cases hlt : r.p + k < b.length
    · rw [if_pos hlt, if_pos hlt, readByte_lt b _ hlt]
      simp only
      split
      · rfl
      · split
        · rfl
        · exact ih _
    · rw [if_neg hlt, if_neg hlt]

theorem parseString_agree (b : List Char) (r : Reader) :
    Checked.parseString b r = some (parseString b r) := by
  unfold Checked.parseString parseString
  rw [parseLiteral_agree b _ r (by simp)]
  cases h1 : parseLiteral b ['"'] r with
  | error e => rfl
  | ok r1 =>
    simp only
    have hr1 : r1.p ≤ b.length := by
      rcases parseLiteral_p b _ r r1 h1 with h | h
      · exact h.2
      · cases h
    rw [scanString_agree]
    cases h2 : scanString b r1 (b.length - r1.p) 0 with
    | error e => rfl
    | ok numBytes =>
      simp only
      have hn := scanString_p b r1 _ 0 numBytes h2 (by omega)
      rw [slice_le b r1.p numBytes hn, advance_agree]
      simp only
      rw [parseLiteral_agree b _ _ (by simp)]
      cases parseLiteral b ['"'] (advance b numBytes r1) <;> rfl

theorem scanNumber_p (b : List Char) (r : Reader) : ∀ (fuel : Nat) (isFloat : Bool) (k : Nat),
    r.p + k ≤ b.length → r.p + (scanNumber b r fuel isFloat k).2 ≤ b.length := by
  intro fuel
  induction fuel with
  | zero => intro isFloat k hk; exact hk
  | succ fuel ih =>
    intro isFloat k hk
    unfold scanNumber
    by_cases hlt : r.p + k < b.length
    · rw [if_pos hlt]
      simp only
      split
      · exact ih _ _ (by omega)
      · split
        · exact ih _ _ (by omega)
        · split
          · exact ih _ _ (by omega)
          · exact hk
    · rw [if_neg hlt]
      exact hk

theorem scanNumber_agree (b : List Char) (r : Reader) :
    ∀ (fuel : Nat) (isFloat : Bool) (k : Nat),
      Checked.scanNumber b r fuel isFloat k = some (scanNumber b r fuel isFloat k) := by
  intro fuel
  induction fuel with
  | zero => intro isFloat k; rfl
  | succ fuel ih =>
    intro isFloat k
    unfold Checked.scanNumber scanNumber
    by_cases hlt : r.p + k < b.length
    · rw [if_pos hlt, if_pos hlt, readByte_lt b _ hlt]
      simp only
      split
      · exact ih _ _
      · split
        · exact ih _ _
        · split
          · exact ih _ _
          · rfl
    · rw [if_neg hlt, if_neg hlt]

theorem parseNumber_agree (pf : String → Option Float64) (b : List Char) (r : Reader) :
    Checked.parseNumber pf b r = some (parseNumber pf b r) := by
  unfold Checked.parseNumber parseNumber
  by_cases h : r.p ≥ b.length
  · rw [if_pos h, if_pos h]
  · rw [if_neg h, if_neg h, scanNumber_agree]
    simp only
    rw [slice_le b r.p _ (scanNumber_p b r _ false 0 (by omega))]
    simp only
    cases hv : (if (scanNumber b r (b.length - r.p) false 0).1 = true then
        (pf (String.mk ((b.drop r.p).take (scanNumber b r (b.length - r.p) false 0).2))).map
          Value.float
      else (strconvParseInt
        (String.mk ((b.drop r.p).take (scanNumber b r (b.length - r.p) false 0).2))).map
          Value.int) with
    | none => rfl
    | some v =>
      simp only
      rw [advance_agree]

theorem parseBoolean_agree (b : List Char) (r : Reader) :
    Checked.parseBoolean b r = some (parseBoolean b r) := by
  unfold Checked.parseBoolean parseBoolean
  by_cases h : r.p ≥ b.length
  · rw [if_pos h, if_pos h]
  · rw [if_neg h, if_neg h, readByte_lt b r.p (by omega)]
    simp only
    by_cases ht : b.getD r.p default = 't'
    · rw [if_pos ht, if_pos ht, parseLiteral_agree b _ r (by decide)]
      cases parseLiteral b trueLiteral r <;> rfl
    · rw [if_neg ht, if_neg ht, parseLiteral_agree b _ r (by decide)]
      cases parseLiteral b falseLiteral r <;> rfl

theorem parseNull_agree (b : List Char) (r : Reader) :
    Checked.parseNull b r = some (parseNull b r) := by
  unfold Checked.parseNull parseNull
  rw [parseLiteral_agree b _ r (by decide)]
  cases parseLiteral b nullLiteral r <;> rfl

theorem skipComma_agree (b : List Char) (eof : YYError) (r : Reader) :
    Checked.skipComma b eof r = some (skipComma b eof r) := by
  unfold Checked.skipComma skipComma
  rw [skipWhitespace_agree]
  simp only
  by_cases h : (skipWhitespace b r).p ≥ b.length
  · rw [if_pos h, if_pos h]
  · rw [if_neg h, if_neg h, readByte_lt b _ (by omega)]
    simp only
    by_cases hc : b.getD (skipWhitespace b r).p default = ','
    · rw [if_pos hc, if_pos hc, advance_agree]
      simp only
      rw [skipWhitespace_agree]
      simp only
      split <;> rfl
    · rw [if_neg hc, if_neg hc]

theorem skipComma_p (b : List Char) (eof : YYError) (r r1 : Reader)
    (h : skipComma b eof r = .ok r1) : r1.p < b.length := by
  unfold skipComma at h
  simp only at h
  split at h
  · cases h
  · split at h
    · split at h
      · cases h
      · injection h with h
        rw [← h]
        omega
    · injection h with h
      rw [← h]
      omega

theorem parseArrayLoop_agree (b : List Char)
    (pvC : Reader → Option (Except YYError (Value × Reader)))
    (pv : Reader → Except YYError (Value × Reader)) (hpv : ∀ r, pvC r = some (pv r)) :
    ∀ (n : Nat) (r : Reader) (arr : List Value),
      Checked.parseArrayLoop b pvC n r arr = some (parseArrayLoop b pv n r arr) := by
  intro n
  induction n with
  | zero => intro r arr; rfl
  | succ n ih =>
    intro r arr
    unfold Checked.parseArrayLoop parseArrayLoop
    rw [skipComma_agree]
    cases h1 : skipComma b YYError.eofArray r with
    | error e => rfl
    | ok r1 =>
      simp only
      rw [readByte_lt b r1.p (skipComma_p b _ r r1 h1)]
      simp only
      by_cases hc : b.getD r1.p default = ']'
      · rw [if_pos hc, if_pos hc]
      · rw [if_neg hc, if_neg hc, hpv r1]
        cases pv r1 with
        | error e => rfl
        | ok res =>
          obtain ⟨v, r2⟩ := res
          exact ih r2 _

theorem parseArray_agree (b : List Char)
    (pvC : Reader → Option (Except YYError (Value × Reader)))
    (pv : Reader → Except YYError (Value × Reader)) (hpv : ∀ r, pvC r = some (pv r))
    (r : Reader) : Checked.parseArray b pvC r = some (parseArray b pv r) := by
  unfold Checked.parseArray parseArray
  rw [parseLiteral_agree b _ r (by simp)]
  cases parseLiteral b ['['] r with
  | error e => rfl
  | ok r1 =>
    simp only
    rw [parseArrayLoop_agree b pvC pv hpv]
    cases parseArrayLoop b pv (b.length - r1.p + 1) r1 [] with
    | error e => rfl
    | ok res =>
      obtain ⟨arr, r2⟩ := res
      simp only
      rw [parseLiteral_agree b _ r2 (by simp)]
      cases parseLiteral b [']'] r2 <;> rfl

theorem parseObjectLoop_agree (b : List Char)
    (pvC : Reader → Option (Except YYError (Value × Reader)))
    (pv : Reader → Except YYError (Value × Reader)) (hpv : ∀ r, pvC r = some (pv r)) :
    ∀ (n : Nat) (r : Reader) (kvs : List (String × Value)),
      Checked.parseObjectLoop b pvC n r kvs = some (parseObjectLoop b pv n r kvs) := by
  intro n
  induction n with
  | zero => intro r kvs; rfl
  | succ n ih =>
    intro r kvs
    unfold Checked.parseObjectLoop parseObjectLoop
    rw [skipComma_agree]
    cases h1 : skipComma b YYError.eofObject r with
    | error e => rfl
    | ok r1 =>
      simp only
      rw [readByte_lt b r1.p (skipComma_p b _ r r1 h1)]
      simp only
      by_cases hc : b.getD r1.p default = '}'
      · rw [if_pos hc, if_pos hc]
      · rw [if_neg hc, if_neg hc, parseString_agree]
        cases parseString b r1 with
        | error e => rfl
        | ok res =>
          obtain ⟨key, r2⟩ := res
          simp only
          rw [skipWhitespace_agree]
          simp only
          rw [parseLiteral_agree b _ _ (by simp)]
          cases parseLiteral b [':'] (skipWhitespace b r2) with
          | error e => rfl
          | ok r3 =>
            simp only
            rw [skipWhitespace_agree]
            simp only
            rw [hpv]
            cases pv (skipWhitespace b r3) with
            | error e => rfl
            | ok res2 =>
              obtain ⟨value, r4⟩ := res2
              exact ih r4 _

theorem parseObject_agree (b : List Char)
    (pvC : Reader → Option (Except YYError (Value × Reader)))
    (pv : Reader → Except YYError (Value × Reader)) (hpv : ∀ r, pvC r = some (pv r))
    (r : Reader) : Checked.parseObject b pvC r = some (parseObject b pv r) := by
  unfold Checked.parseObject parseObject
  rw [parseLiteral_agree b _ r (by simp)]
  cases parseLiteral b ['{'] r with
  | error e => rfl
  | ok r1 =>
    simp only
    rw [parseObjectLoop_agree b pvC pv hpv]
    cases parseObjectLoop b pv (b.length - r1.p + 1) r1 [] with
    | error e => rfl
    | ok res =>
      obtain ⟨kvs, r2⟩ := res
      simp only
      rw [parseLiteral_agree b _ r2 (by simp)]
      cases parseLiteral b ['}'] r2 <;> rfl

theorem checked_parseValue_succ (pf : String → Option Float64) (b : List Char) (fuel : Nat)
    (r : Reader) :
    Checked.parseValue pf b (fuel + 1) r =
      if r.p ≥ b.length then some (.error YYError.eofValue)
      else
        match Checked.readByte b r.p with
        | none => none
        | some token =>
          if token = '[' then Checked.parseArray b (Checked.parseValue pf b fuel) r
          else if token = '{' then Checked.parseObject b (Checked.parseValue pf b fuel) r
          else if token = '"' then
            match Checked.parseString b r with
            | none => none
            | some (.error e) => some (.error e)
            | some (.ok (s, r1)) => some (.ok (Value.str s, r1))
          else if isNumberStart token then Checked.parseNumber pf b r
          else if token = 't' ∨ token = 'f' then Checked.parseBoolean b r
          else if token = 'n' then Checked.parseNull b r
          else some (.error (YYError.unexpectedSymbolValue r.lineNumber r.columnNumber)) :=
  rfl

/-- The reader with checked reads never fails a read in `parseValue`: it returns what the
reader returns. -/
theorem parseValue_agree (pf : String → Option Float64) (b : List Char) :
    ∀ (fuel : Nat) (r : Reader),
      Checked.parseValue pf b fuel r = some (parseValue pf b fuel r) := by
  intro fuel
  induction fuel with
  | zero => intro r; rfl
  | succ fuel ih =>
    intro r
    rw [checked_parseValue_succ, parseValue_succ]
    by_cases h : r.p ≥ b.length
    · rw [if_pos h, if_pos h]
    · rw [if_neg h, if_neg h, readByte_lt b r.p (by omega)]
      simp only
      split
      · exact parseArray_agree b _ _ ih r
      · split
        · exact parseObject_agree b _ _ ih r
        · split
          · rw [parseString_agree]
            cases parseString b r with
            | error e => rfl
            | ok res => obtain ⟨s, r1⟩ := res; rfl
          · split
            · exact parseNumber_agree pf b r
            · split
              · exact parseBoolean_agree b r
              · split
                · exact parseNull_agree b r
                · rfl

theorem ParseYY_agree (pf : String → Option Float64) (b : List Char) :
    Checked.ParseYY pf b = some (ParseYY pf b) := by
  unfold Checked.ParseYY ParseYY
  rw [skipWhitespace_agree]
  simp only
  rw [parseValue_agree]
  cases parseValue pf b (b.length + 1) (skipWhitespace b Reader.start) with
  | error e => rfl
  | ok res =>
    obtain ⟨v, r1⟩ := res
    simp only
    rw [skipWhitespace_agree]
    simp only
    split <;> rfl

/-! ## The recursion bounds of the embedding are never reached -/

theorem parseArrayLoop_mono (b : List Char) (pv pv2 : Reader → Except YYError (Value × Reader))
    (h : ∀ r, pv r ≠ .error YYError.outOfFuel → pv2 r = pv r) :
    ∀ (n : Nat) (r : Reader) (arr : List Value),
      parseArrayLoop b pv n r arr ≠ .error YYError.outOfFuel →
      parseArrayLoop b pv2 n r arr = parseArrayLoop b pv n r arr := by
  intro n
  induction n with
  | zero => intro r arr hne; exact absurd rfl hne
  | succ n ih =>
    intro r arr hne
    unfold parseArrayLoop at hne ⊢
    cases h1 : skipComma b YYError.eofArray r with
    | error e => rfl
    | ok r1 =>
      rw [h1] at hne
      simp only at hne ⊢
      by_cases hc : b.getD r1.p default = ']'
      · simp only [if_pos hc]
      · simp only [if_neg hc] at hne ⊢
        cases h2 : pv r1 with
        | error e =>
          simp only [h2] at hne
          have he : e ≠ YYError.outOfFuel := fun hh => hne (by rw [hh])
          rw [h r1 (by rw [h2]; exact fun hh => he (by injection hh)), h2]
        | ok res =>
          obtain ⟨v, r2⟩ := res
          simp only [h2] at hne
          rw [h r1 (by rw [h2]; exact fun hh => by cases hh), h2]
          exact ih r2 _ hne

theorem parseArray_mono (b : List Char) (pv pv2 : Reader → Except YYError (Value × Reader))
    (h : ∀ r, pv r ≠ .error YYError.outOfFuel → pv2 r = pv r) (r : Reader)
    (hne : parseArray b pv r ≠ .error YYError.outOfFuel) :
    parseArray b pv2 r = parseArray b pv r := by
  unfold parseArray at hne ⊢
  cases h1 : parseLiteral b ['['] r with
  | error e => rfl
  | ok r1 =>
    rw [h1] at hne
    simp only at hne ⊢
    have hloop : parseArrayLoop b pv (b.length - r1.p + 1) r1 [] ≠ .error YYError.outOfFuel := by
      intro hh
      rw [hh] at hne
      exact hne rfl
    rw [parseArrayLoop_mono b pv pv2 h _ r1 [] hloop]

theorem parseObjectLoop_mono (b : List Char)
    (pv pv2 : Reader → Except YYError (Value × Reader))
    (h : ∀ r, pv r ≠ .error YYError.outOfFuel → pv2 r = pv r) :
    ∀ (n : Nat) (r : Reader) (kvs : List (String × Value)),
      parseObjectLoop b pv n r kvs ≠ .error YYError.outOfFuel →
      parseObjectLoop b pv2 n r kvs = parseObjectLoop b pv n r kvs := by
  intro n
  induction n with
  | zero => intro r kvs hne; exact absurd rfl hne
  | succ n ih =>
    intro r kvs hne
    unfold parseObjectLoop at hne ⊢
    cases h1 : skipComma b YYError.eofObject r with
    | error e => rfl
    | ok r1 =>
      rw [h1] at hne
      simp only at hne ⊢
      by_cases hc : b.getD r1.p default = '}'
      · simp only [if_pos hc]
      · simp only [if_neg hc] at hne ⊢
        cases h2 : parseString b r1 with
        | error e => rfl
        | ok res =>
          obtain ⟨key, r2⟩ := res
          simp only [h2] at hne ⊢
          cases h3 : parseLiteral b [':'] (skipWhitespace b r2) with
          | error e => rfl
          | ok r3 =>
            simp only [h3] at hne ⊢
            cases h4 : pv (skipWhitespace b r3) with
            | error e =>
              simp only [h4] at hne
              have he : e ≠ YYError.outOfFuel := fun hh => hne (by rw [hh])
              rw [h _ (by rw [h4]; exact fun hh => he (by injection hh)), h4]
            | ok res2 =>
              obtain ⟨value, r4⟩ := res2
              simp only [h4] at hne
              rw [h _ (by rw [h4]; exact fun hh => by cases hh), h4]
              exact ih r4 _ hne

theorem parseObject_mono (b : List Char) (pv pv2 : Reader → Except YYError (Value × Reader))
    (h : ∀ r, pv r ≠ .error YYError.outOfFuel → pv2 r = pv r) (r : Reader)
    (hne : parseObject b pv r ≠ .error YYError.outOfFuel) :
    parseObject b pv2 r = parseObject b pv r := by
  unfold parseObject at hne ⊢
  cases h1 : parseLiteral b ['{'] r with
  | error e => rfl
  | ok r1 =>
    rw [h1] at hne
    simp only at hne ⊢
    have hloop : parseObjectLoop b pv (b.length - r1.p + 1) r1 [] ≠
        .error YYError.outOfFuel := by
      intro hh
      rw [hh] at hne
      exact hne rfl
    rw [parseObjectLoop_mono b pv pv2 h _ r1 [] hloop]

/-- A result of `parseValue` that is not the recursion bound stays the same under a larger
bound. -/
theorem parseValue_mono (pf : String → Option Float64) (b : List Char) :
    ∀ (fuel : Nat) (r : Reader), parseValue pf b fuel r ≠ .error YYError.outOfFuel →
      parseValue pf b (fuel + 1) r = parseValue pf b fuel r := by
  intro fuel
  induction fuel with
  | zero => intro r hne; exact absurd rfl hne
  | succ fuel ih =>
    intro r hne
    rw [parseValue_succ] at hne
    rw [parseValue_succ pf b (fuel + 1), parseValue_succ pf b fuel]
    by_cases h : r.p ≥ b.length
    · rw [if_pos h, if_pos h]
    · rw [if_neg h] at hne ⊢
      rw [if_neg h]
      by_cases h1 : b.getD r.p default = '['
      · rw [if_pos h1] at hne ⊢
        rw [if_pos h1]
        exact parseArray_mono b _ _ ih r hne
      · rw [if_neg h1] at hne ⊢
        rw [if_neg h1]
        by_cases h2 : b.getD r.p default = '{'
        · rw [if_pos h2] at hne ⊢
          rw [if_pos h2]
          exact parseObject_mono b _ _ ih r hne
        · rw [if_neg h2, if_neg h2]

theorem parseValue_mono_add (pf : String → Option Float64) (b : List Char) (fuel : Nat)
    (r : Reader) (hne : parseValue pf b fuel r ≠ .error YYError.outOfFuel) :
    ∀ k, parseValue pf b (fuel + k) r = parseValue pf b fuel r := by
  intro k
  induction k with
  | zero => rfl
  | succ k ih =>
    rw [← Nat.add_assoc, parseValue_mono pf b (fuel + k) r (by rw [ih]; exact hne), ih]

/-- A call of `parseValue` that returns a value has read the text of a valid document, which is
at least one byte, and leaves the reader right after it. -/
theorem parseValue_progress (pf : String → Option Float64) (b : List Char) (fuel p : Nat)
    (v : Value) (r : Reader) (hp : p ≤ b.length)
    (h : parseValue pf b fuel (readerAt b p) = .ok (v, r)) :
    ∃ d : Doc, d.Valid pf ∧ d.render <+: b.drop p ∧ v = d.value pf ∧ 0 < d.render.length ∧
      p + d.render.length ≤ b.length ∧ r = readerAt b (p + d.render.length) := by
  have hne : parseValue pf b fuel (readerAt b p) ≠ .error YYError.outOfFuel := by
    rw [h]; exact fun hh => by cases hh
  have h2 := parseValue_mono_add pf b fuel (readerAt b p) hne (b.length - p + 1)
  have h3 := parseValue_inv pf b (fuel + (b.length - p + 1)) p hp (by omega)
  rw [h2, h] at h3
  obtain ⟨d, hd, hpre, -, hv, hr⟩ := h3
  obtain ⟨c, t, hct, -⟩ := render_head pf d hd
  refine ⟨d, hd, hpre, hv, by rw [hct]; simp, ?_, hr⟩
  have := List.IsPrefix.length_le hpre
  rw [List.length_drop] at this
  omega

theorem parseValue_start_ne_outOfFuel (pf : String → Option Float64) (b : List Char) :
    parseValue pf b (b.length + 1) (skipWhitespace b Reader.start) ≠
      .error YYError.outOfFuel := by
  obtain ⟨ws0, -, h1, -, h3, -⟩ := skipWhitespace_inv b 0 (Nat.zero_le _)
  rw [readerAt_zero, Nat.zero_add] at h1
  rw [Nat.zero_add] at h3
  have := parseValue_inv pf b (b.length + 1) ws0.length h3 (by omega)
  rw [h1]
  intro hh
  rw [hh] at this
  exact this

theorem parseLiteral_ok_readerAt (b : List Char) (lit : List Char) (p : Nat) (r : Reader)
    (h : parseLiteral b lit (readerAt b p) = .ok r) :
    lit <+: b.drop p ∧ r = readerAt b (p + lit.length) := by
  by_cases hpre : lit <+: b.drop p
  · rw [parseLiteral_readerAt_ok b lit p hpre] at h
    injection h with h
    exact ⟨hpre, h.symm⟩
  · rw [parseLiteral_readerAt_error b lit p hpre] at h
    cases h

theorem prefix_length_le (b : List Char) (lit : List Char) (p : Nat) (hp : p ≤ b.length)
    (h : lit <+: b.drop p) : p + lit.length ≤ b.length := by
  have := List.IsPrefix.length_le h
  rw [List.length_drop] at this
  omega

/-- An iteration of the loop of `parseArray` that reads a value leaves the reader after at
least one more byte, and the loop goes on from there. -/
theorem parseArrayLoop_iteration (pf : String → Option Float64) (b : List Char)
    (fuel n p : Nat) (arr : List Value) (r1 r2 : Reader) (v : Value) (hp : p ≤ b.length)
    (h1 : skipComma b YYError.eofArray (readerAt b p) = .ok r1)
    (hc : b.getD r1.p default ≠ ']')
    (h2 : parseValue pf b fuel r1 = .ok (v, r2)) :
    (∃ q, p < q ∧ q ≤ b.length ∧ r2 = readerAt b q) ∧
      parseArrayLoop b (parseValue pf b fuel) (n + 1) (readerAt b p) arr =
        parseArrayLoop b (parseValue pf b fuel) n r2 (arr ++ [v]) := by
  constructor
  · rcases skipComma_inv b YYError.eofArray p hp with h | ⟨sep, -, g1, -, g3, -⟩
    · rw [h] at h1; cases h1
    · rw [g1] at h1
      injection h1 with h1
      rw [← h1] at h2
      obtain ⟨d, -, -, -, hpos, hle, hr⟩ :=
        parseValue_progress pf b fuel _ v r2 (by omega) h2
      exact ⟨_, by omega, hle, hr⟩
  · rw [parseArrayLoop, h1]
    simp only [if_neg hc, h2]

/-- An iteration of the loop of `parseObject` that reads an entry leaves the reader after at
least one more byte, and the loop goes on from there. -/
theorem parseObjectLoop_iteration (pf : String → Option Float64) (b : List Char)
    (fuel n p : Nat) (kvs : List (String × Value)) (r1 r2 r3 r4 : Reader) (key : String)
    (value : Value) (hp : p ≤ b.length)
    (h1 : skipComma b YYError.eofObject (readerAt b p) = .ok r1)
    (hc : b.getD r1.p default ≠ '}')
    (h2 : parseString b r1 = .ok (key, r2))
    (h3 : parseLiteral b [':'] (skipWhitespace b r2) = .ok r3)
    (h4 : parseValue pf b fuel (skipWhitespace b r3) = .ok (value, r4)) :
    (∃ q, p < q ∧ q ≤ b.length ∧ r4 = readerAt b q) ∧
      parseObjectLoop b (parseValue pf b fuel) (n + 1) (readerAt b p) kvs =
        parseObjectLoop b (parseValue pf b fuel) n r4 (mapSet kvs key value) := by
  constructor
  · rcases skipComma_inv b YYError.eofObject p hp with h | ⟨sep, -, g1, -, g3, -⟩
    · rw [h] at h1; cases h1
    · rw [g1] at h1
      injection h1 with h1
      rw [← h1] at h2
      have hs := parseString_inv b _ g3
      rw [h2] at hs
      obtain ⟨-, hr2, hdrop⟩ := hs
      have hlen2 : p + sep.render.length + 1 + key.data.length + 1 ≤ b.length := by
        have := congrArg List.length hdrop
        simp only [List.length_drop, List.length_cons, List.length_append] at this
        omega
      obtain ⟨ws, -, w1, -, w3, -⟩ := skipWhitespace_inv b _ hlen2
      rw [hr2, w1] at h3
      obtain ⟨hpre, hr3⟩ := parseLiteral_ok_readerAt b _ _ r3 h3
      have hlen3 := prefix_length_le b _ _ w3 hpre
      obtain ⟨ws2, -, x1, -, x3, -⟩ := skipWhitespace_inv b _ hlen3
      rw [hr3, x1] at h4
      obtain ⟨d, -, -, -, hpos, hle, hr⟩ := parseValue_progress pf b fuel _ value r4 x3 h4
      exact ⟨_, by omega, hle, hr⟩
  · rw [parseObjectLoop, h1]
    simp only [if_neg hc, h2, h3, h4]

/-- C19: `ParseYY` is total. With every index and slice expression of the source made a read
that can fail, no read fails, on any input and in any state: the reader with checked reads
returns what the reader returns. The bounds on recursion and iteration that the embedding adds
are never reached on any input, empty, truncated or deeply nested, and a larger bound gives
the same result: `ParseYY` returns a value or one of the errors of the source. Every call of
`parseValue` that returns a value has consumed the text of a document, at least one byte, and
every iteration of the loops of `parseArray` and `parseObject` that goes on has moved the
reader forward by at least one byte. -/
theorem ParseYY_total (pf : String → Option Float64) (b : List Char) :
    Checked.ParseYY pf b = some (ParseYY pf b) ∧
    (∀ (fuel : Nat) (r : Reader),
      Checked.parseValue pf b fuel r = some (parseValue pf b fuel r)) ∧
    ParseYY pf b ≠ .error YYError.outOfFuel ∧
    ((∃ v, ParseYY pf b = .ok v) ∨ ∃ e, ParseYY pf b = .error e ∧ ErrorAt b e) ∧
    (∀ k, parseValue pf b (b.length + 1 + k) (skipWhitespace b Reader.start) =
      parseValue pf b (b.length + 1) (skipWhitespace b Reader.start)) ∧
    (∀ (fuel p : Nat) (v : Value) (r : Reader), p ≤ b.length →
      parseValue pf b fuel (readerAt b p) = .ok (v, r) →
      ∃ q, p < q ∧ q ≤ b.length ∧ r = readerAt b q) ∧
    (∀ (fuel n p : Nat) (arr : List Value) (r1 r2 : Reader) (v : Value), p ≤ b.length →
      skipComma b YYError.eofArray (readerAt b p) = .ok r1 → b.getD r1.p default ≠ ']' →
      parseValue pf b fuel r1 = .ok (v, r2) →
      (∃ q, p < q ∧ q ≤ b.length ∧ r2 = readerAt b q) ∧
        parseArrayLoop b (parseValue pf b fuel) (n + 1) (readerAt b p) arr =
          parseArrayLoop b (parseValue pf b fuel) n r2 (arr ++ [v])) ∧
    (∀ (fuel n p : Nat) (kvs : List (String × Value)) (r1 r2 r3 r4 : Reader) (key : String)
      (value : Value), p ≤ b.length →
      skipComma b YYError.eofObject (readerAt b p) = .ok r1 → b.getD r1.p default ≠ '}' →
      parseString b r1 = .ok (key, r2) →
      parseLiteral b [':'] (skipWhitespace b r2) = .ok r3 →
      parseValue pf b fuel (skipWhitespace b r3) = .ok (value, r4) →
      (∃ q, p < q ∧ q ≤ b.length ∧ r4 = readerAt b q) ∧
        parseObjectLoop b (parseValue pf b fuel) (n + 1) (readerAt b p) kvs =
          parseObjectLoop b (parseValue pf b fuel) n r4 (mapSet kvs key value)) := by
  have hinv := ParseYY_inv pf b
  refine ⟨ParseYY_agree pf b, parseValue_agree pf b, ?_, ?_, ?_, ?_, ?_, ?_⟩
  · intro h
    rw [h] at hinv
    exact hinv
  · cases h : ParseYY pf b with
    | ok v => exact Or.inl ⟨v, rfl⟩
    | error e =>
      rw [h] at hinv
      exact Or.inr ⟨e, rfl, hinv⟩
  · exact parseValue_mono_add pf b _ _ (parseValue_start_ne_outOfFuel pf b)
  · intro fuel p v r hp h
    obtain ⟨d, -, -, -, hpos, hle, hr⟩ := parseValue_progress pf b fuel p v r hp h
    exact ⟨_, by omega, hle, hr⟩
  · intro fuel n p arr r1 r2 v hp h1 hc h2
    exact parseArrayLoop_iteration pf b fuel n p arr r1 r2 v hp h1 hc h2
  · intro fuel n p kvs r1 r2 r3 r4 key value hp h1 hc h2 h3 h4
    exact parseObjectLoop_iteration pf b fuel n p kvs r1 r2 r3 r4 key value hp h1 hc h2 h3 h4

theorem advance_readerAt_min (b : List Char) : ∀ (n p : Nat), p ≤ b.length →
    advance b n (readerAt b p) = readerAt b (min (p + n) b.length) := by
  intro n
  induction n with
  | zero =>
    intro p hp
    rw [Nat.add_zero, Nat.min_eq_left hp]
    rfl
  | succ n ih =>
    intro p hp
    rw [advance]
    by_cases hlt : p < b.length
    · rw [if_neg (show ¬ (readerAt b p).p ≥ b.length by show ¬ p ≥ b.length; omega),
        show (readerAt b p).p = p from rfl, readerAt_step b p hlt, ih (p + 1) (by omega)]
      congr 2
      omega
    · rw [if_pos (show (readerAt b p).p ≥ b.length by show p ≥ b.length; omega)]
      congr 1
      omega

theorem parseNumber_ok_readerAt (pf : String → Option Float64) (b : List Char) (p : Nat)
    (v : Value) (r : Reader) (h : parseNumber pf b (readerAt b p) = .ok (v, r)) :
    ∃ q, p ≤ q ∧ q ≤ b.length ∧ r = readerAt b q := by
  by_cases hp : p < b.length
  · rw [parseNumber_readerAt pf b p hp] at h
    cases hv : numberValue pf (numToken (b.drop p)) with
    | none => rw [hv] at h; cases h
    | some w =>
      rw [hv] at h
      injection h with h
      injection h with h1 h2
      have := numToken_length_le (b.drop p)
      rw [List.length_drop] at this
      exact ⟨_, by omega, by omega, h2.symm⟩
  · unfold parseNumber at h
    rw [if_pos (show (readerAt b p).p ≥ b.length by show p ≥ b.length; omega)] at h
    cases h

theorem parseString_ok_readerAt (b : List Char) (p : Nat) (s : String) (r : Reader)
    (h : parseString b (readerAt b p) = .ok (s, r)) :
    ∃ q, p < q ∧ q ≤ b.length ∧ r = readerAt b q := by
  by_cases hp : p < b.length
  · have hs := parseString_inv b p hp
    rw [h] at hs
    obtain ⟨-, hr, hdrop⟩ := hs
    have := congrArg List.length hdrop
    simp only [List.length_drop, List.length_cons, List.length_append] at this
    exact ⟨_, by omega, by omega, hr⟩
  · have : ¬ ∃ s1, b.drop p = '"' :: s1 := by
      rintro ⟨s1, hs1⟩
      exact hp (getD_eq_of_drop hs1).1
    rw [parseString_not_quote b p this] at h
    cases h

theorem parseBoolean_ok_readerAt (b : List Char) (p : Nat) (v : Value) (r : Reader)
    (h : parseBoolean b (readerAt b p) = .ok (v, r)) :
    ∃ q, p < q ∧ q ≤ b.length ∧ r = readerAt b q := by
  unfold parseBoolean at h
  split at h
  · cases h
  · split at h
    · cases h1 : parseLiteral b trueLiteral (readerAt b p) with
      | error e => rw [h1] at h; cases h
      | ok r1 =>
        rw [h1] at h
        injection h with h
        injection h with _ h2
        obtain ⟨hpre, hr⟩ := parseLiteral_ok_readerAt b _ p r1 h1
        have hle := prefix_length_le b _ p (by
          have := List.IsPrefix.length_le hpre
          by_contra hcon
          rw [List.drop_of_length_le (by omega)] at this
          simp [trueLiteral] at this) hpre
        exact ⟨_, by simp [trueLiteral], hle, by rw [← h2, hr]⟩
    · cases h1 : parseLiteral b falseLiteral (readerAt b p) with
      | error e => rw [h1] at h; cases h
      | ok r1 =>
        rw [h1] at h
        injection h with h
        injection h with _ h2
        obtain ⟨hpre, hr⟩ := parseLiteral_ok_readerAt b _ p r1 h1
        have hle := prefix_length_le b _ p (by
          have := List.IsPrefix.length_le hpre
          by_contra hcon
          rw [List.drop_of_length_le (by omega)] at this
          simp [falseLiteral] at this) hpre
        exact ⟨_, by simp [falseLiteral], hle, by rw [← h2, hr]⟩

theorem parseNull_ok_readerAt (b : List Char) (p : Nat) (v : Value) (r : Reader)
    (h : parseNull b (readerAt b p) = .ok (v, r)) :
    ∃ q, p < q ∧ q ≤ b.length ∧ r = readerAt b q := by
  unfold parseNull at h
  cases h1 : parseLiteral b nullLiteral (readerAt b p) with
  | error e => rw [h1] at h; cases h
  | ok r1 =>
    rw [h1] at h
    injection h with h
    injection h with _ h2
    obtain ⟨hpre, hr⟩ := parseLiteral_ok_readerAt b _ p r1 h1
    have hle := prefix_length_le b _ p (by
      have := List.IsPrefix.length_le hpre
      by_contra hcon
      rw [List.drop_of_length_le (by omega)] at this
      simp [nullLiteral] at this) hpre
    exact ⟨_, by simp [nullLiteral], hle, by rw [← h2, hr]⟩

theorem parseArray_ok_readerAt (pf : String → Option Float64) (b : List Char) (fuel p : Nat)
    (v : Value) (r : Reader) (hp : p ≤ b.length)
    (h : parseArray b (parseValue pf b fuel) (readerAt b p) = .ok (v, r)) :
    ∃ q, p < q ∧ q ≤ b.length ∧ r = readerAt b q := by
  have hv : parseValue pf b (fuel + 1) (readerAt b p) = .ok (v, r) := by
    have hlit : ['['] <+: b.drop p := by
      by_contra hcon
      unfold parseArray at h
      rw [parseLiteral_readerAt_error b _ p hcon] at h
      cases h
    obtain ⟨s1, hs1⟩ := (prefix_singleton_iff _ _).1 hlit
    obtain ⟨hlt, hget, -⟩ := getD_eq_of_drop hs1
    rw [parseValue_succ, if_neg (show ¬ (readerAt b p).p ≥ b.length by
      show ¬ p ≥ b.length; omega), show (readerAt b p).p = p from rfl, hget, if_pos rfl]
    exact h
  obtain ⟨d, -, -, -, hpos, hle, hr⟩ := parseValue_progress pf b (fuel + 1) p v r hp hv
  exact ⟨_, by omega, hle, hr⟩

theorem parseObject_ok_readerAt (pf : String → Option Float64) (b : List Char) (fuel p : Nat)
    (v : Value) (r : Reader) (hp : p ≤ b.length)
    (h : parseObject b (parseValue pf b fuel) (readerAt b p) = .ok (v, r)) :
    ∃ q, p < q ∧ q ≤ b.length ∧ r = readerAt b q := by
  have hv : parseValue pf b (fuel + 1) (readerAt b p) = .ok (v, r) := by
    have hlit : ['{'] <+: b.drop p := by
      by_contra hcon
      unfold parseObject at h
      rw [parseLiteral_readerAt_error b _ p hcon] at h
      cases h
    obtain ⟨s1, hs1⟩ := (prefix_singleton_iff _ _).1 hlit
    obtain ⟨hlt, hget, -⟩ := getD_eq_of_drop hs1
    rw [parseValue_succ, if_neg (show ¬ (readerAt b p).p ≥ b.length by
      show ¬ p ≥ b.length; omega), show (readerAt b p).p = p from rfl, hget,
      if_neg (by decide), if_pos rfl]
    exact h
  obtain ⟨d, -, -, -, hpos, hle, hr⟩ := parseValue_progress pf b (fuel + 1) p v r hp hv
  exact ⟨_, by omega, hle, hr⟩

/-- C20: the position invariant of the reader. The reader at offset `p` of the buffer `b` with
`lineNumber` one more than the line feeds in `b[0..p)` and `columnNumber` one more than the
bytes since the last of them (or since the start) is `readerAt b p`. `ParseYY` starts in
`readerAt b 0`, and every step takes a state `readerAt b p` with `p ≤ l` to a state
`readerAt b q` with `p ≤ q ≤ l`: one consumed byte, `advance` (which stops at the end of
input), `skipWhitespace`, a successful `parseLiteral`, and a successful `parseString`,
`parseNumber`, `parseBoolean`, `parseNull`, `parseArray`, `parseObject` or `parseValue`. -/
theorem Reader_position (pf : String → Option Float64) (b : List Char) :
    (∀ p, (readerAt b p).p = p ∧
      (readerAt b p).lineNumber = 1 + (b.take p).count '\n' ∧
      (readerAt b p).columnNumber =
        1 + ((b.take p).reverse.takeWhile (fun c => c ≠ '\n')).length) ∧
    Reader.start = readerAt b 0 ∧
    (∀ p, p < b.length → (readerAt b p).step (b.getD p default) = readerAt b (p + 1)) ∧
    (∀ n p, p ≤ b.length → advance b n (readerAt b p) = readerAt b (min (p + n) b.length)) ∧
    (∀ p, p ≤ b.length →
      ∃ q, p ≤ q ∧ q ≤ b.length ∧ skipWhitespace b (readerAt b p) = readerAt b q) ∧
    (∀ lit p r, p ≤ b.length → parseLiteral b lit (readerAt b p) = .ok r →
      p + lit.length ≤ b.length ∧ r = readerAt b (p + lit.length)) ∧
    (∀ p s r, parseString b (readerAt b p) = .ok (s, r) →
      ∃ q, p < q ∧ q ≤ b.length ∧ r = readerAt b q) ∧
    (∀ p v r, parseNumber pf b (readerAt b p) = .ok (v, r) →
      ∃ q, p ≤ q ∧ q ≤ b.length ∧ r = readerAt b q) ∧
    (∀ p v r, parseBoolean b (readerAt b p) = .ok (v, r) →
      ∃ q, p < q ∧ q ≤ b.length ∧ r = readerAt b q) ∧
    (∀ p v r, parseNull b (readerAt b p) = .ok (v, r) →
      ∃ q, p < q ∧ q ≤ b.length ∧ r = readerAt b q) ∧
    (∀ fuel p v r, p ≤ b.length →
      parseArray b (parseValue pf b fuel) (readerAt b p) = .ok (v, r) →
      ∃ q, p < q ∧ q ≤ b.length ∧ r = readerAt b q) ∧
    (∀ fuel p v r, p ≤ b.length →
      parseObject b (parseValue pf b fuel) (readerAt b p) = .ok (v, r) →
      ∃ q, p < q ∧ q ≤ b.length ∧ r = readerAt b q) ∧
    (∀ fuel p v r, p ≤ b.length → parseValue pf b fuel (readerAt b p) = .ok (v, r) →
      ∃ q, p < q ∧ q ≤ b.length ∧ r = readerAt b q) := by
  refine ⟨fun p => ⟨rfl, rfl, rfl⟩, (readerAt_zero b).symm, readerAt_step b,
    advance_readerAt_min b, ?_, ?_, parseString_ok_readerAt b, parseNumber_ok_readerAt pf b,
    parseBoolean_ok_readerAt b, parseNull_ok_readerAt b, parseArray_ok_readerAt pf b,
    parseObject_ok_readerAt pf b, ?_⟩
  · intro p hp
    obtain ⟨ws, -, h1, -, h3, -⟩ := skipWhitespace_inv b p hp
    exact ⟨_, by omega, h3, h1⟩
  · intro lit p r hp h
    obtain ⟨hpre, hr⟩ := parseLiteral_ok_readerAt b lit p r h
    exact ⟨prefix_length_le b lit p hp hpre, hr⟩
  · intro fuel p v r hp h
    obtain ⟨d, -, -, -, hpos, hle, hr⟩ := parseValue_progress pf b fuel p v r hp h
    exact ⟨_, by omega, hle, hr⟩

end YY

end GMReimport
